import Mathlib

/-! Watched-folder ingestion (`src/base/torrentfileswatcher.cpp`)

A shallow embedding of `TorrentFilesWatcher` (the facade that owns the registry of
watched folders) and of `TorrentFilesWatcher::Worker` (the object that scans the
folders and keeps the ledger of torrents that failed to load), followed by the
properties established about them.

Conventions of the embedding

* `QString` is `String`; `QHash<QString, T>` is an association list with unique
  keys (`QHash`), iterated in list order.
* `int` is `CInt`, the integers of the 32-bit range; `qreal` values are the
  rationals they denote (`NaN` and the infinities are outside the model).
* Member functions take the object as an argument and return the updated object;
  one that may throw returns the exception thrown, if any, with the object after
  the call.
* Functions of the Qt library and of headers that are not part of the sources at
  hand are fields of `Env`; every general theorem holds for all of them.
-/

set_option autoImplicit false

/-! ## Basic types -/

/-- The C++ type `int`: an integer of the 32-bit two's complement range. -/
abbrev CInt : Type := { i : Int // -2147483648 ≤ i ∧ i ≤ 2147483647 }

/-- The literal `-1`, the default of `uploadLimit` and `downloadLimit`. -/
def CInt.minusOne : CInt := ⟨-1, by decide⟩

/-- `QHash<QString, α>`: an association list, each key occurring once. -/
abbrev QHash (α : Type) : Type := List (String × α)

namespace QHash

variable {α : Type}

/-- Lookup of a key (`QHash::find`), `none` standing for `end()`. -/
def get? : QHash α → String → Option α
  | [], _ => none
  | (k, v) :: rest, key => if k = key then some v else get? rest key

/-- The member function `QHash::contains`. -/
def contains (h : QHash α) (key : String) : Bool := (get? h key).isSome

/-- The member function `QHash::value`: the stored value, or a default-constructed one. -/
def value (h : QHash α) (key : String) (dflt : α) : α := (get? h key).getD dflt

/-- The assignment `h[key] = v`: replaces the value of an existing key, else adds the key. -/
def insert : QHash α → String → α → QHash α
  | [], key, v => [(key, v)]
  | (k, x) :: rest, key, v => if k = key then (k, v) :: rest else (k, x) :: insert rest key v

/-- The member function `QHash::remove`, as the hash it leaves. -/
def remove (h : QHash α) (key : String) : QHash α := h.filter (fun e => decide (e.1 ≠ key))

/-- The keys in iteration order. -/
def keys (h : QHash α) : List String := h.map Prod.fst

end QHash

/-- `QSet<QString>`: a list without repetition. -/
abbrev QSet : Type := List String

namespace QSet

/-- The member function `QSet::insert`. -/
def insert (s : QSet) (x : String) : QSet := if x ∈ s then s else s ++ [x]

/-- The member function `QSet::remove`, as the set it leaves. -/
def remove (s : QSet) (x : String) : QSet := s.filter (fun y => decide (y ≠ x))

end QSet

/-! ## JSON values (`QJsonValue`, `QJsonObject`, `QJsonArray`) -/

/-- A `QJsonValue`. Numbers are stored as doubles, modelled by rationals. -/
inductive QJsonValue where
  | null
  | bool (b : Bool)
  | double (d : ℚ)
  | string (s : String)
  | array (a : List QJsonValue)
  | object (o : List (String × QJsonValue))
  | undefined

/-- A `QJsonArray`. -/
abbrev QJsonArray : Type := List QJsonValue

/-- A `QJsonObject`: keys with their values, each key once. -/
abbrev QJsonObject : Type := QHash QJsonValue

namespace QJsonValue

/-- The member function `QJsonValue::isUndefined`. -/
def isUndefined : QJsonValue → Bool
  | undefined => true
  | _ => false

/-- The member function `QJsonValue::isNull`. -/
def isNull : QJsonValue → Bool
  | null => true
  | _ => false

/-- The member function `QJsonValue::toString()`: the string, or an empty one for other types. -/
def toString : QJsonValue → String
  | string s => s
  | _ => ""

/-- The member function `QJsonValue::toBool(defaultValue)`. -/
def toBool (v : QJsonValue) (defaultValue : Bool) : Bool :=
  match v with
  | bool b => b
  | _ => defaultValue

/-- The member function `QJsonValue::toInt(defaultValue)`: the number when it is a whole number
of the range of `int`, else the default. -/
def toInt (v : QJsonValue) (defaultValue : CInt) : CInt :=
  match v with
  | double d =>
    if h : d.den = 1 ∧ -2147483648 ≤ d.num ∧ d.num ≤ 2147483647 then ⟨d.num, h.2⟩
    else defaultValue
  | _ => defaultValue

/-- The member function `QJsonValue::toDouble(defaultValue)`. -/
def toDouble (v : QJsonValue) (defaultValue : ℚ) : ℚ :=
  match v with
  | double d => d
  | _ => defaultValue

/-- The member function `QJsonValue::toArray()`: the array, or an empty one for other types. -/
def toArray : QJsonValue → QJsonArray
  | array a => a
  | _ => []

/-- The member function `QJsonValue::toObject()`: the object, or an empty one for other types. -/
def toObject : QJsonValue → QJsonObject
  | object o => o
  | _ => []

/-- The constructor `QJsonValue(int)`. -/
def ofInt (i : CInt) : QJsonValue := double (i.val : ℚ)

end QJsonValue

/-- The member function `QJsonObject::value`: `Undefined` for a key that is absent. -/
def QJsonObject.value (jsonObj : QJsonObject) (key : String) : QJsonValue :=
  QHash.value jsonObj key QJsonValue.undefined

/-! ## Torrent parameters -/

/-- Modelled from the spec: the enumeration `BitTorrent::TorrentOperatingMode` (its header is not
among the sources), `"operating_mode": "AutoManaged" | "Forced"`; `AutoManaged` is the
value-initialised enumerator. -/
inductive TorrentOperatingMode where
  | AutoManaged
  | Forced
  deriving DecidableEq

/-- Modelled from the spec: the enumeration `BitTorrent::TorrentContentLayout`
(base/bittorrent/torrentcontentlayout.h is not among the sources), the "content-layout choice";
the first enumerator is the value-initialised one. -/
inductive TorrentContentLayout where
  | Original
  | Subfolder
  | NoSubfolder
  deriving DecidableEq

/-- Modelled from the spec: `Utils::String::fromEnum` (base/utils/string.h is not among the
sources) for `TorrentOperatingMode`; the persisted form is the enumerator name,
`"AutoManaged" | "Forced"`. -/
def TorrentOperatingMode.fromEnum : TorrentOperatingMode → String
  | AutoManaged => "AutoManaged"
  | Forced => "Forced"

/-- Modelled from the spec: `Utils::String::toEnum` for `TorrentOperatingMode`; the enumerator
of that name, or the default given when there is none. -/
def TorrentOperatingMode.toEnum (s : String) (dflt : TorrentOperatingMode) : TorrentOperatingMode :=
  if s = "AutoManaged" then AutoManaged
  else if s = "Forced" then Forced
  else dflt

/-- Modelled from the spec: `Utils::String::fromEnum` for `TorrentContentLayout`
(`"content_layout": string (optional, enum name)`). -/
def TorrentContentLayout.fromEnum : TorrentContentLayout → String
  | Original => "Original"
  | Subfolder => "Subfolder"
  | NoSubfolder => "NoSubfolder"

/-- Modelled from the spec: `Utils::String::toEnum` for `TorrentContentLayout`. -/
def TorrentContentLayout.toEnum (s : String) (dflt : TorrentContentLayout) : TorrentContentLayout :=
  if s = "Original" then Original
  else if s = "Subfolder" then Subfolder
  else if s = "NoSubfolder" then NoSubfolder
  else dflt

/-- The class `TagSet`: a set of tags. -/
abbrev TagSet : Type := Finset String

/-- Modelled from the spec: the structure `BitTorrent::AddTorrentParams` (its header is not among
the sources), with the members the sources use: those the watcher serialises ("category, tag
set, destination path, forced/auto-managed flag, paused flag, skip-verification flag,
content-layout choice, auto-path-management flag, upload/download rate caps, seeding-time limit,
share-ratio limit") and those only the dialog sets. -/
structure AddTorrentParams where
  category : String
  tags : TagSet
  savePath : String
  sequential : Bool
  firstLastPiecePriority : Bool
  addForced : Bool
  addPaused : Option Bool
  filePriorities : List Nat
  skipChecking : Bool
  contentLayout : Option TorrentContentLayout
  useAutoTMM : Option Bool
  uploadLimit : CInt
  downloadLimit : CInt
  seedingTimeLimit : CInt
  ratioLimit : ℚ
  deriving DecidableEq

/-- Modelled from the spec: the structure `TorrentFilesWatcher::WatchedFolderOptions`
(torrentfileswatcher.h is not among the sources), `{ addOptions: AddOptions, recursive: bool }`. -/
structure WatchedFolderOptions where
  addTorrentParams : AddTorrentParams
  recursive : Bool
  deriving DecidableEq

/-- Modelled from the spec: a parsed magnet link, `BitTorrent::MagnetUri` (its header is not
among the sources): the text it was built from and whether that is a valid link
(`parseMagnetLine(text) -> Magnet | ParseError`). -/
structure MagnetUri where
  url : String
  valid : Bool
  deriving DecidableEq

/-- Modelled from the spec: a loaded torrent descriptor, `BitTorrent::TorrentInfo` (its header is
not among the sources), "an opaque blob handed to the parsing collaborator". -/
structure TorrentInfo where
  metadata : String
  deriving DecidableEq

/-! ## Library functions and constants taken as parameters -/

/-- The functions of the Qt library, and the parsers and constants of headers outside the
sources at hand, that the watcher calls. -/
structure Env where
  /-- The static function `QDir::isRelativePath`. -/
  isRelativePath : String → Bool
  /-- The static function `QDir::cleanPath`. -/
  cleanPath : String → String
  /-- The path of a directory object, `QDir(dir).path()`. -/
  dirPath : String → String
  /-- The path of a file of a directory, `QDir(dir).filePath(fileName)`. -/
  filePath : String → String → String
  /-- The path of an entry relative to a directory, `QDir(dir).relativeFilePath(fileName)`. -/
  relativeFilePath : String → String → String
  /-- The canonical form of the directory holding a file, `QFileInfo(file).canonicalPath()`,
  as a function of the directory the file is listed in. -/
  canonicalPath : String → String
  /-- The function `Utils::Fs::isNetworkFileSystem`. -/
  isNetworkFileSystem : String → Bool
  /-- The lines `QTextStream::readLine` returns, one after the other, until `atEnd()`. -/
  readLines : String → List String
  /-- The constructor `BitTorrent::MagnetUri(source)`. -/
  magnetUri : String → MagnetUri
  /-- The descriptor parser behind `BitTorrent::TorrentInfo::loadFromFile`, on the file data. -/
  loadTorrent : String → Option TorrentInfo
  /-- The constant `BitTorrent::Torrent::USE_GLOBAL_SEEDING_TIME`. -/
  USE_GLOBAL_SEEDING_TIME : CInt
  /-- The constant `BitTorrent::Torrent::USE_GLOBAL_RATIO`. -/
  USE_GLOBAL_RATIO : ℚ

/-- Modelled from the spec: a default-constructed `BitTorrent::AddTorrentParams`; the limits
have the defaults of the persisted format (`-1`, and the "use global" sentinels). -/
def AddTorrentParams.default (env : Env) : AddTorrentParams where
  category := ""
  tags := ∅
  savePath := ""
  sequential := false
  firstLastPiecePriority := false
  addForced := false
  addPaused := none
  filePriorities := []
  skipChecking := false
  contentLayout := none
  useAutoTMM := none
  uploadLimit := CInt.minusOne
  downloadLimit := CInt.minusOne
  seedingTimeLimit := env.USE_GLOBAL_SEEDING_TIME
  ratioLimit := env.USE_GLOBAL_RATIO

/-- Modelled from the spec: a default-constructed `WatchedFolderOptions`, not recursive. -/
def WatchedFolderOptions.default (env : Env) : WatchedFolderOptions where
  addTorrentParams := AddTorrentParams.default env
  recursive := false

/-! ## Constants of `torrentfileswatcher.cpp` -/

/-- The retry ceiling. -/
def MAX_FAILED_RETRIES : Int := 5

/-- The key of the torrent parameters of a watched folder. -/
def OPTION_ADDTORRENTPARAMS : String := "add_torrent_params"
/-- The key of the recursive flag of a watched folder. -/
def OPTION_RECURSIVE : String := "recursive"
/-- The key of the category. -/
def PARAM_CATEGORY : String := "category"
/-- The key of the tags. -/
def PARAM_TAGS : String := "tags"
/-- The key of the save path. -/
def PARAM_SAVEPATH : String := "save_path"
/-- The key of the operating mode. -/
def PARAM_OPERATINGMODE : String := "operating_mode"
/-- The key of the paused flag. -/
def PARAM_STOPPED : String := "stopped"
/-- The key of the skip-checking flag. -/
def PARAM_SKIPCHECKING : String := "skip_checking"
/-- The key of the content layout. -/
def PARAM_CONTENTLAYOUT : String := "content_layout"
/-- The key of the automatic torrent management flag. -/
def PARAM_AUTOTMM : String := "use_auto_tmm"
/-- The key of the upload limit. -/
def PARAM_UPLOADLIMIT : String := "upload_limit"
/-- The key of the download limit. -/
def PARAM_DOWNLOADLIMIT : String := "download_limit"
/-- The key of the seeding time limit. -/
def PARAM_SEEDINGTIMELIMIT : String := "seeding_time_limit"
/-- The key of the ratio limit. -/
def PARAM_RATIOLIMIT : String := "ratio_limit"

/-! ## Serialisation of the options of a watched folder -/

/-- The function `parseTagSet`. -/
def parseTagSet (jsonArr : QJsonArray) : TagSet :=
  jsonArr.foldl (fun tags jsonVal => insert jsonVal.toString tags) ∅

/-- The function `serializeTagSet`; the tags are listed in increasing order. -/
def serializeTagSet (tags : TagSet) : QJsonArray :=
  (tags.sort (· ≤ ·)).foldl (fun arr tag => arr ++ [QJsonValue.string tag]) []

/-- The function `getOptionalBool`. -/
def getOptionalBool (jsonObj : QJsonObject) (key : String) : Option Bool :=
  let jsonVal := jsonObj.value key
  if jsonVal.isUndefined || jsonVal.isNull then none
  else some (jsonVal.toBool false)

/-- The function `getOptionalEnum<BitTorrent::TorrentContentLayout>`. -/
def getOptionalEnum (jsonObj : QJsonObject) (key : String) : Option TorrentContentLayout :=
  let jsonVal := jsonObj.value key
  if jsonVal.isUndefined || jsonVal.isNull then none
  else some (TorrentContentLayout.toEnum jsonVal.toString TorrentContentLayout.Original)

/-- The function `getEnum<BitTorrent::TorrentOperatingMode>`. -/
def getEnum (jsonObj : QJsonObject) (key : String) : TorrentOperatingMode :=
  let jsonVal := jsonObj.value key
  TorrentOperatingMode.toEnum jsonVal.toString TorrentOperatingMode.AutoManaged

/-- The function `parseAddTorrentParams`. -/
def parseAddTorrentParams (env : Env) (jsonObj : QJsonObject) : AddTorrentParams :=
  let params := AddTorrentParams.default env
  { params with
    category := (jsonObj.value PARAM_CATEGORY).toString
    tags := parseTagSet (jsonObj.value PARAM_TAGS).toArray
    savePath := (jsonObj.value PARAM_SAVEPATH).toString
    addForced := decide (getEnum jsonObj PARAM_OPERATINGMODE = TorrentOperatingMode.Forced)
    addPaused := getOptionalBool jsonObj PARAM_STOPPED
    skipChecking := (jsonObj.value PARAM_SKIPCHECKING).toBool false
    contentLayout := getOptionalEnum jsonObj PARAM_CONTENTLAYOUT
    useAutoTMM := getOptionalBool jsonObj PARAM_AUTOTMM
    uploadLimit := (jsonObj.value PARAM_UPLOADLIMIT).toInt CInt.minusOne
    downloadLimit := (jsonObj.value PARAM_DOWNLOADLIMIT).toInt CInt.minusOne
    seedingTimeLimit := (jsonObj.value PARAM_SEEDINGTIMELIMIT).toInt env.USE_GLOBAL_SEEDING_TIME
    ratioLimit := (jsonObj.value PARAM_RATIOLIMIT).toDouble env.USE_GLOBAL_RATIO }

/-- The function `serializeAddTorrentParams`. -/
def serializeAddTorrentParams (params : AddTorrentParams) : QJsonObject :=
  let jsonObj : QJsonObject := [
    (PARAM_CATEGORY, QJsonValue.string params.category),
    (PARAM_TAGS, QJsonValue.array (serializeTagSet params.tags)),
    (PARAM_SAVEPATH, QJsonValue.string params.savePath),
    (PARAM_OPERATINGMODE, QJsonValue.string (TorrentOperatingMode.fromEnum
      (if params.addForced then TorrentOperatingMode.Forced else TorrentOperatingMode.AutoManaged))),
    (PARAM_SKIPCHECKING, QJsonValue.bool params.skipChecking),
    (PARAM_UPLOADLIMIT, QJsonValue.ofInt params.uploadLimit),
    (PARAM_DOWNLOADLIMIT, QJsonValue.ofInt params.downloadLimit),
    (PARAM_SEEDINGTIMELIMIT, QJsonValue.ofInt params.seedingTimeLimit),
    (PARAM_RATIOLIMIT, QJsonValue.double params.ratioLimit)]
  let jsonObj :=
    match params.addPaused with
    | some addPaused => QHash.insert jsonObj PARAM_STOPPED (QJsonValue.bool addPaused)
    | none => jsonObj
  let jsonObj :=
    match params.contentLayout with
    | some contentLayout =>
      QHash.insert jsonObj PARAM_CONTENTLAYOUT (QJsonValue.string (TorrentContentLayout.fromEnum contentLayout))
    | none => jsonObj
  let jsonObj :=
    match params.useAutoTMM with
    | some useAutoTMM => QHash.insert jsonObj PARAM_AUTOTMM (QJsonValue.bool useAutoTMM)
    | none => jsonObj
  jsonObj

/-- The function `parseWatchedFolderOptions`. -/
def parseWatchedFolderOptions (env : Env) (jsonObj : QJsonObject) : WatchedFolderOptions where
  addTorrentParams := parseAddTorrentParams env (jsonObj.value OPTION_ADDTORRENTPARAMS).toObject
  recursive := (jsonObj.value OPTION_RECURSIVE).toBool false

/-- The function `serializeWatchedFolderOptions`. -/
def serializeWatchedFolderOptions (options : WatchedFolderOptions) : QJsonObject :=
  [(OPTION_ADDTORRENTPARAMS, QJsonValue.object (serializeAddTorrentParams options.addTorrentParams)),
   (OPTION_RECURSIVE, QJsonValue.bool options.recursive)]

/-! ## The facade `TorrentFilesWatcher` -/

/-- The exception `InvalidArgument`. -/
structure InvalidArgument where
  message : String
  deriving DecidableEq

/-- An invocation queued for the worker object by `QMetaObject::invokeMethod`. -/
inductive WorkerCall where
  | setWatchedFolder (path : String) (options : WatchedFolderOptions)
  | removeWatchedFolder (path : String)
  deriving DecidableEq

/-- A signal of the facade. -/
inductive WatcherSignal where
  | watchedFolderSet (path : String) (options : WatchedFolderOptions)
  | watchedFolderRemoved (path : String)
  deriving DecidableEq

/-- What `load` finds in the configuration file `watched_folders.json` when the file exists:
it cannot be opened, its bytes are not JSON, or they are a JSON document, an array or an
object. -/
inductive ConfFile where
  | unreadable
  | malformed
  | array (jsonArr : QJsonArray)
  | object (jsonObj : QJsonObject)

/-- A `QVariant` of the legacy settings, "a single scalar-or-string per folder path": a value of
the type `QVariant::Int`, or a value of another type, given by what `toString()` makes of it. -/
inductive QVariant where
  | int (i : CInt)
  | string (s : String)
  deriving DecidableEq

/-- The state of a `TorrentFilesWatcher`: the registry, the invocations queued for the worker,
the signals emitted so far, and the configuration file `watched_folders.json`, if it exists. -/
structure TorrentFilesWatcher where
  m_watchedFolders : QHash WatchedFolderOptions
  queued : List WorkerCall
  emitted : List WatcherSignal
  confFile : Option ConfFile

namespace TorrentFilesWatcher

/-- The member function `makeCleanPath`. -/
def makeCleanPath (env : Env) (path : String) : Except InvalidArgument String :=
  if path = "" then
    Except.error ⟨"Watched folder path cannot be empty."⟩
  else if env.isRelativePath path then
    Except.error ⟨"Watched folder path cannot be relative."⟩
  else
    Except.ok (env.cleanPath path)

/-- The member function `store`: the whole registry is written to the configuration file. -/
def store (self : TorrentFilesWatcher) : TorrentFilesWatcher :=
  let jsonObj : QJsonObject :=
    self.m_watchedFolders.foldl
      (fun jsonObj it => QHash.insert jsonObj it.1 (QJsonValue.object (serializeWatchedFolderOptions it.2))) []
  { self with confFile := some (ConfFile.object jsonObj) }

/-- The member function `folders`. -/
def folders (self : TorrentFilesWatcher) : QHash WatchedFolderOptions :=
  self.m_watchedFolders

/-- The member function `doSetWatchedFolder`: the exception thrown, if any, and the object
after the call. -/
def doSetWatchedFolder (env : Env) (self : TorrentFilesWatcher) (path : String)
    (options : WatchedFolderOptions) : Option InvalidArgument × TorrentFilesWatcher :=
  match makeCleanPath env path with
  | Except.error err => (some err, self)
  | Except.ok cleanPath =>
    let self := { self with m_watchedFolders := QHash.insert self.m_watchedFolders cleanPath options }
    let self := { self with queued := self.queued ++ [WorkerCall.setWatchedFolder path options] }
    let self := { self with emitted := self.emitted ++ [WatcherSignal.watchedFolderSet cleanPath options] }
    (none, self)

/-- The member function `setWatchedFolder`: the exception thrown, if any, and the object after
the call. -/
def setWatchedFolder (env : Env) (self : TorrentFilesWatcher) (path : String)
    (options : WatchedFolderOptions) : Option InvalidArgument × TorrentFilesWatcher :=
  match doSetWatchedFolder env self path options with
  | (some err, self) => (some err, self)
  | (none, self) => (none, store self)

/-- The member function `removeWatchedFolder`: the exception thrown, if any, and the object
after the call. -/
def removeWatchedFolder (env : Env) (self : TorrentFilesWatcher) (path : String) :
    Option InvalidArgument × TorrentFilesWatcher :=
  match makeCleanPath env path with
  | Except.error err => (some err, self)
  | Except.ok cleanPath =>
    -- `m_watchedFolders.remove(cleanPath)` returns the number of entries removed
    let removed := QHash.contains self.m_watchedFolders cleanPath
    let self := { self with m_watchedFolders := QHash.remove self.m_watchedFolders cleanPath }
    if removed then
      let self := { self with queued := self.queued ++ [WorkerCall.removeWatchedFolder cleanPath] }
      let self := { self with emitted := self.emitted ++ [WatcherSignal.watchedFolderRemoved cleanPath] }
      (none, store self)
    else
      (none, self)

/-- The parameters `loadLegacy` builds for the legacy entry of `watchedFolder`. -/
def legacyParams (env : Env) (watchedFolder : String) (value : QVariant) : AddTorrentParams :=
  let params := AddTorrentParams.default env
  match value with
  | QVariant.int i =>
    if i.val = 0 then { params with savePath := watchedFolder, useAutoTMM := some false }
    else params
  | QVariant.string customSavePath =>
    { params with savePath := customSavePath, useAutoTMM := some false }

/-- The member function `loadLegacy`, on the value of the legacy key
`Preferences/Downloads/ScanDirsV2` of the settings, if there is one; the object after the call
and the legacy key after it. An `InvalidArgument` is caught and logged. -/
def loadLegacy (env : Env) (self : TorrentFilesWatcher) (settings : Option (QHash QVariant)) :
    TorrentFilesWatcher × Option (QHash QVariant) :=
  let dirs : QHash QVariant := settings.getD []
  let self := dirs.foldl
    (fun self i => (doSetWatchedFolder env self i.1 ⟨legacyParams env i.1 i.2, false⟩).2) self
  (store self, none)

/-- The member function `load`; the object after the call and the legacy key after it. An
`InvalidArgument` is caught and logged. -/
def load (env : Env) (self : TorrentFilesWatcher) (settings : Option (QHash QVariant)) :
    TorrentFilesWatcher × Option (QHash QVariant) :=
  match self.confFile with
  | none => loadLegacy env self settings
  | some ConfFile.unreadable => (self, settings)
  | some ConfFile.malformed => (self, settings)
  | some (ConfFile.array _) => (self, settings)
  | some (ConfFile.object jsonObj) =>
    let self := jsonObj.foldl
      (fun self it =>
        (doSetWatchedFolder env self it.1 (parseWatchedFolderOptions env it.2.toObject)).2) self
    (self, settings)

/-- The states of the facade: it starts without watched folders; `load`, `setWatchedFolder` and
`removeWatchedFolder` are called on it, and the configuration file may be changed from
outside. -/
inductive Reachable (env : Env) : TorrentFilesWatcher → Prop where
  | init (self : TorrentFilesWatcher) (h : self.m_watchedFolders = []) : Reachable env self
  | load (self : TorrentFilesWatcher) (settings : Option (QHash QVariant))
      (h : Reachable env self) : Reachable env (load env self settings).1
  | setWatchedFolder (self : TorrentFilesWatcher) (path : String) (options : WatchedFolderOptions)
      (h : Reachable env self) : Reachable env (setWatchedFolder env self path options).2
  | removeWatchedFolder (self : TorrentFilesWatcher) (path : String)
      (h : Reachable env self) : Reachable env (removeWatchedFolder env self path).2
  | confFile (self : TorrentFilesWatcher) (file : Option ConfFile)
      (h : Reachable env self) : Reachable env { self with confFile := file }

end TorrentFilesWatcher

/-! ## The file system the worker scans -/

/-- A regular file: the directory it is listed in, its name, its bytes, and whether it can be
opened for reading. Directory paths are spelled without a trailing separator. -/
structure File where
  dir : String
  name : String
  data : String
  readable : Bool
  deriving DecidableEq

/-- The path a directory iterator reports for a file. -/
def File.path (f : File) : String := f.dir ++ "/" ++ f.name

/-- A sub-directory: the directory it is listed in and its name. -/
structure SubDir where
  dir : String
  name : String
  deriving DecidableEq

/-- The path a directory iterator reports for a sub-directory. -/
def SubDir.path (d : SubDir) : String := d.dir ++ "/" ++ d.name

/-- The files and the sub-directories of the file system. -/
structure FileSystem where
  files : List File
  dirs : List SubDir
  deriving DecidableEq

/-- Comparison of the end of a string with `Qt::CaseInsensitive`
(`QString::endsWith`, and the wildcard `*suffix` of a name filter). -/
def endsWithCI (s suffix : String) : Bool :=
  (suffix.toList.map Char.toLower).isSuffixOf (s.toList.map Char.toLower)

/-- The name filters `{"*.torrent", "*.magnet"}` of the directory iterator of `processFolder`;
name filters are matched case-insensitively unless `QDir::CaseSensitive` is given. -/
def matchesNameFilters (name : String) : Bool :=
  endsWithCI name ".torrent" || endsWithCI name ".magnet"

/-- Whether a directory entry is hidden (`QFileInfo::isHidden`): on a Unix system, an entry
whose name starts with a dot. -/
def isHiddenName (name : String) : Bool :=
  match name.data with
  | c :: _ => c == '.'
  | [] => false

/-- Whether a file is hidden. -/
def File.isHidden (f : File) : Bool := isHiddenName f.name

/-- Whether a sub-directory is hidden. -/
def SubDir.isHidden (d : SubDir) : Bool := isHiddenName d.name

namespace FileSystem

/-- The directory a path names, in the spelling the entries of the file system are recorded
under: the path without the slashes at its end. A directory iterator lists the same directory
for `/watch/` as for `/watch`, and joins the path and the name of an entry with a `/` only when
the path does not end in one. -/
def dirName (path : String) : String :=
  ⟨(path.data.reverse.dropWhile (fun c => c == '/')).reverse⟩

/-- The file of a path, if there is one. -/
def find? (fs : FileSystem) (filePath : String) : Option File :=
  fs.files.find? (fun f => decide (f.path = filePath))

/-- The static function `QFile::exists`. -/
def fileExists (fs : FileSystem) (filePath : String) : Bool :=
  fs.files.any (fun f => decide (f.path = filePath))

/-- Modelled from the spec: `Utils::Fs::forceRemove` (base/utils/fs.h is not among the sources):
the source file is deleted. -/
def forceRemove (fs : FileSystem) (filePath : String) : FileSystem :=
  { fs with files := fs.files.filter (fun f => decide (f.path ≠ filePath)) }

/-- The static function `QFile::rename(oldName, oldName + suffix)`: nothing happens when a file
of the new name exists already, else the file gets the new name, in place. -/
def renameAppend (fs : FileSystem) (oldName suffix : String) : FileSystem :=
  if fs.fileExists (oldName ++ suffix) then fs
  else { fs with files := fs.files.map (fun f =>
    if f.path = oldName then { f with name := f.name ++ suffix } else f) }

/-- The data of a file opened with `QFile::open(QIODevice::ReadOnly)`; `none` when the file
does not exist or cannot be read. -/
def openRead (fs : FileSystem) (filePath : String) : Option String :=
  match fs.find? filePath with
  | some f => if f.readable then some f.data else none
  | none => none

/-- The paths `QDirIterator {path, {"*.torrent", "*.magnet"}, QDir::Files}` yields: the files
of the directory `path` names whose name matches a filter; `QDir::Hidden` is not among the
filters, so a hidden file is not listed. A file is reported under the path it is recorded with,
directory, `/` and name, which is the path the iterator builds when `path` ends in one slash at
most. -/
def torrentFiles (fs : FileSystem) (path : String) : List String :=
  (fs.files.filter (fun f =>
    decide (f.dir = dirName path) && matchesNameFilters f.name && !f.isHidden)).map File.path

/-- The paths `QDirIterator {path, (QDir::Dirs | QDir::NoDot | QDir::NoDotDot)}` yields: the
sub-directories of the directory `path` names; `QDir::Hidden` is not among the filters, so a
hidden sub-directory is not listed. -/
def subDirs (fs : FileSystem) (path : String) : List String :=
  (fs.dirs.filter (fun d => decide (d.dir = dirName path) && !d.isHidden)).map SubDir.path

/-- Whether a path names a directory that exists: the root, or a sub-directory that is
listed. -/
def dirExists (fs : FileSystem) (path : String) : Bool :=
  (decide (path ≠ "") && decide (dirName path = "")) ||
    fs.dirs.any (fun d => decide (dirName d.path = dirName path))

/-- Whether a path exists, as `QFileSystemWatcher::addPath` finds out: it names a directory
that exists, or a file. -/
def pathExists (fs : FileSystem) (path : String) : Bool :=
  fs.dirExists path || fs.fileExists path

/-- The directory a file is listed in, empty when there is no such file. -/
def dirOf (fs : FileSystem) (filePath : String) : String :=
  match fs.find? filePath with
  | some f => f.dir
  | none => ""

end FileSystem

/-- The chain of directories from the directory `D` (inclusive) up to the directory `R`
(exclusive): each one is listed as a sub-directory of the next, the last one as a sub-directory
of `R`. This is the chain of the shadowing rule of the specification, listed from its lower
end. The directories `D` and `R` are given in the spelling of `FileSystem.dirName`. -/
def FileSystem.IsChain (fs : FileSystem) : String → List SubDir → String → Prop
  | D, [], R => D = R
  | D, d :: rest, R =>
    d ∈ fs.dirs ∧ FileSystem.dirName d.path = D ∧ FileSystem.IsChain fs d.dir rest R

instance FileSystem.decidableIsChain (fs : FileSystem) :
    ∀ (D : String) (chain : List SubDir) (R : String), Decidable (fs.IsChain D chain R)
  | D, [], R => inferInstanceAs (Decidable (D = R))
  | D, d :: rest, R =>
    have := FileSystem.decidableIsChain fs d.dir rest R
    inferInstanceAs
      (Decidable (d ∈ fs.dirs ∧ FileSystem.dirName d.path = D ∧ fs.IsChain d.dir rest R))

/-- The directory at the lower end of a chain up to `R`, in the spelling the scan meets it in:
the path of the first directory of the chain, and `R` itself for the empty chain. -/
def FileSystem.chainEnd (R : String) : List SubDir → String
  | [] => R
  | d :: _ => d.path

/-- The directories the shadowing rule of the specification lets a recursive scan of `path`
process, in the order of the walk: `path`, then, for each immediate sub-directory that the
iterator lists and that is not a registered watched folder, the directories of the walk from
there. The depth is bounded by `fuel`. -/
def FileSystem.walk (fs : FileSystem) (watched : QHash WatchedFolderOptions) :
    Nat → String → List String
  | 0, _ => []
  | fuel + 1, path =>
    path :: (((fs.subDirs path).filter (fun D => !QHash.contains watched D)).map
      (FileSystem.walk fs watched fuel)).flatten

/-- No directory is reachable from itself: a chain from a directory up to itself is empty. -/
def FileSystem.Acyclic (fs : FileSystem) : Prop :=
  ∀ (D : String) (chain : List SubDir), fs.IsChain D chain D → chain = []

/-- The height of a directory, counted to the depth `fuel`: the length of the longest chain of
sub-directories below it that is not longer than `fuel`. -/
def FileSystem.height (fs : FileSystem) : Nat → String → Nat
  | 0, _ => 0
  | fuel + 1, D =>
    ((fs.dirs.filter (fun d => decide (d.dir = D))).map
      (fun d => FileSystem.height fs fuel (FileSystem.dirName d.path) + 1)).foldr max 0

/-- Modelled from the spec: `BitTorrent::TorrentInfo::loadFromFile` (base/bittorrent/torrentinfo.h
is not among the sources), `parseDescriptorFile(path) -> Descriptor | ParseError`: the file is
read and its data handed to the parser. -/
def loadFromFile (env : Env) (fs : FileSystem) (filePath : String) : Option TorrentInfo :=
  match fs.openRead filePath with
  | some data => env.loadTorrent data
  | none => none

/-! ## The worker `TorrentFilesWatcher::Worker` -/

/-- A signal of the worker. The first two arguments are bookkeeping of the model, not arguments
of the signal: the directory that was being processed and the file the signal was raised for. -/
inductive Signal where
  | magnetFound (folder filePath : String) (magnetURI : MagnetUri) (addTorrentParams : AddTorrentParams)
  | torrentFound (folder filePath : String) (torrentInfo : TorrentInfo) (addTorrentParams : AddTorrentParams)
  deriving DecidableEq

namespace Signal

/-- The directory that was being processed when the signal was raised. -/
def folder : Signal → String
  | magnetFound folder _ _ _ => folder
  | torrentFound folder _ _ _ => folder

/-- The file the signal was raised for. -/
def filePath : Signal → String
  | magnetFound _ filePath _ _ => filePath
  | torrentFound _ filePath _ _ => filePath

/-- The argument `addTorrentParams` of the signal. -/
def addTorrentParams : Signal → AddTorrentParams
  | magnetFound _ _ _ addTorrentParams => addTorrentParams
  | torrentFound _ _ _ addTorrentParams => addTorrentParams

/-- Whether the signal is `torrentFound`. -/
def isTorrentFound : Signal → Bool
  | magnetFound _ _ _ _ => false
  | torrentFound _ _ _ _ => true

end Signal

/-- The state of a `Worker`: its members (`m_watcher` as the set of directories the
`QFileSystemWatcher` watches, the timers as their `isActive()`), the folders whose processing
`QTimer::singleShot` has scheduled, the signals emitted so far, and the file system it works on. -/
structure Worker where
  m_watcher : QSet
  m_watchTimer : Bool
  m_watchedFolders : QHash WatchedFolderOptions
  m_watchedByTimeoutFolders : QSet
  m_retryTorrentTimer : Bool
  m_failedTorrents : QHash (QHash Int)
  singleShots : List String
  emitted : List Signal
  fs : FileSystem
  deriving DecidableEq

/-- Modelled from the spec: `Algorithm::removeIf` (base/algorithm.h is not among the sources): one
pass over the container in iteration order; the predicate sees the key and may change the value
and the surroundings `σ`; the entries for which it returns `true` are erased ("entries are
removed on success, on file disappearance, or on reaching the retry ceiling"). -/
def Algorithm.removeIf {α σ : Type} (p : String → α → σ → (Bool × α) × σ) :
    QHash α → σ → QHash α × σ
  | [], s => ([], s)
  | (key, value) :: rest, s =>
    let r := p key value s
    let t := Algorithm.removeIf p rest r.2
    (if r.1.1 then t.1 else (key, r.1.2) :: t.1, t.2)

namespace Worker

/-- A `Worker` as constructed, on a file system. -/
def init (fs : FileSystem) : Worker where
  m_watcher := []
  m_watchTimer := false
  m_watchedFolders := []
  m_watchedByTimeoutFolders := []
  m_retryTorrentTimer := false
  m_failedTorrents := []
  singleShots := []
  emitted := []
  fs := fs

/-- The member function `scheduleWatchedFolderProcessing`. -/
def scheduleWatchedFolderProcessing (self : Worker) (path : String) : Worker :=
  { self with singleShots := self.singleShots ++ [path] }

/-- The member function `removeWatchedFolder`. -/
def removeWatchedFolder (self : Worker) (path : String) : Worker :=
  let self := { self with m_watchedFolders := QHash.remove self.m_watchedFolders path }
  let self := { self with m_watcher := QSet.remove self.m_watcher path }
  let self := { self with m_watchedByTimeoutFolders := QSet.remove self.m_watchedByTimeoutFolders path }
  let self := if self.m_watchedByTimeoutFolders.isEmpty then { self with m_watchTimer := false } else self
  let self := { self with m_failedTorrents := QHash.remove self.m_failedTorrents path }
  if self.m_failedTorrents.isEmpty then { self with m_retryTorrentTimer := false } else self

/-- The member function `addWatchedFolder`. -/
def addWatchedFolder (env : Env) (self : Worker) (path : String) (options : WatchedFolderOptions) :
    Worker :=
  let self :=
    if env.isNetworkFileSystem path || options.recursive then
      let self := { self with m_watchedByTimeoutFolders := QSet.insert self.m_watchedByTimeoutFolders path }
      if !self.m_watchTimer then { self with m_watchTimer := true } else self
    else
      -- `m_watcher->addPath(path)` adds the path when it exists; its result is not looked at
      let self :=
        if self.fs.pathExists path then { self with m_watcher := QSet.insert self.m_watcher path }
        else self
      scheduleWatchedFolderProcessing self path
  { self with m_watchedFolders := QHash.insert self.m_watchedFolders path options }

/-- The member function `updateWatchedFolder`. -/
def updateWatchedFolder (env : Env) (self : Worker) (path : String) (options : WatchedFolderOptions) :
    Worker :=
  let recursiveModeChanged : Bool :=
    (QHash.value self.m_watchedFolders path (WatchedFolderOptions.default env)).recursive != options.recursive
  let self :=
    if recursiveModeChanged && !env.isNetworkFileSystem path then
      if options.recursive then
        let self := { self with m_watcher := QSet.remove self.m_watcher path }
        let self := { self with m_watchedByTimeoutFolders := QSet.insert self.m_watchedByTimeoutFolders path }
        if !self.m_watchTimer then { self with m_watchTimer := true } else self
      else
        let self := { self with m_watchedByTimeoutFolders := QSet.remove self.m_watchedByTimeoutFolders path }
        let self := if self.m_watchedByTimeoutFolders.isEmpty then { self with m_watchTimer := false } else self
        -- `m_watcher->addPath(path)` adds the path when it exists; its result is not looked at
        let self :=
          if self.fs.pathExists path then { self with m_watcher := QSet.insert self.m_watcher path }
          else self
        scheduleWatchedFolderProcessing self path
    else self
  { self with m_watchedFolders := QHash.insert self.m_watchedFolders path options }

/-- The member function `setWatchedFolder`. -/
def setWatchedFolder (env : Env) (self : Worker) (path : String) (options : WatchedFolderOptions) :
    Worker :=
  if QHash.contains self.m_watchedFolders path then updateWatchedFolder env self path options
  else addWatchedFolder env self path options

/-- The parameters `processFolder` hands on for the files of the directory `path`: those of the
watched folder, the save path extended by the sub-directory when `path` is not the watched
folder itself. -/
def folderParams (env : Env) (path watchedFolderPath : String) (options : WatchedFolderOptions) :
    AddTorrentParams :=
  let addTorrentParams := options.addTorrentParams
  if path != watchedFolderPath then
    let subdirPath := env.relativeFilePath watchedFolderPath path
    { addTorrentParams with
      savePath := env.cleanPath (env.filePath addTorrentParams.savePath subdirPath) }
  else addTorrentParams

/-- The body of the first loop of `processFolder`, for the file `filePath` of the directory
`path`. -/
def processFile (env : Env) (path watchedFolderPath : String) (options : WatchedFolderOptions)
    (self : Worker) (filePath : String) : Worker :=
  let addTorrentParams := folderParams env path watchedFolderPath options
  if endsWithCI filePath ".magnet" then
    match self.fs.openRead filePath with
    | some text =>
      let self := (env.readLines text).foldl
        (fun (self : Worker) line => { self with
          emitted := self.emitted ++ [Signal.magnetFound path filePath (env.magnetUri line) addTorrentParams] })
        self
      { self with fs := self.fs.forceRemove filePath }
    | none => self
  else
    match loadFromFile env self.fs filePath with
    | some torrentInfo =>
      let self := { self with
        emitted := self.emitted ++ [Signal.torrentFound path filePath torrentInfo addTorrentParams] }
      { self with fs := self.fs.forceRemove filePath }
    | none =>
      if !QHash.contains (QHash.value self.m_failedTorrents path []) filePath then
        -- `m_failedTorrents[path][filePath] = 0`
        let partialTorrents := QHash.insert (QHash.value self.m_failedTorrents path []) filePath 0
        { self with m_failedTorrents := QHash.insert self.m_failedTorrents path partialTorrents }
      else self

/-- The member function `processFolder`. The recursion of the source is bounded by `fuel`, the
number of directory levels that may be entered; `none` when that is not enough. -/
def processFolder (env : Env) : Nat → String → String → WatchedFolderOptions → Worker → Option Worker
  | 0, _, _, _, _ => none
  | fuel + 1, path, watchedFolderPath, options, self =>
    let self := (self.fs.torrentFiles path).foldl (processFile env path watchedFolderPath options) self
    if options.recursive then
      (self.fs.subDirs path).foldlM
        (fun (self : Worker) folderPath =>
          -- Skip processing of subdirectory that is explicitly set as watched folder
          if !QHash.contains self.m_watchedFolders folderPath then
            processFolder env fuel folderPath watchedFolderPath options self
          else some self)
        self
    else some self

/-- The member function `processWatchedFolder`. -/
def processWatchedFolder (env : Env) (fuel : Nat) (self : Worker) (path : String) : Option Worker :=
  let options := QHash.value self.m_watchedFolders path (WatchedFolderOptions.default env)
  match processFolder env fuel path path options self with
  | none => none
  | some self =>
    if !self.m_failedTorrents.isEmpty && !self.m_retryTorrentTimer then
      some { self with m_retryTorrentTimer := true }
    else some self

/-- The member function `onTimeout`. -/
def onTimeout (env : Env) (fuel : Nat) (self : Worker) : Option Worker :=
  self.m_watchedByTimeoutFolders.foldlM (processWatchedFolder env fuel) self

/-- The inner predicate of `processFailedTorrents`, for the entry `torrentPath ↦ value` of the
ledger of the folder whose `QDir` has the path `dirPath`. -/
def retryTorrent (env : Env) (dirPath : String) (watchedFolderPath : String)
    (options : WatchedFolderOptions) (torrentPath : String) (value : Int) (self : Worker) :
    (Bool × Int) × Worker :=
  if !self.fs.fileExists torrentPath then
    ((true, value), self)
  else
    match loadFromFile env self.fs torrentPath with
    | some torrentInfo =>
      let addTorrentParams := options.addTorrentParams
      let exactDirPath := env.canonicalPath (self.fs.dirOf torrentPath)
      let addTorrentParams :=
        if exactDirPath != dirPath then
          let subdirPath := env.relativeFilePath watchedFolderPath exactDirPath
          { addTorrentParams with savePath := env.filePath addTorrentParams.savePath subdirPath }
        else addTorrentParams
      let found := Signal.torrentFound watchedFolderPath torrentPath torrentInfo addTorrentParams
      let self := { self with emitted := self.emitted ++ [found] }
      let self := { self with fs := self.fs.forceRemove torrentPath }
      ((true, value), self)
    | none =>
      if value ≥ MAX_FAILED_RETRIES then
        let self := { self with fs := self.fs.renameAppend torrentPath ".qbt_rejected" }
        ((true, value), self)
      else
        ((false, value + 1), self)

/-- The outer predicate of `processFailedTorrents`, for the ledger `partialTorrents` of the
folder `watchedFolderPath`. -/
def retryFolder (env : Env) (watchedFolderPath : String) (partialTorrents : QHash Int)
    (self : Worker) : (Bool × QHash Int) × Worker :=
  let dirPath := env.dirPath watchedFolderPath
  let options := QHash.value self.m_watchedFolders watchedFolderPath (WatchedFolderOptions.default env)
  let r := Algorithm.removeIf (retryTorrent env dirPath watchedFolderPath options) partialTorrents self
  ((r.1.isEmpty, r.1), r.2)

/-- The member function `processFailedTorrents`. -/
def processFailedTorrents (env : Env) (self : Worker) : Worker :=
  -- Check which torrents are still partial
  let r := Algorithm.removeIf (retryFolder env) self.m_failedTorrents self
  let self := { r.2 with m_failedTorrents := r.1 }
  -- Stop the partial timer if necessary
  if self.m_failedTorrents.isEmpty then { self with m_retryTorrentTimer := false }
  else { self with m_retryTorrentTimer := true }

end Worker

/-! ## Sequences of worker operations -/

/-- An operation of the worker: a slot called for the facade, a scan (fired by the poll timer, by
a directory change or by a single shot) with the fuel of its recursion, or the sweep of the
retry timer. -/
inductive WorkerOp where
  | setWatchedFolder (path : String) (options : WatchedFolderOptions)
  | removeWatchedFolder (path : String)
  | processWatchedFolder (fuel : Nat) (path : String)
  | processFailedTorrents
  deriving DecidableEq

/-- The worker after an operation; `none` when the fuel of a scan is not enough. -/
def Worker.apply (env : Env) (self : Worker) : WorkerOp → Option Worker
  | WorkerOp.setWatchedFolder path options => some (Worker.setWatchedFolder env self path options)
  | WorkerOp.removeWatchedFolder path => some (Worker.removeWatchedFolder self path)
  | WorkerOp.processWatchedFolder fuel path => Worker.processWatchedFolder env fuel self path
  | WorkerOp.processFailedTorrents => some (Worker.processFailedTorrents env self)

/-- The worker after a sequence of operations. -/
def Worker.run (env : Env) (ops : List WorkerOp) (self : Worker) : Option Worker :=
  ops.foldlM (Worker.apply env) self

/-- A call of one of the three functions of the worker that change its subscriptions. -/
inductive FolderOp where
  | addWatchedFolder (path : String) (options : WatchedFolderOptions)
  | updateWatchedFolder (path : String) (options : WatchedFolderOptions)
  | removeWatchedFolder (path : String)
  deriving DecidableEq

/-- The worker after a call of `addWatchedFolder`, `updateWatchedFolder` or
`removeWatchedFolder`. -/
def Worker.applyFolderOp (env : Env) (self : Worker) : FolderOp → Worker
  | FolderOp.addWatchedFolder path options => Worker.addWatchedFolder env self path options
  | FolderOp.updateWatchedFolder path options => Worker.updateWatchedFolder env self path options
  | FolderOp.removeWatchedFolder path => Worker.removeWatchedFolder self path

/-- The worker after a sequence of such calls. -/
def Worker.applyFolderOps (env : Env) (ops : List FolderOp) (self : Worker) : Worker :=
  ops.foldl (Worker.applyFolderOp env) self

/-- The worker after an operation of either kind: a slot, a scan or a sweep, or a direct call
of one of the functions that change the subscriptions. -/
def Worker.step (env : Env) (self : Worker) : WorkerOp ⊕ FolderOp → Option Worker
  | Sum.inl op => Worker.apply env self op
  | Sum.inr op => some (Worker.applyFolderOp env self op)

/-- The worker after a sequence of operations of either kind. -/
def Worker.steps (env : Env) (ops : List (WorkerOp ⊕ FolderOp)) (self : Worker) : Option Worker :=
  ops.foldlM (Worker.step env) self

/-- The worker after an invocation queued by the facade is delivered. -/
def Worker.deliver (env : Env) (self : Worker) : WorkerCall → Worker
  | WorkerCall.setWatchedFolder path options => Worker.setWatchedFolder env self path options
  | WorkerCall.removeWatchedFolder path => Worker.removeWatchedFolder self path

/-- The worker after the invocations queued by the facade are delivered, in order. -/
def Worker.deliverAll (env : Env) (calls : List WorkerCall) (self : Worker) : Worker :=
  calls.foldl (Worker.deliver env) self

/-- Whether every counter of a ledger is in the range `0..MAX_FAILED_RETRIES`. -/
def ledgerBounded (ledger : QHash (QHash Int)) : Bool :=
  ledger.all (fun e => e.2.all (fun t => decide (0 ≤ t.2) && decide (t.2 ≤ MAX_FAILED_RETRIES)))

/-- The poll timer runs exactly when the polling set is not empty. -/
def Worker.PollInvariant (self : Worker) : Prop :=
  self.m_watchTimer = true ↔ self.m_watchedByTimeoutFolders ≠ []

/-- The retry timer runs exactly when the ledger is not empty. -/
def Worker.RetryInvariant (self : Worker) : Prop :=
  self.m_retryTorrentTimer = true ↔ self.m_failedTorrents ≠ []

/-! ## Observations of a state, used in the statements -/

/-- The file records of a path. -/
def FileSystem.filesAt (fs : FileSystem) (filePath : String) : List File :=
  fs.files.filter (fun f => decide (f.path = filePath))

/-- A descriptor file: one with the extension of the name filter `*.torrent`. -/
def File.isDescriptor (f : File) : Bool := endsWithCI f.name ".torrent"

/-- The entries of one folder of a ledger for a file. -/
def entriesFor (partialTorrents : QHash Int) (torrentPath : String) : QHash Int :=
  partialTorrents.filter (fun t => decide (t.1 = torrentPath))

/-- The entries of a ledger for a file: the folder each is filed under, with its counter. -/
def ledgerTrackings (ledger : QHash (QHash Int)) (torrentPath : String) : List (String × Int) :=
  ledger.flatMap (fun e => (entriesFor e.2 torrentPath).map (fun t => (e.1, t.2)))

/-- Whether every file of a ledger has the name of a descriptor, `*.torrent`. -/
def ledgerOfDescriptors (ledger : QHash (QHash Int)) : Bool :=
  ledger.all (fun e => e.2.all (fun t => endsWithCI t.1 ".torrent"))

namespace Worker

/-- The entries of the ledger for a file: the folder each is filed under, with its counter. -/
def trackings (self : Worker) (torrentPath : String) : List (String × Int) :=
  ledgerTrackings self.m_failedTorrents torrentPath

/-- The signals emitted so far for a file. -/
def signalsFor (self : Worker) (filePath : String) : List Signal :=
  self.emitted.filter (fun e => decide (e.filePath = filePath))

/-- Whether every file of the ledger has the name of a descriptor, `*.torrent`. -/
def tracksDescriptors (self : Worker) : Bool :=
  ledgerOfDescriptors self.m_failedTorrents

/-- What processing the directory `path` for the watched folder `root` may do to a worker: the
registry and the directories stay, files only go, every new signal is for a file that was
listed, and not hidden, in the directory the signal names, with the parameters of that
directory, in `path` or in a directory that is not registered; and the files of a path listed
only in directories other than `path` whose every spelling is registered are not touched. -/
structure ScanOf (env : Env) (root : String) (options : WatchedFolderOptions) (path : String)
    (s s' : Worker) : Prop where
  watched : s'.m_watchedFolders = s.m_watchedFolders
  dirs : s'.fs.dirs = s.fs.dirs
  files : ∀ g ∈ s'.fs.files, g ∈ s.fs.files
  signals : ∃ evs, s'.emitted = s.emitted ++ evs ∧ ∀ e ∈ evs,
    (∃ g ∈ s.fs.files, g.dir = FileSystem.dirName e.folder ∧ g.path = e.filePath ∧
      g.isHidden = false) ∧
    e.addTorrentParams = folderParams env e.folder root options ∧
    (e.folder = path ∨ QHash.contains s.m_watchedFolders e.folder = false)
  untouched : ∀ p, (∀ g ∈ s.fs.files, g.path = p →
      g.dir ≠ FileSystem.dirName path ∧
      ∀ X, FileSystem.dirName X = g.dir → QHash.contains s.m_watchedFolders X = true) →
    s'.fs.filesAt p = s.fs.filesAt p

/-- The subscriptions of two states are the same: the registry, the push set, the polling set
with its timer, and the scans scheduled. -/
structure SameSubscriptions (s s' : Worker) : Prop where
  watched : s'.m_watchedFolders = s.m_watchedFolders
  watcher : s'.m_watcher = s.m_watcher
  timeout : s'.m_watchedByTimeoutFolders = s.m_watchedByTimeoutFolders
  timer : s'.m_watchTimer = s.m_watchTimer
  shots : s'.singleShots = s.singleShots

/-- The monitoring mode of every path fits its registration: a watched folder that is recursive
or on a network file system is in the polling set and not in the push set, any other watched
folder is not in the polling set, and is in the push set when its directory exists, and a path
that is not watched is in neither. -/
def ModeInvariant (env : Env) (self : Worker) : Prop :=
  ∀ path : String,
    (∀ o, QHash.get? self.m_watchedFolders path = some o →
      ((o.recursive = true ∨ env.isNetworkFileSystem path = true) →
        path ∈ self.m_watchedByTimeoutFolders ∧ path ∉ self.m_watcher) ∧
      (¬ (o.recursive = true ∨ env.isNetworkFileSystem path = true) →
        path ∉ self.m_watchedByTimeoutFolders ∧
        (self.fs.dirExists path = true → path ∈ self.m_watcher))) ∧
    (QHash.get? self.m_watchedFolders path = none →
      path ∉ self.m_watchedByTimeoutFolders ∧ path ∉ self.m_watcher)

/-- The retry counter of a file in the ledger of a folder, if it has one. -/
def counterOf (self : Worker) (folder torrentPath : String) : Option Int :=
  QHash.get? (QHash.value self.m_failedTorrents folder []) torrentPath

/-- The first loop of `processFolder`, for each directory of a list in turn: the files of the
directory, as listed when its turn comes, are processed. -/
def scanDirs (env : Env) (root : String) (options : WatchedFolderOptions) (dirs : List String)
    (self : Worker) : Worker :=
  dirs.foldl (fun s D => (s.fs.torrentFiles D).foldl (processFile env D root options) s) self

/-- A path has one signal at most, and none while a file of the path exists. -/
def EmittedOnce (self : Worker) (filePath : String) : Prop :=
  (signalsFor self filePath).length ≤ 1 ∧
  (self.fs.fileExists filePath = true → signalsFor self filePath = [])

/-- A file `filePath` that the processing of the directory `path` leaves where it is, and for
which it changes nothing: a magnet list that cannot be opened, or a descriptor that does not
load and is in the ledger of `path`. -/
def Settled (env : Env) (self : Worker) (path filePath : String) : Prop :=
  if endsWithCI filePath ".magnet" then self.fs.openRead filePath = none
  else loadFromFile env self.fs filePath = none ∧
    QHash.contains (QHash.value self.m_failedTorrents path []) filePath = true

/-- A file `filePath` the processing of the directory `path` is done with: there is no file of
the path any more, or the file is settled. -/
def Done (env : Env) (self : Worker) (path filePath : String) : Prop :=
  self.fs.filesAt filePath = [] ∨ Settled env self path filePath

/-- The state after `n` runs of `processFailedTorrents`. -/
def sweeps (env : Env) : Nat → Worker → Worker
  | 0, self => self
  | n + 1, self => processFailedTorrents env (sweeps env n self)

end Worker

/-- The keys of a registry are in order: each occurs once, and each is a non-empty absolute path
that is its own normal form. -/
def RegistryInvariant (env : Env) (registry : QHash WatchedFolderOptions) : Prop :=
  (QHash.keys registry).Nodup ∧
  ∀ key ∈ QHash.keys registry,
    key ≠ "" ∧ env.isRelativePath key = false ∧ env.cleanPath key = key

/-- The options as they come back from the configuration file: the serialised members, the
others default-constructed. -/
def WatchedFolderOptions.persisted (options : WatchedFolderOptions) : WatchedFolderOptions :=
  { options with
    addTorrentParams := { options.addTorrentParams with
      sequential := false, firstLastPiecePriority := false, filePriorities := [] } }

/-! ## A concrete environment: Qt on a Unix system

The functions below follow the documented behaviour of the Qt functions for paths with `/` as
the separator, without symbolic links and with `/` as the current directory. They serve to
evaluate the embedding on concrete inputs. -/

namespace Unix

/-- The parts of a path between the separators. -/
def splitPath : List Char → List (List Char)
  | [] => [[]]
  | c :: cs =>
    match splitPath cs with
    | [] => [[]]
    | seg :: segs => if c = '/' then [] :: seg :: segs else (c :: seg) :: segs

/-- The parts of a path joined with separators. -/
def joinPath : List (List Char) → List Char
  | [] => []
  | [seg] => seg
  | seg :: segs => seg ++ '/' :: joinPath segs

/-- Resolution of `.` and `..` and removal of empty parts; `stack` holds the parts kept so
far, the last one first. -/
def normalize (absolute : Bool) : List (List Char) → List (List Char) → List (List Char)
  | stack, [] => stack.reverse
  | stack, seg :: rest =>
    if seg = [] ∨ seg = ['.'] then normalize absolute stack rest
    else if seg = ['.', '.'] then
      match stack with
      | [] => if absolute then normalize absolute [] rest else normalize absolute [seg] rest
      | top :: below =>
        if top = ['.', '.'] then normalize absolute (seg :: stack) rest
        else normalize absolute below rest
    else normalize absolute (seg :: stack) rest

/-- Whether a path starts at the root. -/
def isAbsolute (path : List Char) : Bool := path.head? = some '/'

/-- The function `QDir::cleanPath` on character lists. -/
def cleanChars (path : List Char) : List Char :=
  if path = [] then []
  else
    let body := joinPath (normalize (isAbsolute path) [] (splitPath path))
    if isAbsolute path then '/' :: body
    else if body = [] then ['.'] else body

/-- The function `QDir::cleanPath`. -/
def cleanPath (path : String) : String := String.mk (cleanChars path.toList)

/-- The function `QDir::isRelativePath`. -/
def isRelativePath (path : String) : Bool := !isAbsolute path.toList

/-- The path a `QDir` constructed from `dir` holds: `.` for an empty one, and one trailing
separator dropped. -/
def dirChars (dir : List Char) : List Char :=
  if dir = [] then ['.']
  else if dir.length > 1 ∧ dir.getLast? = some '/' then dir.dropLast
  else dir

/-- The path of a directory object, `QDir(dir).path()`. -/
def dirPath (dir : String) : String := String.mk (dirChars dir.toList)

/-- The path of a file of a directory, `QDir(dir).filePath(fileName)`. -/
def filePath (dir fileName : String) : String :=
  if isAbsolute fileName.toList then fileName
  else
    let ret := dirChars dir.toList
    if fileName = "" then String.mk ret
    else if ret.getLast? = some '/' then String.mk (ret ++ fileName.toList)
    else String.mk (ret ++ '/' :: fileName.toList)

/-- The number of leading parts two paths share. -/
def commonParts : List (List Char) → List (List Char) → Nat
  | a :: as, b :: bs => if a = b then commonParts as bs + 1 else 0
  | _, _ => 0

/-- The absolute form of a path, the current directory being the root. -/
def absoluteChars (path : List Char) : List Char :=
  if isAbsolute path then path else '/' :: path

/-- The path of an entry relative to a directory, `QDir(dir).relativeFilePath(fileName)`. -/
def relativeFilePath (dir fileName : String) : String :=
  let file := cleanChars fileName.toList
  if !isAbsolute file then String.mk file
  else
    let dirElts := (splitPath (cleanChars (absoluteChars (dirChars dir.toList)))).filter (fun e => e ≠ [])
    let fileElts := (splitPath file).filter (fun e => e ≠ [])
    let i := commonParts dirElts fileElts
    let result := joinPath (List.replicate (dirElts.length - i) ['.', '.'] ++ fileElts.drop i)
    if result = [] then "." else String.mk result

/-- The text of a file cut into the lines `QTextStream::readLine` returns: the line ends are
dropped, and there is no line after the last line end. -/
def readLines (text : String) : List String :=
  let pieces := (text.toList.splitOn '\n').map String.mk
  if pieces.getLast? = some "" then pieces.dropLast else pieces

/-- Modelled from the spec: `BitTorrent::MagnetUri` (base/bittorrent/magneturi.h is not among the
sources), `parseMagnetLine(text) -> Magnet | ParseError`; a link counts as valid here when it
starts with `magnet:?xt=urn:btih:`. -/
def magnetUri (source : String) : MagnetUri where
  url := source
  valid := "magnet:?xt=urn:btih:".toList.isPrefixOf source.toList

/-- Modelled from the spec: the descriptor parser (`parseDescriptorFile`), an opaque capability;
data count as a descriptor here when they have the frame of a bencoded dictionary, `d…e`. -/
def loadTorrent (data : String) : Option TorrentInfo :=
  if data.toList.head? = some 'd' ∧ data.toList.getLast? = some 'e' then some ⟨data⟩ else none

end Unix

/-- Qt on a Unix system, with the sentinels `-2` for "use the global limit". -/
def unixEnv : Env where
  isRelativePath := Unix.isRelativePath
  cleanPath := Unix.cleanPath
  dirPath := Unix.dirPath
  filePath := Unix.filePath
  relativeFilePath := Unix.relativeFilePath
  canonicalPath := Unix.cleanPath
  isNetworkFileSystem := fun _ => false
  readLines := Unix.readLines
  magnetUri := Unix.magnetUri
  loadTorrent := Unix.loadTorrent
  USE_GLOBAL_SEEDING_TIME := ⟨-2, by decide⟩
  USE_GLOBAL_RATIO := -2

/-! ## Concrete states used to evaluate the embedding -/

/-- Options with default parameters, the save path `/dst`, not recursive. -/
def exampleOptions : WatchedFolderOptions where
  addTorrentParams := { AddTorrentParams.default unixEnv with savePath := "/dst" }
  recursive := false

/-- A facade without watched folders. -/
def emptyWatcher : TorrentFilesWatcher where
  m_watchedFolders := []
  queued := []
  emitted := []
  confFile := none

/-- A facade watching `/watch`. -/
def watchingWatcher : TorrentFilesWatcher where
  m_watchedFolders := [("/watch", exampleOptions)]
  queued := []
  emitted := []
  confFile := none

/-- A file system with the descriptor `/watch/a.torrent`, which loads. -/
def descriptorFs : FileSystem where
  files := [⟨"/watch", "a.torrent", "d4:infoe", true⟩]
  dirs := [⟨"", "watch"⟩]

/-- A worker watching `/watch`, not recursively, on `descriptorFs`. -/
def descriptorWorker : Worker :=
  { Worker.init descriptorFs with
    m_watcher := ["/watch"]
    m_watchedFolders := [("/watch", exampleOptions)] }

/-- The text of a magnet-list file: two valid links with a malformed line between them. -/
def magnetText : String :=
  "magnet:?xt=urn:btih:aaaa\nnot a magnet link\nmagnet:?xt=urn:btih:bbbb\n"

/-- A file system with a descriptor in `/watch` and one in its sub-directory `/watch/sub`. -/
def recursiveFs : FileSystem where
  files := [⟨"/watch", "a.torrent", "d4:infoe", true⟩, ⟨"/watch/sub", "b.torrent", "d4:infoe", true⟩]
  dirs := [⟨"", "watch"⟩, ⟨"/watch", "sub"⟩]

/-- A worker watching `/watch` recursively, on `recursiveFs`. -/
def recursiveWorker : Worker :=
  { Worker.init recursiveFs with
    m_watchTimer := true
    m_watchedByTimeoutFolders := ["/watch"]
    m_watchedFolders := [("/watch", { exampleOptions with recursive := true })] }

/-- The height of the directories of `recursiveFs`. -/
def recursiveRank (path : String) : Nat :=
  if path = "" then 2 else if path = "/watch" then 1 else 0

/-- A file system with the file `/watch/bad.torrent`, which does not load. -/
def badFs : FileSystem where
  files := [⟨"/watch", "bad.torrent", "garbage", true⟩]
  dirs := [⟨"", "watch"⟩]

/-- A worker watching `/watch`, not recursively, on `badFs`. -/
def badWorker : Worker :=
  { Worker.init badFs with
    m_watcher := ["/watch"]
    m_watchedFolders := [("/watch", exampleOptions)] }

/-- The worker `badWorker` after its first scan of `/watch`: the file is in the ledger with the
counter 0 and the retry timer runs. -/
def badWorkerScanned : Worker :=
  { badWorker with
    m_retryTorrentTimer := true
    m_failedTorrents := [("/watch", [("/watch/bad.torrent", 0)])] }

/-- A worker watching `/watch` on a file system with the file `/watch/bad.torrent`, which does
not load, and a file of its rejected name, after its first scan of `/watch`. -/
def twinWorkerScanned : Worker :=
  { badWorkerScanned with
    fs := ⟨[⟨"/watch", "bad.torrent", "garbage", true⟩,
      ⟨"/watch", "bad.torrent.qbt_rejected", "older", true⟩], [⟨"", "watch"⟩]⟩ }

/-- A worker on `descriptorFs` with the descriptor `/watch/a.torrent` in the ledger, after three
failed retries. -/
def retryWorker : Worker :=
  { descriptorWorker with
    m_retryTorrentTimer := true
    m_failedTorrents := [("/watch", [("/watch/a.torrent", 3)])] }

/-- A sequence of slot calls: `/watch` is set recursive, `/plain` is set, `/watch` is set
again, now not recursive, and `/plain` is removed. -/
def modeOps : List WorkerOp :=
  [WorkerOp.setWatchedFolder "/watch" { exampleOptions with recursive := true },
   WorkerOp.setWatchedFolder "/plain" exampleOptions,
   WorkerOp.setWatchedFolder "/watch" exampleOptions,
   WorkerOp.removeWatchedFolder "/plain"]

/-- The worker after `modeOps`, from its construction on `descriptorFs`. -/
def modeWorker : Worker :=
  { Worker.init descriptorFs with
    m_watcher := ["/watch"]
    m_watchedFolders := [("/watch", exampleOptions)]
    singleShots := ["/plain", "/watch"] }

/-- Qt on a Unix system, used with paths that are in normal form already: `cleanPath` leaves
them as they are. -/
def plainEnv : Env := { unixEnv with cleanPath := fun path => path }

/-- The legacy value `1` of a watched folder. -/
def legacyOne : QVariant := QVariant.int ⟨1, by decide⟩

/-- A file system with the file `b.torrent` in the sub-directory `/watch/sub`, holding `data`. -/
def subdirFs (data : String) : FileSystem where
  files := [⟨"/watch/sub", "b.torrent", data, true⟩]
  dirs := [⟨"", "watch"⟩, ⟨"/watch", "sub"⟩]

/-- A worker watching `/watch` recursively, with the save path `/dst`, on `subdirFs data`. -/
def subdirWorker (data : String) : Worker :=
  { Worker.init (subdirFs data) with
    m_watchTimer := true
    m_watchedByTimeoutFolders := ["/watch"]
    m_watchedFolders := [("/watch", { exampleOptions with recursive := true })] }

/-- The worker `subdirWorker data` after a scan of `/watch` in which `/watch/sub/b.torrent` did
not load: the file is in the ledger under the sub-directory, and the retry timer runs. -/
def subdirWorkerScanned (data : String) : Worker :=
  { subdirWorker data with
    m_retryTorrentTimer := true
    m_failedTorrents := [("/watch/sub", [("/watch/sub/b.torrent", 0)])] }

/-- A file system with the directories `/watch/other`, `/watch/sub` and `/watch/sub/deep`, and a
descriptor in each directory. -/
def shadowFs : FileSystem where
  files := [⟨"/watch", "a.torrent", "d4:infoe", true⟩, ⟨"/watch/other", "b.torrent", "d4:infoe", true⟩,
    ⟨"/watch/sub", "c.torrent", "d4:infoe", true⟩, ⟨"/watch/sub/deep", "d.torrent", "d4:infoe", true⟩]
  dirs := [⟨"", "watch"⟩, ⟨"/watch", "other"⟩, ⟨"/watch", "sub"⟩, ⟨"/watch/sub", "deep"⟩]

/-- A worker watching `/watch` recursively and `/watch/sub`, on `shadowFs`. -/
def shadowWorker : Worker :=
  { Worker.init shadowFs with
    m_watchTimer := true
    m_watchedByTimeoutFolders := ["/watch"]
    m_watcher := ["/watch/sub"]
    m_watchedFolders := [("/watch", { exampleOptions with recursive := true }),
      ("/watch/sub", exampleOptions)] }

/-- The height of the directories of `shadowFs`. -/
def shadowRank (path : String) : Nat :=
  if path = "" then 3 else if path = "/watch" then 2 else if path = "/watch/sub" then 1 else 0

/-- A sequence of operations in which `/watch/bad.torrent` is rejected: `/watch` is set, a scan
finds the file, and the sixth sweep renames it. -/
def rejectOps : List WorkerOp :=
  [WorkerOp.setWatchedFolder "/watch" exampleOptions, WorkerOp.processWatchedFolder 1 "/watch",
   WorkerOp.processFailedTorrents, WorkerOp.processFailedTorrents, WorkerOp.processFailedTorrents,
   WorkerOp.processFailedTorrents, WorkerOp.processFailedTorrents, WorkerOp.processFailedTorrents]

/-- The worker after `rejectOps`, from its construction on `badFs`: the file has the rejected
name, the ledger is empty and the retry timer is stopped. -/
def rejectedWorker : Worker :=
  { Worker.init ⟨[⟨"/watch", "bad.torrent.qbt_rejected", "garbage", true⟩], [⟨"", "watch"⟩]⟩ with
    m_watcher := ["/watch"]
    m_watchedFolders := [("/watch", exampleOptions)]
    singleShots := ["/watch"] }

/-- Scans and sweeps after the rejection. -/
def laterOps : List WorkerOp :=
  [WorkerOp.processWatchedFolder 1 "/watch", WorkerOp.processFailedTorrents,
   WorkerOp.processWatchedFolder 1 "/watch", WorkerOp.processFailedTorrents]

/-- The operations of `rejectOps`, as steps. -/
def rejectOpsSteps : List (WorkerOp ⊕ FolderOp) := rejectOps.map Sum.inl

/-- The worker after `/watch` is set and scanned and five sweeps have run, from its construction
on `badFs`: the counter of the file that does not load is 5. -/
def fiveSweepsWorker : Worker :=
  { badWorkerScanned with
    singleShots := ["/watch"]
    m_failedTorrents := [("/watch", [("/watch/bad.torrent", 5)])] }

/-- The worker after `/watch` is set and removed again, from its construction on `descriptorFs`:
nothing is watched, and the scan scheduled when `/watch` was set is pending. -/
def removedWorker : Worker :=
  { Worker.init descriptorFs with singleShots := ["/watch"] }

/-- The worker `retryWorker` after a scan of `/watch`, a sweep and a second scan: the descriptor
in the ledger was loaded by the first scan, emitted and deleted, and the sweep dropped its
entry. -/
def emittedWorker : Worker :=
  { descriptorWorker with
    fs := ⟨[], [⟨"", "watch"⟩]⟩
    emitted := [Signal.torrentFound "/watch" "/watch/a.torrent" ⟨"d4:infoe"⟩
      exampleOptions.addTorrentParams] }

/-- A file system with a descriptor that loads, one that does not, a magnet list, a magnet list
that cannot be read, and a descriptor in a sub-directory. -/
def mixedFs : FileSystem where
  files := [⟨"/watch", "a.torrent", "d4:infoe", true⟩, ⟨"/watch", "bad.torrent", "garbage", true⟩,
    ⟨"/watch", "links.magnet", magnetText, true⟩, ⟨"/watch", "locked.magnet", magnetText, false⟩,
    ⟨"/watch/sub", "b.torrent", "d4:infoe", true⟩]
  dirs := [⟨"", "watch"⟩, ⟨"/watch", "sub"⟩]

/-- A worker watching `/watch` recursively, on `mixedFs`. -/
def mixedWorker : Worker :=
  { Worker.init mixedFs with
    m_watchTimer := true
    m_watchedByTimeoutFolders := ["/watch"]
    m_watchedFolders := [("/watch", { exampleOptions with recursive := true })] }

/-- A file system with the hidden descriptor `/watch/.a.torrent`, the hidden magnet list
`/watch/.links.magnet`, and a descriptor in the hidden sub-directory `/watch/.cache`; all of
them can be read, and the descriptors load. -/
def hiddenFs : FileSystem where
  files := [⟨"/watch", ".a.torrent", "d4:infoe", true⟩, ⟨"/watch", ".links.magnet", magnetText, true⟩,
    ⟨"/watch/.cache", "b.torrent", "d4:infoe", true⟩]
  dirs := [⟨"", "watch"⟩, ⟨"/watch", ".cache"⟩]

/-- A worker watching `/watch` recursively, on `hiddenFs`. -/
def hiddenRecursiveWorker : Worker :=
  { Worker.init hiddenFs with
    m_watchTimer := true
    m_watchedByTimeoutFolders := ["/watch"]
    m_watchedFolders := [("/watch", { exampleOptions with recursive := true })] }

/-- A file system without files and directories. -/
def emptyFs : FileSystem where
  files := []
  dirs := []

/-- A worker on `emptyFs` watching `/gone` recursively: the folder is polled, and its directory
does not exist. -/
def goneWorker : Worker :=
  { Worker.init emptyFs with
    m_watchTimer := true
    m_watchedByTimeoutFolders := ["/gone"]
    m_watchedFolders := [("/gone", { exampleOptions with recursive := true })] }

/-! # Properties -/

/-! ## Lemmas on `QHash` -/

namespace QHash

variable {α : Type}

theorem get?_insert_self (h : QHash α) (key : String) (v : α) :
    get? (insert h key v) key = some v := by
  induction h with
  | nil => simp [insert, get?]
  | cons e rest ih =>
    obtain ⟨k, x⟩ := e
    by_cases hk : k = key
    · simp [insert, get?, hk]
    · simp [insert, get?, hk, ih]

theorem get?_insert_ne (h : QHash α) (key key2 : String) (v : α) (hne : key2 ≠ key) :
    get? (insert h key v) key2 = get? h key2 := by
  induction h with
  | nil =>
    have : ¬ key = key2 := fun e => hne e.symm
    simp [insert, get?, this]
  | cons e rest ih =>
    obtain ⟨k, x⟩ := e
    by_cases hk : k = key
    · subst hk
      have : ¬ k = key2 := fun e => hne e.symm
      simp [insert, get?, this]
    · by_cases hk2 : k = key2
      · subst hk2
        simp [insert, get?, hk]
      · simp [insert, get?, hk, hk2, ih]

theorem get?_remove_self (h : QHash α) (key : String) : get? (remove h key) key = none := by
  induction h with
  | nil => simp [remove, get?]
  | cons e rest ih =>
    obtain ⟨k, x⟩ := e
    by_cases hk : k = key
    · simpa [remove, hk] using ih
    · simpa [remove, hk, get?] using ih

theorem get?_remove_ne (h : QHash α) (key key2 : String) (hne : key2 ≠ key) :
    get? (remove h key) key2 = get? h key2 := by
  induction h with
  | nil => simp [remove, get?]
  | cons e rest ih =>
    obtain ⟨k, x⟩ := e
    by_cases hk : k = key
    · subst hk
      have : ¬ k = key2 := fun e => hne e.symm
      simpa [remove, get?, this] using ih
    · by_cases hk2 : k = key2
      · subst hk2
        simp [remove, get?, hk]
      · simpa [remove, get?, hk, hk2] using ih

theorem remove_eq_self (h : QHash α) (key : String) (hc : contains h key = false) :
    remove h key = h := by
  induction h with
  | nil => simp [remove]
  | cons e rest ih =>
    obtain ⟨k, x⟩ := e
    by_cases hk : k = key
    · simp [contains, get?, hk] at hc
    · have hr : contains rest key = false := by simpa [contains, get?, hk] using hc
      have hd : decide ((k, x).1 ≠ key) = true := by simp [hk]
      have hrest : remove rest key = rest := ih hr
      rw [remove, List.filter_cons, if_pos hd]
      exact congrArg (List.cons (k, x)) hrest

theorem contains_remove_self (h : QHash α) (key : String) : contains (remove h key) key = false := by
  simp [contains, get?_remove_self]

end QHash

/-! ## The registry of the facade -/

namespace TorrentFilesWatcher

theorem makeCleanPath_ok (env : Env) (path : String) (hne : path ≠ "")
    (habs : env.isRelativePath path = false) :
    makeCleanPath env path = Except.ok (env.cleanPath path) := by
  simp [makeCleanPath, hne, habs]

theorem makeCleanPath_error (env : Env) (path : String)
    (h : path = "" ∨ env.isRelativePath path = true) :
    ∃ err, makeCleanPath env path = Except.error err := by
  unfold makeCleanPath
  by_cases he : path = ""
  · rw [if_pos he]
    exact ⟨_, rfl⟩
  · rw [if_neg he]
    rcases h with h | h
    · exact absurd h he
    · rw [if_pos h]
      exact ⟨_, rfl⟩

end TorrentFilesWatcher

/-- C1: for a non-empty absolute path `P`, `setWatchedFolder(P, cfg)` returns without an
exception, and afterwards `folders()` maps the normalized path `makeCleanPath(P)` to `cfg`; it
maps `P` itself to `cfg` when `P` is its own normal form. -/
theorem C1_setWatchedFolder_then_folders (env : Env) (self : TorrentFilesWatcher) (P : String)
    (cfg : WatchedFolderOptions) (hne : P ≠ "") (habs : env.isRelativePath P = false) :
    TorrentFilesWatcher.makeCleanPath env P = Except.ok (env.cleanPath P) ∧
    (TorrentFilesWatcher.setWatchedFolder env self P cfg).1 = none ∧
    QHash.get? (TorrentFilesWatcher.setWatchedFolder env self P cfg).2.folders (env.cleanPath P)
      = some cfg ∧
    (env.cleanPath P = P →
      QHash.get? (TorrentFilesWatcher.setWatchedFolder env self P cfg).2.folders P = some cfg) := by
  have hok := TorrentFilesWatcher.makeCleanPath_ok env P hne habs
  have hget : QHash.get? (TorrentFilesWatcher.setWatchedFolder env self P cfg).2.folders
      (env.cleanPath P) = some cfg := by
    simp [TorrentFilesWatcher.setWatchedFolder, TorrentFilesWatcher.doSetWatchedFolder, hok,
      TorrentFilesWatcher.store, TorrentFilesWatcher.folders, QHash.get?_insert_self]
  refine ⟨hok, ?_, hget, ?_⟩
  · simp [TorrentFilesWatcher.setWatchedFolder, TorrentFilesWatcher.doSetWatchedFolder, hok]
  · intro hfix
    rw [hfix] at hget
    exact hget

/-- C1 at a concrete input: `/watch/` is registered under `/watch`. -/
theorem C1_setWatchedFolder_then_folders_witness :
    QHash.get? (TorrentFilesWatcher.setWatchedFolder unixEnv emptyWatcher "/watch/" exampleOptions).2.folders
      (unixEnv.cleanPath "/watch/") = some exampleOptions :=
  (C1_setWatchedFolder_then_folders unixEnv emptyWatcher "/watch/" exampleOptions
    (by decide) (by decide)).2.2.1

/-- C2: for a path that is empty or relative, `setWatchedFolder` throws `InvalidArgument` and
the object, the registry with it, is after the call what it was before. -/
theorem C2_setWatchedFolder_invalid_path (env : Env) (self : TorrentFilesWatcher) (path : String)
    (cfg : WatchedFolderOptions) (h : path = "" ∨ env.isRelativePath path = true) :
    (∃ err : InvalidArgument, (TorrentFilesWatcher.setWatchedFolder env self path cfg).1 = some err) ∧
    (TorrentFilesWatcher.setWatchedFolder env self path cfg).2 = self := by
  obtain ⟨err, herr⟩ := TorrentFilesWatcher.makeCleanPath_error env path h
  constructor
  · exact ⟨err, by
      simp [TorrentFilesWatcher.setWatchedFolder, TorrentFilesWatcher.doSetWatchedFolder, herr]⟩
  · simp [TorrentFilesWatcher.setWatchedFolder, TorrentFilesWatcher.doSetWatchedFolder, herr]

/-- C2 at concrete inputs: the relative path `relative/path` is refused and the registry of a
facade watching `/watch` stays as it is. -/
theorem C2_setWatchedFolder_invalid_path_witness :
    (∃ err : InvalidArgument,
      (TorrentFilesWatcher.setWatchedFolder unixEnv watchingWatcher "relative/path" exampleOptions).1
        = some err) ∧
    (TorrentFilesWatcher.setWatchedFolder unixEnv watchingWatcher "relative/path" exampleOptions).2
      = watchingWatcher :=
  C2_setWatchedFolder_invalid_path unixEnv watchingWatcher "relative/path" exampleOptions
    (Or.inr (by decide))

/-- C3: for a non-empty absolute path `P` whose folder is watched, `removeWatchedFolder(P)`
returns without an exception, removes the entry of `P` (the one under its normalized path) and
leaves every other entry as it is; a second `removeWatchedFolder(P)` right after changes
nothing: the registry, the invocations queued for the worker, the signals emitted and the
stored configuration are all what they were. -/
theorem C3_removeWatchedFolder_twice (env : Env) (self : TorrentFilesWatcher) (P : String)
    (hne : P ≠ "") (habs : env.isRelativePath P = false)
    (hwatched : QHash.contains self.m_watchedFolders (env.cleanPath P) = true) :
    (TorrentFilesWatcher.removeWatchedFolder env self P).1 = none ∧
    QHash.get? (TorrentFilesWatcher.removeWatchedFolder env self P).2.folders (env.cleanPath P) = none ∧
    (∀ key, key ≠ env.cleanPath P →
      QHash.get? (TorrentFilesWatcher.removeWatchedFolder env self P).2.folders key
        = QHash.get? self.folders key) ∧
    (TorrentFilesWatcher.removeWatchedFolder env self P).2.folders
      = self.folders.filter (fun e => decide (e.1 ≠ env.cleanPath P)) ∧
    TorrentFilesWatcher.removeWatchedFolder env (TorrentFilesWatcher.removeWatchedFolder env self P).2 P
      = (none, (TorrentFilesWatcher.removeWatchedFolder env self P).2) := by
  have hok := TorrentFilesWatcher.makeCleanPath_ok env P hne habs
  have hfirst : TorrentFilesWatcher.removeWatchedFolder env self P
      = (none, TorrentFilesWatcher.store
          { m_watchedFolders := QHash.remove self.m_watchedFolders (env.cleanPath P)
            queued := self.queued ++ [WorkerCall.removeWatchedFolder (env.cleanPath P)]
            emitted := self.emitted ++ [WatcherSignal.watchedFolderRemoved (env.cleanPath P)]
            confFile := self.confFile }) := by
    simp [TorrentFilesWatcher.removeWatchedFolder, hok, hwatched]
  rw [hfirst]
  refine ⟨rfl, ?_, ?_, rfl, ?_⟩
  · simp [TorrentFilesWatcher.store, TorrentFilesWatcher.folders, QHash.get?_remove_self]
  · intro key hkey
    simp [TorrentFilesWatcher.store, TorrentFilesWatcher.folders, QHash.get?_remove_ne _ _ _ hkey]
  · have hgone : QHash.contains (QHash.remove self.m_watchedFolders (env.cleanPath P))
        (env.cleanPath P) = false := QHash.contains_remove_self _ _
    have hsame : QHash.remove (QHash.remove self.m_watchedFolders (env.cleanPath P))
        (env.cleanPath P) = QHash.remove self.m_watchedFolders (env.cleanPath P) :=
      QHash.remove_eq_self _ _ hgone
    simp [TorrentFilesWatcher.removeWatchedFolder, hok, TorrentFilesWatcher.store, hgone, hsame]

/-- C3 at a concrete input: removing `/watch/` from a facade watching `/watch` empties the
registry, and removing it once more is a no-op. -/
theorem C3_removeWatchedFolder_twice_witness :
    (TorrentFilesWatcher.removeWatchedFolder unixEnv watchingWatcher "/watch/").2.folders = [] ∧
    TorrentFilesWatcher.removeWatchedFolder unixEnv
        (TorrentFilesWatcher.removeWatchedFolder unixEnv watchingWatcher "/watch/").2 "/watch/"
      = (none, (TorrentFilesWatcher.removeWatchedFolder unixEnv watchingWatcher "/watch/").2) :=
  ⟨(C3_removeWatchedFolder_twice unixEnv watchingWatcher "/watch/" (by decide) (by decide)
      (by decide)).2.2.2.1,
   (C3_removeWatchedFolder_twice unixEnv watchingWatcher "/watch/" (by decide) (by decide)
      (by decide)).2.2.2.2⟩

/-- C4, as stated, fails: the empty path is not a watched folder of a facade without watched
folders, and `removeWatchedFolder` throws the exception of `makeCleanPath` for it. -/
theorem C4_removeWatchedFolder_empty_path_throws :
    QHash.contains emptyWatcher.m_watchedFolders "" = false ∧
    (TorrentFilesWatcher.removeWatchedFolder unixEnv emptyWatcher "").1
      = some ⟨"Watched folder path cannot be empty."⟩ := by
  decide

/-- C4, amended: for a path whose normalized form is not a key of the registry,
`removeWatchedFolder` leaves the object, the registry with it, as it is; it returns without an
exception exactly when the path is non-empty and absolute, and throws `InvalidArgument` for an
empty or relative path. -/
theorem C4_removeWatchedFolder_not_watched (env : Env) (self : TorrentFilesWatcher) (path : String)
    (hnot : QHash.contains self.m_watchedFolders (env.cleanPath path) = false) :
    (TorrentFilesWatcher.removeWatchedFolder env self path).2 = self ∧
    ((TorrentFilesWatcher.removeWatchedFolder env self path).1 = none ↔
      (path ≠ "" ∧ env.isRelativePath path = false)) := by
  by_cases hvalid : path ≠ "" ∧ env.isRelativePath path = false
  · have hok := TorrentFilesWatcher.makeCleanPath_ok env path hvalid.1 hvalid.2
    have hsame := QHash.remove_eq_self _ _ hnot
    simp [TorrentFilesWatcher.removeWatchedFolder, hok, hnot, hsame, hvalid]
  · have hbad : path = "" ∨ env.isRelativePath path = true := by
      by_cases he : path = ""
      · exact Or.inl he
      · right
        cases hr : env.isRelativePath path
        · exact absurd ⟨he, hr⟩ hvalid
        · rfl
    obtain ⟨err, herr⟩ := TorrentFilesWatcher.makeCleanPath_error env path hbad
    have hres : TorrentFilesWatcher.removeWatchedFolder env self path = (some err, self) := by
      simp [TorrentFilesWatcher.removeWatchedFolder, herr]
    rw [hres]
    refine ⟨rfl, ⟨fun h => ?_, fun h => absurd h hvalid⟩⟩
    exact absurd h (by simp)

/-- C4, amended, at a concrete input: `/other` is not watched by a facade watching `/watch`;
removing it raises nothing and changes nothing. -/
theorem C4_removeWatchedFolder_not_watched_witness :
    (TorrentFilesWatcher.removeWatchedFolder unixEnv watchingWatcher "/other").2 = watchingWatcher ∧
    (TorrentFilesWatcher.removeWatchedFolder unixEnv watchingWatcher "/other").1 = none :=
  ⟨(C4_removeWatchedFolder_not_watched unixEnv watchingWatcher "/other" (by decide)).1,
   (C4_removeWatchedFolder_not_watched unixEnv watchingWatcher "/other" (by decide)).2.mpr
     ⟨by decide, by decide⟩⟩

/-! ## Serialisation -/

theorem foldl_append_singleton {α β : Type} (f : α → β) (l : List α) (acc : List β) :
    l.foldl (fun arr x => arr ++ [f x]) acc = acc ++ l.map f := by
  induction l generalizing acc with
  | nil => simp
  | cons x rest ih => simp [ih]

theorem serializeTagSet_eq_map (tags : TagSet) :
    serializeTagSet tags = (tags.sort (· ≤ ·)).map QJsonValue.string := by
  simp [serializeTagSet, foldl_append_singleton]

theorem foldl_insert_toString (l : List String) (acc : TagSet) :
    (l.map QJsonValue.string).foldl (fun tags jsonVal => insert jsonVal.toString tags) acc
      = acc ∪ l.toFinset := by
  induction l generalizing acc with
  | nil => simp
  | cons x rest ih =>
    simp only [List.map_cons, List.foldl_cons]
    rw [ih]
    ext t
    simp only [QJsonValue.toString, Finset.mem_union, Finset.mem_insert, List.mem_toFinset,
      List.mem_cons]
    tauto

theorem parseTagSet_serializeTagSet (tags : TagSet) : parseTagSet (serializeTagSet tags) = tags := by
  rw [serializeTagSet_eq_map, parseTagSet, foldl_insert_toString]
  simp

theorem toInt_ofInt (i dflt : CInt) : (QJsonValue.ofInt i).toInt dflt = i := by
  have h : ((i.val : ℚ)).den = 1 ∧ -2147483648 ≤ ((i.val : ℚ)).num ∧ ((i.val : ℚ)).num ≤ 2147483647 := by
    rw [Rat.den_intCast, Rat.num_intCast]
    exact ⟨rfl, i.property⟩
  simp only [QJsonValue.ofInt, QJsonValue.toInt]
  rw [dif_pos h]
  exact Subtype.ext (Rat.num_intCast i.val)

theorem toEnum_fromEnum_contentLayout (layout dflt : TorrentContentLayout) :
    TorrentContentLayout.toEnum (TorrentContentLayout.fromEnum layout) dflt = layout := by
  cases layout <;> simp [TorrentContentLayout.toEnum, TorrentContentLayout.fromEnum]

theorem parseAddTorrentParams_serializeAddTorrentParams (env : Env) (params : AddTorrentParams) :
    parseAddTorrentParams env (serializeAddTorrentParams params)
      = { params with sequential := false, firstLastPiecePriority := false, filePriorities := [] } := by
  obtain ⟨category, tags, savePath, sequential, firstLast, addForced, addPaused, filePriorities,
    skipChecking, contentLayout, useAutoTMM, uploadLimit, downloadLimit, seedingTimeLimit,
    ratioLimit⟩ := params
  have htags := parseTagSet_serializeTagSet tags
  have hup := toInt_ofInt uploadLimit CInt.minusOne
  have hdown := toInt_ofInt downloadLimit CInt.minusOne
  have hseed := toInt_ofInt seedingTimeLimit env.USE_GLOBAL_SEEDING_TIME
  cases addPaused <;> cases contentLayout <;> cases useAutoTMM <;> cases addForced <;>
    simp [parseAddTorrentParams, serializeAddTorrentParams, AddTorrentParams.default,
      QJsonObject.value, QHash.value, QHash.get?, QHash.insert, getEnum, getOptionalBool,
      getOptionalEnum, QJsonValue.toString, QJsonValue.toBool, QJsonValue.toDouble,
      QJsonValue.toArray, QJsonValue.isUndefined, QJsonValue.isNull,
      TorrentOperatingMode.toEnum, TorrentOperatingMode.fromEnum, toEnum_fromEnum_contentLayout,
      PARAM_CATEGORY, PARAM_TAGS, PARAM_SAVEPATH, PARAM_OPERATINGMODE, PARAM_STOPPED,
      PARAM_SKIPCHECKING, PARAM_CONTENTLAYOUT, PARAM_AUTOTMM, PARAM_UPLOADLIMIT,
      PARAM_DOWNLOADLIMIT, PARAM_SEEDINGTIMELIMIT, PARAM_RATIOLIMIT, htags, hup, hdown, hseed]

/-- C5: parsing the serialised form of a `WatchedFolderOptions` value gives the value back on
every serialised member: the recursive flag, category, tags, save path, forced flag, paused
flag, skip-checking flag, content layout, automatic management flag, upload and download
limits, seeding time limit and ratio limit, whichever optional members are present. -/
theorem C5_parse_serialize_roundtrip (env : Env) (o : WatchedFolderOptions) :
    (parseWatchedFolderOptions env (serializeWatchedFolderOptions o)).recursive = o.recursive ∧
    (parseWatchedFolderOptions env (serializeWatchedFolderOptions o)).addTorrentParams
      = { o.addTorrentParams with
          sequential := false, firstLastPiecePriority := false, filePriorities := [] } := by
  have h := parseAddTorrentParams_serializeAddTorrentParams env o.addTorrentParams
  constructor
  · simp [parseWatchedFolderOptions, serializeWatchedFolderOptions, QJsonObject.value, QHash.value,
      QHash.get?, QJsonValue.toBool, OPTION_ADDTORRENTPARAMS, OPTION_RECURSIVE]
  · simpa [parseWatchedFolderOptions, serializeWatchedFolderOptions, QJsonObject.value, QHash.value,
      QHash.get?, QJsonValue.toObject, OPTION_ADDTORRENTPARAMS, OPTION_RECURSIVE] using h

/-! ## The file system -/

namespace FileSystem

theorem fileExists_eq_true_iff (fs : FileSystem) (p : String) :
    fs.fileExists p = true ↔ fs.filesAt p ≠ [] := by
  simp [fileExists, filesAt, List.any_eq_true, List.filter_eq_nil_iff]

theorem fileExists_eq_false_iff (fs : FileSystem) (p : String) :
    fs.fileExists p = false ↔ fs.filesAt p = [] := by
  rw [← not_iff_not]
  simpa using fileExists_eq_true_iff fs p

theorem find?_eq_head?_filesAt (fs : FileSystem) (p : String) :
    fs.find? p = (fs.filesAt p).head? := by
  unfold find? filesAt
  induction fs.files with
  | nil => rfl
  | cons f rest ih =>
    rw [List.find?_cons, List.filter_cons]
    by_cases h : f.path = p
    · simp [h]
    · simp [h]

theorem fileExists_congr (fs1 fs2 : FileSystem) (p : String) (h : fs1.filesAt p = fs2.filesAt p) :
    fs1.fileExists p = fs2.fileExists p := by
  cases h1 : fs1.fileExists p
  · rw [fileExists_eq_false_iff] at h1
    rw [h] at h1
    exact ((fileExists_eq_false_iff fs2 p).2 h1).symm
  · rw [fileExists_eq_true_iff] at h1
    rw [h] at h1
    exact ((fileExists_eq_true_iff fs2 p).2 h1).symm

theorem openRead_congr (fs1 fs2 : FileSystem) (p : String) (h : fs1.filesAt p = fs2.filesAt p) :
    fs1.openRead p = fs2.openRead p := by
  simp [openRead, find?_eq_head?_filesAt, h]

theorem dirOf_congr (fs1 fs2 : FileSystem) (p : String) (h : fs1.filesAt p = fs2.filesAt p) :
    fs1.dirOf p = fs2.dirOf p := by
  simp [dirOf, find?_eq_head?_filesAt, h]

theorem filesAt_forceRemove_self (fs : FileSystem) (p : String) :
    (fs.forceRemove p).filesAt p = [] := by
  simp [forceRemove, filesAt, List.filter_filter, List.filter_eq_nil_iff]

theorem filesAt_forceRemove_ne (fs : FileSystem) (p q : String) (h : p ≠ q) :
    (fs.forceRemove q).filesAt p = fs.filesAt p := by
  simp only [forceRemove, filesAt, List.filter_filter]
  apply List.filter_congr
  intro f _
  by_cases hf : f.path = p
  · have : f.path ≠ q := fun e => h (hf.symm.trans e)
    simp [hf, this]
    exact fun e => h e
  · simp [hf]

theorem openRead_eq_none_of_filesAt (fs : FileSystem) (p : String) (h : fs.filesAt p = []) :
    fs.openRead p = none := by
  simp [openRead, find?_eq_head?_filesAt, h]

end FileSystem

theorem loadFromFile_congr (env : Env) (fs1 fs2 : FileSystem) (p : String)
    (h : fs1.filesAt p = fs2.filesAt p) : loadFromFile env fs1 p = loadFromFile env fs2 p := by
  simp [loadFromFile, FileSystem.openRead_congr fs1 fs2 p h]

theorem loadFromFile_eq_none_of_filesAt (env : Env) (fs : FileSystem) (p : String)
    (h : fs.filesAt p = []) : loadFromFile env fs p = none := by
  simp [loadFromFile, FileSystem.openRead_eq_none_of_filesAt fs p h]

/-! ## One file of a scan -/

namespace Worker

theorem signalsFor_append (self : Worker) (evs : List Signal) (p : String) :
    signalsFor { self with emitted := self.emitted ++ evs } p
      = signalsFor self p ++ evs.filter (fun e => decide (e.filePath = p)) := by
  simp [signalsFor]

theorem foldl_emit (self : Worker) (ev : String → Signal) (lines : List String) :
    lines.foldl (fun (self : Worker) line => { self with emitted := self.emitted ++ [ev line] }) self
      = { self with emitted := self.emitted ++ lines.map ev } := by
  induction lines generalizing self with
  | nil => simp
  | cons line rest ih => simp [ih]

/-- A readable magnet file: one signal for every line, then the file is removed. -/
theorem processFile_magnet (env : Env) (path root : String) (options : WatchedFolderOptions)
    (self : Worker) (q text : String) (hm : endsWithCI q ".magnet" = true)
    (hopen : self.fs.openRead q = some text) :
    processFile env path root options self q
      = { self with
          emitted := self.emitted ++ (env.readLines text).map (fun line =>
            Signal.magnetFound path q (env.magnetUri line) (folderParams env path root options))
          fs := self.fs.forceRemove q } := by
  simp [processFile, hm, hopen, foldl_emit]

/-- A magnet file that cannot be opened is left alone. -/
theorem processFile_magnet_closed (env : Env) (path root : String) (options : WatchedFolderOptions)
    (self : Worker) (q : String) (hm : endsWithCI q ".magnet" = true)
    (hopen : self.fs.openRead q = none) :
    processFile env path root options self q = self := by
  simp [processFile, hm, hopen]

/-- A descriptor that loads: one signal, then the file is removed. -/
theorem processFile_torrent (env : Env) (path root : String) (options : WatchedFolderOptions)
    (self : Worker) (q : String) (info : TorrentInfo) (hm : endsWithCI q ".magnet" = false)
    (hload : loadFromFile env self.fs q = some info) :
    processFile env path root options self q
      = { self with
          emitted := self.emitted ++
            [Signal.torrentFound path q info (folderParams env path root options)]
          fs := self.fs.forceRemove q } := by
  simp [processFile, hm, hload]

/-- A descriptor that does not load: no signal, the file system is left alone. -/
theorem processFile_torrent_failed (env : Env) (path root : String) (options : WatchedFolderOptions)
    (self : Worker) (q : String) (hm : endsWithCI q ".magnet" = false)
    (hload : loadFromFile env self.fs q = none) :
    (processFile env path root options self q).emitted = self.emitted ∧
    (processFile env path root options self q).fs = self.fs := by
  simp only [processFile, hm, hload, Bool.false_eq_true, ↓reduceIte]
  split <;> exact ⟨rfl, rfl⟩

/-- What one file of a scan may change. -/
theorem processFile_spec (env : Env) (path root : String) (options : WatchedFolderOptions)
    (self : Worker) (q : String) :
    (∃ evs, (processFile env path root options self q).emitted = self.emitted ++ evs ∧
      ∀ e ∈ evs, e.filePath = q ∧ e.folder = path ∧
        e.addTorrentParams = folderParams env path root options) ∧
    ((processFile env path root options self q).fs = self.fs ∨
      (processFile env path root options self q).fs = self.fs.forceRemove q) ∧
    (processFile env path root options self q).m_watchedFolders = self.m_watchedFolders := by
  cases hm : endsWithCI q ".magnet"
  · cases hload : loadFromFile env self.fs q with
    | none =>
      have h := processFile_torrent_failed env path root options self q hm hload
      refine ⟨⟨[], by simp [h.1], by simp⟩, Or.inl h.2, ?_⟩
      simp only [processFile, hm, hload, Bool.false_eq_true, ↓reduceIte]
      split <;> rfl
    | some info =>
      rw [processFile_torrent env path root options self q info hm hload]
      exact ⟨⟨_, rfl, by simp [Signal.filePath, Signal.folder, Signal.addTorrentParams]⟩,
        Or.inr rfl, rfl⟩
  · cases hopen : self.fs.openRead q with
    | none =>
      rw [processFile_magnet_closed env path root options self q hm hopen]
      exact ⟨⟨[], by simp, by simp⟩, Or.inl rfl, rfl⟩
    | some text =>
      rw [processFile_magnet env path root options self q text hm hopen]
      refine ⟨⟨_, rfl, ?_⟩, Or.inr rfl, rfl⟩
      intro e he
      simp only [List.mem_map] at he
      obtain ⟨line, _, rfl⟩ := he
      simp [Signal.filePath, Signal.folder, Signal.addTorrentParams]

theorem processFile_dirs (env : Env) (path root : String) (options : WatchedFolderOptions)
    (self : Worker) (q : String) :
    (processFile env path root options self q).fs.dirs = self.fs.dirs := by
  rcases (processFile_spec env path root options self q).2.1 with h | h <;> rw [h]
  rfl

theorem processFile_filesAt_ne (env : Env) (path root : String) (options : WatchedFolderOptions)
    (self : Worker) (p q : String) (hne : p ≠ q) :
    (processFile env path root options self q).fs.filesAt p = self.fs.filesAt p := by
  rcases (processFile_spec env path root options self q).2.1 with h | h <;> rw [h]
  exact FileSystem.filesAt_forceRemove_ne _ _ _ hne

theorem processFile_signalsFor_ne (env : Env) (path root : String) (options : WatchedFolderOptions)
    (self : Worker) (p q : String) (hne : p ≠ q) :
    signalsFor (processFile env path root options self q) p = signalsFor self p := by
  obtain ⟨evs, hev, hall⟩ := (processFile_spec env path root options self q).1
  simp only [signalsFor, hev, List.filter_append]
  have : evs.filter (fun e => decide (e.filePath = p)) = [] := by
    rw [List.filter_eq_nil_iff]
    intro e he
    have := (hall e he).1
    simp [this, Ne.symm hne]
  simp [this]

/-- A file that is gone: no signal, and it stays gone. -/
theorem processFile_gone (env : Env) (path root : String) (options : WatchedFolderOptions)
    (self : Worker) (q : String) (hgone : self.fs.filesAt q = []) :
    (processFile env path root options self q).emitted = self.emitted ∧
    (processFile env path root options self q).fs = self.fs := by
  cases hm : endsWithCI q ".magnet"
  · exact processFile_torrent_failed env path root options self q hm
      (loadFromFile_eq_none_of_filesAt env self.fs q hgone)
  · rw [processFile_magnet_closed env path root options self q hm
      (FileSystem.openRead_eq_none_of_filesAt self.fs q hgone)]
    exact ⟨rfl, rfl⟩

end Worker

/-! ## The files of one directory -/

namespace Worker

theorem scanFiles_gone (env : Env) (path root : String) (options : WatchedFolderOptions)
    (files : List String) (self : Worker) (p : String) (hgone : self.fs.filesAt p = []) :
    (files.foldl (processFile env path root options) self).fs.filesAt p = [] ∧
    signalsFor (files.foldl (processFile env path root options) self) p = signalsFor self p := by
  induction files generalizing self with
  | nil => exact ⟨hgone, rfl⟩
  | cons q rest ih =>
    rw [List.foldl_cons]
    by_cases hq : p = q
    · subst hq
      have h := processFile_gone env path root options self p hgone
      have ih2 := ih (processFile env path root options self p) (by rw [h.2]; exact hgone)
      refine ⟨ih2.1, ?_⟩
      rw [ih2.2]
      simp [signalsFor, h.1]
    · have ih2 := ih (processFile env path root options self q)
        (by rw [processFile_filesAt_ne env path root options self p q hq]; exact hgone)
      exact ⟨ih2.1, by rw [ih2.2, processFile_signalsFor_ne env path root options self p q hq]⟩

theorem scanFiles_first (env : Env) (path root : String) (options : WatchedFolderOptions)
    (files : List String) (self : Worker) (p : String) (new : List Signal) (hin : p ∈ files)
    (hstep : ∀ s : Worker, s.fs.filesAt p = self.fs.filesAt p →
      (processFile env path root options s p).fs.filesAt p = [] ∧
      signalsFor (processFile env path root options s p) p = signalsFor s p ++ new) :
    (files.foldl (processFile env path root options) self).fs.filesAt p = [] ∧
    signalsFor (files.foldl (processFile env path root options) self) p
      = signalsFor self p ++ new := by
  induction files generalizing self with
  | nil => simp at hin
  | cons q rest ih =>
    rw [List.foldl_cons]
    by_cases hq : p = q
    · subst hq
      have h := hstep self rfl
      have hg := scanFiles_gone env path root options rest
        (processFile env path root options self p) p h.1
      exact ⟨hg.1, by rw [hg.2, h.2]⟩
    · have hin2 : p ∈ rest := by
        rcases List.mem_cons.1 hin with h | h
        · exact absurd h hq
        · exact h
      have hf := processFile_filesAt_ne env path root options self p q hq
      have ih2 := ih (processFile env path root options self q) hin2
        (fun s hs => by
          have := hstep s (hs.trans hf)
          exact this)
      exact ⟨ih2.1, by rw [ih2.2, processFile_signalsFor_ne env path root options self p q hq]⟩

theorem scanFiles_spec (env : Env) (path root : String) (options : WatchedFolderOptions)
    (files : List String) (self : Worker) :
    (∃ evs, (files.foldl (processFile env path root options) self).emitted = self.emitted ++ evs ∧
      ∀ e ∈ evs, e.filePath ∈ files ∧ e.folder = path ∧
        e.addTorrentParams = folderParams env path root options) ∧
    (files.foldl (processFile env path root options) self).fs.dirs = self.fs.dirs ∧
    (files.foldl (processFile env path root options) self).m_watchedFolders
      = self.m_watchedFolders := by
  induction files generalizing self with
  | nil => exact ⟨⟨[], by simp, by simp⟩, rfl, rfl⟩
  | cons q rest ih =>
    rw [List.foldl_cons]
    obtain ⟨⟨evs1, hev1, hall1⟩, _, hw1⟩ := processFile_spec env path root options self q
    obtain ⟨⟨evs2, hev2, hall2⟩, hd2, hw2⟩ := ih (processFile env path root options self q)
    refine ⟨⟨evs1 ++ evs2, by rw [hev2, hev1, List.append_assoc], ?_⟩, ?_, ?_⟩
    · intro e he
      rcases List.mem_append.1 he with h | h
      · obtain ⟨h1, h2, h3⟩ := hall1 e h
        exact ⟨by simp [h1], h2, h3⟩
      · obtain ⟨h1, h2, h3⟩ := hall2 e h
        exact ⟨List.mem_cons_of_mem _ h1, h2, h3⟩
    · rw [hd2, processFile_dirs]
    · rw [hw2, hw1]

theorem processFolder_flat (env : Env) (fuel : Nat) (path root : String)
    (options : WatchedFolderOptions) (self : Worker) (hflat : options.recursive = false) :
    processFolder env (fuel + 1) path root options self
      = some ((self.fs.torrentFiles path).foldl (processFile env path root options) self) := by
  simp [processFolder, hflat]

theorem mem_torrentFiles (fs : FileSystem) (path : String) (f : File) (hf : f ∈ fs.files)
    (hdir : f.dir = FileSystem.dirName path) (hname : matchesNameFilters f.name = true)
    (hvisible : f.isHidden = false) : f.path ∈ fs.torrentFiles path := by
  simp only [FileSystem.torrentFiles, List.mem_map, List.mem_filter]
  exact ⟨f, ⟨hf, by simp [hname, hdir, hvisible]⟩, rfl⟩

theorem folderParams_root (env : Env) (root : String) (options : WatchedFolderOptions) :
    folderParams env root root options = options.addTorrentParams := by
  simp [folderParams]

end Worker

/-! ## File names -/

theorem endsWithCI_iff (s suffix : String) :
    endsWithCI s suffix = true ↔
      (suffix.toList.map Char.toLower) <:+ (s.toList.map Char.toLower) := by
  simp [endsWithCI, List.isSuffixOf_iff_suffix]

theorem endsWithCI_append_left (a s suffix : String) (h : endsWithCI s suffix = true) :
    endsWithCI (a ++ s) suffix = true := by
  rw [endsWithCI_iff] at h ⊢
  have : (a ++ s).toList = a.toList ++ s.toList := String.data_append a s
  rw [this, List.map_append]
  exact h.trans (List.suffix_append _ _)

theorem endsWithCI_torrent_not_magnet (s : String) (h : endsWithCI s ".torrent" = true) :
    endsWithCI s ".magnet" = false := by
  cases hm : endsWithCI s ".magnet"
  · rfl
  · rw [endsWithCI_iff] at h hm
    have := List.suffix_of_suffix_length_le hm h (by decide)
    exact absurd this (by decide)

theorem File.isDescriptor_matches (f : File) (h : f.isDescriptor = true) :
    matchesNameFilters f.name = true := by
  simp only [File.isDescriptor] at h
  simp [matchesNameFilters, h]

theorem File.isDescriptor_path (f : File) (h : f.isDescriptor = true) :
    endsWithCI f.path ".magnet" = false :=
  endsWithCI_torrent_not_magnet _ (endsWithCI_append_left _ _ _ h)

namespace Worker

theorem scanFiles_files (env : Env) (path root : String) (options : WatchedFolderOptions)
    (files : List String) (self : Worker) :
    ∀ g ∈ (files.foldl (processFile env path root options) self).fs.files, g ∈ self.fs.files := by
  induction files generalizing self with
  | nil => exact fun g hg => hg
  | cons q rest ih =>
    rw [List.foldl_cons]
    intro g hg
    have h1 := ih (processFile env path root options self q) g hg
    rcases (processFile_spec env path root options self q).2.1 with h | h
    · rw [h] at h1
      exact h1
    · rw [h] at h1
      exact (List.mem_filter.1 h1).1

theorem scanFiles_untouched (env : Env) (path root : String) (options : WatchedFolderOptions)
    (files : List String) (self : Worker) (p : String) (hp : p ∉ files) :
    (files.foldl (processFile env path root options) self).fs.filesAt p = self.fs.filesAt p := by
  induction files generalizing self with
  | nil => rfl
  | cons q rest ih =>
    rw [List.foldl_cons]
    have hq : p ≠ q := fun e => hp (by simp [e])
    have hrest : p ∉ rest := fun h => hp (List.mem_cons_of_mem _ h)
    rw [ih (processFile env path root options self q) hrest,
      processFile_filesAt_ne env path root options self p q hq]

theorem mem_torrentFiles_iff (fs : FileSystem) (path p : String) :
    p ∈ fs.torrentFiles path ↔
      ∃ g ∈ fs.files, g.dir = FileSystem.dirName path ∧ matchesNameFilters g.name = true ∧
        g.isHidden = false ∧ g.path = p := by
  simp only [FileSystem.torrentFiles, List.mem_map, List.mem_filter, Bool.and_eq_true,
    decide_eq_true_eq, Bool.not_eq_true']
  constructor
  · rintro ⟨g, ⟨hg, ⟨hd, hn⟩, hv⟩, hp⟩
    exact ⟨g, hg, hd, hn, hv, hp⟩
  · rintro ⟨g, hg, hd, hn, hv, hp⟩
    exact ⟨g, ⟨hg, ⟨hd, hn⟩, hv⟩, hp⟩

theorem scanFiles_scanOf (env : Env) (path root : String) (options : WatchedFolderOptions)
    (self : Worker) :
    ScanOf env root options path self
      ((self.fs.torrentFiles path).foldl (processFile env path root options) self) := by
  obtain ⟨⟨evs, hev, hall⟩, hdirs, hwatched⟩ :=
    scanFiles_spec env path root options (self.fs.torrentFiles path) self
  refine ⟨hwatched, hdirs, scanFiles_files env path root options _ self, ⟨evs, hev, ?_⟩, ?_⟩
  · intro e he
    obtain ⟨h1, h2, h3⟩ := hall e he
    obtain ⟨g, hg, hd, _, hv, hp⟩ := (mem_torrentFiles_iff self.fs path e.filePath).1 h1
    exact ⟨⟨g, hg, by rw [h2]; exact hd, hp, hv⟩, by rw [h3, h2], Or.inl h2⟩
  · intro p hp
    apply scanFiles_untouched
    intro hmem
    obtain ⟨g, hg, hd, _, _, hpath⟩ := (mem_torrentFiles_iff self.fs path p).1 hmem
    exact (hp g hg hpath).1 hd

theorem ScanOf.andThen {env : Env} {root : String} {options : WatchedFolderOptions}
    {path D : String} {s s1 s2 : Worker} (h1 : ScanOf env root options path s s1)
    (h2 : ScanOf env root options D s1 s2) (hD : QHash.contains s1.m_watchedFolders D = false) :
    ScanOf env root options path s s2 := by
  obtain ⟨evs1, hev1, hall1⟩ := h1.signals
  obtain ⟨evs2, hev2, hall2⟩ := h2.signals
  refine ⟨h2.watched.trans h1.watched, h2.dirs.trans h1.dirs,
    fun g hg => h1.files g (h2.files g hg), ⟨evs1 ++ evs2, ?_, ?_⟩, ?_⟩
  · rw [hev2, hev1, List.append_assoc]
  · intro e he
    rcases List.mem_append.1 he with h | h
    · exact hall1 e h
    · obtain ⟨⟨g, hg, hgd, hgp, hgv⟩, hparams, hfolder⟩ := hall2 e h
      refine ⟨⟨g, h1.files g hg, hgd, hgp, hgv⟩, hparams, Or.inr ?_⟩
      rcases hfolder with hf | hf
      · rw [hf, ← h1.watched]
        exact hD
      · rw [← h1.watched]
        exact hf
  · intro p hp
    rw [h2.untouched p ?_, h1.untouched p hp]
    intro g hg hpath
    have hreg := (hp g (h1.files g hg) hpath).2
    rw [← h1.watched] at hreg
    refine ⟨?_, hreg⟩
    intro hgD
    have := hreg D hgD.symm
    rw [hD] at this
    exact absurd this (by simp)

/-- The second loop of `processFolder`, given what the recursive calls do. -/
theorem subDirs_scanOf (env : Env) (root : String) (options : WatchedFolderOptions) (fuel : Nat)
    (ih : ∀ (path : String) (s s' : Worker),
      processFolder env fuel path root options s = some s' → ScanOf env root options path s s')
    (path : String) (s0 : Worker) (dirs : List String) :
    ∀ (s1 s2 : Worker), ScanOf env root options path s0 s1 →
      dirs.foldlM (fun (s : Worker) folderPath =>
        if !QHash.contains s.m_watchedFolders folderPath then
          processFolder env fuel folderPath root options s
        else some s) s1 = some s2 →
      ScanOf env root options path s0 s2 := by
  induction dirs with
  | nil =>
    intro s1 s2 hs h
    simp only [List.foldlM_nil, pure, Option.some.injEq] at h
    rw [← h]
    exact hs
  | cons D rest ihd =>
    intro s1 s2 hs h
    rw [List.foldlM_cons] at h
    obtain ⟨s1', hstep, hrest⟩ := Option.bind_eq_some.1 h
    refine ihd s1' s2 ?_ hrest
    cases hc : QHash.contains s1.m_watchedFolders D
    · simp only [hc, Bool.not_false, ↓reduceIte] at hstep
      exact hs.andThen (ih D s1 s1' hstep) hc
    · simp only [hc, Bool.not_true, Bool.false_eq_true, ↓reduceIte, Option.some.injEq] at hstep
      rw [← hstep]
      exact hs

theorem processFolder_scanOf (env : Env) (root : String) (options : WatchedFolderOptions) :
    ∀ (fuel : Nat) (path : String) (self self' : Worker),
      processFolder env fuel path root options self = some self' →
      ScanOf env root options path self self' := by
  intro fuel
  induction fuel with
  | zero =>
    intro path self self' h
    simp [processFolder] at h
  | succ fuel ih =>
    intro path self self' h
    have hfirst := scanFiles_scanOf env path root options self
    simp only [processFolder] at h
    cases hr : options.recursive
    · simp only [hr, Bool.false_eq_true, ↓reduceIte, Option.some.injEq] at h
      rw [← h]
      exact hfirst
    · simp only [hr, ↓reduceIte] at h
      exact subDirs_scanOf env root options fuel ih path self _ _ _ hfirst h

/-- The directories form a tree of finite height: `processFolder` returns. -/
theorem processFolder_returns (env : Env) (root : String) (options : WatchedFolderOptions)
    (rank : String → Nat) :
    ∀ (fuel : Nat) (path : String) (self : Worker),
      (∀ d ∈ self.fs.dirs, rank (FileSystem.dirName d.path) < rank d.dir) →
      rank (FileSystem.dirName path) < fuel →
      ∃ self', processFolder env fuel path root options self = some self' := by
  intro fuel
  induction fuel with
  | zero =>
    intro path self _ h
    exact absurd h (Nat.not_lt_zero _)
  | succ fuel ih =>
    intro path self hrank hfuel
    have hfold : ∀ (dirs : List String) (s1 : Worker), s1.fs.dirs = self.fs.dirs →
        (∀ D ∈ dirs, rank (FileSystem.dirName D) < fuel) →
        ∃ s2, dirs.foldlM (fun (s : Worker) folderPath =>
          if !QHash.contains s.m_watchedFolders folderPath then
            processFolder env fuel folderPath root options s
          else some s) s1 = some s2 := by
      intro dirs
      induction dirs with
      | nil => exact fun s1 _ _ => ⟨s1, rfl⟩
      | cons D rest ihd =>
        intro s1 hd hall
        rw [List.foldlM_cons]
        cases hc : QHash.contains s1.m_watchedFolders D
        · obtain ⟨s1', hs1'⟩ := ih D s1 (by rw [hd]; exact hrank) (hall D (by simp))
          have hd' := (processFolder_scanOf env root options fuel D s1 s1' hs1').dirs
          obtain ⟨s2, hs2⟩ := ihd s1' (hd'.trans hd) (fun D' h => hall D' (List.mem_cons_of_mem _ h))
          refine ⟨s2, ?_⟩
          simp only [hc, Bool.not_false, ↓reduceIte, hs1', bind, Option.bind]
          exact hs2
        · obtain ⟨s2, hs2⟩ := ihd s1 hd (fun D' h => hall D' (List.mem_cons_of_mem _ h))
          refine ⟨s2, ?_⟩
          simp only [hc, Bool.not_true, Bool.false_eq_true, ↓reduceIte, bind, Option.bind]
          exact hs2
    simp only [processFolder]
    cases hr : options.recursive
    · simp only [Bool.false_eq_true, ↓reduceIte]
      exact ⟨_, rfl⟩
    · simp only [↓reduceIte]
      have hd1 := (scanFiles_scanOf env path root options self).dirs
      apply hfold _ _ hd1
      intro D hD
      simp only [FileSystem.subDirs, List.mem_map, List.mem_filter, decide_eq_true_eq,
        Bool.and_eq_true] at hD
      obtain ⟨d, ⟨hd, hdir, _⟩, rfl⟩ := hD
      rw [hd1] at hd
      have := hrank d hd
      rw [hdir] at this
      omega

/-- The state `processWatchedFolder` returns differs from the one `processFolder` returns in
the retry timer only. -/
theorem processWatchedFolder_of_processFolder (env : Env) (fuel : Nat) (self s : Worker)
    (path : String)
    (h : processFolder env fuel path path
      (QHash.value self.m_watchedFolders path (WatchedFolderOptions.default env)) self = some s) :
    ∃ self', processWatchedFolder env fuel self path = some self' ∧
      self'.emitted = s.emitted ∧ self'.fs = s.fs ∧
      self'.m_failedTorrents = s.m_failedTorrents ∧ self'.m_watchedFolders = s.m_watchedFolders := by
  simp only [processWatchedFolder, h]
  split
  · exact ⟨_, rfl, rfl, rfl, rfl, rfl⟩
  · exact ⟨_, rfl, rfl, rfl, rfl, rfl⟩

end Worker

theorem String.append_right_cancel {a b c : String} (h : a ++ c = b ++ c) : a = b := by
  have := congrArg String.data h
  simp only [String.data_append] at this
  exact String.ext (List.append_cancel_right this)

theorem String.ne_append_self (a c : String) (hc : c ≠ "") : a ≠ a ++ c := by
  intro h
  have := congrArg String.data h
  simp only [String.data_append] at this
  have hnil : c.data = [] := by
    have := congrArg List.length this
    simp only [List.length_append] at this
    exact List.length_eq_zero.1 (by omega)
  exact hc (String.ext hnil)

theorem endsWithCI_rejected (q : String) : endsWithCI (q ++ ".qbt_rejected") ".torrent" = false := by
  cases h : endsWithCI (q ++ ".qbt_rejected") ".torrent"
  · rfl
  · rw [endsWithCI_iff] at h
    have happ : (q ++ ".qbt_rejected").toList = q.toList ++ ".qbt_rejected".toList :=
      String.data_append q ".qbt_rejected"
    rw [happ, List.map_append] at h
    have := List.suffix_of_suffix_length_le h (List.suffix_append _ _) (by decide)
    exact absurd this (by decide)

theorem ne_rejected_of_descriptor (p q : String) (hp : endsWithCI p ".torrent" = true) :
    p ≠ q ++ ".qbt_rejected" := by
  intro h
  rw [h, endsWithCI_rejected] at hp
  exact absurd hp (by simp)

theorem File.path_rename (f : File) (suffix : String) :
    ({ f with name := f.name ++ suffix } : File).path = f.path ++ suffix := by
  simp [File.path, String.append_assoc]

namespace FileSystem

theorem filesAt_renameAppend_other (fs : FileSystem) (q suffix p : String) (h1 : p ≠ q)
    (h2 : p ≠ q ++ suffix) : (fs.renameAppend q suffix).filesAt p = fs.filesAt p := by
  unfold renameAppend
  split
  · rfl
  · simp only [filesAt, List.filter_map]
    have hfilter : List.filter ((fun f => decide (f.path = p)) ∘
        fun f => if f.path = q then { f with name := f.name ++ suffix } else f) fs.files
        = List.filter (fun f => decide (f.path = p)) fs.files := by
      apply List.filter_congr
      intro f _
      by_cases hf : f.path = q
      · have hne : ¬ q = p := fun e => h1 e.symm
        have hne2 : ¬ q ++ suffix = p := fun e => h2 e.symm
        rw [Function.comp_apply, if_pos hf, File.path_rename, hf]
        simp [hne, hne2]
      · simp [hf]
    rw [hfilter]
    have hmap : List.map (fun f : File => if f.path = q then { f with name := f.name ++ suffix } else f)
        (List.filter (fun f => decide (f.path = p)) fs.files)
        = List.map id (List.filter (fun f => decide (f.path = p)) fs.files) := by
      apply List.map_congr_left
      intro f hf
      have hp : f.path = p := by simpa using (List.mem_filter.1 hf).2
      have : ¬ f.path = q := fun e => h1 (hp.symm.trans e)
      simp [this]
    rw [hmap, List.map_id]

theorem filesAt_renameAppend_old (fs : FileSystem) (q suffix : String) (hs : suffix ≠ "")
    (hfree : fs.filesAt (q ++ suffix) = []) : (fs.renameAppend q suffix).filesAt q = [] := by
  have hex : fs.fileExists (q ++ suffix) = false := (fileExists_eq_false_iff _ _).2 hfree
  simp only [renameAppend, hex, Bool.false_eq_true, ↓reduceIte, filesAt, List.filter_map]
  rw [List.map_eq_nil_iff, List.filter_eq_nil_iff]
  intro f _
  by_cases hf : f.path = q
  · have := String.ne_append_self q suffix hs
    simp [hf, File.path_rename, this.symm]
  · simp [hf]

theorem filesAt_renameAppend_new (fs : FileSystem) (q suffix : String)
    (hfree : fs.filesAt (q ++ suffix) = []) :
    (fs.renameAppend q suffix).filesAt (q ++ suffix)
      = (fs.filesAt q).map (fun f => { f with name := f.name ++ suffix }) := by
  have hex : fs.fileExists (q ++ suffix) = false := (fileExists_eq_false_iff _ _).2 hfree
  have hnone : ∀ f ∈ fs.files, f.path ≠ q ++ suffix := by
    intro f hf hp
    have : f ∈ fs.filesAt (q ++ suffix) := by simp [filesAt, hf, hp]
    rw [hfree] at this
    simp at this
  simp only [renameAppend, hex, Bool.false_eq_true, ↓reduceIte, filesAt, List.filter_map]
  have hfilter : List.filter ((fun f => decide (f.path = q ++ suffix)) ∘
      fun f => if f.path = q then { f with name := f.name ++ suffix } else f) fs.files
      = List.filter (fun f => decide (f.path = q)) fs.files := by
    apply List.filter_congr
    intro f hf
    by_cases hq : f.path = q
    · simp [hq, File.path_rename]
    · simp [hq, hnone f hf]
  rw [hfilter]
  apply List.map_congr_left
  intro f hf
  have hp : f.path = q := by simpa using (List.mem_filter.1 hf).2
  simp [hp]

end FileSystem

/-! ## One entry of a retry sweep -/

namespace Worker

theorem retryTorrent_missing (env : Env) (dirPath d : String) (options : WatchedFolderOptions)
    (q : String) (v : Int) (self : Worker) (hex : self.fs.fileExists q = false) :
    retryTorrent env dirPath d options q v self = ((true, v), self) := by
  simp [retryTorrent, hex]

theorem retryTorrent_loaded (env : Env) (dirPath d : String) (options : WatchedFolderOptions)
    (q : String) (v : Int) (self : Worker) (info : TorrentInfo)
    (hex : self.fs.fileExists q = true) (hload : loadFromFile env self.fs q = some info) :
    ∃ params, retryTorrent env dirPath d options q v self
      = ((true, v), { self with
          emitted := self.emitted ++ [Signal.torrentFound d q info params]
          fs := self.fs.forceRemove q }) := by
  simp only [retryTorrent, hex, hload, Bool.not_true, Bool.false_eq_true, ↓reduceIte]
  exact ⟨_, rfl⟩

theorem retryTorrent_rejected (env : Env) (dirPath d : String) (options : WatchedFolderOptions)
    (q : String) (v : Int) (self : Worker) (hex : self.fs.fileExists q = true)
    (hload : loadFromFile env self.fs q = none) (hv : v ≥ MAX_FAILED_RETRIES) :
    retryTorrent env dirPath d options q v self
      = ((true, v), { self with fs := self.fs.renameAppend q ".qbt_rejected" }) := by
  simp [retryTorrent, hex, hload, hv]

theorem retryTorrent_kept (env : Env) (dirPath d : String) (options : WatchedFolderOptions)
    (q : String) (v : Int) (self : Worker) (hex : self.fs.fileExists q = true)
    (hload : loadFromFile env self.fs q = none) (hv : v < MAX_FAILED_RETRIES) :
    retryTorrent env dirPath d options q v self = ((false, v + 1), self) := by
  have : ¬ v ≥ MAX_FAILED_RETRIES := not_le.2 hv
  simp [retryTorrent, hex, hload, this]

/-- What one entry of a sweep may change. -/
theorem retryTorrent_spec (env : Env) (dirPath d : String) (options : WatchedFolderOptions)
    (q : String) (v : Int) (self : Worker) :
    (∃ evs, (retryTorrent env dirPath d options q v self).2.emitted = self.emitted ++ evs ∧
      ∀ e ∈ evs, e.filePath = q) ∧
    ((retryTorrent env dirPath d options q v self).2.fs = self.fs ∨
      (retryTorrent env dirPath d options q v self).2.fs = self.fs.forceRemove q ∨
      (retryTorrent env dirPath d options q v self).2.fs = self.fs.renameAppend q ".qbt_rejected") ∧
    (retryTorrent env dirPath d options q v self).2.m_watchedFolders = self.m_watchedFolders := by
  cases hex : self.fs.fileExists q
  · rw [retryTorrent_missing env dirPath d options q v self hex]
    exact ⟨⟨[], by simp, by simp⟩, Or.inl rfl, rfl⟩
  · cases hload : loadFromFile env self.fs q with
    | some info =>
      obtain ⟨params, h⟩ := retryTorrent_loaded env dirPath d options q v self info hex hload
      rw [h]
      exact ⟨⟨_, rfl, by simp [Signal.filePath]⟩, Or.inr (Or.inl rfl), rfl⟩
    | none =>
      by_cases hv : v ≥ MAX_FAILED_RETRIES
      · rw [retryTorrent_rejected env dirPath d options q v self hex hload hv]
        exact ⟨⟨[], by simp, by simp⟩, Or.inr (Or.inr rfl), rfl⟩
      · rw [retryTorrent_kept env dirPath d options q v self hex hload (not_le.1 hv)]
        exact ⟨⟨[], by simp, by simp⟩, Or.inl rfl, rfl⟩

/-- An entry of another file leaves the files and the signals of a descriptor `p` alone. -/
theorem retryTorrent_other (env : Env) (dirPath d : String) (options : WatchedFolderOptions)
    (q : String) (v : Int) (self : Worker) (p : String) (hne : p ≠ q)
    (hp : endsWithCI p ".torrent" = true) :
    (retryTorrent env dirPath d options q v self).2.fs.filesAt p = self.fs.filesAt p ∧
    signalsFor (retryTorrent env dirPath d options q v self).2 p = signalsFor self p := by
  obtain ⟨⟨evs, hev, hall⟩, hfs, _⟩ := retryTorrent_spec env dirPath d options q v self
  constructor
  · rcases hfs with h | h | h <;> rw [h]
    · exact FileSystem.filesAt_forceRemove_ne _ _ _ hne
    · exact FileSystem.filesAt_renameAppend_other _ _ _ _ hne (ne_rejected_of_descriptor p q hp)
  · simp only [signalsFor, hev, List.filter_append]
    have : evs.filter (fun e => decide (e.filePath = p)) = [] := by
      rw [List.filter_eq_nil_iff]
      intro e he
      simp [hall e he, Ne.symm hne]
    simp [this]

/-- An entry of another descriptor leaves the files of the rejected name of `p` alone. -/
theorem retryTorrent_other_rejected (env : Env) (dirPath d : String)
    (options : WatchedFolderOptions) (q : String) (v : Int) (self : Worker) (p : String)
    (hne : p ≠ q) (hq : endsWithCI q ".torrent" = true) :
    (retryTorrent env dirPath d options q v self).2.fs.filesAt (p ++ ".qbt_rejected")
      = self.fs.filesAt (p ++ ".qbt_rejected") := by
  have h1 : p ++ ".qbt_rejected" ≠ q := fun e => ne_rejected_of_descriptor q p hq e.symm
  have h2 : p ++ ".qbt_rejected" ≠ q ++ ".qbt_rejected" :=
    fun e => hne (String.append_right_cancel e)
  rcases (retryTorrent_spec env dirPath d options q v self).2.1 with h | h | h <;> rw [h]
  · exact FileSystem.filesAt_forceRemove_ne _ _ _ h1
  · exact FileSystem.filesAt_renameAppend_other _ _ _ _ h1 h2

end Worker

/-! ## The ledger of one folder in a retry sweep -/

theorem Algorithm.removeIf_cons {α σ : Type} (p : String → α → σ → (Bool × α) × σ)
    (key : String) (value : α) (rest : QHash α) (s : σ) :
    Algorithm.removeIf p ((key, value) :: rest) s
      = (if (p key value s).1.1 then (Algorithm.removeIf p rest (p key value s).2).1
          else (key, (p key value s).1.2) :: (Algorithm.removeIf p rest (p key value s).2).1,
         (Algorithm.removeIf p rest (p key value s).2).2) := rfl

theorem Algorithm.removeIf_keys {α σ : Type} (p : String → α → σ → (Bool × α) × σ)
    (l : QHash α) (s : σ) :
    ∀ t ∈ (Algorithm.removeIf p l s).1, ∃ v, (t.1, v) ∈ l := by
  induction l generalizing s with
  | nil => simp [Algorithm.removeIf]
  | cons e rest ih =>
    obtain ⟨k, v⟩ := e
    rw [Algorithm.removeIf_cons]
    intro t ht
    simp only at ht
    split at ht
    · obtain ⟨v', hv'⟩ := ih _ t ht
      exact ⟨v', List.mem_cons_of_mem _ hv'⟩
    · rcases List.mem_cons.1 ht with h | h
      · exact ⟨v, by simp [h]⟩
      · obtain ⟨v', hv'⟩ := ih _ t h
        exact ⟨v', List.mem_cons_of_mem _ hv'⟩

theorem entriesFor_cons_ne (q : String) (v : Int) (rest : QHash Int) (p : String) (h : p ≠ q) :
    entriesFor ((q, v) :: rest) p = entriesFor rest p := by
  simp [entriesFor, List.filter_cons, Ne.symm h]

theorem entriesFor_cons_self (v : Int) (rest : QHash Int) (p : String) :
    entriesFor ((p, v) :: rest) p = (p, v) :: entriesFor rest p := by
  simp [entriesFor, List.filter_cons]

theorem entriesFor_ite_ne (b : Bool) (q : String) (v : Int) (rest : QHash Int) (p : String)
    (h : p ≠ q) :
    entriesFor (if b = true then rest else (q, v) :: rest) p = entriesFor rest p := by
  cases b
  · simpa using entriesFor_cons_ne q v rest p h
  · simp

theorem entriesFor_eq_nil_iff (l : QHash Int) (p : String) :
    entriesFor l p = [] ↔ ∀ t ∈ l, t.1 ≠ p := by
  simp [entriesFor, List.filter_eq_nil_iff]

namespace Worker

theorem retryTorrents_watched (env : Env) (dirPath d : String) (options : WatchedFolderOptions)
    (l : QHash Int) (s : Worker) :
    (Algorithm.removeIf (retryTorrent env dirPath d options) l s).2.m_watchedFolders
      = s.m_watchedFolders := by
  induction l generalizing s with
  | nil => rfl
  | cons e rest ih =>
    obtain ⟨q, v⟩ := e
    rw [Algorithm.removeIf_cons]
    simp only
    rw [ih, (retryTorrent_spec env dirPath d options q v s).2.2]

/-- A folder without an entry for the descriptor `p`. -/
theorem retryTorrents_none (env : Env) (dirPath d : String) (options : WatchedFolderOptions)
    (p : String) (hp : endsWithCI p ".torrent" = true) (l : QHash Int) (s : Worker)
    (hnone : ∀ t ∈ l, t.1 ≠ p) :
    (Algorithm.removeIf (retryTorrent env dirPath d options) l s).2.fs.filesAt p = s.fs.filesAt p ∧
    signalsFor (Algorithm.removeIf (retryTorrent env dirPath d options) l s).2 p = signalsFor s p ∧
    entriesFor (Algorithm.removeIf (retryTorrent env dirPath d options) l s).1 p = [] ∧
    ((∀ t ∈ l, endsWithCI t.1 ".torrent" = true) →
      (Algorithm.removeIf (retryTorrent env dirPath d options) l s).2.fs.filesAt (p ++ ".qbt_rejected")
        = s.fs.filesAt (p ++ ".qbt_rejected")) := by
  induction l generalizing s with
  | nil => exact ⟨rfl, rfl, rfl, fun _ => rfl⟩
  | cons e rest ih =>
    obtain ⟨q, v⟩ := e
    have hq : p ≠ q := fun h => hnone (q, v) (by simp) h.symm
    have hrest : ∀ t ∈ rest, t.1 ≠ p := fun t ht => hnone t (List.mem_cons_of_mem _ ht)
    obtain ⟨h1, h2, h3, h4⟩ := ih (retryTorrent env dirPath d options q v s).2 hrest
    obtain ⟨f1, f2⟩ := retryTorrent_other env dirPath d options q v s p hq hp
    rw [Algorithm.removeIf_cons]
    refine ⟨h1.trans f1, h2.trans f2, ?_, ?_⟩
    · simp only
      rw [entriesFor_ite_ne _ _ _ _ _ hq]
      exact h3
    · intro hdesc
      have := h4 (fun t ht => hdesc t (List.mem_cons_of_mem _ ht))
      exact this.trans
        (retryTorrent_other_rejected env dirPath d options q v s p hq (hdesc (q, v) (by simp)))

end Worker

namespace Worker

/-- A folder whose entries for the descriptor `p`, which exists and does not load, all have a
counter below the ceiling: each is kept with the counter one higher. -/
theorem retryTorrents_kept (env : Env) (dirPath d : String) (options : WatchedFolderOptions)
    (p : String) (hp : endsWithCI p ".torrent" = true) (l : QHash Int) (s : Worker)
    (hdesc : ∀ t ∈ l, endsWithCI t.1 ".torrent" = true)
    (hex : s.fs.fileExists p = true) (hload : loadFromFile env s.fs p = none)
    (hlt : ∀ t ∈ l, t.1 = p → t.2 < MAX_FAILED_RETRIES) :
    (Algorithm.removeIf (retryTorrent env dirPath d options) l s).2.fs.filesAt p = s.fs.filesAt p ∧
    (Algorithm.removeIf (retryTorrent env dirPath d options) l s).2.fs.filesAt (p ++ ".qbt_rejected")
      = s.fs.filesAt (p ++ ".qbt_rejected") ∧
    entriesFor (Algorithm.removeIf (retryTorrent env dirPath d options) l s).1 p
      = (entriesFor l p).map (fun t => (t.1, t.2 + 1)) := by
  induction l generalizing s with
  | nil => exact ⟨rfl, rfl, rfl⟩
  | cons e rest ih =>
    obtain ⟨q, v⟩ := e
    have hdrest : ∀ t ∈ rest, endsWithCI t.1 ".torrent" = true :=
      fun t ht => hdesc t (List.mem_cons_of_mem _ ht)
    have hltrest : ∀ t ∈ rest, t.1 = p → t.2 < MAX_FAILED_RETRIES :=
      fun t ht => hlt t (List.mem_cons_of_mem _ ht)
    rw [Algorithm.removeIf_cons]
    by_cases hq : p = q
    · subst hq
      have hv : v < MAX_FAILED_RETRIES := hlt (p, v) (by simp) rfl
      rw [retryTorrent_kept env dirPath d options p v s hex hload hv]
      obtain ⟨h1, h2, h3⟩ := ih s hdrest hex hload hltrest
      refine ⟨h1, h2, ?_⟩
      simp only [Bool.false_eq_true, ↓reduceIte]
      rw [entriesFor_cons_self, entriesFor_cons_self, h3]
      rfl
    · obtain ⟨f1, _⟩ := retryTorrent_other env dirPath d options q v s p hq hp
      have f3 := retryTorrent_other_rejected env dirPath d options q v s p hq (hdesc (q, v) (by simp))
      have hex1 : (retryTorrent env dirPath d options q v s).2.fs.fileExists p = true := by
        rw [FileSystem.fileExists_congr _ s.fs p f1]
        exact hex
      have hload1 : loadFromFile env (retryTorrent env dirPath d options q v s).2.fs p = none := by
        rw [loadFromFile_congr env _ s.fs p f1]
        exact hload
      obtain ⟨h1, h2, h3⟩ := ih (retryTorrent env dirPath d options q v s).2 hdrest hex1 hload1 hltrest
      refine ⟨h1.trans f1, h2.trans f3, ?_⟩
      simp only
      rw [entriesFor_ite_ne _ _ _ _ _ hq, h3, entriesFor_cons_ne _ _ _ _ hq]

/-- A folder with one entry for the descriptor `p`, which exists and does not load, the
counter at the ceiling: the file is renamed and the entry dropped. -/
theorem retryTorrents_rejected (env : Env) (dirPath d : String) (options : WatchedFolderOptions)
    (p : String) (hp : endsWithCI p ".torrent" = true) (c : Int) (hc : c ≥ MAX_FAILED_RETRIES)
    (l : QHash Int) (s : Worker)
    (hdesc : ∀ t ∈ l, endsWithCI t.1 ".torrent" = true)
    (hex : s.fs.fileExists p = true) (hload : loadFromFile env s.fs p = none)
    (hfree : s.fs.filesAt (p ++ ".qbt_rejected") = [])
    (hone : entriesFor l p = [(p, c)]) :
    (Algorithm.removeIf (retryTorrent env dirPath d options) l s).2.fs.filesAt p = [] ∧
    (Algorithm.removeIf (retryTorrent env dirPath d options) l s).2.fs.filesAt (p ++ ".qbt_rejected")
      = (s.fs.filesAt p).map (fun f => { f with name := f.name ++ ".qbt_rejected" }) ∧
    entriesFor (Algorithm.removeIf (retryTorrent env dirPath d options) l s).1 p = [] := by
  induction l generalizing s with
  | nil => simp [entriesFor] at hone
  | cons e rest ih =>
    obtain ⟨q, v⟩ := e
    have hdrest : ∀ t ∈ rest, endsWithCI t.1 ".torrent" = true :=
      fun t ht => hdesc t (List.mem_cons_of_mem _ ht)
    rw [Algorithm.removeIf_cons]
    by_cases hq : p = q
    · subst hq
      rw [entriesFor_cons_self] at hone
      have hv : v = c := by
        have := (List.cons.inj hone).1
        exact (Prod.mk.inj this).2
      have hnone : ∀ t ∈ rest, t.1 ≠ p :=
        (entriesFor_eq_nil_iff rest p).1 (List.cons.inj hone).2
      subst hv
      rw [retryTorrent_rejected env dirPath d options p v s hex hload hc]
      obtain ⟨h1, _, h3, h4⟩ := retryTorrents_none env dirPath d options p hp rest
        { s with fs := s.fs.renameAppend p ".qbt_rejected" } hnone
      refine ⟨?_, ?_, ?_⟩
      · rw [h1]
        exact FileSystem.filesAt_renameAppend_old s.fs p ".qbt_rejected" (by decide) hfree
      · rw [h4 hdrest]
        exact FileSystem.filesAt_renameAppend_new s.fs p ".qbt_rejected" hfree
      · simpa using h3
    · obtain ⟨f1, _⟩ := retryTorrent_other env dirPath d options q v s p hq hp
      have f3 := retryTorrent_other_rejected env dirPath d options q v s p hq (hdesc (q, v) (by simp))
      have hex1 : (retryTorrent env dirPath d options q v s).2.fs.fileExists p = true := by
        rw [FileSystem.fileExists_congr _ s.fs p f1]
        exact hex
      have hload1 : loadFromFile env (retryTorrent env dirPath d options q v s).2.fs p = none := by
        rw [loadFromFile_congr env _ s.fs p f1]
        exact hload
      rw [entriesFor_cons_ne _ _ _ _ hq] at hone
      obtain ⟨h1, h2, h3⟩ := ih (retryTorrent env dirPath d options q v s).2 hdrest hex1 hload1
        (by rw [f3]; exact hfree) hone
      refine ⟨h1, by rw [h2, f1], ?_⟩
      simp only
      rw [entriesFor_ite_ne _ _ _ _ _ hq]
      exact h3

/-- A folder with one entry for the descriptor `p`, which exists and does not load, the
counter at the ceiling, while a file of the rejected name exists: the file keeps its name and the
entry is dropped. -/
theorem retryTorrents_rejected_twin (env : Env) (dirPath d : String)
    (options : WatchedFolderOptions)
    (p : String) (hp : endsWithCI p ".torrent" = true) (c : Int) (hc : c ≥ MAX_FAILED_RETRIES)
    (l : QHash Int) (s : Worker)
    (hdesc : ∀ t ∈ l, endsWithCI t.1 ".torrent" = true)
    (hex : s.fs.fileExists p = true) (hload : loadFromFile env s.fs p = none)
    (htwin : s.fs.fileExists (p ++ ".qbt_rejected") = true)
    (hone : entriesFor l p = [(p, c)]) :
    (Algorithm.removeIf (retryTorrent env dirPath d options) l s).2.fs.filesAt p
      = s.fs.filesAt p ∧
    (Algorithm.removeIf (retryTorrent env dirPath d options) l s).2.fs.filesAt (p ++ ".qbt_rejected")
      = s.fs.filesAt (p ++ ".qbt_rejected") ∧
    entriesFor (Algorithm.removeIf (retryTorrent env dirPath d options) l s).1 p = [] := by
  induction l generalizing s with
  | nil => simp [entriesFor] at hone
  | cons e rest ih =>
    obtain ⟨q, v⟩ := e
    have hdrest : ∀ t ∈ rest, endsWithCI t.1 ".torrent" = true :=
      fun t ht => hdesc t (List.mem_cons_of_mem _ ht)
    rw [Algorithm.removeIf_cons]
    by_cases hq : p = q
    · subst hq
      rw [entriesFor_cons_self] at hone
      have hv : v = c := by
        have := (List.cons.inj hone).1
        exact (Prod.mk.inj this).2
      have hnone : ∀ t ∈ rest, t.1 ≠ p :=
        (entriesFor_eq_nil_iff rest p).1 (List.cons.inj hone).2
      subst hv
      have hsame : s.fs.renameAppend p ".qbt_rejected" = s.fs := by
        simp [FileSystem.renameAppend, htwin]
      rw [retryTorrent_rejected env dirPath d options p v s hex hload hc, hsame]
      obtain ⟨h1, _, h3, h4⟩ := retryTorrents_none env dirPath d options p hp rest
        { s with fs := s.fs } hnone
      exact ⟨h1, h4 hdrest, by simpa using h3⟩
    · obtain ⟨f1, _⟩ := retryTorrent_other env dirPath d options q v s p hq hp
      have f3 := retryTorrent_other_rejected env dirPath d options q v s p hq (hdesc (q, v) (by simp))
      have hex1 : (retryTorrent env dirPath d options q v s).2.fs.fileExists p = true := by
        rw [FileSystem.fileExists_congr _ s.fs p f1]
        exact hex
      have hload1 : loadFromFile env (retryTorrent env dirPath d options q v s).2.fs p = none := by
        rw [loadFromFile_congr env _ s.fs p f1]
        exact hload
      have htwin1 : (retryTorrent env dirPath d options q v s).2.fs.fileExists
          (p ++ ".qbt_rejected") = true := by
        rw [FileSystem.fileExists_congr _ s.fs _ f3]
        exact htwin
      rw [entriesFor_cons_ne _ _ _ _ hq] at hone
      obtain ⟨h1, h2, h3⟩ := ih (retryTorrent env dirPath d options q v s).2 hdrest hex1 hload1
        htwin1 hone
      refine ⟨h1.trans f1, h2.trans f3, ?_⟩
      simp only
      rw [entriesFor_ite_ne _ _ _ _ _ hq]
      exact h3

/-- A folder, once the descriptor `p` is gone: its entries for `p` are dropped without a
signal. -/
theorem retryTorrents_gone (env : Env) (dirPath d : String) (options : WatchedFolderOptions)
    (p : String) (hp : endsWithCI p ".torrent" = true) (l : QHash Int) (s : Worker)
    (hgone : s.fs.filesAt p = []) :
    (Algorithm.removeIf (retryTorrent env dirPath d options) l s).2.fs.filesAt p = [] ∧
    signalsFor (Algorithm.removeIf (retryTorrent env dirPath d options) l s).2 p = signalsFor s p ∧
    entriesFor (Algorithm.removeIf (retryTorrent env dirPath d options) l s).1 p = [] := by
  induction l generalizing s with
  | nil => exact ⟨hgone, rfl, rfl⟩
  | cons e rest ih =>
    obtain ⟨q, v⟩ := e
    rw [Algorithm.removeIf_cons]
    by_cases hq : p = q
    · subst hq
      rw [retryTorrent_missing env dirPath d options p v s
        ((FileSystem.fileExists_eq_false_iff s.fs p).2 hgone)]
      obtain ⟨h1, h2, h3⟩ := ih s hgone
      exact ⟨h1, h2, by simpa using h3⟩
    · obtain ⟨f1, f2⟩ := retryTorrent_other env dirPath d options q v s p hq hp
      obtain ⟨h1, h2, h3⟩ := ih (retryTorrent env dirPath d options q v s).2 (by rw [f1]; exact hgone)
      refine ⟨h1, h2.trans f2, ?_⟩
      simp only
      rw [entriesFor_ite_ne _ _ _ _ _ hq]
      exact h3

/-- A folder with an entry for the descriptor `p`, which exists and loads: one signal, the
file is removed and the entries for `p` are dropped. -/
theorem retryTorrents_loaded (env : Env) (dirPath d : String) (options : WatchedFolderOptions)
    (p : String) (hp : endsWithCI p ".torrent" = true) (info : TorrentInfo) (l : QHash Int)
    (s : Worker) (hex : s.fs.fileExists p = true) (hload : loadFromFile env s.fs p = some info)
    (hsome : entriesFor l p ≠ []) :
    (Algorithm.removeIf (retryTorrent env dirPath d options) l s).2.fs.filesAt p = [] ∧
    (∃ params, signalsFor (Algorithm.removeIf (retryTorrent env dirPath d options) l s).2 p
      = signalsFor s p ++ [Signal.torrentFound d p info params]) ∧
    entriesFor (Algorithm.removeIf (retryTorrent env dirPath d options) l s).1 p = [] := by
  induction l generalizing s with
  | nil => simp [entriesFor] at hsome
  | cons e rest ih =>
    obtain ⟨q, v⟩ := e
    rw [Algorithm.removeIf_cons]
    by_cases hq : p = q
    · subst hq
      obtain ⟨params, hstep⟩ := retryTorrent_loaded env dirPath d options p v s info hex hload
      rw [hstep]
      obtain ⟨h1, h2, h3⟩ := retryTorrents_gone env dirPath d options p hp rest
        { s with
          emitted := s.emitted ++ [Signal.torrentFound d p info params]
          fs := s.fs.forceRemove p }
        (FileSystem.filesAt_forceRemove_self s.fs p)
      refine ⟨h1, ⟨params, ?_⟩, by simpa using h3⟩
      rw [h2]
      simp [signalsFor, Signal.filePath]
    · obtain ⟨f1, f2⟩ := retryTorrent_other env dirPath d options q v s p hq hp
      have hex1 : (retryTorrent env dirPath d options q v s).2.fs.fileExists p = true := by
        rw [FileSystem.fileExists_congr _ s.fs p f1]
        exact hex
      have hload1 : loadFromFile env (retryTorrent env dirPath d options q v s).2.fs p = some info := by
        rw [loadFromFile_congr env _ s.fs p f1]
        exact hload
      rw [entriesFor_cons_ne _ _ _ _ hq] at hsome
      obtain ⟨h1, ⟨params, h2⟩, h3⟩ := ih (retryTorrent env dirPath d options q v s).2 hex1 hload1 hsome
      refine ⟨h1, ⟨params, by rw [h2, f2]⟩, ?_⟩
      simp only
      rw [entriesFor_ite_ne _ _ _ _ _ hq]
      exact h3

end Worker

/-! ## The whole ledger in a retry sweep -/

theorem ledgerTrackings_cons (d : String) (l : QHash Int) (rest : QHash (QHash Int)) (p : String) :
    ledgerTrackings ((d, l) :: rest) p
      = (entriesFor l p).map (fun t => (d, t.2)) ++ ledgerTrackings rest p := by
  simp [ledgerTrackings]

theorem ledgerTrackings_ite (d : String) (l : QHash Int) (rest : QHash (QHash Int)) (p : String) :
    ledgerTrackings (if l.isEmpty = true then rest else (d, l) :: rest) p
      = (entriesFor l p).map (fun t => (d, t.2)) ++ ledgerTrackings rest p := by
  cases l with
  | nil => simp [entriesFor]
  | cons t l => simp [ledgerTrackings_cons]

theorem ledgerTrackings_eq_nil_iff (ledger : QHash (QHash Int)) (p : String) :
    ledgerTrackings ledger p = [] ↔ ∀ e ∈ ledger, ∀ t ∈ e.2, t.1 ≠ p := by
  induction ledger with
  | nil => simp [ledgerTrackings]
  | cons e rest ih =>
    obtain ⟨d, l⟩ := e
    rw [ledgerTrackings_cons, List.append_eq_nil, ih, List.map_eq_nil_iff, entriesFor_eq_nil_iff]
    simp

theorem ledgerOfDescriptors_iff (ledger : QHash (QHash Int)) :
    ledgerOfDescriptors ledger = true ↔
      ∀ e ∈ ledger, ∀ t ∈ e.2, endsWithCI t.1 ".torrent" = true := by
  simp [ledgerOfDescriptors, List.all_eq_true]

theorem mem_ledgerTrackings (ledger : QHash (QHash Int)) (p d : String) (c : Int) :
    (d, c) ∈ ledgerTrackings ledger p ↔ ∃ l, (d, l) ∈ ledger ∧ (p, c) ∈ l := by
  simp only [ledgerTrackings, entriesFor, List.mem_flatMap, List.mem_map, List.mem_filter,
    decide_eq_true_eq, Prod.mk.injEq, Prod.exists]
  constructor
  · rintro ⟨d', l, hl, q, c', ⟨hq, hqp⟩, hd, hc⟩
    subst hd hc hqp
    exact ⟨l, hl, hq⟩
  · rintro ⟨l, hl, hq⟩
    exact ⟨d, l, hl, p, c, ⟨hq, rfl⟩, rfl, rfl⟩

namespace Worker

theorem removeIf_retryFolder_cons (env : Env) (d : String) (l : QHash Int)
    (rest : QHash (QHash Int)) (s : Worker) :
    Algorithm.removeIf (retryFolder env) ((d, l) :: rest) s
      = (if (Algorithm.removeIf (retryTorrent env (env.dirPath d) d
              (QHash.value s.m_watchedFolders d (WatchedFolderOptions.default env))) l s).1.isEmpty
            = true
          then (Algorithm.removeIf (retryFolder env) rest
            (Algorithm.removeIf (retryTorrent env (env.dirPath d) d
              (QHash.value s.m_watchedFolders d (WatchedFolderOptions.default env))) l s).2).1
          else (d, (Algorithm.removeIf (retryTorrent env (env.dirPath d) d
              (QHash.value s.m_watchedFolders d (WatchedFolderOptions.default env))) l s).1) ::
            (Algorithm.removeIf (retryFolder env) rest
              (Algorithm.removeIf (retryTorrent env (env.dirPath d) d
                (QHash.value s.m_watchedFolders d (WatchedFolderOptions.default env))) l s).2).1,
         (Algorithm.removeIf (retryFolder env) rest
            (Algorithm.removeIf (retryTorrent env (env.dirPath d) d
              (QHash.value s.m_watchedFolders d (WatchedFolderOptions.default env))) l s).2).2) := rfl

/-- Every file of the ledger after a sweep was a file of the ledger before it. -/
theorem retryFolders_keys (env : Env) (ledger : QHash (QHash Int)) (s : Worker) :
    ∀ e ∈ (Algorithm.removeIf (retryFolder env) ledger s).1, ∀ t ∈ e.2,
      ∃ e0 ∈ ledger, ∃ v, (t.1, v) ∈ e0.2 := by
  induction ledger generalizing s with
  | nil => simp [Algorithm.removeIf]
  | cons e rest ih =>
    obtain ⟨d, l⟩ := e
    rw [removeIf_retryFolder_cons]
    intro e he t ht
    simp only at he
    have hrest : ∀ e ∈ (Algorithm.removeIf (retryFolder env) rest
        (Algorithm.removeIf (retryTorrent env (env.dirPath d) d
          (QHash.value s.m_watchedFolders d (WatchedFolderOptions.default env))) l s).2).1,
        ∀ t ∈ e.2, ∃ e0 ∈ (d, l) :: rest, ∃ v, (t.1, v) ∈ e0.2 := by
      intro e he t ht
      obtain ⟨e0, he0, v, hv⟩ := ih _ e he t ht
      exact ⟨e0, List.mem_cons_of_mem _ he0, v, hv⟩
    split at he
    · exact hrest e he t ht
    · rcases List.mem_cons.1 he with h | h
      · subst h
        obtain ⟨v, hv⟩ := Algorithm.removeIf_keys _ l s t ht
        exact ⟨(d, l), by simp, v, hv⟩
      · exact hrest e h t ht

theorem retryFolders_descriptors (env : Env) (ledger : QHash (QHash Int)) (s : Worker)
    (h : ledgerOfDescriptors ledger = true) :
    ledgerOfDescriptors (Algorithm.removeIf (retryFolder env) ledger s).1 = true := by
  rw [ledgerOfDescriptors_iff] at h ⊢
  intro e he t ht
  obtain ⟨e0, he0, v, hv⟩ := retryFolders_keys env ledger s e he t ht
  exact h e0 he0 (t.1, v) hv

/-- A ledger without an entry for the descriptor `p`. -/
theorem retryFolders_none (env : Env) (p : String) (hp : endsWithCI p ".torrent" = true)
    (ledger : QHash (QHash Int)) (s : Worker) (hnone : ∀ e ∈ ledger, ∀ t ∈ e.2, t.1 ≠ p) :
    (Algorithm.removeIf (retryFolder env) ledger s).2.fs.filesAt p = s.fs.filesAt p ∧
    signalsFor (Algorithm.removeIf (retryFolder env) ledger s).2 p = signalsFor s p ∧
    ledgerTrackings (Algorithm.removeIf (retryFolder env) ledger s).1 p = [] ∧
    (ledgerOfDescriptors ledger = true →
      (Algorithm.removeIf (retryFolder env) ledger s).2.fs.filesAt (p ++ ".qbt_rejected")
        = s.fs.filesAt (p ++ ".qbt_rejected")) := by
  induction ledger generalizing s with
  | nil => exact ⟨rfl, rfl, rfl, fun _ => rfl⟩
  | cons e rest ih =>
    obtain ⟨d, l⟩ := e
    rw [removeIf_retryFolder_cons]
    obtain ⟨f1, f2, f3, f4⟩ := retryTorrents_none env (env.dirPath d) d
      (QHash.value s.m_watchedFolders d (WatchedFolderOptions.default env)) p hp l s
      (hnone (d, l) (by simp))
    obtain ⟨h1, h2, h3, h4⟩ := ih (Algorithm.removeIf (retryTorrent env (env.dirPath d) d
      (QHash.value s.m_watchedFolders d (WatchedFolderOptions.default env))) l s).2
      (fun e he => hnone e (List.mem_cons_of_mem _ he))
    refine ⟨h1.trans f1, h2.trans f2, ?_, ?_⟩
    · simp only
      rw [ledgerTrackings_ite, f3, h3]
      rfl
    · intro hdesc
      rw [ledgerOfDescriptors_iff] at hdesc
      have hd1 := f4 (hdesc (d, l) (by simp))
      have hd2 := h4 ((ledgerOfDescriptors_iff rest).2
        (fun e he => hdesc e (List.mem_cons_of_mem _ he)))
      exact hd2.trans hd1

end Worker

namespace Worker

/-- A ledger whose entries for the descriptor `p`, which exists and does not load, all have a
counter below the ceiling: a sweep keeps each with the counter one higher. -/
theorem retryFolders_kept (env : Env) (p : String) (hp : endsWithCI p ".torrent" = true)
    (ledger : QHash (QHash Int)) (s : Worker) (hdesc : ledgerOfDescriptors ledger = true)
    (hex : s.fs.fileExists p = true) (hload : loadFromFile env s.fs p = none)
    (hlt : ∀ t ∈ ledgerTrackings ledger p, t.2 < MAX_FAILED_RETRIES) :
    (Algorithm.removeIf (retryFolder env) ledger s).2.fs.filesAt p = s.fs.filesAt p ∧
    (Algorithm.removeIf (retryFolder env) ledger s).2.fs.filesAt (p ++ ".qbt_rejected")
      = s.fs.filesAt (p ++ ".qbt_rejected") ∧
    ledgerTrackings (Algorithm.removeIf (retryFolder env) ledger s).1 p
      = (ledgerTrackings ledger p).map (fun t => (t.1, t.2 + 1)) := by
  induction ledger generalizing s with
  | nil => exact ⟨rfl, rfl, rfl⟩
  | cons e rest ih =>
    obtain ⟨d, l⟩ := e
    rw [removeIf_retryFolder_cons]
    have hdesc' := (ledgerOfDescriptors_iff _).1 hdesc
    have hl : ∀ t ∈ l, t.1 = p → t.2 < MAX_FAILED_RETRIES := by
      intro t ht htp
      apply hlt (d, t.2)
      rw [mem_ledgerTrackings]
      exact ⟨l, by simp, by rw [← htp]; exact ht⟩
    obtain ⟨f1, f2, f3⟩ := retryTorrents_kept env (env.dirPath d) d
      (QHash.value s.m_watchedFolders d (WatchedFolderOptions.default env)) p hp l s
      (hdesc' (d, l) (by simp)) hex hload hl
    have hex1 : (Algorithm.removeIf (retryTorrent env (env.dirPath d) d
        (QHash.value s.m_watchedFolders d (WatchedFolderOptions.default env))) l s).2.fs.fileExists p
        = true := by
      rw [FileSystem.fileExists_congr _ s.fs p f1]
      exact hex
    have hload1 : loadFromFile env (Algorithm.removeIf (retryTorrent env (env.dirPath d) d
        (QHash.value s.m_watchedFolders d (WatchedFolderOptions.default env))) l s).2.fs p
        = none := by
      rw [loadFromFile_congr env _ s.fs p f1]
      exact hload
    obtain ⟨h1, h2, h3⟩ := ih _
      ((ledgerOfDescriptors_iff rest).2 (fun e he => hdesc' e (List.mem_cons_of_mem _ he)))
      hex1 hload1
      (fun t ht => hlt t (by rw [ledgerTrackings_cons]; exact List.mem_append_right _ ht))
    refine ⟨h1.trans f1, h2.trans f2, ?_⟩
    simp only
    rw [ledgerTrackings_ite, f3, h3, ledgerTrackings_cons]
    simp [List.map_map, Function.comp_def]

/-- A ledger with one entry for the descriptor `p`, which exists and does not load, the counter
at the ceiling: a sweep renames the file and drops the entry. -/
theorem retryFolders_rejected (env : Env) (p : String) (hp : endsWithCI p ".torrent" = true)
    (d : String) (c : Int) (hc : c ≥ MAX_FAILED_RETRIES)
    (ledger : QHash (QHash Int)) (s : Worker) (hdesc : ledgerOfDescriptors ledger = true)
    (hex : s.fs.fileExists p = true) (hload : loadFromFile env s.fs p = none)
    (hfree : s.fs.filesAt (p ++ ".qbt_rejected") = [])
    (hone : ledgerTrackings ledger p = [(d, c)]) :
    (Algorithm.removeIf (retryFolder env) ledger s).2.fs.filesAt p = [] ∧
    (Algorithm.removeIf (retryFolder env) ledger s).2.fs.filesAt (p ++ ".qbt_rejected")
      = (s.fs.filesAt p).map (fun f => { f with name := f.name ++ ".qbt_rejected" }) ∧
    ledgerTrackings (Algorithm.removeIf (retryFolder env) ledger s).1 p = [] := by
  induction ledger generalizing s with
  | nil => simp [ledgerTrackings] at hone
  | cons e rest ih =>
    obtain ⟨d', l⟩ := e
    rw [removeIf_retryFolder_cons]
    have hdesc' := (ledgerOfDescriptors_iff _).1 hdesc
    have hdrest : ledgerOfDescriptors rest = true :=
      (ledgerOfDescriptors_iff rest).2 (fun e he => hdesc' e (List.mem_cons_of_mem _ he))
    rw [ledgerTrackings_cons] at hone
    cases hl : entriesFor l p with
    | nil =>
      rw [hl, List.map_nil, List.nil_append] at hone
      obtain ⟨f1, _, f3, f4⟩ := retryTorrents_none env (env.dirPath d') d'
        (QHash.value s.m_watchedFolders d' (WatchedFolderOptions.default env)) p hp l s
        ((entriesFor_eq_nil_iff l p).1 hl)
      have f4' := f4 (hdesc' (d', l) (by simp))
      have hex1 : (Algorithm.removeIf (retryTorrent env (env.dirPath d') d'
          (QHash.value s.m_watchedFolders d' (WatchedFolderOptions.default env))) l s).2.fs.fileExists p
          = true := by
        rw [FileSystem.fileExists_congr _ s.fs p f1]
        exact hex
      have hload1 : loadFromFile env (Algorithm.removeIf (retryTorrent env (env.dirPath d') d'
          (QHash.value s.m_watchedFolders d' (WatchedFolderOptions.default env))) l s).2.fs p
          = none := by
        rw [loadFromFile_congr env _ s.fs p f1]
        exact hload
      obtain ⟨h1, h2, h3⟩ := ih _ hdrest hex1 hload1 (by rw [f4']; exact hfree) hone
      refine ⟨h1, by rw [h2, f1], ?_⟩
      simp only
      rw [ledgerTrackings_ite, f3, h3]
      rfl
    | cons t ts =>
      rw [hl, List.map_cons, List.cons_append] at hone
      have hhead := (List.cons.inj hone).1
      have htail := (List.cons.inj hone).2
      have hts : ts = [] := by
        have := (List.append_eq_nil.1 htail).1
        exact List.map_eq_nil_iff.1 this
      have hrestnone : ledgerTrackings rest p = [] := (List.append_eq_nil.1 htail).2
      have htp : t.1 = p := by
        have : t ∈ entriesFor l p := by rw [hl]; simp
        simpa [entriesFor] using (List.mem_filter.1 this).2
      have htc : t.2 = c := (Prod.mk.inj hhead).2
      have hlone : entriesFor l p = [(p, c)] := by
        rw [hl, hts, ← htp, ← htc]
      obtain ⟨f1, f2, f3⟩ := retryTorrents_rejected env (env.dirPath d') d'
        (QHash.value s.m_watchedFolders d' (WatchedFolderOptions.default env)) p hp c hc l s
        (hdesc' (d', l) (by simp)) hex hload hfree hlone
      obtain ⟨h1, _, h3, h4⟩ := retryFolders_none env p hp rest
        (Algorithm.removeIf (retryTorrent env (env.dirPath d') d'
          (QHash.value s.m_watchedFolders d' (WatchedFolderOptions.default env))) l s).2
        ((ledgerTrackings_eq_nil_iff rest p).1 hrestnone)
      refine ⟨h1.trans f1, (h4 hdrest).trans f2, ?_⟩
      simp only
      rw [ledgerTrackings_ite, f3, h3]
      rfl

/-- A ledger with one entry for the descriptor `p`, which exists and does not load, the counter
at the ceiling, while a file of the rejected name exists: a sweep leaves the file its name and
drops the entry. -/
theorem retryFolders_rejected_twin (env : Env) (p : String)
    (hp : endsWithCI p ".torrent" = true)
    (d : String) (c : Int) (hc : c ≥ MAX_FAILED_RETRIES)
    (ledger : QHash (QHash Int)) (s : Worker) (hdesc : ledgerOfDescriptors ledger = true)
    (hex : s.fs.fileExists p = true) (hload : loadFromFile env s.fs p = none)
    (htwin : s.fs.fileExists (p ++ ".qbt_rejected") = true)
    (hone : ledgerTrackings ledger p = [(d, c)]) :
    (Algorithm.removeIf (retryFolder env) ledger s).2.fs.filesAt p = s.fs.filesAt p ∧
    (Algorithm.removeIf (retryFolder env) ledger s).2.fs.filesAt (p ++ ".qbt_rejected")
      = s.fs.filesAt (p ++ ".qbt_rejected") ∧
    ledgerTrackings (Algorithm.removeIf (retryFolder env) ledger s).1 p = [] := by
  induction ledger generalizing s with
  | nil => simp [ledgerTrackings] at hone
  | cons e rest ih =>
    obtain ⟨d', l⟩ := e
    rw [removeIf_retryFolder_cons]
    have hdesc' := (ledgerOfDescriptors_iff _).1 hdesc
    have hdrest : ledgerOfDescriptors rest = true :=
      (ledgerOfDescriptors_iff rest).2 (fun e he => hdesc' e (List.mem_cons_of_mem _ he))
    rw [ledgerTrackings_cons] at hone
    cases hl : entriesFor l p with
    | nil =>
      rw [hl, List.map_nil, List.nil_append] at hone
      obtain ⟨f1, _, f3, f4⟩ := retryTorrents_none env (env.dirPath d') d'
        (QHash.value s.m_watchedFolders d' (WatchedFolderOptions.default env)) p hp l s
        ((entriesFor_eq_nil_iff l p).1 hl)
      have f4' := f4 (hdesc' (d', l) (by simp))
      have hex1 : (Algorithm.removeIf (retryTorrent env (env.dirPath d') d'
          (QHash.value s.m_watchedFolders d' (WatchedFolderOptions.default env))) l s).2.fs.fileExists p
          = true := by
        rw [FileSystem.fileExists_congr _ s.fs p f1]
        exact hex
      have hload1 : loadFromFile env (Algorithm.removeIf (retryTorrent env (env.dirPath d') d'
          (QHash.value s.m_watchedFolders d' (WatchedFolderOptions.default env))) l s).2.fs p
          = none := by
        rw [loadFromFile_congr env _ s.fs p f1]
        exact hload
      have htwin1 : (Algorithm.removeIf (retryTorrent env (env.dirPath d') d'
          (QHash.value s.m_watchedFolders d' (WatchedFolderOptions.default env))) l s).2.fs.fileExists
          (p ++ ".qbt_rejected") = true := by
        rw [FileSystem.fileExists_congr _ s.fs _ f4']
        exact htwin
      obtain ⟨h1, h2, h3⟩ := ih _ hdrest hex1 hload1 htwin1 hone
      refine ⟨h1.trans f1, h2.trans f4', ?_⟩
      simp only
      rw [ledgerTrackings_ite, f3, h3]
      rfl
    | cons t ts =>
      rw [hl, List.map_cons, List.cons_append] at hone
      have hhead := (List.cons.inj hone).1
      have htail := (List.cons.inj hone).2
      have hts : ts = [] := by
        have := (List.append_eq_nil.1 htail).1
        exact List.map_eq_nil_iff.1 this
      have hrestnone : ledgerTrackings rest p = [] := (List.append_eq_nil.1 htail).2
      have htp : t.1 = p := by
        have : t ∈ entriesFor l p := by rw [hl]; simp
        simpa [entriesFor] using (List.mem_filter.1 this).2
      have htc : t.2 = c := (Prod.mk.inj hhead).2
      have hlone : entriesFor l p = [(p, c)] := by
        rw [hl, hts, ← htp, ← htc]
      obtain ⟨f1, f2, f3⟩ := retryTorrents_rejected_twin env (env.dirPath d') d'
        (QHash.value s.m_watchedFolders d' (WatchedFolderOptions.default env)) p hp c hc l s
        (hdesc' (d', l) (by simp)) hex hload htwin hlone
      obtain ⟨h1, _, h3, h4⟩ := retryFolders_none env p hp rest
        (Algorithm.removeIf (retryTorrent env (env.dirPath d') d'
          (QHash.value s.m_watchedFolders d' (WatchedFolderOptions.default env))) l s).2
        ((ledgerTrackings_eq_nil_iff rest p).1 hrestnone)
      refine ⟨h1.trans f1, (h4 hdrest).trans f2, ?_⟩
      simp only
      rw [ledgerTrackings_ite, f3, h3]
      rfl

/-- A ledger, once the descriptor `p` is gone: a sweep drops its entries for `p` without a
signal. -/
theorem retryFolders_gone (env : Env) (p : String) (hp : endsWithCI p ".torrent" = true)
    (ledger : QHash (QHash Int)) (s : Worker) (hgone : s.fs.filesAt p = []) :
    (Algorithm.removeIf (retryFolder env) ledger s).2.fs.filesAt p = [] ∧
    signalsFor (Algorithm.removeIf (retryFolder env) ledger s).2 p = signalsFor s p ∧
    ledgerTrackings (Algorithm.removeIf (retryFolder env) ledger s).1 p = [] := by
  induction ledger generalizing s with
  | nil => exact ⟨hgone, rfl, rfl⟩
  | cons e rest ih =>
    obtain ⟨d, l⟩ := e
    rw [removeIf_retryFolder_cons]
    obtain ⟨f1, f2, f3⟩ := retryTorrents_gone env (env.dirPath d) d
      (QHash.value s.m_watchedFolders d (WatchedFolderOptions.default env)) p hp l s hgone
    obtain ⟨h1, h2, h3⟩ := ih _ f1
    refine ⟨h1, h2.trans f2, ?_⟩
    simp only
    rw [ledgerTrackings_ite, f3, h3]
    rfl

/-- A ledger with an entry for the descriptor `p`, which exists and loads: a sweep emits one
signal for it, removes the file and drops its entries. -/
theorem retryFolders_loaded (env : Env) (p : String) (hp : endsWithCI p ".torrent" = true)
    (info : TorrentInfo) (ledger : QHash (QHash Int)) (s : Worker)
    (hex : s.fs.fileExists p = true) (hload : loadFromFile env s.fs p = some info)
    (hsome : ledgerTrackings ledger p ≠ []) :
    (Algorithm.removeIf (retryFolder env) ledger s).2.fs.filesAt p = [] ∧
    (∃ folder params, signalsFor (Algorithm.removeIf (retryFolder env) ledger s).2 p
      = signalsFor s p ++ [Signal.torrentFound folder p info params]) ∧
    ledgerTrackings (Algorithm.removeIf (retryFolder env) ledger s).1 p = [] := by
  induction ledger generalizing s with
  | nil => simp [ledgerTrackings] at hsome
  | cons e rest ih =>
    obtain ⟨d, l⟩ := e
    rw [removeIf_retryFolder_cons]
    rw [ledgerTrackings_cons] at hsome
    cases hl : entriesFor l p with
    | nil =>
      rw [hl, List.map_nil, List.nil_append] at hsome
      obtain ⟨f1, f2, f3, _⟩ := retryTorrents_none env (env.dirPath d) d
        (QHash.value s.m_watchedFolders d (WatchedFolderOptions.default env)) p hp l s
        ((entriesFor_eq_nil_iff l p).1 hl)
      have hex1 : (Algorithm.removeIf (retryTorrent env (env.dirPath d) d
          (QHash.value s.m_watchedFolders d (WatchedFolderOptions.default env))) l s).2.fs.fileExists p
          = true := by
        rw [FileSystem.fileExists_congr _ s.fs p f1]
        exact hex
      have hload1 : loadFromFile env (Algorithm.removeIf (retryTorrent env (env.dirPath d) d
          (QHash.value s.m_watchedFolders d (WatchedFolderOptions.default env))) l s).2.fs p
          = some info := by
        rw [loadFromFile_congr env _ s.fs p f1]
        exact hload
      obtain ⟨h1, ⟨folder, params, h2⟩, h3⟩ := ih _ hex1 hload1 hsome
      refine ⟨h1, ⟨folder, params, by rw [h2, f2]⟩, ?_⟩
      simp only
      rw [ledgerTrackings_ite, f3, h3]
      rfl
    | cons t ts =>
      obtain ⟨f1, ⟨params, f2⟩, f3⟩ := retryTorrents_loaded env (env.dirPath d) d
        (QHash.value s.m_watchedFolders d (WatchedFolderOptions.default env)) p hp info l s
        hex hload (by rw [hl]; simp)
      obtain ⟨h1, h2, h3⟩ := retryFolders_gone env p hp rest _ f1
      refine ⟨h1, ⟨d, params, by rw [h2, f2]⟩, ?_⟩
      simp only
      rw [ledgerTrackings_ite, f3, h3]
      rfl

end Worker

/-! ## Retry sweeps -/

namespace Worker

theorem processFailedTorrents_fields (env : Env) (self : Worker) :
    (processFailedTorrents env self).fs
      = (Algorithm.removeIf (retryFolder env) self.m_failedTorrents self).2.fs ∧
    (processFailedTorrents env self).emitted
      = (Algorithm.removeIf (retryFolder env) self.m_failedTorrents self).2.emitted ∧
    (processFailedTorrents env self).m_failedTorrents
      = (Algorithm.removeIf (retryFolder env) self.m_failedTorrents self).1 := by
  simp only [processFailedTorrents]
  split <;> exact ⟨rfl, rfl, rfl⟩

theorem signalsFor_congr (s1 s2 : Worker) (p : String) (h : s1.emitted = s2.emitted) :
    signalsFor s1 p = signalsFor s2 p := by
  simp [signalsFor, h]

theorem descriptor_of_tracked (self : Worker) (p d : String) (c : Int)
    (hdesc : self.tracksDescriptors = true) (h : (d, c) ∈ self.trackings p) :
    endsWithCI p ".torrent" = true := by
  obtain ⟨l, hl, hp⟩ := (mem_ledgerTrackings _ _ _ _).1 h
  exact (ledgerOfDescriptors_iff _).1 hdesc (d, l) hl (p, c) hp

/-- One sweep over a ledger that holds the descriptor `p`, which exists and does not load, once,
with a counter below the ceiling. -/
theorem sweep_kept (env : Env) (self : Worker) (p d : String) (c : Int)
    (hdesc : self.tracksDescriptors = true) (htrack : self.trackings p = [(d, c)])
    (hc : c < MAX_FAILED_RETRIES)
    (hex : self.fs.fileExists p = true) (hload : loadFromFile env self.fs p = none) :
    (processFailedTorrents env self).tracksDescriptors = true ∧
    (processFailedTorrents env self).trackings p = [(d, c + 1)] ∧
    (processFailedTorrents env self).fs.filesAt p = self.fs.filesAt p ∧
    (processFailedTorrents env self).fs.filesAt (p ++ ".qbt_rejected")
      = self.fs.filesAt (p ++ ".qbt_rejected") := by
  have hp := descriptor_of_tracked self p d c hdesc (by rw [htrack]; simp)
  obtain ⟨hfs, _, hledger⟩ := processFailedTorrents_fields env self
  obtain ⟨h1, h2, h3⟩ := retryFolders_kept env p hp self.m_failedTorrents self hdesc hex hload
    (by
      intro t ht
      have : t ∈ self.trackings p := ht
      rw [htrack] at this
      simp only [List.mem_singleton] at this
      rw [this]
      exact hc)
  refine ⟨?_, ?_, by rw [hfs, h1], by rw [hfs, h2]⟩
  · simp only [tracksDescriptors, hledger]
    exact retryFolders_descriptors env _ self hdesc
  · simp only [trackings, hledger, h3]
    have : ledgerTrackings self.m_failedTorrents p = [(d, c)] := htrack
    rw [this]
    rfl

end Worker

/-- C6, as stated, fails: `/watch/bad.torrent` never loads; after its first scan and five retry
sweeps, each of which failed, it is still in the ledger (with the counter 5), still has its
name and has no rejected twin; the sixth sweep renames it. -/
theorem C6_not_rejected_after_five_sweeps :
    Worker.processWatchedFolder unixEnv 1 badWorker "/watch" = some badWorkerScanned ∧
    (Worker.sweeps unixEnv 5 badWorkerScanned).trackings "/watch/bad.torrent" = [("/watch", 5)] ∧
    (Worker.sweeps unixEnv 5 badWorkerScanned).fs.fileExists "/watch/bad.torrent" = true ∧
    (Worker.sweeps unixEnv 5 badWorkerScanned).fs.fileExists "/watch/bad.torrent.qbt_rejected"
      = false ∧
    (Worker.sweeps unixEnv 6 badWorkerScanned).fs.fileExists "/watch/bad.torrent.qbt_rejected"
      = true := by
  decide

/-- C6, amended: a descriptor file that is in the ledger once, with the counter 0 as a scan
enters it, and that exists and fails to load at every attempt, is still in the ledger under its
name after each of the first five retry sweeps, the counter being the number of sweeps so far;
the sixth sweep drops it from the ledger, and renames it with the suffix `.qbt_rejected` when no
file of that name exists; when one exists, the file keeps its name: it is rejected after exactly
six failed retries, the seventh failed load counting the one of the scan. -/
theorem C6_rejected_in_sixth_sweep (env : Env) (self : Worker) (p d : String)
    (hdesc : self.tracksDescriptors = true) (htrack : self.trackings p = [(d, 0)])
    (hex : self.fs.fileExists p = true) (hload : loadFromFile env self.fs p = none) :
    (∀ k : Nat, k ≤ 5 →
      (Worker.sweeps env k self).trackings p = [(d, (k : Int))] ∧
      (Worker.sweeps env k self).fs.fileExists p = true ∧
      (Worker.sweeps env k self).fs.fileExists (p ++ ".qbt_rejected")
        = self.fs.fileExists (p ++ ".qbt_rejected")) ∧
    (Worker.sweeps env 6 self).trackings p = [] ∧
    (self.fs.fileExists (p ++ ".qbt_rejected") = false →
      (Worker.sweeps env 6 self).fs.fileExists p = false ∧
      (Worker.sweeps env 6 self).fs.fileExists (p ++ ".qbt_rejected") = true) ∧
    (self.fs.fileExists (p ++ ".qbt_rejected") = true →
      (Worker.sweeps env 6 self).fs.filesAt p = self.fs.filesAt p ∧
      (Worker.sweeps env 6 self).fs.fileExists p = true ∧
      (Worker.sweeps env 6 self).fs.filesAt (p ++ ".qbt_rejected")
        = self.fs.filesAt (p ++ ".qbt_rejected")) := by
  have hp := Worker.descriptor_of_tracked self p d 0 hdesc (by rw [htrack]; simp)
  have hinv : ∀ k : Nat, k ≤ 5 →
      (Worker.sweeps env k self).tracksDescriptors = true ∧
      (Worker.sweeps env k self).trackings p = [(d, (k : Int))] ∧
      (Worker.sweeps env k self).fs.filesAt p = self.fs.filesAt p ∧
      (Worker.sweeps env k self).fs.filesAt (p ++ ".qbt_rejected")
        = self.fs.filesAt (p ++ ".qbt_rejected") := by
    intro k
    induction k with
    | zero => exact fun _ => ⟨hdesc, htrack, rfl, rfl⟩
    | succ k ih =>
      intro hk
      obtain ⟨i1, i2, i3, i4⟩ := ih (by omega)
      have hexk : (Worker.sweeps env k self).fs.fileExists p = true := by
        rw [FileSystem.fileExists_congr _ self.fs p i3]
        exact hex
      have hloadk : loadFromFile env (Worker.sweeps env k self).fs p = none := by
        rw [loadFromFile_congr env _ self.fs p i3]
        exact hload
      have hlt : (k : Int) < MAX_FAILED_RETRIES := by
        simp only [MAX_FAILED_RETRIES]
        omega
      obtain ⟨s1, s2, s3, s4⟩ := Worker.sweep_kept env (Worker.sweeps env k self) p d k i1 i2 hlt
        hexk hloadk
      refine ⟨s1, ?_, s3.trans i3, s4.trans i4⟩
      simp only [Worker.sweeps]
      rw [s2]
      simp
  obtain ⟨i1, i2, i3, i4⟩ := hinv 5 (le_refl 5)
  have hex5 : (Worker.sweeps env 5 self).fs.fileExists p = true := by
    rw [FileSystem.fileExists_congr _ self.fs p i3]
    exact hex
  have hload5 : loadFromFile env (Worker.sweeps env 5 self).fs p = none := by
    rw [loadFromFile_congr env _ self.fs p i3]
    exact hload
  obtain ⟨hfs, _, hledger⟩ := Worker.processFailedTorrents_fields env (Worker.sweeps env 5 self)
  have hsix : Worker.sweeps env 6 self
      = Worker.processFailedTorrents env (Worker.sweeps env 5 self) := rfl
  refine ⟨?_, ?_, ?_, ?_⟩
  · intro k hk
    obtain ⟨_, j2, j3, j4⟩ := hinv k hk
    refine ⟨j2, ?_, FileSystem.fileExists_congr _ self.fs _ j4⟩
    rw [FileSystem.fileExists_congr _ self.fs p j3]
    exact hex
  · rw [hsix]
    simp only [Worker.trackings, hledger]
    cases hfree : self.fs.fileExists (p ++ ".qbt_rejected")
    · have hfree5 : (Worker.sweeps env 5 self).fs.filesAt (p ++ ".qbt_rejected") = [] := by
        rw [i4]
        exact (FileSystem.fileExists_eq_false_iff _ _).1 hfree
      exact (Worker.retryFolders_rejected env p hp d 5 (by decide)
        (Worker.sweeps env 5 self).m_failedTorrents (Worker.sweeps env 5 self) i1 hex5 hload5
        hfree5 i2).2.2
    · have htwin5 : (Worker.sweeps env 5 self).fs.fileExists (p ++ ".qbt_rejected") = true := by
        rw [FileSystem.fileExists_congr _ self.fs _ i4]
        exact hfree
      exact (Worker.retryFolders_rejected_twin env p hp d 5 (by decide)
        (Worker.sweeps env 5 self).m_failedTorrents (Worker.sweeps env 5 self) i1 hex5 hload5
        htwin5 i2).2.2
  · intro hfree
    have hfree5 : (Worker.sweeps env 5 self).fs.filesAt (p ++ ".qbt_rejected") = [] := by
      rw [i4]
      exact (FileSystem.fileExists_eq_false_iff _ _).1 hfree
    obtain ⟨r1, r2, _⟩ := Worker.retryFolders_rejected env p hp d 5 (by decide)
      (Worker.sweeps env 5 self).m_failedTorrents (Worker.sweeps env 5 self) i1 hex5 hload5
      hfree5 i2
    rw [hsix]
    refine ⟨?_, ?_⟩
    · rw [hfs]
      exact (FileSystem.fileExists_eq_false_iff _ _).2 r1
    · rw [hfs, FileSystem.fileExists_eq_true_iff, r2]
      have : (Worker.sweeps env 5 self).fs.filesAt p ≠ [] :=
        (FileSystem.fileExists_eq_true_iff _ _).1 hex5
      simpa using this
  · intro htwin
    have htwin5 : (Worker.sweeps env 5 self).fs.fileExists (p ++ ".qbt_rejected") = true := by
      rw [FileSystem.fileExists_congr _ self.fs _ i4]
      exact htwin
    obtain ⟨r1, r2, _⟩ := Worker.retryFolders_rejected_twin env p hp d 5 (by decide)
      (Worker.sweeps env 5 self).m_failedTorrents (Worker.sweeps env 5 self) i1 hex5 hload5
      htwin5 i2
    rw [hsix]
    refine ⟨by rw [hfs, r1, i3], ?_, by rw [hfs, r2, i4]⟩
    rw [hfs, FileSystem.fileExists_congr _ self.fs p (r1.trans i3)]
    exact hex

/-- C6, amended, at a concrete input: `/watch/bad.torrent` after its first scan, without and
with a file of the rejected name. -/
theorem C6_rejected_in_sixth_sweep_witness :
    ((Worker.sweeps unixEnv 5 badWorkerScanned).trackings "/watch/bad.torrent" = [("/watch", 5)] ∧
      (Worker.sweeps unixEnv 6 badWorkerScanned).trackings "/watch/bad.torrent" = [] ∧
      (Worker.sweeps unixEnv 6 badWorkerScanned).fs.fileExists "/watch/bad.torrent" = false ∧
      (Worker.sweeps unixEnv 6 badWorkerScanned).fs.fileExists
        ("/watch/bad.torrent" ++ ".qbt_rejected") = true) ∧
    (Worker.sweeps unixEnv 6 twinWorkerScanned).trackings "/watch/bad.torrent" = [] ∧
    (Worker.sweeps unixEnv 6 twinWorkerScanned).fs = twinWorkerScanned.fs :=
  ⟨⟨((C6_rejected_in_sixth_sweep unixEnv badWorkerScanned "/watch/bad.torrent" "/watch"
      (by decide) (by decide) (by decide) (by decide)).1 5 (le_refl 5)).1,
    (C6_rejected_in_sixth_sweep unixEnv badWorkerScanned "/watch/bad.torrent" "/watch"
      (by decide) (by decide) (by decide) (by decide)).2.1,
    (C6_rejected_in_sixth_sweep unixEnv badWorkerScanned "/watch/bad.torrent" "/watch"
      (by decide) (by decide) (by decide) (by decide)).2.2.1 (by decide)⟩,
   by decide, by decide⟩

/-- C7: a descriptor file that is in the ledger (under whatever counter), exists and loads gets,
in one retry sweep, exactly one signal, `torrentFound` with its descriptor; the sweep removes
the file and drops every entry of the ledger for it. -/
theorem C7_sweep_emits_loaded_descriptor (env : Env) (self : Worker) (p : String)
    (info : TorrentInfo) (hp : endsWithCI p ".torrent" = true)
    (htracked : self.trackings p ≠ []) (hex : self.fs.fileExists p = true)
    (hload : loadFromFile env self.fs p = some info) :
    (∃ folder params, (Worker.processFailedTorrents env self).signalsFor p
      = self.signalsFor p ++ [Signal.torrentFound folder p info params]) ∧
    (Worker.processFailedTorrents env self).fs.fileExists p = false ∧
    (Worker.processFailedTorrents env self).trackings p = [] := by
  obtain ⟨hfs, hem, hledger⟩ := Worker.processFailedTorrents_fields env self
  obtain ⟨h1, ⟨folder, params, h2⟩, h3⟩ := Worker.retryFolders_loaded env p hp info
    self.m_failedTorrents self hex hload htracked
  refine ⟨⟨folder, params, ?_⟩, ?_, ?_⟩
  · rw [Worker.signalsFor_congr _ _ p hem, h2]
  · rw [hfs]
    exact (FileSystem.fileExists_eq_false_iff _ _).2 h1
  · simp only [Worker.trackings, hledger]
    exact h3

/-- C7 at a concrete input: `/watch/a.torrent`, in the ledger with the counter 3, loads in the
next sweep. -/
theorem C7_sweep_emits_loaded_descriptor_witness :
    (∃ folder params, (Worker.processFailedTorrents unixEnv retryWorker).signalsFor "/watch/a.torrent"
      = retryWorker.signalsFor "/watch/a.torrent"
        ++ [Signal.torrentFound folder "/watch/a.torrent" ⟨"d4:infoe"⟩ params]) ∧
    (Worker.processFailedTorrents unixEnv retryWorker).fs.fileExists "/watch/a.torrent" = false ∧
    (Worker.processFailedTorrents unixEnv retryWorker).trackings "/watch/a.torrent" = [] :=
  C7_sweep_emits_loaded_descriptor unixEnv retryWorker "/watch/a.torrent" ⟨"d4:infoe"⟩
    (by decide) (by decide) (by decide) (by decide)

/-! ## Subscriptions -/

namespace QSet

theorem mem_insert (s : QSet) (x y : String) : x ∈ QSet.insert s y ↔ x ∈ s ∨ x = y := by
  unfold QSet.insert
  split
  · constructor
    · exact Or.inl
    · rintro (h | h)
      · exact h
      · rw [h]
        assumption
  · simp

theorem mem_remove (s : QSet) (x y : String) : x ∈ QSet.remove s y ↔ x ∈ s ∧ x ≠ y := by
  simp [QSet.remove]

end QSet

namespace QHash

variable {α : Type}

theorem get?_eq_some_of_contains (h : QHash α) (key : String) (dflt : α)
    (hc : contains h key = true) : get? h key = some (value h key dflt) := by
  unfold contains at hc
  unfold value
  cases hg : get? h key with
  | none => simp [hg] at hc
  | some v => rfl

theorem get?_eq_none_of_not_contains (h : QHash α) (key : String)
    (hc : contains h key = false) : get? h key = none := by
  unfold contains at hc
  cases hg : get? h key with
  | none => rfl
  | some v => simp [hg] at hc

end QHash

namespace Worker

theorem SameSubscriptions.same (s : Worker) : SameSubscriptions s s := ⟨rfl, rfl, rfl, rfl, rfl⟩

theorem SameSubscriptions.trans {s1 s2 s3 : Worker} (h1 : SameSubscriptions s1 s2)
    (h2 : SameSubscriptions s2 s3) : SameSubscriptions s1 s3 :=
  ⟨h2.watched.trans h1.watched, h2.watcher.trans h1.watcher, h2.timeout.trans h1.timeout,
    h2.timer.trans h1.timer, h2.shots.trans h1.shots⟩

theorem processFile_subscriptions (env : Env) (path root : String) (options : WatchedFolderOptions)
    (self : Worker) (q : String) :
    SameSubscriptions self (processFile env path root options self q) := by
  cases hm : endsWithCI q ".magnet"
  · cases hload : loadFromFile env self.fs q with
    | none =>
      simp only [processFile, hm, hload, Bool.false_eq_true, ↓reduceIte]
      split <;> exact ⟨rfl, rfl, rfl, rfl, rfl⟩
    | some info =>
      rw [processFile_torrent env path root options self q info hm hload]
      exact ⟨rfl, rfl, rfl, rfl, rfl⟩
  · cases hopen : self.fs.openRead q with
    | none =>
      rw [processFile_magnet_closed env path root options self q hm hopen]
      exact SameSubscriptions.same self
    | some text =>
      rw [processFile_magnet env path root options self q text hm hopen]
      exact ⟨rfl, rfl, rfl, rfl, rfl⟩

theorem scanFiles_subscriptions (env : Env) (path root : String) (options : WatchedFolderOptions)
    (files : List String) (self : Worker) :
    SameSubscriptions self (files.foldl (processFile env path root options) self) := by
  induction files generalizing self with
  | nil => exact SameSubscriptions.same self
  | cons q rest ih =>
    rw [List.foldl_cons]
    exact (processFile_subscriptions env path root options self q).trans (ih _)

theorem processFolder_subscriptions (env : Env) (root : String) (options : WatchedFolderOptions) :
    ∀ (fuel : Nat) (path : String) (self self' : Worker),
      processFolder env fuel path root options self = some self' →
      SameSubscriptions self self' := by
  intro fuel
  induction fuel with
  | zero =>
    intro path self self' h
    simp [processFolder] at h
  | succ fuel ih =>
    intro path self self' h
    have hfirst := scanFiles_subscriptions env path root options (self.fs.torrentFiles path) self
    have hfold : ∀ (dirs : List String) (s1 s2 : Worker), SameSubscriptions self s1 →
        dirs.foldlM (fun (s : Worker) folderPath =>
          if !QHash.contains s.m_watchedFolders folderPath then
            processFolder env fuel folderPath root options s
          else some s) s1 = some s2 →
        SameSubscriptions self s2 := by
      intro dirs
      induction dirs with
      | nil =>
        intro s1 s2 hs h
        simp only [List.foldlM_nil, pure, Option.some.injEq] at h
        rw [← h]
        exact hs
      | cons D rest ihd =>
        intro s1 s2 hs h
        rw [List.foldlM_cons] at h
        obtain ⟨s1', hstep, hrest⟩ := Option.bind_eq_some.1 h
        refine ihd s1' s2 ?_ hrest
        cases hc : QHash.contains s1.m_watchedFolders D
        · simp only [hc, Bool.not_false, ↓reduceIte] at hstep
          exact hs.trans (ih D s1 s1' hstep)
        · simp only [hc, Bool.not_true, Bool.false_eq_true, ↓reduceIte, Option.some.injEq] at hstep
          rw [← hstep]
          exact hs
    simp only [processFolder] at h
    cases hr : options.recursive
    · simp only [hr, Bool.false_eq_true, ↓reduceIte, Option.some.injEq] at h
      rw [← h]
      exact hfirst
    · simp only [hr, ↓reduceIte] at h
      exact hfold _ _ _ hfirst h

theorem processWatchedFolder_subscriptions (env : Env) (fuel : Nat) (self self' : Worker)
    (path : String) (h : processWatchedFolder env fuel self path = some self') :
    SameSubscriptions self self' := by
  simp only [processWatchedFolder] at h
  split at h
  · simp at h
  · rename_i s hs
    have hsub := processFolder_subscriptions env path _ fuel path self s hs
    split at h
    · simp only [Option.some.injEq] at h
      rw [← h]
      exact ⟨hsub.watched, hsub.watcher, hsub.timeout, hsub.timer, hsub.shots⟩
    · simp only [Option.some.injEq] at h
      rw [← h]
      exact hsub

theorem retryTorrent_subscriptions (env : Env) (dirPath d : String) (options : WatchedFolderOptions)
    (q : String) (v : Int) (self : Worker) :
    SameSubscriptions self (retryTorrent env dirPath d options q v self).2 := by
  cases hex : self.fs.fileExists q
  · rw [retryTorrent_missing env dirPath d options q v self hex]
    exact SameSubscriptions.same self
  · cases hload : loadFromFile env self.fs q with
    | some info =>
      obtain ⟨params, h⟩ := retryTorrent_loaded env dirPath d options q v self info hex hload
      rw [h]
      exact ⟨rfl, rfl, rfl, rfl, rfl⟩
    | none =>
      by_cases hv : v ≥ MAX_FAILED_RETRIES
      · rw [retryTorrent_rejected env dirPath d options q v self hex hload hv]
        exact ⟨rfl, rfl, rfl, rfl, rfl⟩
      · rw [retryTorrent_kept env dirPath d options q v self hex hload (not_le.1 hv)]
        exact SameSubscriptions.same self

theorem retryTorrents_subscriptions (env : Env) (dirPath d : String)
    (options : WatchedFolderOptions) (l : QHash Int) (s : Worker) :
    SameSubscriptions s (Algorithm.removeIf (retryTorrent env dirPath d options) l s).2 := by
  induction l generalizing s with
  | nil => exact SameSubscriptions.same s
  | cons e rest ih =>
    obtain ⟨q, v⟩ := e
    rw [Algorithm.removeIf_cons]
    exact (retryTorrent_subscriptions env dirPath d options q v s).trans (ih _)

theorem retryFolders_subscriptions (env : Env) (ledger : QHash (QHash Int)) (s : Worker) :
    SameSubscriptions s (Algorithm.removeIf (retryFolder env) ledger s).2 := by
  induction ledger generalizing s with
  | nil => exact SameSubscriptions.same s
  | cons e rest ih =>
    obtain ⟨d, l⟩ := e
    rw [removeIf_retryFolder_cons]
    exact (retryTorrents_subscriptions env _ d _ l s).trans (ih _)

theorem processFailedTorrents_subscriptions (env : Env) (self : Worker) :
    SameSubscriptions self (processFailedTorrents env self) := by
  have h := retryFolders_subscriptions env self.m_failedTorrents self
  simp only [processFailedTorrents]
  split <;> exact ⟨h.watched, h.watcher, h.timeout, h.timer, h.shots⟩

theorem retryTorrent_dirs (env : Env) (dirPath d : String) (options : WatchedFolderOptions)
    (q : String) (v : Int) (self : Worker) :
    (retryTorrent env dirPath d options q v self).2.fs.dirs = self.fs.dirs := by
  rcases (retryTorrent_spec env dirPath d options q v self).2.1 with h | h | h
  · rw [h]
  · rw [h]
    rfl
  · rw [h]
    simp only [FileSystem.renameAppend]
    split <;> rfl

theorem retryTorrents_dirs (env : Env) (dirPath d : String)
    (options : WatchedFolderOptions) (l : QHash Int) (s : Worker) :
    (Algorithm.removeIf (retryTorrent env dirPath d options) l s).2.fs.dirs = s.fs.dirs := by
  induction l generalizing s with
  | nil => rfl
  | cons e rest ih =>
    obtain ⟨q, v⟩ := e
    rw [Algorithm.removeIf_cons]
    exact (ih _).trans (retryTorrent_dirs env dirPath d options q v s)

theorem retryFolders_dirs (env : Env) (ledger : QHash (QHash Int)) (s : Worker) :
    (Algorithm.removeIf (retryFolder env) ledger s).2.fs.dirs = s.fs.dirs := by
  induction ledger generalizing s with
  | nil => rfl
  | cons e rest ih =>
    obtain ⟨d, l⟩ := e
    rw [removeIf_retryFolder_cons]
    exact (ih _).trans (retryTorrents_dirs env _ d _ l s)

theorem processFailedTorrents_dirs (env : Env) (self : Worker) :
    (processFailedTorrents env self).fs.dirs = self.fs.dirs := by
  have h := retryFolders_dirs env self.m_failedTorrents self
  simp only [processFailedTorrents]
  split <;> exact h

theorem processWatchedFolder_dirs (env : Env) (fuel : Nat) (self self' : Worker)
    (path : String) (h : processWatchedFolder env fuel self path = some self') :
    self'.fs.dirs = self.fs.dirs := by
  simp only [processWatchedFolder] at h
  split at h
  · simp at h
  · rename_i s hs
    have hd := (processFolder_scanOf env path _ fuel path self s hs).dirs
    split at h
    · simp only [Option.some.injEq] at h
      rw [← h]
      exact hd
    · simp only [Option.some.injEq] at h
      rw [← h]
      exact hd

theorem FileSystem.dirExists_congr (fs fs' : FileSystem) (h : fs'.dirs = fs.dirs)
    (path : String) : fs'.dirExists path = fs.dirExists path := by
  simp [FileSystem.dirExists, h]

theorem ModeInvariant.of_same {env : Env} {s s' : Worker} (h : ModeInvariant env s)
    (hs : SameSubscriptions s s') (hd : s'.fs.dirs = s.fs.dirs) : ModeInvariant env s' := by
  intro path
  have := h path
  rw [hs.watched, hs.watcher, hs.timeout, FileSystem.dirExists_congr s.fs s'.fs hd]
  exact this

end Worker

namespace Worker

theorem removeWatchedFolder_members (self : Worker) (path : String) :
    (removeWatchedFolder self path).m_watchedFolders = QHash.remove self.m_watchedFolders path ∧
    (removeWatchedFolder self path).m_watcher = QSet.remove self.m_watcher path ∧
    (removeWatchedFolder self path).m_watchedByTimeoutFolders
      = QSet.remove self.m_watchedByTimeoutFolders path ∧
    (removeWatchedFolder self path).m_failedTorrents = QHash.remove self.m_failedTorrents path := by
  simp only [removeWatchedFolder]
  split <;> split <;> exact ⟨rfl, rfl, rfl, rfl⟩

theorem removeWatchedFolder_fs (self : Worker) (path : String) :
    (removeWatchedFolder self path).fs = self.fs := by
  simp only [removeWatchedFolder]
  split <;> split <;> rfl

theorem addWatchedFolder_fs (env : Env) (self : Worker) (path : String)
    (options : WatchedFolderOptions) : (addWatchedFolder env self path options).fs = self.fs := by
  unfold addWatchedFolder scheduleWatchedFolderProcessing
  cases hcond : (env.isNetworkFileSystem path || options.recursive)
  · cases he : self.fs.pathExists path <;> simp [he]
  · cases ht : self.m_watchTimer <;> simp [ht]

theorem updateWatchedFolder_fs (env : Env) (self : Worker) (path : String)
    (options : WatchedFolderOptions) :
    (updateWatchedFolder env self path options).fs = self.fs := by
  unfold updateWatchedFolder scheduleWatchedFolderProcessing
  cases hchanged : ((QHash.value self.m_watchedFolders path (WatchedFolderOptions.default env)).recursive
      != options.recursive) <;>
    cases hnet : env.isNetworkFileSystem path <;>
    cases hrec : options.recursive <;>
    cases ht : self.m_watchTimer <;>
    cases he : (QSet.remove self.m_watchedByTimeoutFolders path).isEmpty <;>
    cases hx : self.fs.pathExists path <;>
    simp [ht, he, hx]

theorem addWatchedFolder_members (env : Env) (self : Worker) (path : String)
    (options : WatchedFolderOptions) :
    (addWatchedFolder env self path options).m_watchedFolders
      = QHash.insert self.m_watchedFolders path options ∧
    ((env.isNetworkFileSystem path || options.recursive) = true →
      (addWatchedFolder env self path options).m_watchedByTimeoutFolders
        = QSet.insert self.m_watchedByTimeoutFolders path ∧
      (addWatchedFolder env self path options).m_watcher = self.m_watcher) ∧
    ((env.isNetworkFileSystem path || options.recursive) = false →
      (addWatchedFolder env self path options).m_watchedByTimeoutFolders
        = self.m_watchedByTimeoutFolders ∧
      (addWatchedFolder env self path options).m_watcher
        = if self.fs.pathExists path then QSet.insert self.m_watcher path else self.m_watcher) := by
  unfold addWatchedFolder scheduleWatchedFolderProcessing
  cases hcond : (env.isNetworkFileSystem path || options.recursive)
  · cases he : self.fs.pathExists path <;> simp [he]
  · cases ht : self.m_watchTimer <;> simp [ht]

theorem updateWatchedFolder_members (env : Env) (self : Worker) (path : String)
    (options : WatchedFolderOptions) :
    (updateWatchedFolder env self path options).m_watchedFolders
      = QHash.insert self.m_watchedFolders path options ∧
    (((QHash.value self.m_watchedFolders path (WatchedFolderOptions.default env)).recursive
        != options.recursive) = true → env.isNetworkFileSystem path = false →
      (options.recursive = true →
        (updateWatchedFolder env self path options).m_watchedByTimeoutFolders
          = QSet.insert self.m_watchedByTimeoutFolders path ∧
        (updateWatchedFolder env self path options).m_watcher = QSet.remove self.m_watcher path) ∧
      (options.recursive = false →
        (updateWatchedFolder env self path options).m_watchedByTimeoutFolders
          = QSet.remove self.m_watchedByTimeoutFolders path ∧
        (updateWatchedFolder env self path options).m_watcher
          = if self.fs.pathExists path then QSet.insert self.m_watcher path
            else self.m_watcher)) ∧
    ((((QHash.value self.m_watchedFolders path (WatchedFolderOptions.default env)).recursive
        != options.recursive) = false ∨ env.isNetworkFileSystem path = true) →
      (updateWatchedFolder env self path options).m_watchedByTimeoutFolders
        = self.m_watchedByTimeoutFolders ∧
      (updateWatchedFolder env self path options).m_watcher = self.m_watcher) := by
  unfold updateWatchedFolder scheduleWatchedFolderProcessing
  cases hchanged : ((QHash.value self.m_watchedFolders path (WatchedFolderOptions.default env)).recursive
      != options.recursive) <;>
    cases hnet : env.isNetworkFileSystem path <;>
    cases hrec : options.recursive <;>
    cases ht : self.m_watchTimer <;>
    cases he : (QSet.remove self.m_watchedByTimeoutFolders path).isEmpty <;>
    cases hx : self.fs.pathExists path <;>
    simp [ht, he, hx]

theorem FileSystem.pathExists_of_dirExists (fs : FileSystem) (path : String)
    (h : fs.dirExists path = true) : fs.pathExists path = true := by
  simp [FileSystem.pathExists, h]

end Worker

namespace Worker

theorem ModeInvariant.init (env : Env) (fs : FileSystem) : ModeInvariant env (Worker.init fs) := by
  intro path
  simp [Worker.init, QHash.get?]

theorem ModeInvariant.removeWatchedFolder {env : Env} {self : Worker} (h : ModeInvariant env self)
    (p : String) : ModeInvariant env (Worker.removeWatchedFolder self p) := by
  obtain ⟨hw, hwatcher, hpoll, _⟩ := removeWatchedFolder_members self p
  intro q
  rw [hw, hwatcher, hpoll, removeWatchedFolder_fs]
  by_cases hq : q = p
  · subst hq
    simp [QHash.get?_remove_self, QSet.mem_remove]
  · rw [QHash.get?_remove_ne _ _ _ hq]
    simp only [QSet.mem_remove, ne_eq, hq, not_false_eq_true, and_true]
    exact h q

theorem ModeInvariant.addWatchedFolder {env : Env} {self : Worker} (h : ModeInvariant env self)
    (p : String) (o : WatchedFolderOptions) (hnew : QHash.get? self.m_watchedFolders p = none) :
    ModeInvariant env (Worker.addWatchedFolder env self p o) := by
  obtain ⟨hw, hyes, hno⟩ := addWatchedFolder_members env self p o
  obtain ⟨hp1, hp2⟩ := (h p).2 hnew
  intro q
  rw [hw, addWatchedFolder_fs]
  by_cases hq : q = p
  · subst hq
    rw [QHash.get?_insert_self]
    refine ⟨?_, fun hn => by simp at hn⟩
    intro o' ho'
    have ho : o' = o := (Option.some.inj ho').symm
    subst ho
    cases hcond : (env.isNetworkFileSystem q || o'.recursive)
    · obtain ⟨e1, e2⟩ := hno hcond
      rw [e1, e2]
      simp only [Bool.or_eq_false_iff] at hcond
      refine ⟨fun hc => ?_, fun _ => ⟨hp1, fun hex => ?_⟩⟩
      · rcases hc with hc | hc
        · rw [hcond.2] at hc
          exact absurd hc (by simp)
        · rw [hcond.1] at hc
          exact absurd hc (by simp)
      · rw [FileSystem.pathExists_of_dirExists _ _ hex]
        exact (QSet.mem_insert _ _ _).2 (Or.inr rfl)
    · obtain ⟨e1, e2⟩ := hyes hcond
      rw [e1, e2]
      simp only [Bool.or_eq_true] at hcond
      refine ⟨fun _ => ⟨(QSet.mem_insert _ _ _).2 (Or.inr rfl), hp2⟩, fun hc => ?_⟩
      exact absurd (hcond.symm) hc
  · rw [QHash.get?_insert_ne _ _ _ _ hq]
    have hsets : (q ∈ (Worker.addWatchedFolder env self p o).m_watchedByTimeoutFolders ↔
        q ∈ self.m_watchedByTimeoutFolders) ∧
        (q ∈ (Worker.addWatchedFolder env self p o).m_watcher ↔ q ∈ self.m_watcher) := by
      cases hcond : (env.isNetworkFileSystem p || o.recursive)
      · obtain ⟨e1, e2⟩ := hno hcond
        rw [e1, e2]
        cases hx : self.fs.pathExists p <;> simp [QSet.mem_insert, hq]
      · obtain ⟨e1, e2⟩ := hyes hcond
        rw [e1, e2]
        simp [QSet.mem_insert, hq]
    rw [hsets.1, hsets.2]
    exact h q

theorem ModeInvariant.updateWatchedFolder {env : Env} {self : Worker} (h : ModeInvariant env self)
    (p : String) (o old : WatchedFolderOptions)
    (hold : QHash.get? self.m_watchedFolders p = some old) :
    ModeInvariant env (Worker.updateWatchedFolder env self p o) := by
  obtain ⟨hw, hmove, hstay⟩ := updateWatchedFolder_members env self p o
  have hvalue : QHash.value self.m_watchedFolders p (WatchedFolderOptions.default env) = old := by
    simp [QHash.value, hold]
  rw [hvalue] at hmove hstay
  obtain ⟨hin, hout⟩ := (h p).1 old hold
  intro q
  rw [hw, updateWatchedFolder_fs]
  by_cases hq : q = p
  · subst hq
    rw [QHash.get?_insert_self]
    refine ⟨?_, fun hn => by simp at hn⟩
    intro o' ho'
    have ho : o' = o := (Option.some.inj ho').symm
    subst ho
    cases hnet : env.isNetworkFileSystem q
    · cases hchanged : (old.recursive != o'.recursive)
      · obtain ⟨e1, e2⟩ := hstay (Or.inl hchanged)
        have hsame : old.recursive = o'.recursive := by simpa using hchanged
        rw [e1, e2, ← hsame]
        simp only [hnet, Bool.false_eq_true, or_false] at hin hout ⊢
        exact ⟨hin, hout⟩
      · obtain ⟨m1, m2⟩ := hmove hchanged hnet
        cases hrec : o'.recursive
        · obtain ⟨e1, e2⟩ := m2 hrec
          rw [e1, e2]
          refine ⟨fun hc => by simp at hc, fun _ => ⟨by simp [QSet.mem_remove], fun hex => ?_⟩⟩
          rw [FileSystem.pathExists_of_dirExists _ _ hex]
          exact (QSet.mem_insert _ _ _).2 (Or.inr rfl)
        · obtain ⟨e1, e2⟩ := m1 hrec
          rw [e1, e2]
          simp [QSet.mem_insert, QSet.mem_remove]
    · obtain ⟨e1, e2⟩ := hstay (Or.inr hnet)
      rw [e1, e2]
      simp only [hnet, or_true, not_true_eq_false, forall_true_left, false_implies, and_true] at hin ⊢
      exact hin
  · rw [QHash.get?_insert_ne _ _ _ _ hq]
    have hsets : (q ∈ (Worker.updateWatchedFolder env self p o).m_watchedByTimeoutFolders ↔
        q ∈ self.m_watchedByTimeoutFolders) ∧
        (q ∈ (Worker.updateWatchedFolder env self p o).m_watcher ↔ q ∈ self.m_watcher) := by
      cases hnet : env.isNetworkFileSystem p
      · cases hchanged : (old.recursive != o.recursive)
        · obtain ⟨e1, e2⟩ := hstay (Or.inl hchanged)
          rw [e1, e2]
          exact ⟨Iff.rfl, Iff.rfl⟩
        · obtain ⟨m1, m2⟩ := hmove hchanged hnet
          cases hrec : o.recursive
          · obtain ⟨e1, e2⟩ := m2 hrec
            rw [e1, e2]
            cases hx : self.fs.pathExists p <;> simp [QSet.mem_insert, QSet.mem_remove, hq]
          · obtain ⟨e1, e2⟩ := m1 hrec
            rw [e1, e2]
            simp [QSet.mem_insert, QSet.mem_remove, hq]
      · obtain ⟨e1, e2⟩ := hstay (Or.inr hnet)
        rw [e1, e2]
        exact ⟨Iff.rfl, Iff.rfl⟩
    rw [hsets.1, hsets.2]
    exact h q

theorem ModeInvariant.setWatchedFolder {env : Env} {self : Worker} (h : ModeInvariant env self)
    (p : String) (o : WatchedFolderOptions) :
    ModeInvariant env (Worker.setWatchedFolder env self p o) := by
  unfold Worker.setWatchedFolder
  cases hc : QHash.contains self.m_watchedFolders p
  · simp only [Bool.false_eq_true, ↓reduceIte]
    exact h.addWatchedFolder p o (QHash.get?_eq_none_of_not_contains _ _ hc)
  · simp only [↓reduceIte]
    exact h.updateWatchedFolder p o _
      (QHash.get?_eq_some_of_contains _ _ (WatchedFolderOptions.default env) hc)

theorem ModeInvariant.apply {env : Env} {self self' : Worker} (h : ModeInvariant env self)
    (op : WorkerOp) (hop : Worker.apply env self op = some self') : ModeInvariant env self' := by
  cases op with
  | setWatchedFolder p o =>
    simp only [Worker.apply, Option.some.injEq] at hop
    rw [← hop]
    exact h.setWatchedFolder p o
  | removeWatchedFolder p =>
    simp only [Worker.apply, Option.some.injEq] at hop
    rw [← hop]
    exact h.removeWatchedFolder p
  | processWatchedFolder fuel p =>
    exact h.of_same (processWatchedFolder_subscriptions env fuel self self' p hop)
      (processWatchedFolder_dirs env fuel self self' p hop)
  | processFailedTorrents =>
    simp only [Worker.apply, Option.some.injEq] at hop
    rw [← hop]
    exact h.of_same (processFailedTorrents_subscriptions env self)
      (processFailedTorrents_dirs env self)

theorem ModeInvariant.run {env : Env} (ops : List WorkerOp) :
    ∀ {self self' : Worker}, ModeInvariant env self → Worker.run env ops self = some self' →
      ModeInvariant env self' := by
  induction ops with
  | nil =>
    intro self self' h hrun
    simp only [Worker.run, List.foldlM_nil, pure, Option.some.injEq] at hrun
    rw [← hrun]
    exact h
  | cons op rest ih =>
    intro self self' h hrun
    simp only [Worker.run, List.foldlM_cons] at hrun
    obtain ⟨s1, h1, h2⟩ := Option.bind_eq_some.1 hrun
    exact ih (h.apply op h1) h2

end Worker

/-- C13, as stated, fails: on a file system without the directory `/gone`, the slot
`setWatchedFolder` adds `/gone` as a watched folder, not recursive and not on a network file
system, and the folder is neither in the polling set nor in the push set: the native watcher
takes a path that exists only, and its answer is not looked at. -/
theorem C13_missing_directory_in_neither_set :
    QHash.get? (Worker.setWatchedFolder unixEnv (Worker.init emptyFs) "/gone"
      exampleOptions).m_watchedFolders "/gone" = some exampleOptions ∧
    exampleOptions.recursive = false ∧ unixEnv.isNetworkFileSystem "/gone" = false ∧
    "/gone" ∉ (Worker.setWatchedFolder unixEnv (Worker.init emptyFs) "/gone"
      exampleOptions).m_watchedByTimeoutFolders ∧
    "/gone" ∉ (Worker.setWatchedFolder unixEnv (Worker.init emptyFs) "/gone"
      exampleOptions).m_watcher := by
  decide

/-- C13, amended: after any sequence of operations of the worker from its construction (the
slots `setWatchedFolder`, which adds or updates, and `removeWatchedFolder`, in any order with
scans and sweeps), a watched folder is in the polling set exactly when it is recursive or on a
network file system; it is in the push set only when it is neither, and it is then in the push
set whenever its directory exists; so it is never in both; a path that is not watched is in
neither set. -/
theorem C13_monitoring_mode_invariant (env : Env) (fs : FileSystem) (ops : List WorkerOp)
    (self : Worker) (hrun : Worker.run env ops (Worker.init fs) = some self) (path : String) :
    (∀ o, QHash.get? self.m_watchedFolders path = some o →
      (path ∈ self.m_watchedByTimeoutFolders ↔
        (o.recursive = true ∨ env.isNetworkFileSystem path = true)) ∧
      (path ∈ self.m_watcher → ¬ (o.recursive = true ∨ env.isNetworkFileSystem path = true)) ∧
      (¬ (o.recursive = true ∨ env.isNetworkFileSystem path = true) →
        self.fs.dirExists path = true → path ∈ self.m_watcher) ∧
      ¬ (path ∈ self.m_watchedByTimeoutFolders ∧ path ∈ self.m_watcher)) ∧
    (QHash.get? self.m_watchedFolders path = none →
      path ∉ self.m_watchedByTimeoutFolders ∧ path ∉ self.m_watcher) := by
  have hinv := Worker.ModeInvariant.run ops (Worker.ModeInvariant.init env fs) hrun
  refine ⟨?_, (hinv path).2⟩
  intro o ho
  obtain ⟨hyes, hno⟩ := (hinv path).1 o ho
  by_cases hc : o.recursive = true ∨ env.isNetworkFileSystem path = true
  · obtain ⟨h1, h2⟩ := hyes hc
    exact ⟨⟨fun _ => hc, fun _ => h1⟩, fun h => absurd h h2, fun h => absurd hc h,
      fun h => h2 h.2⟩
  · obtain ⟨h1, h2⟩ := hno hc
    exact ⟨⟨fun h => absurd h h1, fun h => absurd h hc⟩, fun _ => hc, fun _ => h2,
      fun h => h1 h.1⟩

/-- C13, amended, at a concrete input: after `modeOps` the folder `/watch`, not recursive, on a
local file system and with its directory in place, is in the push set and not in the polling
set, and `/plain`, removed, is in neither. -/
theorem C13_monitoring_mode_invariant_witness :
    "/watch" ∈ modeWorker.m_watcher ∧ "/watch" ∉ modeWorker.m_watchedByTimeoutFolders ∧
    ("/plain" ∉ modeWorker.m_watchedByTimeoutFolders ∧ "/plain" ∉ modeWorker.m_watcher) :=
  ⟨((C13_monitoring_mode_invariant unixEnv descriptorFs modeOps modeWorker (by decide) "/watch").1
      exampleOptions (by decide)).2.2.1 (by decide) (by decide),
   fun h => (((C13_monitoring_mode_invariant unixEnv descriptorFs modeOps modeWorker (by decide)
      "/watch").1 exampleOptions (by decide)).1.1 h).elim (by decide) (by decide),
   (C13_monitoring_mode_invariant unixEnv descriptorFs modeOps modeWorker (by decide) "/plain").2
      (by decide)⟩

theorem QHash.filter_insert_self {α : Type} (h : QHash α) (key : String) (v : α)
    (hkeys : (QHash.keys h).Nodup) :
    (QHash.insert h key v).filter (fun e => decide (e.1 = key)) = [(key, v)] := by
  induction h with
  | nil => simp [QHash.insert]
  | cons e rest ih =>
    obtain ⟨k, x⟩ := e
    simp only [QHash.keys, List.map_cons, List.nodup_cons] at hkeys
    by_cases hk : k = key
    · subst hk
      have hnone : rest.filter (fun e => decide (e.1 = k)) = [] := by
        rw [List.filter_eq_nil_iff]
        intro e he
        have : e.1 ≠ k := by
          intro heq
          exact hkeys.1 (by rw [← heq]; exact List.mem_map_of_mem _ he)
        simp [this]
      simp [QHash.insert, List.filter_cons, hnone]
    · simp only [QHash.insert, hk, ↓reduceIte, List.filter_cons, decide_False, Bool.false_eq_true]
      exact ih hkeys.2

/-- C14, as stated, fails: `/gone` is watched recursively, on a local file system, and its
directory does not exist; `updateWatchedFolder` with the flag `recursive` now false takes it out
of the polling set and does not put it in the push set: the native watcher takes a path that
exists only, and its answer is not looked at. -/
theorem C14_missing_directory_not_pushed :
    QHash.get? goneWorker.m_watchedFolders "/gone"
      = some { exampleOptions with recursive := true } ∧
    unixEnv.isNetworkFileSystem "/gone" = false ∧
    "/gone" ∈ goneWorker.m_watchedByTimeoutFolders ∧
    "/gone" ∉ (Worker.updateWatchedFolder unixEnv goneWorker "/gone"
      exampleOptions).m_watchedByTimeoutFolders ∧
    "/gone" ∉ (Worker.updateWatchedFolder unixEnv goneWorker "/gone" exampleOptions).m_watcher := by
  decide

/-- C14, amended: for a watched folder on a path that is not on a network file system,
`updateWatchedFolder` with a recursive flag that differs from the stored one leaves the folder
in the polling set and out of the push set when the flag became true; when it became false the
folder is out of the polling set, and it is in the push set when its path exists, while the push
set is as before when the path does not exist; the registry then has exactly one entry for the
path, the new configuration, and the entries and subscriptions of every other path are as
before. -/
theorem C14_update_migrates_mode (env : Env) (self : Worker) (path : String)
    (options old : WatchedFolderOptions)
    (hold : QHash.get? self.m_watchedFolders path = some old)
    (hkeys : (QHash.keys self.m_watchedFolders).Nodup)
    (hnet : env.isNetworkFileSystem path = false) (hdiff : old.recursive ≠ options.recursive) :
    (options.recursive = true →
      path ∈ (Worker.updateWatchedFolder env self path options).m_watchedByTimeoutFolders ∧
      path ∉ (Worker.updateWatchedFolder env self path options).m_watcher) ∧
    (options.recursive = false →
      path ∉ (Worker.updateWatchedFolder env self path options).m_watchedByTimeoutFolders ∧
      (self.fs.pathExists path = true →
        path ∈ (Worker.updateWatchedFolder env self path options).m_watcher) ∧
      (self.fs.pathExists path = false →
        (Worker.updateWatchedFolder env self path options).m_watcher = self.m_watcher)) ∧
    (Worker.updateWatchedFolder env self path options).m_watchedFolders.filter
      (fun e => decide (e.1 = path)) = [(path, options)] ∧
    (∀ q, q ≠ path →
      QHash.get? (Worker.updateWatchedFolder env self path options).m_watchedFolders q
        = QHash.get? self.m_watchedFolders q ∧
      (q ∈ (Worker.updateWatchedFolder env self path options).m_watchedByTimeoutFolders ↔
        q ∈ self.m_watchedByTimeoutFolders) ∧
      (q ∈ (Worker.updateWatchedFolder env self path options).m_watcher ↔ q ∈ self.m_watcher)) := by
  obtain ⟨hw, hmove, _⟩ := Worker.updateWatchedFolder_members env self path options
  have hvalue : QHash.value self.m_watchedFolders path (WatchedFolderOptions.default env) = old := by
    simp [QHash.value, hold]
  have hchanged : (old.recursive != options.recursive) = true := by simpa using hdiff
  rw [hvalue] at hmove
  obtain ⟨m1, m2⟩ := hmove hchanged hnet
  refine ⟨?_, ?_, ?_, ?_⟩
  · intro hrec
    obtain ⟨e1, e2⟩ := m1 hrec
    rw [e1, e2]
    simp [QSet.mem_insert, QSet.mem_remove]
  · intro hrec
    obtain ⟨e1, e2⟩ := m2 hrec
    rw [e1, e2]
    refine ⟨by simp [QSet.mem_remove], fun hx => ?_, fun hx => by simp [hx]⟩
    rw [hx]
    exact (QSet.mem_insert _ _ _).2 (Or.inr rfl)
  · rw [hw]
    exact QHash.filter_insert_self _ _ _ hkeys
  · intro q hq
    rw [hw, QHash.get?_insert_ne _ _ _ _ hq]
    refine ⟨rfl, ?_⟩
    cases hrec : options.recursive
    · obtain ⟨e1, e2⟩ := m2 hrec
      rw [e1, e2]
      cases hx : self.fs.pathExists path <;> simp [QSet.mem_insert, QSet.mem_remove, hq]
    · obtain ⟨e1, e2⟩ := m1 hrec
      rw [e1, e2]
      simp [QSet.mem_insert, QSet.mem_remove, hq]

/-- C14, amended, at a concrete input: `/watch`, watched by `recursiveWorker` with recursion
and with its directory in place, is updated not to be recursive and moves from the polling set
to the push set. -/
theorem C14_update_migrates_mode_witness :
    "/watch" ∈ recursiveWorker.m_watchedByTimeoutFolders ∧
    "/watch" ∉ (Worker.updateWatchedFolder unixEnv recursiveWorker "/watch"
      exampleOptions).m_watchedByTimeoutFolders ∧
    "/watch" ∈ (Worker.updateWatchedFolder unixEnv recursiveWorker "/watch"
      exampleOptions).m_watcher :=
  ⟨by decide,
   ((C14_update_migrates_mode unixEnv recursiveWorker "/watch" exampleOptions
    { exampleOptions with recursive := true } (by decide) (by decide) (by decide)
    (by decide)).2.1 rfl).1,
   ((C14_update_migrates_mode unixEnv recursiveWorker "/watch" exampleOptions
    { exampleOptions with recursive := true } (by decide) (by decide) (by decide)
    (by decide)).2.1 rfl).2.1 (by decide)⟩

/-! ## The keys of the registry -/

namespace QHash

variable {α : Type}

theorem mem_keys_insert (h : QHash α) (key : String) (v : α) (x : String) :
    x ∈ keys (insert h key v) ↔ x ∈ keys h ∨ x = key := by
  induction h with
  | nil => simp [insert, keys]
  | cons e rest ih =>
    obtain ⟨k, y⟩ := e
    by_cases hk : k = key
    · subst hk
      simp only [insert, ↓reduceIte, keys, List.map_cons, List.mem_cons]
      tauto
    · simp only [insert, hk, ↓reduceIte, keys, List.map_cons, List.mem_cons]
      simp only [keys] at ih
      rw [ih]
      tauto

theorem insert_fresh (h : QHash α) (key : String) (v : α) (hfresh : key ∉ keys h) :
    insert h key v = h ++ [(key, v)] := by
  induction h with
  | nil => rfl
  | cons e rest ih =>
    obtain ⟨k, y⟩ := e
    simp only [keys, List.map_cons, List.mem_cons, not_or] at hfresh
    have hk : ¬ k = key := fun e => hfresh.1 e.symm
    simp only [insert, hk, ↓reduceIte, List.cons_append]
    rw [ih hfresh.2]

theorem nodup_keys_insert (h : QHash α) (key : String) (v : α) (hn : (keys h).Nodup) :
    (keys (insert h key v)).Nodup := by
  induction h with
  | nil => simp [insert, keys]
  | cons e rest ih =>
    obtain ⟨k, y⟩ := e
    simp only [keys, List.map_cons, List.nodup_cons] at hn
    by_cases hk : k = key
    · subst hk
      simp only [insert, ↓reduceIte, keys, List.map_cons, List.nodup_cons]
      exact hn
    · simp only [insert, hk, ↓reduceIte, keys, List.map_cons, List.nodup_cons]
      refine ⟨?_, ih hn.2⟩
      intro hmem
      rcases (mem_keys_insert rest key v k).1 hmem with h1 | h1
      · exact hn.1 h1
      · exact hk h1

theorem keys_remove (h : QHash α) (key : String) :
    keys (remove h key) = (keys h).filter (fun k => decide (k ≠ key)) := by
  simp only [keys, remove, List.filter_map]
  rfl

end QHash

theorem RegistryInvariant.insert {env : Env} {registry : QHash WatchedFolderOptions}
    (h : RegistryInvariant env registry) (key : String) (options : WatchedFolderOptions)
    (hkey : key ≠ "" ∧ env.isRelativePath key = false ∧ env.cleanPath key = key) :
    RegistryInvariant env (QHash.insert registry key options) := by
  refine ⟨QHash.nodup_keys_insert _ _ _ h.1, ?_⟩
  intro k hk
  rcases (QHash.mem_keys_insert _ _ _ _).1 hk with h1 | h1
  · exact h.2 k h1
  · rw [h1]
    exact hkey

theorem RegistryInvariant.remove {env : Env} {registry : QHash WatchedFolderOptions}
    (h : RegistryInvariant env registry) (key : String) :
    RegistryInvariant env (QHash.remove registry key) := by
  rw [RegistryInvariant, QHash.keys_remove]
  refine ⟨h.1.filter _, ?_⟩
  intro k hk
  exact h.2 k (List.mem_filter.1 hk).1

namespace TorrentFilesWatcher

theorem store_registry (self : TorrentFilesWatcher) :
    (store self).m_watchedFolders = self.m_watchedFolders := rfl

/-- The registry after `doSetWatchedFolder`. -/
theorem doSetWatchedFolder_registry (env : Env) (self : TorrentFilesWatcher) (path : String)
    (options : WatchedFolderOptions) :
    ((path = "" ∨ env.isRelativePath path = true) →
      (doSetWatchedFolder env self path options).2 = self) ∧
    (path ≠ "" → env.isRelativePath path = false →
      (doSetWatchedFolder env self path options).2.m_watchedFolders
        = QHash.insert self.m_watchedFolders (env.cleanPath path) options) := by
  constructor
  · intro h
    obtain ⟨err, herr⟩ := makeCleanPath_error env path h
    simp [doSetWatchedFolder, herr]
  · intro hne habs
    simp [doSetWatchedFolder, makeCleanPath_ok env path hne habs]

end TorrentFilesWatcher

theorem RegistryInvariant.doSetWatchedFolder {env : Env}
    (hidem : ∀ p, env.cleanPath (env.cleanPath p) = env.cleanPath p)
    (habs : ∀ p, env.isRelativePath p = false → env.isRelativePath (env.cleanPath p) = false)
    (hempty : env.isRelativePath "" = true)
    {self : TorrentFilesWatcher} (h : RegistryInvariant env self.m_watchedFolders)
    (path : String) (options : WatchedFolderOptions) :
    RegistryInvariant env
      (TorrentFilesWatcher.doSetWatchedFolder env self path options).2.m_watchedFolders := by
  by_cases hvalid : path ≠ "" ∧ env.isRelativePath path = false
  · rw [(TorrentFilesWatcher.doSetWatchedFolder_registry env self path options).2 hvalid.1 hvalid.2]
    apply h.insert
    have hk := habs path hvalid.2
    refine ⟨?_, hk, hidem path⟩
    intro he
    rw [he, hempty] at hk
    exact absurd hk (by simp)
  · have hbad : path = "" ∨ env.isRelativePath path = true := by
      by_cases he : path = ""
      · exact Or.inl he
      · right
        cases hr : env.isRelativePath path
        · exact absurd ⟨he, hr⟩ hvalid
        · rfl
    rw [(TorrentFilesWatcher.doSetWatchedFolder_registry env self path options).1 hbad]
    exact h

theorem List.foldl_invariant {σ α : Type} (P : σ → Prop) (step : σ → α → σ)
    (hstep : ∀ s a, P s → P (step s a)) (l : List α) : ∀ s, P s → P (l.foldl step s) := by
  induction l with
  | nil => exact fun s h => h
  | cons a rest ih =>
    intro s h
    rw [List.foldl_cons]
    exact ih _ (hstep s a h)

namespace TorrentFilesWatcher

theorem setWatchedFolder_eq (env : Env) (self : TorrentFilesWatcher) (path : String)
    (options : WatchedFolderOptions) :
    (setWatchedFolder env self path options).2.m_watchedFolders
      = (doSetWatchedFolder env self path options).2.m_watchedFolders := by
  unfold setWatchedFolder
  split
  · rename_i h
    rw [h]
  · rename_i h
    rw [h]
    rfl

theorem removeWatchedFolder_registry (env : Env) (self : TorrentFilesWatcher) (path : String) :
    (removeWatchedFolder env self path).2.m_watchedFolders = self.m_watchedFolders ∨
    (removeWatchedFolder env self path).2.m_watchedFolders
      = QHash.remove self.m_watchedFolders (env.cleanPath path) := by
  unfold removeWatchedFolder makeCleanPath
  by_cases he : path = ""
  · left
    simp [he]
  · cases hr : env.isRelativePath path
    · right
      simp only [he, ↓reduceIte, hr, Bool.false_eq_true]
      split <;> rfl
    · left
      simp [he, hr]

theorem load_registry (env : Env) (self : TorrentFilesWatcher)
    (settings : Option (QHash QVariant)) :
    (load env self settings).1.m_watchedFolders = self.m_watchedFolders ∨
    (∃ l : QHash QVariant, (load env self settings).1.m_watchedFolders = (l.foldl
      (fun self i => (doSetWatchedFolder env self i.1 ⟨legacyParams env i.1 i.2, false⟩).2)
      self).m_watchedFolders) ∨
    (∃ l : QJsonObject, (load env self settings).1.m_watchedFolders = (l.foldl
      (fun self it => (doSetWatchedFolder env self it.1
        (parseWatchedFolderOptions env it.2.toObject)).2) self).m_watchedFolders) := by
  cases hc : self.confFile with
  | none =>
    right
    left
    refine ⟨settings.getD [], ?_⟩
    simp only [load, hc, loadLegacy, store_registry]
  | some file =>
    cases file with
    | unreadable =>
      left
      simp only [load, hc]
    | malformed =>
      left
      simp only [load, hc]
    | array a =>
      left
      simp only [load, hc]
    | object jsonObj =>
      right
      right
      refine ⟨jsonObj, ?_⟩
      simp only [load, hc]

end TorrentFilesWatcher

theorem RegistryInvariant.of_reachable {env : Env}
    (hidem : ∀ p, env.cleanPath (env.cleanPath p) = env.cleanPath p)
    (habs : ∀ p, env.isRelativePath p = false → env.isRelativePath (env.cleanPath p) = false)
    (hempty : env.isRelativePath "" = true)
    {self : TorrentFilesWatcher} (hr : TorrentFilesWatcher.Reachable env self) :
    RegistryInvariant env self.m_watchedFolders := by
  induction hr with
  | init self h =>
    rw [h]
    exact ⟨List.nodup_nil, fun k hk => by simp [QHash.keys] at hk⟩
  | load self settings _ ih =>
    rcases TorrentFilesWatcher.load_registry env self settings with h | ⟨l, h⟩ | ⟨l, h⟩
    · rw [h]
      exact ih
    · rw [h]
      exact List.foldl_invariant (fun s => RegistryInvariant env s.m_watchedFolders) _
        (fun s a hs => hs.doSetWatchedFolder hidem habs hempty _ _) l self ih
    · rw [h]
      exact List.foldl_invariant (fun s => RegistryInvariant env s.m_watchedFolders) _
        (fun s a hs => hs.doSetWatchedFolder hidem habs hempty _ _) l self ih
  | setWatchedFolder self path options _ ih =>
    rw [TorrentFilesWatcher.setWatchedFolder_eq]
    exact ih.doSetWatchedFolder hidem habs hempty path options
  | removeWatchedFolder self path _ ih =>
    rcases TorrentFilesWatcher.removeWatchedFolder_registry env self path with h | h
    · rw [h]
      exact ih
    · rw [h]
      exact ih.remove _
  | confFile self file _ ih => exact ih

/-- C15: `QDir::cleanPath` being idempotent and keeping absolute paths absolute (and the empty
path being relative), after any sequence of `load`, `setWatchedFolder` and `removeWatchedFolder`
calls on a facade that started without watched folders, every key of the registry is a
non-empty absolute path that is its own normal form; so no two distinct keys have the same
normal form, and no key occurs twice. -/
theorem C15_registry_keys_normalized (env : Env)
    (hidem : ∀ p, env.cleanPath (env.cleanPath p) = env.cleanPath p)
    (habs : ∀ p, env.isRelativePath p = false → env.isRelativePath (env.cleanPath p) = false)
    (hempty : env.isRelativePath "" = true)
    (self : TorrentFilesWatcher) (hr : TorrentFilesWatcher.Reachable env self) :
    (∀ key ∈ QHash.keys self.m_watchedFolders,
      key ≠ "" ∧ env.isRelativePath key = false ∧ env.cleanPath key = key) ∧
    (∀ k1 ∈ QHash.keys self.m_watchedFolders, ∀ k2 ∈ QHash.keys self.m_watchedFolders,
      env.cleanPath k1 = env.cleanPath k2 → k1 = k2) ∧
    (QHash.keys self.m_watchedFolders).Nodup := by
  have hinv := RegistryInvariant.of_reachable hidem habs hempty hr
  refine ⟨hinv.2, ?_, hinv.1⟩
  intro k1 h1 k2 h2 heq
  rw [(hinv.2 k1 h1).2.2, (hinv.2 k2 h2).2.2] at heq
  exact heq

/-- C15 at a concrete input: the registry after `setWatchedFolder("/watch")` on a facade without
watched folders, paths being in normal form already. -/
theorem C15_registry_keys_normalized_witness :
    (∀ key ∈ QHash.keys
        (TorrentFilesWatcher.setWatchedFolder plainEnv emptyWatcher "/watch" exampleOptions).2.m_watchedFolders,
      key ≠ "" ∧ plainEnv.isRelativePath key = false ∧ plainEnv.cleanPath key = key) ∧
    (QHash.keys
      (TorrentFilesWatcher.setWatchedFolder plainEnv emptyWatcher "/watch" exampleOptions).2.m_watchedFolders).Nodup :=
  ⟨(C15_registry_keys_normalized plainEnv (fun _ => rfl) (fun _ h => h) (by decide) _
      (TorrentFilesWatcher.Reachable.setWatchedFolder emptyWatcher "/watch" exampleOptions
        (TorrentFilesWatcher.Reachable.init emptyWatcher rfl))).1,
   (C15_registry_keys_normalized plainEnv (fun _ => rfl) (fun _ h => h) (by decide) _
      (TorrentFilesWatcher.Reachable.setWatchedFolder emptyWatcher "/watch" exampleOptions
        (TorrentFilesWatcher.Reachable.init emptyWatcher rfl))).2.2⟩

/-! ## The legacy settings -/

namespace TorrentFilesWatcher

theorem foldl_legacy_preserves (env : Env) (key : String) (o : WatchedFolderOptions)
    (l : QHash QVariant) :
    ∀ self : TorrentFilesWatcher, QHash.get? self.m_watchedFolders key = some o →
      (∀ e ∈ l, e.1 ≠ "" → env.isRelativePath e.1 = false → env.cleanPath e.1 = key →
        (⟨legacyParams env e.1 e.2, false⟩ : WatchedFolderOptions) = o) →
      QHash.get? (l.foldl
        (fun self i => (doSetWatchedFolder env self i.1 ⟨legacyParams env i.1 i.2, false⟩).2)
        self).m_watchedFolders key = some o := by
  induction l with
  | nil => exact fun self h _ => h
  | cons e rest ih =>
    intro self h hall
    rw [List.foldl_cons]
    apply ih
    · by_cases hvalid : e.1 ≠ "" ∧ env.isRelativePath e.1 = false
      · rw [(doSetWatchedFolder_registry env self e.1 _).2 hvalid.1 hvalid.2]
        by_cases hk : env.cleanPath e.1 = key
        · rw [hk, QHash.get?_insert_self, hall e (by simp) hvalid.1 hvalid.2 hk]
        · rw [QHash.get?_insert_ne _ _ _ _ (fun h => hk h.symm)]
          exact h
      · have hbad : e.1 = "" ∨ env.isRelativePath e.1 = true := by
          by_cases he : e.1 = ""
          · exact Or.inl he
          · right
            cases hr : env.isRelativePath e.1
            · exact absurd ⟨he, hr⟩ hvalid
            · rfl
        rw [(doSetWatchedFolder_registry env self e.1 _).1 hbad]
        exact h
    · exact fun e' he' => hall e' (List.mem_cons_of_mem _ he')

theorem foldl_legacy_registers (env : Env) (F : String) (v : QVariant) (hne : F ≠ "")
    (habs : env.isRelativePath F = false) (l : QHash QVariant) :
    ∀ self : TorrentFilesWatcher, (F, v) ∈ l →
      (∀ e ∈ l, e.1 ≠ "" → env.isRelativePath e.1 = false → env.cleanPath e.1 = env.cleanPath F →
        e = (F, v)) →
      QHash.get? (l.foldl
        (fun self i => (doSetWatchedFolder env self i.1 ⟨legacyParams env i.1 i.2, false⟩).2)
        self).m_watchedFolders (env.cleanPath F) = some ⟨legacyParams env F v, false⟩ := by
  induction l with
  | nil => exact fun self h _ => absurd h (by simp)
  | cons e rest ih =>
    intro self hmem honly
    have honly' : ∀ e' ∈ rest, e'.1 ≠ "" → env.isRelativePath e'.1 = false →
        env.cleanPath e'.1 = env.cleanPath F → e' = (F, v) :=
      fun e' he' => honly e' (List.mem_cons_of_mem _ he')
    rw [List.foldl_cons]
    by_cases he : e = (F, v)
    · subst he
      apply foldl_legacy_preserves
      · rw [(doSetWatchedFolder_registry env self F _).2 hne habs, QHash.get?_insert_self]
      · intro e' he' h1 h2 h3
        rw [honly' e' he' h1 h2 h3]
    · rcases List.mem_cons.1 hmem with h | h
      · exact absurd h.symm he
      · exact ih _ h honly'

end TorrentFilesWatcher

/-- C16, as stated, fails: for the legacy value `1`, an integer other than 0, `loadLegacy`
registers `/watch` with default-constructed parameters: the save path is empty, not the value,
and automatic management is not set at all. -/
theorem C16_legacy_nonzero_integer_keeps_defaults :
    QHash.get? (TorrentFilesWatcher.loadLegacy unixEnv emptyWatcher
        (some [("/watch", legacyOne)])).1.m_watchedFolders "/watch"
      = some ⟨AddTorrentParams.default unixEnv, false⟩ ∧
    (AddTorrentParams.default unixEnv).savePath = "" ∧
    (AddTorrentParams.default unixEnv).useAutoTMM = none := by
  decide

/-- C16, amended: for a legacy entry of a folder `F` that is a non-empty absolute path, the only
entry with the normal form of `F`, `loadLegacy` registers the normal form of `F` with
`recursive = false` and parameters that are default-constructed but for: the save path `F` and
automatic management explicitly off when the value is the integer 0; the save path the value
gives as a string and automatic management explicitly off when the value is not an integer;
nothing when the value is an integer other than 0. -/
theorem C16_loadLegacy_options (env : Env) (self : TorrentFilesWatcher) (dirs : QHash QVariant)
    (F : String) (v : QVariant) (hmem : (F, v) ∈ dirs) (hne : F ≠ "")
    (habs : env.isRelativePath F = false)
    (honly : ∀ e ∈ dirs, e.1 ≠ "" → env.isRelativePath e.1 = false →
      env.cleanPath e.1 = env.cleanPath F → e = (F, v)) :
    QHash.get? (TorrentFilesWatcher.loadLegacy env self (some dirs)).1.m_watchedFolders
        (env.cleanPath F)
      = some ⟨TorrentFilesWatcher.legacyParams env F v, false⟩ ∧
    (∀ i : CInt, v = QVariant.int i → i.val = 0 →
      TorrentFilesWatcher.legacyParams env F v
        = { AddTorrentParams.default env with savePath := F, useAutoTMM := some false }) ∧
    (∀ s : String, v = QVariant.string s →
      TorrentFilesWatcher.legacyParams env F v
        = { AddTorrentParams.default env with savePath := s, useAutoTMM := some false }) ∧
    (∀ i : CInt, v = QVariant.int i → i.val ≠ 0 →
      TorrentFilesWatcher.legacyParams env F v = AddTorrentParams.default env) := by
  refine ⟨?_, ?_, ?_, ?_⟩
  · simp only [TorrentFilesWatcher.loadLegacy, Option.getD_some, TorrentFilesWatcher.store_registry]
    exact TorrentFilesWatcher.foldl_legacy_registers env F v hne habs dirs self hmem honly
  · intro i hv hi
    simp [TorrentFilesWatcher.legacyParams, hv, hi]
  · intro s hv
    simp [TorrentFilesWatcher.legacyParams, hv]
  · intro i hv hi
    simp [TorrentFilesWatcher.legacyParams, hv, hi]

/-- C16, amended, at a concrete input: the legacy value 0 of `/watch`. -/
theorem C16_loadLegacy_options_witness :
    QHash.get? (TorrentFilesWatcher.loadLegacy unixEnv emptyWatcher
        (some [("/watch", QVariant.int ⟨0, by decide⟩)])).1.m_watchedFolders
        (unixEnv.cleanPath "/watch")
      = some ⟨TorrentFilesWatcher.legacyParams unixEnv "/watch" (QVariant.int ⟨0, by decide⟩), false⟩ ∧
    TorrentFilesWatcher.legacyParams unixEnv "/watch" (QVariant.int ⟨0, by decide⟩)
      = { AddTorrentParams.default unixEnv with savePath := "/watch", useAutoTMM := some false } :=
  ⟨(C16_loadLegacy_options unixEnv emptyWatcher [("/watch", QVariant.int ⟨0, by decide⟩)]
      "/watch" (QVariant.int ⟨0, by decide⟩) (by decide) (by decide) (by decide)
      (by decide)).1,
   (C16_loadLegacy_options unixEnv emptyWatcher [("/watch", QVariant.int ⟨0, by decide⟩)]
      "/watch" (QVariant.int ⟨0, by decide⟩) (by decide) (by decide) (by decide)
      (by decide)).2.1 ⟨0, by decide⟩ rfl rfl⟩

/-! ## The configuration file -/

theorem parseWatchedFolderOptions_serializeWatchedFolderOptions (env : Env)
    (o : WatchedFolderOptions) :
    parseWatchedFolderOptions env (serializeWatchedFolderOptions o) = o.persisted := by
  have h := parseAddTorrentParams_serializeAddTorrentParams env o.addTorrentParams
  have h1 : (parseWatchedFolderOptions env (serializeWatchedFolderOptions o)).recursive
      = o.recursive := by
    simp [parseWatchedFolderOptions, serializeWatchedFolderOptions, QJsonObject.value, QHash.value,
      QHash.get?, QJsonValue.toBool, OPTION_ADDTORRENTPARAMS, OPTION_RECURSIVE]
  have h2 : (parseWatchedFolderOptions env (serializeWatchedFolderOptions o)).addTorrentParams
      = { o.addTorrentParams with
          sequential := false, firstLastPiecePriority := false, filePriorities := [] } := by
    simpa [parseWatchedFolderOptions, serializeWatchedFolderOptions, QJsonObject.value, QHash.value,
      QHash.get?, QJsonValue.toObject, OPTION_ADDTORRENTPARAMS, OPTION_RECURSIVE] using h
  cases hp : parseWatchedFolderOptions env (serializeWatchedFolderOptions o) with
  | mk params recursive =>
    rw [hp] at h1 h2
    simp only at h1 h2
    rw [h1, h2]
    rfl

namespace QHash

theorem foldl_insert_fresh {α β : Type} (f : β → α) (l : List (String × β)) :
    ∀ acc : QHash α, (l.map Prod.fst).Nodup → (∀ e ∈ l, e.1 ∉ keys acc) →
      l.foldl (fun a e => insert a e.1 (f e.2)) acc = acc ++ l.map (fun e => (e.1, f e.2)) := by
  induction l with
  | nil => simp
  | cons e rest ih =>
    intro acc hn hfresh
    simp only [List.map_cons, List.nodup_cons] at hn
    rw [List.foldl_cons, insert_fresh acc e.1 (f e.2) (hfresh e (by simp)), ih _ hn.2]
    · simp
    · intro e' he'
      simp only [keys, List.map_append, List.map_cons, List.map_nil, List.mem_append,
        List.mem_singleton, not_or]
      refine ⟨hfresh e' (List.mem_cons_of_mem _ he'), ?_⟩
      intro heq
      exact hn.1 (by rw [← heq]; exact List.mem_map_of_mem _ he')

theorem get?_map {α β : Type} (f : α → β) (h : QHash α) (key : String) :
    get? (h.map (fun e => (e.1, f e.2))) key = (get? h key).map f := by
  induction h with
  | nil => rfl
  | cons e rest ih =>
    obtain ⟨k, v⟩ := e
    by_cases hk : k = key
    · simp [get?, hk]
    · simp only [List.map_cons, get?, hk, ↓reduceIte]
      exact ih

end QHash

namespace TorrentFilesWatcher

theorem foldl_load_registry (env : Env) (l : QJsonObject)
    (hkeys : ∀ e ∈ l, e.1 ≠ "" ∧ env.isRelativePath e.1 = false ∧ env.cleanPath e.1 = e.1) :
    ∀ self : TorrentFilesWatcher,
      (l.foldl (fun self it =>
        (doSetWatchedFolder env self it.1 (parseWatchedFolderOptions env it.2.toObject)).2)
        self).m_watchedFolders
      = l.foldl (fun a e => QHash.insert a e.1 (parseWatchedFolderOptions env e.2.toObject))
          self.m_watchedFolders := by
  induction l with
  | nil => exact fun self => rfl
  | cons e rest ih =>
    intro self
    obtain ⟨h1, h2, h3⟩ := hkeys e (by simp)
    rw [List.foldl_cons, List.foldl_cons, ih (fun e' he' => hkeys e' (List.mem_cons_of_mem _ he')),
      (doSetWatchedFolder_registry env self e.1 _).2 h1 h2, h3]

end TorrentFilesWatcher

/-- C17: `QDir::cleanPath` being idempotent and keeping absolute paths absolute (and the empty
path being relative), for every registry the facade can reach, `load` on a facade without
watched folders, reading the configuration file `store` has written, rebuilds the registry:
the same keys in the same order, each with its options as serialised (the members that are not
serialised default-constructed). -/
theorem C17_store_then_load (env : Env)
    (hidem : ∀ p, env.cleanPath (env.cleanPath p) = env.cleanPath p)
    (habs : ∀ p, env.isRelativePath p = false → env.isRelativePath (env.cleanPath p) = false)
    (hempty : env.isRelativePath "" = true)
    (self : TorrentFilesWatcher) (hr : TorrentFilesWatcher.Reachable env self)
    (settings : Option (QHash QVariant)) :
    (TorrentFilesWatcher.load env
      { m_watchedFolders := [], queued := [], emitted := [],
        confFile := (TorrentFilesWatcher.store self).confFile } settings).1.m_watchedFolders
      = self.m_watchedFolders.map (fun e => (e.1, e.2.persisted)) ∧
    QHash.keys (TorrentFilesWatcher.load env
      { m_watchedFolders := [], queued := [], emitted := [],
        confFile := (TorrentFilesWatcher.store self).confFile } settings).1.m_watchedFolders
      = QHash.keys self.m_watchedFolders ∧
    (∀ key, QHash.get? (TorrentFilesWatcher.load env
      { m_watchedFolders := [], queued := [], emitted := [],
        confFile := (TorrentFilesWatcher.store self).confFile } settings).1.m_watchedFolders key
      = (QHash.get? self.m_watchedFolders key).map WatchedFolderOptions.persisted) := by
  have hinv := RegistryInvariant.of_reachable hidem habs hempty hr
  have hstored : (TorrentFilesWatcher.store self).confFile
      = some (ConfFile.object (self.m_watchedFolders.map
          (fun e => (e.1, QJsonValue.object (serializeWatchedFolderOptions e.2))))) := by
    simp only [TorrentFilesWatcher.store]
    rw [QHash.foldl_insert_fresh (fun o => QJsonValue.object (serializeWatchedFolderOptions o))
      self.m_watchedFolders [] hinv.1 (fun e _ => by simp [QHash.keys])]
    rfl
  have hload : (TorrentFilesWatcher.load env
      { m_watchedFolders := [], queued := [], emitted := [],
        confFile := (TorrentFilesWatcher.store self).confFile } settings).1.m_watchedFolders
      = self.m_watchedFolders.map (fun e => (e.1, e.2.persisted)) := by
    have hvalid : ∀ e ∈ self.m_watchedFolders.map
        (fun e => (e.1, QJsonValue.object (serializeWatchedFolderOptions e.2))),
        e.1 ≠ "" ∧ env.isRelativePath e.1 = false ∧ env.cleanPath e.1 = e.1 := by
      intro e he
      obtain ⟨e0, he0, rfl⟩ := List.mem_map.1 he
      exact hinv.2 e0.1 (List.mem_map_of_mem _ he0)
    have hnodup : ((self.m_watchedFolders.map
        (fun e => (e.1, QJsonValue.object (serializeWatchedFolderOptions e.2)))).map
          Prod.fst).Nodup := by
      rw [List.map_map]
      exact hinv.1
    have hfold := QHash.foldl_insert_fresh
      (fun v : QJsonValue => parseWatchedFolderOptions env v.toObject)
      (self.m_watchedFolders.map
        (fun e => (e.1, QJsonValue.object (serializeWatchedFolderOptions e.2))))
      [] hnodup (fun e _ => by simp [QHash.keys])
    rw [hstored]
    simp only [TorrentFilesWatcher.load]
    rw [TorrentFilesWatcher.foldl_load_registry env _ hvalid]
    refine hfold.trans ?_
    simp only [List.nil_append, List.map_map]
    apply List.map_congr_left
    intro e _
    simp [QJsonValue.toObject, parseWatchedFolderOptions_serializeWatchedFolderOptions]
  refine ⟨hload, ?_, ?_⟩
  · rw [hload]
    simp [QHash.keys, List.map_map, Function.comp_def]
  · intro key
    rw [hload]
    exact QHash.get?_map _ _ _

/-- C17 at a concrete input: the registry after `setWatchedFolder("/watch")`, stored and loaded
again, paths being in normal form already. -/
theorem C17_store_then_load_witness :
    (TorrentFilesWatcher.load plainEnv
      { m_watchedFolders := [], queued := [], emitted := [],
        confFile := (TorrentFilesWatcher.store
          (TorrentFilesWatcher.setWatchedFolder plainEnv emptyWatcher "/watch"
            exampleOptions).2).confFile } none).1.m_watchedFolders
      = (TorrentFilesWatcher.setWatchedFolder plainEnv emptyWatcher "/watch"
          exampleOptions).2.m_watchedFolders.map (fun e => (e.1, e.2.persisted)) :=
  (C17_store_then_load plainEnv (fun _ => rfl) (fun _ h => h) (by decide) _
    (TorrentFilesWatcher.Reachable.setWatchedFolder emptyWatcher "/watch" exampleOptions
      (TorrentFilesWatcher.Reachable.init emptyWatcher rfl)) none).1

/-! ## The key of the ledger -/

/-- C11, evaluated where it fails: `/watch` is watched recursively with the save path `/dst`;
`/watch/sub/b.torrent`, still partial, does not load in the scan and is entered in the ledger
under its directory `/watch/sub`, not under the watched folder; once the file is complete, the
retry sweep looks up the options of `/watch/sub`, finds none, and emits the descriptor with
default-constructed parameters and an empty save path, where a fresh scan of `/watch` in the
same state emits it with the configured parameters and the save path `/dst/sub`. -/
theorem C11_sweep_uses_options_of_subdirectory :
    Worker.processWatchedFolder unixEnv 2 (subdirWorker "partial") "/watch"
      = some (subdirWorkerScanned "partial") ∧
    (Worker.processFailedTorrents unixEnv (subdirWorkerScanned "d4:infoe")).emitted
      = [Signal.torrentFound "/watch/sub" "/watch/sub/b.torrent" ⟨"d4:infoe"⟩
          (AddTorrentParams.default unixEnv)] ∧
    (AddTorrentParams.default unixEnv).savePath = "" ∧
    (Worker.processWatchedFolder unixEnv 2 (subdirWorkerScanned "d4:infoe") "/watch").map
      (fun s => s.emitted)
      = some [Signal.torrentFound "/watch/sub" "/watch/sub/b.torrent" ⟨"d4:infoe"⟩
          { exampleOptions.addTorrentParams with savePath := "/dst/sub" }] := by
  decide

/-- C12, evaluated where it fails: `/watch` is watched recursively and `/watch/sub/b.torrent`,
found by its scan, is in the ledger under `/watch/sub`; `removeWatchedFolder("/watch")` takes
the folder out of the registry and of the polling set but leaves that entry in the ledger, and
the retry timer running. -/
theorem C12_remove_leaves_subdirectory_entries :
    Worker.processWatchedFolder unixEnv 2 (subdirWorker "partial") "/watch"
      = some (subdirWorkerScanned "partial") ∧
    (Worker.removeWatchedFolder (subdirWorkerScanned "partial") "/watch").m_watchedFolders = [] ∧
    (Worker.removeWatchedFolder (subdirWorkerScanned "partial") "/watch").m_watchedByTimeoutFolders
      = [] ∧
    (Worker.removeWatchedFolder (subdirWorkerScanned "partial") "/watch").m_watcher = [] ∧
    (Worker.removeWatchedFolder (subdirWorkerScanned "partial") "/watch").m_failedTorrents
      = [("/watch/sub", [("/watch/sub/b.torrent", 0)])] ∧
    (Worker.removeWatchedFolder (subdirWorkerScanned "partial") "/watch").m_retryTorrentTimer
      = true := by
  decide

/-! ## Descriptors that do not load in a scan -/

namespace QHash

variable {α : Type}

theorem value_insert_self (h : QHash α) (key : String) (v dflt : α) :
    value (insert h key v) key dflt = v := by
  simp [value, get?_insert_self]

theorem value_insert_ne (h : QHash α) (key key2 : String) (v dflt : α) (hne : key2 ≠ key) :
    value (insert h key v) key2 dflt = value h key2 dflt := by
  simp [value, get?_insert_ne _ _ _ _ hne]

end QHash

namespace Worker

/-- The ledger after a descriptor did not load. -/
theorem processFile_failed_ledger (env : Env) (path root : String) (options : WatchedFolderOptions)
    (self : Worker) (q : String) (hm : endsWithCI q ".magnet" = false)
    (hload : loadFromFile env self.fs q = none) :
    counterOf (processFile env path root options self q) path q
      = some ((counterOf self path q).getD 0) := by
  simp only [processFile, hm, hload, Bool.false_eq_true, ↓reduceIte, counterOf]
  cases hc : QHash.contains (QHash.value self.m_failedTorrents path []) q
  · simp only [Bool.not_false, ↓reduceIte, QHash.value_insert_self, QHash.get?_insert_self]
    rw [QHash.get?_eq_none_of_not_contains _ _ hc]
    rfl
  · simp only [Bool.not_true, Bool.false_eq_true, ↓reduceIte]
    rw [QHash.get?_eq_some_of_contains _ _ 0 hc]
    rfl

/-- The ledger of a file in a folder is changed by the file of that folder only. -/
theorem processFile_counterOf_other (env : Env) (path root : String)
    (options : WatchedFolderOptions) (self : Worker) (q key p : String)
    (hne : key ≠ path ∨ p ≠ q) :
    counterOf (processFile env path root options self q) key p = counterOf self key p := by
  cases hm : endsWithCI q ".magnet"
  · cases hload : loadFromFile env self.fs q with
    | none =>
      simp only [processFile, hm, hload, Bool.false_eq_true, ↓reduceIte, counterOf]
      split
      · by_cases hk : key = path
        · subst hk
          have hp : p ≠ q := by
            rcases hne with h | h
            · exact absurd rfl h
            · exact h
          simp only [QHash.value_insert_self]
          rw [QHash.get?_insert_ne _ _ _ _ hp]
        · rw [QHash.value_insert_ne _ _ _ _ _ hk]
      · rfl
    | some info =>
      rw [processFile_torrent env path root options self q info hm hload]
      rfl
  · cases hopen : self.fs.openRead q with
    | none => rw [processFile_magnet_closed env path root options self q hm hopen]
    | some text =>
      rw [processFile_magnet env path root options self q text hm hopen]
      rfl

/-- A descriptor that does not load keeps its files and gets no signal, whatever file is
processed. -/
theorem processFile_failing (env : Env) (path root : String) (options : WatchedFolderOptions)
    (self : Worker) (q p : String) (hm : endsWithCI p ".magnet" = false)
    (hload : loadFromFile env self.fs p = none) :
    (processFile env path root options self q).fs.filesAt p = self.fs.filesAt p ∧
    signalsFor (processFile env path root options self q) p = signalsFor self p := by
  by_cases hq : p = q
  · subst hq
    obtain ⟨h1, h2⟩ := processFile_torrent_failed env path root options self p hm hload
    exact ⟨by rw [h2], by simp [signalsFor, h1]⟩
  · exact ⟨processFile_filesAt_ne env path root options self p q hq,
      processFile_signalsFor_ne env path root options self p q hq⟩

theorem scanFiles_failing (env : Env) (path root : String) (options : WatchedFolderOptions)
    (files : List String) (p : String) (hm : endsWithCI p ".magnet" = false) :
    ∀ self : Worker, loadFromFile env self.fs p = none →
      (files.foldl (processFile env path root options) self).fs.filesAt p = self.fs.filesAt p ∧
      signalsFor (files.foldl (processFile env path root options) self) p = signalsFor self p ∧
      (∀ key, key ≠ path →
        counterOf (files.foldl (processFile env path root options) self) key p
          = counterOf self key p) ∧
      counterOf (files.foldl (processFile env path root options) self) path p
        = (if p ∈ files then some ((counterOf self path p).getD 0) else counterOf self path p) := by
  induction files with
  | nil => exact fun self _ => ⟨rfl, rfl, fun _ _ => rfl, by simp⟩
  | cons q rest ih =>
    intro self hload
    rw [List.foldl_cons]
    obtain ⟨f1, f2⟩ := processFile_failing env path root options self q p hm hload
    have hload1 : loadFromFile env (processFile env path root options self q).fs p = none := by
      rw [loadFromFile_congr env _ self.fs p f1]
      exact hload
    obtain ⟨h1, h2, h3, h4⟩ := ih (processFile env path root options self q) hload1
    refine ⟨h1.trans f1, h2.trans f2, ?_, ?_⟩
    · intro key hkey
      rw [h3 key hkey, processFile_counterOf_other env path root options self q key p (Or.inl hkey)]
    · rw [h4]
      by_cases hq : p = q
      · subst hq
        rw [processFile_failed_ledger env path root options self p hm hload]
        simp
      · rw [processFile_counterOf_other env path root options self q path p (Or.inr hq)]
        simp [hq]

/-- A descriptor that does not load keeps its files and gets no signal in a whole
`processFolder`, and its counter in the ledger of a folder that is not below the directory
processed stays as it is. -/
theorem processFolder_failing (env : Env) (root : String) (options : WatchedFolderOptions)
    (rank : String → Nat) (p : String) (hm : endsWithCI p ".magnet" = false) :
    ∀ (fuel : Nat) (path : String) (self self' : Worker),
      processFolder env fuel path root options self = some self' →
      loadFromFile env self.fs p = none →
      (∀ d ∈ self.fs.dirs, rank (FileSystem.dirName d.path) < rank d.dir) →
      self'.fs.filesAt p = self.fs.filesAt p ∧ signalsFor self' p = signalsFor self p ∧
      self'.fs.dirs = self.fs.dirs ∧
      (∀ key, rank (FileSystem.dirName path) < rank (FileSystem.dirName key) →
        counterOf self' key p = counterOf self key p) ∧
      counterOf self' path p
        = (if p ∈ self.fs.torrentFiles path then some ((counterOf self path p).getD 0)
          else counterOf self path p) := by
  intro fuel
  induction fuel with
  | zero =>
    intro path self self' h
    simp [processFolder] at h
  | succ fuel ih =>
    intro path self self' h hload hrank
    obtain ⟨a1, a2, a3, a4⟩ := scanFiles_failing env path root options (self.fs.torrentFiles path)
      p hm self hload
    have hd1 := (scanFiles_scanOf env path root options self).dirs
    have hfold : ∀ (dirs : List String) (s1 s2 : Worker),
        (∀ D ∈ dirs, rank (FileSystem.dirName D) < rank (FileSystem.dirName path)) →
        s1.fs.filesAt p = self.fs.filesAt p → s1.fs.dirs = self.fs.dirs →
        dirs.foldlM (fun (s : Worker) folderPath =>
          if !QHash.contains s.m_watchedFolders folderPath then
            processFolder env fuel folderPath root options s
          else some s) s1 = some s2 →
        s2.fs.filesAt p = s1.fs.filesAt p ∧ signalsFor s2 p = signalsFor s1 p ∧
        s2.fs.dirs = s1.fs.dirs ∧
        (∀ key, rank (FileSystem.dirName path) ≤ rank (FileSystem.dirName key) →
          counterOf s2 key p = counterOf s1 key p) := by
      intro dirs
      induction dirs with
      | nil =>
        intro s1 s2 _ _ _ h
        simp only [List.foldlM_nil, pure, Option.some.injEq] at h
        rw [← h]
        exact ⟨rfl, rfl, rfl, fun _ _ => rfl⟩
      | cons D rest ihd =>
        intro s1 s2 hD hf hd h
        rw [List.foldlM_cons] at h
        obtain ⟨s1', hstep, hrest⟩ := Option.bind_eq_some.1 h
        have hstep' : s1'.fs.filesAt p = s1.fs.filesAt p ∧ signalsFor s1' p = signalsFor s1 p ∧
            s1'.fs.dirs = s1.fs.dirs ∧
            (∀ key, rank (FileSystem.dirName path) ≤ rank (FileSystem.dirName key) →
              counterOf s1' key p = counterOf s1 key p) := by
          cases hc : QHash.contains s1.m_watchedFolders D
          · simp only [hc, Bool.not_false, ↓reduceIte] at hstep
            have hl : loadFromFile env s1.fs p = none := by
              rw [loadFromFile_congr env s1.fs self.fs p hf]
              exact hload
            obtain ⟨b1, b2, b3, b4, _⟩ := ih D s1 s1' hstep hl (by rw [hd]; exact hrank)
            refine ⟨b1, b2, b3, fun key hkey => b4 key ?_⟩
            have := hD D (by simp)
            omega
          · simp only [hc, Bool.not_true, Bool.false_eq_true, ↓reduceIte, Option.some.injEq]
              at hstep
            rw [← hstep]
            exact ⟨rfl, rfl, rfl, fun _ _ => rfl⟩
        obtain ⟨c1, c2, c3, c4⟩ := hstep'
        obtain ⟨e1, e2, e3, e4⟩ := ihd s1' s2 (fun D' h' => hD D' (List.mem_cons_of_mem _ h'))
          (c1.trans hf) (c3.trans hd) hrest
        exact ⟨e1.trans c1, e2.trans c2, e3.trans c3,
          fun key hkey => (e4 key hkey).trans (c4 key hkey)⟩
    simp only [processFolder] at h
    cases hr : options.recursive
    · simp only [hr, Bool.false_eq_true, ↓reduceIte, Option.some.injEq] at h
      rw [← h]
      refine ⟨a1, a2, hd1, fun key hkey => a3 key ?_, a4⟩
      intro he
      rw [he] at hkey
      exact absurd hkey (Nat.lt_irrefl _)
    · simp only [hr, ↓reduceIte] at h
      have hsub : ∀ D ∈ (List.foldl (processFile env path root options) self
          (self.fs.torrentFiles path)).fs.subDirs path,
          rank (FileSystem.dirName D) < rank (FileSystem.dirName path) := by
        intro D hD
        simp only [FileSystem.subDirs, List.mem_map, List.mem_filter, decide_eq_true_eq,
          Bool.and_eq_true] at hD
        obtain ⟨d, ⟨hd, hdir, _⟩, rfl⟩ := hD
        rw [hd1] at hd
        have := hrank d hd
        rw [hdir] at this
        exact this
      obtain ⟨e1, e2, e3, e4⟩ := hfold _ _ _ hsub a1 hd1 h
      refine ⟨e1.trans a1, e2.trans a2, e3.trans hd1, fun key hkey => ?_,
        (e4 path (Nat.le_refl _)).trans a4⟩
      rw [e4 key (Nat.le_of_lt hkey)]
      apply a3
      intro he
      rw [he] at hkey
      exact absurd hkey (Nat.lt_irrefl _)

end Worker

/-- Claim C19: when a scan of a directory meets a descriptor of that directory (one that is
not hidden) that does not load, the scan returns, no `torrentFound` signal is emitted for the file, the file stays where
it is, and afterwards the ledger of the directory holds the file: with counter 0 when it was
not tracked there before, with its counter unchanged when it was. -/
theorem C19_scan_keeps_failed_descriptor (env : Env) (fuel : Nat) (D root : String)
    (options : WatchedFolderOptions) (self : Worker) (rank : String → Nat) (f : File)
    (hrank : ∀ d ∈ self.fs.dirs, rank (FileSystem.dirName d.path) < rank d.dir)
    (hfuel : rank (FileSystem.dirName D) < fuel)
    (hf : f ∈ self.fs.files) (hdir : f.dir = FileSystem.dirName D)
    (hdesc : f.isDescriptor = true) (hvisible : f.isHidden = false)
    (hload : loadFromFile env self.fs f.path = none) :
    ∃ self', Worker.processFolder env fuel D root options self = some self' ∧
      Worker.signalsFor self' f.path = Worker.signalsFor self f.path ∧
      self'.fs.filesAt f.path = self.fs.filesAt f.path ∧
      self'.fs.fileExists f.path = true ∧
      (Worker.counterOf self D f.path = none → Worker.counterOf self' D f.path = some 0) ∧
      (∀ value, Worker.counterOf self D f.path = some value →
        Worker.counterOf self' D f.path = some value) := by
  obtain ⟨self', h⟩ := Worker.processFolder_returns env root options rank fuel D self hrank hfuel
  obtain ⟨h1, h2, _, _, h5⟩ := Worker.processFolder_failing env root options rank f.path
    (File.isDescriptor_path f hdesc) fuel D self self' h hload hrank
  have hmem : f.path ∈ self.fs.torrentFiles D :=
    Worker.mem_torrentFiles self.fs D f hf hdir (File.isDescriptor_matches f hdesc) hvisible
  rw [if_pos hmem] at h5
  refine ⟨self', h, h2, h1, ?_, ?_, ?_⟩
  · rw [FileSystem.fileExists_congr _ _ _ h1, FileSystem.fileExists_eq_true_iff]
    intro hnil
    have hin : f ∈ self.fs.filesAt f.path := by simp [FileSystem.filesAt, hf]
    rw [hnil] at hin
    exact absurd hin (List.not_mem_nil _)
  · intro hnone
    rw [h5, hnone]
    rfl
  · intro value hsome
    rw [h5, hsome]
    rfl

/-- Witness for C19: in the scan of `/watch/sub` below the watched folder `/watch`, the
descriptor `/watch/sub/b.torrent` with truncated content gets no signal, stays in place and is
entered in the ledger of `/watch/sub` with counter 0; in the state after that scan, a second
scan leaves the counter 0. -/
theorem C19_scan_keeps_failed_descriptor_witness :
    (∃ self', Worker.processFolder unixEnv 2 "/watch/sub" "/watch"
        { exampleOptions with recursive := true } (subdirWorker "partial") = some self' ∧
      Worker.signalsFor self' "/watch/sub/b.torrent"
        = Worker.signalsFor (subdirWorker "partial") "/watch/sub/b.torrent" ∧
      self'.fs.filesAt "/watch/sub/b.torrent"
        = (subdirWorker "partial").fs.filesAt "/watch/sub/b.torrent" ∧
      self'.fs.fileExists "/watch/sub/b.torrent" = true ∧
      (Worker.counterOf (subdirWorker "partial") "/watch/sub" "/watch/sub/b.torrent" = none →
        Worker.counterOf self' "/watch/sub" "/watch/sub/b.torrent" = some 0) ∧
      (∀ value,
        Worker.counterOf (subdirWorker "partial") "/watch/sub" "/watch/sub/b.torrent" = some value →
        Worker.counterOf self' "/watch/sub" "/watch/sub/b.torrent" = some value)) ∧
    Worker.counterOf (subdirWorker "partial") "/watch/sub" "/watch/sub/b.torrent" = none ∧
    (Worker.processFolder unixEnv 2 "/watch/sub" "/watch" { exampleOptions with recursive := true }
        (subdirWorker "partial")).map
      (fun s => Worker.counterOf s "/watch/sub" "/watch/sub/b.torrent") = some (some 0) ∧
    (Worker.processFolder unixEnv 2 "/watch/sub" "/watch" { exampleOptions with recursive := true }
        (subdirWorkerScanned "partial")).map
      (fun s => Worker.counterOf s "/watch/sub" "/watch/sub/b.torrent") = some (some 0) :=
  ⟨C19_scan_keeps_failed_descriptor unixEnv 2 "/watch/sub" "/watch"
    { exampleOptions with recursive := true } (subdirWorker "partial") recursiveRank
    ⟨"/watch/sub", "b.torrent", "partial", true⟩ (by decide) (by decide) (by decide) (by decide)
    (by decide) (by decide) (by decide), by decide, by decide, by decide⟩

/-! ## The shadowing rule -/

namespace FileSystem

theorem walk_congr (fs fs' : FileSystem) (watched : QHash WatchedFolderOptions)
    (h : fs'.dirs = fs.dirs) : ∀ (fuel : Nat) (path : String),
    fs'.walk watched fuel path = fs.walk watched fuel path := by
  intro fuel
  induction fuel with
  | zero => exact fun _ => rfl
  | succ fuel ih =>
    intro path
    have hf : fs'.walk watched fuel = fs.walk watched fuel := funext ih
    simp only [walk, subDirs, h, hf]

theorem chainEnd_append_singleton (R : String) (d : SubDir) (chain : List SubDir) :
    chainEnd R (chain ++ [d]) = chainEnd d.path chain := by
  cases chain <;> rfl

theorem isChain_chainEnd (fs : FileSystem) (R X : String) (chain : List SubDir)
    (h : fs.IsChain X chain (dirName R)) : dirName (chainEnd R chain) = X := by
  cases chain with
  | nil => exact h.symm
  | cons d rest => exact h.2.1

theorem isChain_append_singleton (fs : FileSystem) (d : SubDir) (R : String) :
    ∀ (chain : List SubDir) (D : String),
      fs.IsChain D (chain ++ [d]) R ↔
        fs.IsChain D chain (dirName d.path) ∧ d ∈ fs.dirs ∧ d.dir = R := by
  intro chain
  induction chain with
  | nil =>
    intro D
    simp only [List.nil_append, IsChain]
    constructor
    · rintro ⟨h1, h2, h3⟩
      exact ⟨h2.symm, h1, h3⟩
    · rintro ⟨h1, h2, h3⟩
      exact ⟨h2, h1.symm, h3⟩
  | cons e rest ih =>
    intro D
    show (e ∈ fs.dirs ∧ dirName e.path = D ∧ fs.IsChain e.dir (rest ++ [d]) R) ↔
      ((e ∈ fs.dirs ∧ dirName e.path = D ∧ fs.IsChain e.dir rest (dirName d.path)) ∧
        d ∈ fs.dirs ∧ d.dir = R)
    rw [ih e.dir]
    constructor
    · rintro ⟨h1, h2, h3, h4, h5⟩
      exact ⟨⟨h1, h2, h3⟩, h4, h5⟩
    · rintro ⟨⟨h1, h2, h3⟩, h4, h5⟩
      exact ⟨h1, h2, h3, h4, h5⟩

theorem isChain_rank (fs : FileSystem) (rank : String → Nat)
    (hrank : ∀ d ∈ fs.dirs, rank (dirName d.path) < rank d.dir) (R : String) :
    ∀ (chain : List SubDir) (D : String), fs.IsChain D chain R →
      rank D ≤ rank R ∧ (chain ≠ [] → rank D < rank R) := by
  intro chain
  induction chain with
  | nil =>
    intro D h
    simp only [IsChain] at h
    rw [h]
    exact ⟨Nat.le_refl _, fun h => absurd rfl h⟩
  | cons d rest ih =>
    intro D h
    simp only [IsChain] at h
    obtain ⟨h1, h2, h3⟩ := h
    have := hrank d h1
    have := (ih d.dir h3).1
    rw [← h2]
    exact ⟨by omega, fun _ => by omega⟩

/-- There is one chain between two directories at most, when every directory has one parent. -/
theorem isChain_unique (fs : FileSystem) (rank : String → Nat)
    (hrank : ∀ d ∈ fs.dirs, rank (dirName d.path) < rank d.dir)
    (hpaths : ∀ d ∈ fs.dirs, ∀ e ∈ fs.dirs, dirName d.path = dirName e.path → d = e)
    (R : String) :
    ∀ (c1 c2 : List SubDir) (D : String), fs.IsChain D c1 R → fs.IsChain D c2 R → c1 = c2 := by
  intro c1
  induction c1 with
  | nil =>
    intro c2 D h1 h2
    cases c2 with
    | nil => rfl
    | cons d rest =>
      simp only [IsChain] at h1
      have := (isChain_rank fs rank hrank R _ D h2).2 (by simp)
      rw [h1] at this
      exact absurd this (Nat.lt_irrefl _)
  | cons d rest ih =>
    intro c2 D h1 h2
    cases c2 with
    | nil =>
      simp only [IsChain] at h2
      have := (isChain_rank fs rank hrank R _ D h1).2 (by simp)
      rw [h2] at this
      exact absurd this (Nat.lt_irrefl _)
    | cons e rest2 =>
      simp only [IsChain] at h1 h2
      have hde : d = e := hpaths d h1.1 e h2.1 (h1.2.1.trans h2.2.1.symm)
      subst hde
      rw [ih rest2 d.dir h1.2.2 h2.2.2]

theorem mem_subDirs_iff (fs : FileSystem) (R D : String) :
    D ∈ fs.subDirs R ↔ ∃ d ∈ fs.dirs, d.dir = dirName R ∧ d.isHidden = false ∧ d.path = D := by
  simp only [subDirs, List.mem_map, List.mem_filter, decide_eq_true_eq, Bool.not_eq_true',
    Bool.and_eq_true]
  constructor
  · rintro ⟨d, ⟨hd, hdir, hv⟩, rfl⟩
    exact ⟨d, hd, hdir, hv, rfl⟩
  · rintro ⟨d, hd, hdir, hv, rfl⟩
    exact ⟨d, ⟨hd, hdir, hv⟩, rfl⟩

theorem mem_walk_succ (fs : FileSystem) (watched : QHash WatchedFolderOptions) (fuel : Nat)
    (R D : String) :
    D ∈ fs.walk watched (fuel + 1) R ↔
      D = R ∨ ∃ d ∈ fs.dirs, d.dir = dirName R ∧ d.isHidden = false ∧
        QHash.contains watched d.path = false ∧ D ∈ fs.walk watched fuel d.path := by
  simp only [walk, List.mem_cons, List.mem_flatten, List.mem_map, List.mem_filter,
    mem_subDirs_iff, Bool.not_eq_true']
  constructor
  · rintro (h | ⟨l, ⟨D1, ⟨⟨d, hd, hdir, hv, rfl⟩, hw⟩, rfl⟩, hD⟩)
    · exact Or.inl h
    · exact Or.inr ⟨d, hd, hdir, hv, hw, hD⟩
  · rintro (h | ⟨d, hd, hdir, hv, hw, hD⟩)
    · exact Or.inl h
    · exact Or.inr ⟨_, ⟨d.path, ⟨⟨d, hd, hdir, hv, rfl⟩, hw⟩, rfl⟩, hD⟩

/-- A directory of the walk is at the lower end of a chain without a registered or hidden
directory. -/
theorem chain_of_mem_walk (fs : FileSystem) (watched : QHash WatchedFolderOptions) (D : String) :
    ∀ (fuel : Nat) (R : String), D ∈ fs.walk watched fuel R →
      ∃ chain, fs.IsChain (dirName D) chain (dirName R) ∧ D = chainEnd R chain ∧
        ∀ d ∈ chain, QHash.contains watched d.path = false ∧ d.isHidden = false := by
  intro fuel
  induction fuel with
  | zero =>
    intro R h
    simp [walk] at h
  | succ fuel ih =>
    intro R h
    rcases (mem_walk_succ fs watched fuel R D).1 h with h | ⟨d, hd, hdir, hv, hw, hD⟩
    · exact ⟨[], by rw [h]; rfl, h, by simp⟩
    · obtain ⟨chain, hc, hend, hall⟩ := ih d.path hD
      refine ⟨chain ++ [d],
        (isChain_append_singleton fs d (dirName R) chain (dirName D)).2 ⟨hc, hd, hdir⟩,
        by rw [chainEnd_append_singleton]; exact hend, ?_⟩
      intro e he
      rcases List.mem_append.1 he with he | he
      · exact hall e he
      · rw [List.mem_singleton.1 he]
        exact ⟨hw, hv⟩

/-- The lower end of a chain without a registered or hidden directory is in the walk. -/
theorem mem_walk_of_chain (fs : FileSystem) (watched : QHash WatchedFolderOptions)
    (rank : String → Nat) (hrank : ∀ d ∈ fs.dirs, rank (dirName d.path) < rank d.dir)
    (X : String) :
    ∀ (chain : List SubDir) (fuel : Nat) (R : String), rank (dirName R) < fuel →
      fs.IsChain X chain (dirName R) →
      (∀ d ∈ chain, QHash.contains watched d.path = false ∧ d.isHidden = false) →
      chainEnd R chain ∈ fs.walk watched fuel R := by
  intro chain
  induction chain using List.reverseRecOn with
  | nil =>
    intro fuel R hfuel _ _
    cases fuel with
    | zero => exact absurd hfuel (Nat.not_lt_zero _)
    | succ fuel => exact (mem_walk_succ fs watched fuel R R).2 (Or.inl rfl)
  | append_singleton chain d ih =>
    intro fuel R hfuel hc hall
    obtain ⟨h1, h2, h3⟩ := (isChain_append_singleton fs d (dirName R) chain X).1 hc
    cases fuel with
    | zero => exact absurd hfuel (Nat.not_lt_zero _)
    | succ fuel =>
      have hr := hrank d h2
      rw [h3] at hr
      rw [chainEnd_append_singleton]
      exact (mem_walk_succ fs watched fuel R _).2 (Or.inr ⟨d, h2, h3, (hall d (by simp)).2,
        (hall d (by simp)).1,
        ih fuel d.path (by omega) h1 (fun e he => hall e (List.mem_append_left _ he))⟩)

end FileSystem

namespace Worker

theorem scanDirs_nil (env : Env) (root : String) (options : WatchedFolderOptions) (self : Worker) :
    scanDirs env root options [] self = self := rfl

theorem scanDirs_cons (env : Env) (root : String) (options : WatchedFolderOptions) (D : String)
    (dirs : List String) (self : Worker) :
    scanDirs env root options (D :: dirs) self
      = scanDirs env root options dirs
          ((self.fs.torrentFiles D).foldl (processFile env D root options) self) := rfl

theorem scanDirs_append (env : Env) (root : String) (options : WatchedFolderOptions)
    (dirs1 dirs2 : List String) (self : Worker) :
    scanDirs env root options (dirs1 ++ dirs2) self
      = scanDirs env root options dirs2 (scanDirs env root options dirs1 self) := by
  simp [scanDirs, List.foldl_append]

theorem scanDirs_frame (env : Env) (root : String) (options : WatchedFolderOptions)
    (dirs : List String) : ∀ self : Worker,
    (scanDirs env root options dirs self).fs.dirs = self.fs.dirs ∧
    (scanDirs env root options dirs self).m_watchedFolders = self.m_watchedFolders := by
  induction dirs with
  | nil => exact fun self => ⟨rfl, rfl⟩
  | cons D rest ih =>
    intro self
    rw [scanDirs_cons]
    obtain ⟨h1, h2⟩ := ih ((self.fs.torrentFiles D).foldl (processFile env D root options) self)
    have h := scanFiles_scanOf env D root options self
    exact ⟨h1.trans h.dirs, h2.trans h.watched⟩

/-- A recursive `processFolder` processes the files of the directories of the walk, in the order
of the walk. -/
theorem processFolder_walk (env : Env) (root : String) (options : WatchedFolderOptions)
    (rank : String → Nat) (hr : options.recursive = true) :
    ∀ (fuel : Nat) (path : String) (self : Worker),
      (∀ d ∈ self.fs.dirs, rank (FileSystem.dirName d.path) < rank d.dir) →
      rank (FileSystem.dirName path) < fuel →
      processFolder env fuel path root options self
        = some (scanDirs env root options (self.fs.walk self.m_watchedFolders fuel path) self) := by
  intro fuel
  induction fuel with
  | zero =>
    intro path self _ h
    exact absurd h (Nat.not_lt_zero _)
  | succ fuel ih =>
    intro path self hrank hfuel
    have hfold : ∀ (dirs : List String) (s : Worker),
        (∀ D ∈ dirs, rank (FileSystem.dirName D) < fuel) →
        s.fs.dirs = self.fs.dirs → s.m_watchedFolders = self.m_watchedFolders →
        dirs.foldlM (fun (s : Worker) folderPath =>
          if !QHash.contains s.m_watchedFolders folderPath then
            processFolder env fuel folderPath root options s
          else some s) s
        = some (scanDirs env root options
            ((dirs.filter (fun D => !QHash.contains self.m_watchedFolders D)).map
              (self.fs.walk self.m_watchedFolders fuel)).flatten s) := by
      intro dirs
      induction dirs with
      | nil =>
        intro s _ _ _
        rfl
      | cons D rest ihd =>
        intro s hD hd hw
        rw [List.foldlM_cons]
        cases hc : QHash.contains self.m_watchedFolders D
        · have hstep := ih D s (by rw [hd]; exact hrank) (hD D (by simp))
          rw [hw, FileSystem.walk_congr self.fs s.fs _ hd] at hstep
          simp only [hw, hc, Bool.not_false, ↓reduceIte, hstep, List.filter_cons, List.map_cons,
            List.flatten_cons, scanDirs_append]
          obtain ⟨f1, f2⟩ := scanDirs_frame env root options
            (self.fs.walk self.m_watchedFolders fuel D) s
          exact ihd _ (fun D' h' => hD D' (List.mem_cons_of_mem _ h')) (f1.trans hd) (f2.trans hw)
        · simp only [hw, hc, Bool.not_true, Bool.false_eq_true, ↓reduceIte, List.filter_cons]
          exact ihd s (fun D' h' => hD D' (List.mem_cons_of_mem _ h')) hd hw
    have h1 := scanFiles_scanOf env path root options self
    have hsub : ∀ D ∈ self.fs.subDirs path, rank (FileSystem.dirName D) < fuel := by
      intro D hD
      obtain ⟨d, hd, hdir, _, rfl⟩ := (FileSystem.mem_subDirs_iff self.fs path D).1 hD
      have := hrank d hd
      rw [hdir] at this
      omega
    have hsd : ((self.fs.torrentFiles path).foldl (processFile env path root options) self).fs.subDirs
        path = self.fs.subDirs path := by
      simp only [FileSystem.subDirs, h1.dirs]
    simp only [processFolder, hr, ↓reduceIte, hsd]
    rw [hfold _ _ hsub h1.dirs h1.watched]
    rfl

/-- A `processFolder` that is not recursive processes the files of its directory only. -/
theorem processFolder_flat_walk (env : Env) (fuel : Nat) (path root : String)
    (options : WatchedFolderOptions) (self : Worker) (hr : options.recursive = false) :
    processFolder env (fuel + 1) path root options self
      = some (scanDirs env root options [path] self) := by
  simp only [processFolder, hr, Bool.false_eq_true, ↓reduceIte]
  rfl

end Worker

/-- Claim C18, as stated, fails: `/watch` is scanned recursively, the directory `/watch/.cache`
is below it, and no directory on the chain from `/watch` down to it is a registered watched
folder; the scan returns, the walk holds `/watch` only, no signal is emitted, and the descriptor
`/watch/.cache/b.torrent`, which loads, is still there: the listing of the sub-directories
leaves out hidden directories. -/
theorem C18_hidden_directory_is_skipped :
    hiddenRecursiveWorker.fs.IsChain "/watch/.cache" [⟨"/watch", ".cache"⟩] "/watch" ∧
    QHash.contains hiddenRecursiveWorker.m_watchedFolders "/watch/.cache" = false ∧
    loadFromFile unixEnv hiddenRecursiveWorker.fs "/watch/.cache/b.torrent" = some ⟨"d4:infoe"⟩ ∧
    hiddenRecursiveWorker.fs.walk hiddenRecursiveWorker.m_watchedFolders 3 "/watch" = ["/watch"] ∧
    (Worker.processFolder unixEnv 3 "/watch" "/watch" { exampleOptions with recursive := true }
        hiddenRecursiveWorker).map
      (fun s => (s.emitted, s.fs.fileExists "/watch/.cache/b.torrent")) = some ([], true) := by
  decide

/-- Claim C18, amended: a recursive scan from `R` processes the files of the directories of the
walk from `R`, and a directory `D` below `R` is in the walk iff no directory on the chain from
`R` (exclusive) down to `D` (inclusive) is a registered watched folder or hidden; every
directory of the walk is below `R`. A scan that is not recursive processes the files of `R`
only. -/
theorem C18_shadowing_rule (env : Env) (fuel : Nat) (R root : String)
    (options : WatchedFolderOptions) (self : Worker) (rank : String → Nat)
    (hrank : ∀ d ∈ self.fs.dirs, rank (FileSystem.dirName d.path) < rank d.dir)
    (hfuel : rank (FileSystem.dirName R) < fuel)
    (hpaths : ∀ d ∈ self.fs.dirs, ∀ e ∈ self.fs.dirs,
      FileSystem.dirName d.path = FileSystem.dirName e.path → d = e) :
    (options.recursive = true →
      Worker.processFolder env fuel R root options self
        = some (Worker.scanDirs env root options (self.fs.walk self.m_watchedFolders fuel R) self) ∧
      (∀ D ∈ self.fs.walk self.m_watchedFolders fuel R,
        ∃ chain, self.fs.IsChain (FileSystem.dirName D) chain (FileSystem.dirName R) ∧
          D = FileSystem.chainEnd R chain) ∧
      ∀ D chain, self.fs.IsChain D chain (FileSystem.dirName R) →
        (FileSystem.chainEnd R chain ∈ self.fs.walk self.m_watchedFolders fuel R ↔
          ∀ d ∈ chain, QHash.contains self.m_watchedFolders d.path = false ∧
            d.isHidden = false)) ∧
    (options.recursive = false →
      Worker.processFolder env fuel R root options self
        = some (Worker.scanDirs env root options [R] self)) := by
  refine ⟨fun hr => ⟨Worker.processFolder_walk env root options rank hr fuel R self hrank hfuel,
    ?_, ?_⟩, ?_⟩
  · intro D hD
    obtain ⟨chain, hc, hend, _⟩ :=
      FileSystem.chain_of_mem_walk self.fs self.m_watchedFolders D fuel R hD
    exact ⟨chain, hc, hend⟩
  · intro D chain hc
    constructor
    · intro hD
      obtain ⟨chain2, hc2, _, hall⟩ :=
        FileSystem.chain_of_mem_walk self.fs self.m_watchedFolders _ fuel R hD
      rw [FileSystem.isChain_chainEnd self.fs R D chain hc] at hc2
      rw [FileSystem.isChain_unique self.fs rank hrank hpaths _ chain chain2 D hc hc2]
      exact hall
    · exact FileSystem.mem_walk_of_chain self.fs self.m_watchedFolders rank hrank D chain fuel R
        hfuel hc
  · intro hr
    cases fuel with
    | zero => exact absurd hfuel (Nat.not_lt_zero _)
    | succ fuel => exact Worker.processFolder_flat_walk env fuel R root options self hr

/-- Witness for C18, amended: with `/watch` watched recursively and `/watch/sub` registered on
its own, the scan of `/watch` processes `/watch` and `/watch/other`, and neither `/watch/sub` nor
`/watch/sub/deep`; the scan with the options that are not recursive processes `/watch` only. -/
theorem C18_shadowing_rule_witness :
    (Worker.processFolder unixEnv 3 "/watch" "/watch" { exampleOptions with recursive := true }
        shadowWorker
      = some (Worker.scanDirs unixEnv "/watch" { exampleOptions with recursive := true }
          (shadowWorker.fs.walk shadowWorker.m_watchedFolders 3 "/watch") shadowWorker) ∧
      (∀ D ∈ shadowWorker.fs.walk shadowWorker.m_watchedFolders 3 "/watch",
        ∃ chain, shadowWorker.fs.IsChain (FileSystem.dirName D) chain
            (FileSystem.dirName "/watch") ∧
          D = FileSystem.chainEnd "/watch" chain) ∧
      ∀ D chain, shadowWorker.fs.IsChain D chain (FileSystem.dirName "/watch") →
        (FileSystem.chainEnd "/watch" chain
            ∈ shadowWorker.fs.walk shadowWorker.m_watchedFolders 3 "/watch" ↔
          ∀ d ∈ chain, QHash.contains shadowWorker.m_watchedFolders d.path = false ∧
            d.isHidden = false)) ∧
    Worker.processFolder unixEnv 3 "/watch" "/watch" exampleOptions shadowWorker
      = some (Worker.scanDirs unixEnv "/watch" exampleOptions ["/watch"] shadowWorker) ∧
    shadowWorker.fs.walk shadowWorker.m_watchedFolders 3 "/watch" = ["/watch", "/watch/other"] ∧
    shadowWorker.fs.IsChain "/watch/sub/deep" [⟨"/watch/sub", "deep"⟩, ⟨"/watch", "sub"⟩] "/watch" ∧
    (Worker.processFolder unixEnv 3 "/watch" "/watch" { exampleOptions with recursive := true }
        shadowWorker).map (fun s => s.emitted.map (fun e => e.filePath))
      = some ["/watch/a.torrent", "/watch/other/b.torrent"] ∧
    (Worker.processFolder unixEnv 3 "/watch" "/watch" exampleOptions shadowWorker).map
        (fun s => s.emitted.map (fun e => e.filePath))
      = some ["/watch/a.torrent"] :=
  ⟨(C18_shadowing_rule unixEnv 3 "/watch" "/watch" { exampleOptions with recursive := true }
      shadowWorker shadowRank (by decide) (by decide) (by decide)).1 rfl,
    (C18_shadowing_rule unixEnv 3 "/watch" "/watch" exampleOptions shadowWorker shadowRank
      (by decide) (by decide) (by decide)).2 rfl,
    by decide, by decide, by decide, by decide⟩

/-! ## A rejected file stays as it is -/

theorem endsWithCI_rejected_magnet (q : String) :
    endsWithCI (q ++ ".qbt_rejected") ".magnet" = false := by
  cases h : endsWithCI (q ++ ".qbt_rejected") ".magnet"
  · rfl
  · rw [endsWithCI_iff] at h
    have happ : (q ++ ".qbt_rejected").toList = q.toList ++ ".qbt_rejected".toList :=
      String.data_append q ".qbt_rejected"
    rw [happ, List.map_append] at h
    have := List.suffix_of_suffix_length_le h (List.suffix_append _ _) (by decide)
    exact absurd this (by decide)

theorem matchesNameFilters_rejected (q : String) :
    matchesNameFilters (q ++ ".qbt_rejected") = false := by
  simp [matchesNameFilters, endsWithCI_rejected, endsWithCI_rejected_magnet]

namespace QHash

variable {α : Type}

theorem mem_insert_cases (h : QHash α) (key : String) (v : α) (e : String × α)
    (he : e ∈ insert h key v) : e = (key, v) ∨ e ∈ h := by
  induction h with
  | nil =>
    simp only [insert, List.mem_singleton] at he
    exact Or.inl he
  | cons e0 rest ih =>
    obtain ⟨k, x⟩ := e0
    by_cases hk : k = key
    · simp only [insert, hk, ↓reduceIte, List.mem_cons] at he
      rcases he with he | he
      · exact Or.inl he
      · exact Or.inr (List.mem_cons_of_mem _ he)
    · simp only [insert, hk, ↓reduceIte, List.mem_cons] at he
      rcases he with he | he
      · exact Or.inr (by simp [he])
      · rcases ih he with h1 | h1
        · exact Or.inl h1
        · exact Or.inr (List.mem_cons_of_mem _ h1)

theorem mem_of_get? (h : QHash α) (key : String) (v : α) (hg : get? h key = some v) :
    (key, v) ∈ h := by
  induction h with
  | nil => simp [get?] at hg
  | cons e0 rest ih =>
    obtain ⟨k, x⟩ := e0
    by_cases hk : k = key
    · simp only [get?, hk, ↓reduceIte, Option.some.injEq] at hg
      simp [hk, hg]
    · simp only [get?, hk, ↓reduceIte] at hg
      exact List.mem_cons_of_mem _ (ih hg)

theorem mem_value {β : Type} (h : QHash (List β)) (key : String) (t : β)
    (ht : t ∈ value h key []) : ∃ l, (key, l) ∈ h ∧ t ∈ l := by
  unfold value at ht
  cases hg : get? h key with
  | none => simp [hg] at ht
  | some l =>
    rw [hg] at ht
    exact ⟨l, mem_of_get? h key l hg, ht⟩

end QHash

namespace Worker

/-- A path a directory listing of `processFolder` yields matches one of its name filters. -/
theorem listing_matches (fs : FileSystem) (path q : String) (h : q ∈ fs.torrentFiles path) :
    matchesNameFilters q = true := by
  obtain ⟨g, _, _, hn, _, hp⟩ := (mem_torrentFiles_iff fs path q).1 h
  rw [← hp]
  simp only [matchesNameFilters, Bool.or_eq_true] at hn ⊢
  rcases hn with hn | hn
  · exact Or.inl (endsWithCI_append_left (g.dir ++ "/") g.name _ hn)
  · exact Or.inr (endsWithCI_append_left (g.dir ++ "/") g.name _ hn)

theorem processFile_ledger (env : Env) (path root : String) (options : WatchedFolderOptions)
    (self : Worker) (q : String) :
    (processFile env path root options self q).m_failedTorrents = self.m_failedTorrents ∨
    (endsWithCI q ".magnet" = false ∧
      (processFile env path root options self q).m_failedTorrents
        = QHash.insert self.m_failedTorrents path
            (QHash.insert (QHash.value self.m_failedTorrents path []) q 0)) := by
  cases hm : endsWithCI q ".magnet"
  · cases hload : loadFromFile env self.fs q with
    | none =>
      simp only [processFile, hm, hload, Bool.false_eq_true, ↓reduceIte]
      split
      · exact Or.inr ⟨trivial, rfl⟩
      · exact Or.inl rfl
    | some info =>
      rw [processFile_torrent env path root options self q info hm hload]
      exact Or.inl rfl
  · cases hopen : self.fs.openRead q with
    | none =>
      rw [processFile_magnet_closed env path root options self q hm hopen]
      exact Or.inl rfl
    | some text =>
      rw [processFile_magnet env path root options self q text hm hopen]
      exact Or.inl rfl

/-- The ledger holds descriptors only, after a file of a listing is processed as before. -/
theorem processFile_descriptors (env : Env) (path root : String) (options : WatchedFolderOptions)
    (self : Worker) (q : String) (hq : matchesNameFilters q = true)
    (h : self.tracksDescriptors = true) :
    (processFile env path root options self q).tracksDescriptors = true := by
  rcases processFile_ledger env path root options self q with hl | ⟨hm, hl⟩
  · simp only [tracksDescriptors, hl]
    exact h
  · simp only [tracksDescriptors, hl]
    simp only [tracksDescriptors] at h
    rw [ledgerOfDescriptors_iff] at h ⊢
    have hqt : endsWithCI q ".torrent" = true := by
      simp only [matchesNameFilters, hm, Bool.or_false] at hq
      exact hq
    intro e he t ht
    rcases QHash.mem_insert_cases _ _ _ e he with he | he
    · rw [he] at ht
      rcases QHash.mem_insert_cases _ _ _ t ht with ht | ht
      · rw [ht]
        exact hqt
      · obtain ⟨l, hl1, hl2⟩ := QHash.mem_value _ _ t ht
        exact h (path, l) hl1 t hl2
    · exact h e he t ht

/-- The files and the signals of a rejected name are not changed by the processing of a file of
a listing. -/
theorem processFile_rejected_file (env : Env) (path root : String) (options : WatchedFolderOptions)
    (self : Worker) (q : String) (hq : matchesNameFilters q = true) (q0 : String) :
    (processFile env path root options self q).fs.filesAt (q0 ++ ".qbt_rejected")
      = self.fs.filesAt (q0 ++ ".qbt_rejected") ∧
    signalsFor (processFile env path root options self q) (q0 ++ ".qbt_rejected")
      = signalsFor self (q0 ++ ".qbt_rejected") := by
  have hne : q0 ++ ".qbt_rejected" ≠ q := by
    intro e
    rw [← e, matchesNameFilters_rejected] at hq
    exact absurd hq (by simp)
  exact ⟨processFile_filesAt_ne env path root options self _ q hne,
    processFile_signalsFor_ne env path root options self _ q hne⟩

/-- What the processing of every file of a listing keeps, a whole `processFolder` keeps. -/
theorem processFolder_invariant (env : Env) (root : String) (options : WatchedFolderOptions)
    (P : Worker → Prop)
    (hP : ∀ (path : String) (s : Worker) (q : String), matchesNameFilters q = true → P s →
      P (processFile env path root options s q)) :
    ∀ (fuel : Nat) (path : String) (s s' : Worker),
      processFolder env fuel path root options s = some s' → P s → P s' := by
  intro fuel
  induction fuel with
  | zero =>
    intro path s s' h
    simp [processFolder] at h
  | succ fuel ih =>
    intro path s s' h hs
    have hfiles : ∀ (files : List String) (s1 : Worker),
        (∀ q ∈ files, matchesNameFilters q = true) → P s1 →
        P (files.foldl (processFile env path root options) s1) := by
      intro files
      induction files with
      | nil => exact fun _ _ h1 => h1
      | cons q rest ihf =>
        intro s1 hall h1
        rw [List.foldl_cons]
        exact ihf _ (fun q' h' => hall q' (List.mem_cons_of_mem _ h'))
          (hP path s1 q (hall q (by simp)) h1)
    have hdirs : ∀ (dirs : List String) (s1 s2 : Worker),
        dirs.foldlM (fun (s : Worker) folderPath =>
          if !QHash.contains s.m_watchedFolders folderPath then
            processFolder env fuel folderPath root options s
          else some s) s1 = some s2 → P s1 → P s2 := by
      intro dirs
      induction dirs with
      | nil =>
        intro s1 s2 h h1
        simp only [List.foldlM_nil, pure, Option.some.injEq] at h
        rw [← h]
        exact h1
      | cons D rest ihd =>
        intro s1 s2 h h1
        rw [List.foldlM_cons] at h
        obtain ⟨s1', hstep, hrest⟩ := Option.bind_eq_some.1 h
        refine ihd s1' s2 hrest ?_
        cases hc : QHash.contains s1.m_watchedFolders D
        · simp only [hc, Bool.not_false, ↓reduceIte] at hstep
          exact ih D s1 s1' hstep h1
        · simp only [hc, Bool.not_true, Bool.false_eq_true, ↓reduceIte, Option.some.injEq]
            at hstep
          rw [← hstep]
          exact h1
    have h0 := hfiles (s.fs.torrentFiles path) s (fun q hq => listing_matches s.fs path q hq) hs
    simp only [processFolder] at h
    cases hr : options.recursive
    · simp only [hr, Bool.false_eq_true, ↓reduceIte, Option.some.injEq] at h
      rw [← h]
      exact h0
    · simp only [hr, ↓reduceIte] at h
      exact hdirs _ _ _ h h0

end Worker

namespace Worker

/-- An entry of a descriptor leaves the files and the signals of a rejected name that exists
alone: the rename to a name that exists does nothing. -/
theorem retryTorrent_rejected_file (env : Env) (dirPath d : String)
    (options : WatchedFolderOptions) (q : String) (v : Int) (self : Worker) (q0 : String)
    (hq : endsWithCI q ".torrent" = true)
    (hex : self.fs.fileExists (q0 ++ ".qbt_rejected") = true) :
    (retryTorrent env dirPath d options q v self).2.fs.filesAt (q0 ++ ".qbt_rejected")
      = self.fs.filesAt (q0 ++ ".qbt_rejected") ∧
    signalsFor (retryTorrent env dirPath d options q v self).2 (q0 ++ ".qbt_rejected")
      = signalsFor self (q0 ++ ".qbt_rejected") := by
  have hne : q0 ++ ".qbt_rejected" ≠ q := fun e => ne_rejected_of_descriptor q q0 hq e.symm
  obtain ⟨⟨evs, hev, hall⟩, hfs, _⟩ := retryTorrent_spec env dirPath d options q v self
  constructor
  · rcases hfs with h | h | h <;> rw [h]
    · exact FileSystem.filesAt_forceRemove_ne _ _ _ hne
    · by_cases hq0 : q = q0
      · subst hq0
        simp [FileSystem.renameAppend, hex]
      · exact FileSystem.filesAt_renameAppend_other _ _ _ _ hne
          (fun e => hq0 (String.append_right_cancel e).symm)
  · simp only [signalsFor, hev, List.filter_append]
    have : evs.filter (fun e => decide (e.filePath = q0 ++ ".qbt_rejected")) = [] := by
      rw [List.filter_eq_nil_iff]
      intro e he
      simp [hall e he, Ne.symm hne]
    simp [this]

theorem retryTorrents_rejected_file (env : Env) (dirPath d : String)
    (options : WatchedFolderOptions) (q0 : String) (l : QHash Int) (s : Worker)
    (hdesc : ∀ t ∈ l, endsWithCI t.1 ".torrent" = true)
    (hex : s.fs.fileExists (q0 ++ ".qbt_rejected") = true) :
    (Algorithm.removeIf (retryTorrent env dirPath d options) l s).2.fs.filesAt
        (q0 ++ ".qbt_rejected") = s.fs.filesAt (q0 ++ ".qbt_rejected") ∧
    signalsFor (Algorithm.removeIf (retryTorrent env dirPath d options) l s).2
        (q0 ++ ".qbt_rejected") = signalsFor s (q0 ++ ".qbt_rejected") := by
  induction l generalizing s with
  | nil => exact ⟨rfl, rfl⟩
  | cons e rest ih =>
    obtain ⟨q, v⟩ := e
    obtain ⟨f1, f2⟩ := retryTorrent_rejected_file env dirPath d options q v s q0
      (hdesc (q, v) (by simp)) hex
    have hex1 : (retryTorrent env dirPath d options q v s).2.fs.fileExists
        (q0 ++ ".qbt_rejected") = true := by
      rw [FileSystem.fileExists_congr _ _ _ f1]
      exact hex
    obtain ⟨h1, h2⟩ := ih (retryTorrent env dirPath d options q v s).2
      (fun t ht => hdesc t (List.mem_cons_of_mem _ ht)) hex1
    rw [Algorithm.removeIf_cons]
    exact ⟨h1.trans f1, h2.trans f2⟩

theorem retryFolders_rejected_file (env : Env) (q0 : String) (ledger : QHash (QHash Int))
    (s : Worker) (hdesc : ledgerOfDescriptors ledger = true)
    (hex : s.fs.fileExists (q0 ++ ".qbt_rejected") = true) :
    (Algorithm.removeIf (retryFolder env) ledger s).2.fs.filesAt (q0 ++ ".qbt_rejected")
      = s.fs.filesAt (q0 ++ ".qbt_rejected") ∧
    signalsFor (Algorithm.removeIf (retryFolder env) ledger s).2 (q0 ++ ".qbt_rejected")
      = signalsFor s (q0 ++ ".qbt_rejected") := by
  induction ledger generalizing s with
  | nil => exact ⟨rfl, rfl⟩
  | cons e rest ih =>
    obtain ⟨d, l⟩ := e
    have hdesc' := (ledgerOfDescriptors_iff _).1 hdesc
    obtain ⟨f1, f2⟩ := retryTorrents_rejected_file env (env.dirPath d) d
      (QHash.value s.m_watchedFolders d (WatchedFolderOptions.default env)) q0 l s
      (hdesc' (d, l) (by simp)) hex
    have hex1 : (Algorithm.removeIf (retryTorrent env (env.dirPath d) d
        (QHash.value s.m_watchedFolders d (WatchedFolderOptions.default env))) l s).2.fs.fileExists
        (q0 ++ ".qbt_rejected") = true := by
      rw [FileSystem.fileExists_congr _ _ _ f1]
      exact hex
    obtain ⟨h1, h2⟩ := ih (Algorithm.removeIf (retryTorrent env (env.dirPath d) d
      (QHash.value s.m_watchedFolders d (WatchedFolderOptions.default env))) l s).2
      ((ledgerOfDescriptors_iff rest).2 (fun e he => hdesc' e (List.mem_cons_of_mem _ he))) hex1
    rw [removeIf_retryFolder_cons]
    exact ⟨h1.trans f1, h2.trans f2⟩

theorem setWatchedFolder_frame (env : Env) (self : Worker) (path : String)
    (options : WatchedFolderOptions) :
    (setWatchedFolder env self path options).fs = self.fs ∧
    (setWatchedFolder env self path options).emitted = self.emitted ∧
    (setWatchedFolder env self path options).m_failedTorrents = self.m_failedTorrents := by
  simp only [setWatchedFolder, updateWatchedFolder, addWatchedFolder,
    scheduleWatchedFolderProcessing]
  repeat' split
  all_goals exact ⟨rfl, rfl, rfl⟩

theorem removeWatchedFolder_frame (self : Worker) (path : String) :
    (removeWatchedFolder self path).fs = self.fs ∧
    (removeWatchedFolder self path).emitted = self.emitted := by
  simp only [removeWatchedFolder]
  split <;> split <;> exact ⟨rfl, rfl⟩

theorem processWatchedFolder_inv (env : Env) (fuel : Nat) (self self' : Worker) (path : String)
    (h : processWatchedFolder env fuel self path = some self') :
    ∃ s, processFolder env fuel path path
        (QHash.value self.m_watchedFolders path (WatchedFolderOptions.default env)) self = some s ∧
      self'.emitted = s.emitted ∧ self'.fs = s.fs ∧ self'.m_failedTorrents = s.m_failedTorrents := by
  cases hpf : processFolder env fuel path path
      (QHash.value self.m_watchedFolders path (WatchedFolderOptions.default env)) self with
  | none => simp [processWatchedFolder, hpf] at h
  | some s =>
    obtain ⟨s2, h1, h2, h3, h4, _⟩ := processWatchedFolder_of_processFolder env fuel self s path hpf
    rw [h] at h1
    simp only [Option.some.injEq] at h1
    rw [h1]
    exact ⟨s, rfl, h2, h3, h4⟩

/-- The ledger holds descriptors only, after any operation as before. -/
theorem apply_descriptors (env : Env) (op : WorkerOp) (self self' : Worker)
    (hdesc : self.tracksDescriptors = true) (h : Worker.apply env self op = some self') :
    self'.tracksDescriptors = true := by
  cases op with
  | setWatchedFolder path options =>
    simp only [Worker.apply, Option.some.injEq] at h
    rw [← h]
    simp only [tracksDescriptors, (setWatchedFolder_frame env self path options).2.2]
    exact hdesc
  | removeWatchedFolder path =>
    simp only [Worker.apply, Option.some.injEq] at h
    rw [← h]
    simp only [tracksDescriptors, (removeWatchedFolder_members self path).2.2.2]
    simp only [tracksDescriptors] at hdesc
    rw [ledgerOfDescriptors_iff] at hdesc ⊢
    intro e he t ht
    exact hdesc e (List.mem_filter.1 he).1 t ht
  | processWatchedFolder fuel path =>
    simp only [Worker.apply] at h
    obtain ⟨s, hs, _, _, h3⟩ := processWatchedFolder_inv env fuel self self' path h
    have := processFolder_invariant env path
      (QHash.value self.m_watchedFolders path (WatchedFolderOptions.default env))
      (fun w => w.tracksDescriptors = true)
      (fun D w q hq hw => processFile_descriptors env D path _ w q hq hw) fuel path self s hs hdesc
    simp only [tracksDescriptors, h3]
    exact this
  | processFailedTorrents =>
    simp only [Worker.apply, Option.some.injEq] at h
    rw [← h]
    simp only [tracksDescriptors, (processFailedTorrents_fields env self).2.2]
    exact retryFolders_descriptors env self.m_failedTorrents self hdesc

/-- The files and the signals of a rejected name that exists are the same after any
operation. -/
theorem apply_rejected_file (env : Env) (op : WorkerOp) (self self' : Worker) (q0 : String)
    (hdesc : self.tracksDescriptors = true)
    (hex : self.fs.fileExists (q0 ++ ".qbt_rejected") = true)
    (h : Worker.apply env self op = some self') :
    self'.fs.filesAt (q0 ++ ".qbt_rejected") = self.fs.filesAt (q0 ++ ".qbt_rejected") ∧
    signalsFor self' (q0 ++ ".qbt_rejected") = signalsFor self (q0 ++ ".qbt_rejected") := by
  cases op with
  | setWatchedFolder path options =>
    simp only [Worker.apply, Option.some.injEq] at h
    rw [← h]
    obtain ⟨h1, h2, _⟩ := setWatchedFolder_frame env self path options
    exact ⟨by rw [h1], signalsFor_congr _ _ _ h2⟩
  | removeWatchedFolder path =>
    simp only [Worker.apply, Option.some.injEq] at h
    rw [← h]
    obtain ⟨h1, h2⟩ := removeWatchedFolder_frame self path
    exact ⟨by rw [h1], signalsFor_congr _ _ _ h2⟩
  | processWatchedFolder fuel path =>
    simp only [Worker.apply] at h
    obtain ⟨s, hs, h1, h2, _⟩ := processWatchedFolder_inv env fuel self self' path h
    have := processFolder_invariant env path
      (QHash.value self.m_watchedFolders path (WatchedFolderOptions.default env))
      (fun w => w.fs.filesAt (q0 ++ ".qbt_rejected") = self.fs.filesAt (q0 ++ ".qbt_rejected") ∧
        signalsFor w (q0 ++ ".qbt_rejected") = signalsFor self (q0 ++ ".qbt_rejected"))
      (fun D w q hq hw =>
        ⟨(processFile_rejected_file env D path _ w q hq q0).1.trans hw.1,
          (processFile_rejected_file env D path _ w q hq q0).2.trans hw.2⟩)
      fuel path self s hs ⟨rfl, rfl⟩
    exact ⟨by rw [h2]; exact this.1, (signalsFor_congr _ _ _ h1).trans this.2⟩
  | processFailedTorrents =>
    simp only [Worker.apply, Option.some.injEq] at h
    rw [← h]
    obtain ⟨h1, h2, _⟩ := processFailedTorrents_fields env self
    obtain ⟨f1, f2⟩ := retryFolders_rejected_file env q0 self.m_failedTorrents self hdesc hex
    exact ⟨by rw [h1]; exact f1, (signalsFor_congr _ _ _ h2).trans f2⟩

theorem run_descriptors (env : Env) (ops : List WorkerOp) :
    ∀ (self self' : Worker), self.tracksDescriptors = true →
      Worker.run env ops self = some self' → self'.tracksDescriptors = true := by
  induction ops with
  | nil =>
    intro self self' h hrun
    simp only [Worker.run, List.foldlM_nil, pure, Option.some.injEq] at hrun
    rw [← hrun]
    exact h
  | cons op rest ih =>
    intro self self' h hrun
    simp only [Worker.run, List.foldlM_cons] at hrun
    obtain ⟨s1, h1, h2⟩ := Option.bind_eq_some.1 hrun
    exact ih s1 self' (apply_descriptors env op self s1 h h1) h2

theorem run_rejected_file (env : Env) (q0 : String) (ops : List WorkerOp) :
    ∀ (self self' : Worker), self.tracksDescriptors = true →
      self.fs.fileExists (q0 ++ ".qbt_rejected") = true →
      Worker.run env ops self = some self' →
      self'.fs.filesAt (q0 ++ ".qbt_rejected") = self.fs.filesAt (q0 ++ ".qbt_rejected") ∧
      signalsFor self' (q0 ++ ".qbt_rejected") = signalsFor self (q0 ++ ".qbt_rejected") := by
  induction ops with
  | nil =>
    intro self self' _ _ hrun
    simp only [Worker.run, List.foldlM_nil, pure, Option.some.injEq] at hrun
    rw [← hrun]
    exact ⟨rfl, rfl⟩
  | cons op rest ih =>
    intro self self' h hex hrun
    simp only [Worker.run, List.foldlM_cons] at hrun
    obtain ⟨s1, h1, h2⟩ := Option.bind_eq_some.1 hrun
    obtain ⟨f1, f2⟩ := apply_rejected_file env op self s1 q0 h hex h1
    have hex1 : s1.fs.fileExists (q0 ++ ".qbt_rejected") = true := by
      rw [FileSystem.fileExists_congr _ _ _ f1]
      exact hex
    obtain ⟨g1, g2⟩ := ih s1 self' (apply_descriptors env op self s1 h h1) hex1 h2
    exact ⟨g1.trans f1, g2.trans f2⟩

end Worker

/-- Claim C20: the rejected name `f ++ ".qbt_rejected"` matches neither name filter; a retry of
`f` that fails with the counter at the ceiling renames the file and drops its entry; and once
the file of the rejected name exists, in a state the worker reaches from its construction, no
later sequence of scans, sweeps and slot calls changes the file, emits a signal for it, has it
in a directory listing or has it in the ledger. -/
theorem C20_rejected_file_is_final (env : Env) (fs : FileSystem) (before later : List WorkerOp)
    (s s' : Worker) (f : String)
    (hreach : Worker.run env before (Worker.init fs) = some s)
    (hex : s.fs.fileExists (f ++ ".qbt_rejected") = true)
    (hrun : Worker.run env later s = some s') :
    matchesNameFilters (f ++ ".qbt_rejected") = false ∧
    (∀ (dirPath d : String) (options : WatchedFolderOptions) (v : Int) (w : Worker),
      w.fs.fileExists f = true → loadFromFile env w.fs f = none → v ≥ MAX_FAILED_RETRIES →
      (Worker.retryTorrent env dirPath d options f v w).1.1 = true ∧
      (Worker.retryTorrent env dirPath d options f v w).2
        = { w with fs := w.fs.renameAppend f ".qbt_rejected" }) ∧
    s'.fs.filesAt (f ++ ".qbt_rejected") = s.fs.filesAt (f ++ ".qbt_rejected") ∧
    Worker.signalsFor s' (f ++ ".qbt_rejected") = Worker.signalsFor s (f ++ ".qbt_rejected") ∧
    s'.trackings (f ++ ".qbt_rejected") = [] ∧
    ∀ D, f ++ ".qbt_rejected" ∉ s'.fs.torrentFiles D := by
  have hdesc : s.tracksDescriptors = true :=
    Worker.run_descriptors env before (Worker.init fs) s rfl hreach
  have hdesc' : s'.tracksDescriptors = true := Worker.run_descriptors env later s s' hdesc hrun
  obtain ⟨h1, h2⟩ := Worker.run_rejected_file env f later s s' hdesc hex hrun
  refine ⟨matchesNameFilters_rejected f, ?_, h1, h2, ?_, ?_⟩
  · intro dirPath d options v w hw hload hv
    rw [Worker.retryTorrent_rejected env dirPath d options f v w hw hload hv]
    exact ⟨rfl, rfl⟩
  · simp only [Worker.trackings]
    rw [ledgerTrackings_eq_nil_iff]
    simp only [Worker.tracksDescriptors] at hdesc'
    rw [ledgerOfDescriptors_iff] at hdesc'
    intro e he t ht heq
    have := hdesc' e he t ht
    rw [heq, endsWithCI_rejected] at this
    exact absurd this (by simp)
  · intro D hD
    have := Worker.listing_matches s'.fs D _ hD
    rw [matchesNameFilters_rejected] at this
    exact absurd this (by simp)

/-- Witness for C20: `/watch/bad.torrent` does not load; after the scan and six sweeps it has the
name `/watch/bad.torrent.qbt_rejected`, and two more scans and sweeps leave the worker as it
is. -/
theorem C20_rejected_file_is_final_witness :
    (matchesNameFilters ("/watch/bad.torrent" ++ ".qbt_rejected") = false ∧
      (∀ (dirPath d : String) (options : WatchedFolderOptions) (v : Int) (w : Worker),
        w.fs.fileExists "/watch/bad.torrent" = true →
        loadFromFile unixEnv w.fs "/watch/bad.torrent" = none → v ≥ MAX_FAILED_RETRIES →
        (Worker.retryTorrent unixEnv dirPath d options "/watch/bad.torrent" v w).1.1 = true ∧
        (Worker.retryTorrent unixEnv dirPath d options "/watch/bad.torrent" v w).2
          = { w with fs := w.fs.renameAppend "/watch/bad.torrent" ".qbt_rejected" }) ∧
      rejectedWorker.fs.filesAt ("/watch/bad.torrent" ++ ".qbt_rejected")
        = rejectedWorker.fs.filesAt ("/watch/bad.torrent" ++ ".qbt_rejected") ∧
      Worker.signalsFor rejectedWorker ("/watch/bad.torrent" ++ ".qbt_rejected")
        = Worker.signalsFor rejectedWorker ("/watch/bad.torrent" ++ ".qbt_rejected") ∧
      rejectedWorker.trackings ("/watch/bad.torrent" ++ ".qbt_rejected") = [] ∧
      ∀ D, "/watch/bad.torrent" ++ ".qbt_rejected" ∉ rejectedWorker.fs.torrentFiles D) ∧
    Worker.run unixEnv rejectOps (Worker.init badFs) = some rejectedWorker ∧
    Worker.run unixEnv laterOps rejectedWorker = some rejectedWorker ∧
    rejectedWorker.fs.filesAt "/watch/bad.torrent.qbt_rejected"
      = [⟨"/watch", "bad.torrent.qbt_rejected", "garbage", true⟩] ∧
    rejectedWorker.emitted = [] :=
  ⟨C20_rejected_file_is_final unixEnv badFs rejectOps laterOps rejectedWorker rejectedWorker
    "/watch/bad.torrent" (by decide) (by decide) (by decide), by decide, by decide, by decide,
    by decide⟩

/-! ## What holds of the ledger for the files of a watched folder itself -/

namespace Worker

/-- A descriptor in the directory of the watched folder itself that loads in a sweep is emitted
with the parameters a scan of the folder gives to the files of that directory. -/
theorem retryTorrent_root_params (env : Env) (d : String) (options : WatchedFolderOptions)
    (q : String) (v : Int) (self : Worker) (info : TorrentInfo)
    (hex : self.fs.fileExists q = true) (hload : loadFromFile env self.fs q = some info)
    (hdir : env.canonicalPath (self.fs.dirOf q) = env.dirPath d) :
    retryTorrent env (env.dirPath d) d options q v self
      = ((true, v), { self with
          emitted := self.emitted ++ [Signal.torrentFound d q info (folderParams env d d options)]
          fs := self.fs.forceRemove q }) := by
  simp [retryTorrent, hex, hload, hdir, folderParams]

/-- After `removeWatchedFolder` the path is in neither set, and the ledger has no entry filed
under the path. -/
theorem removeWatchedFolder_clears (self : Worker) (path : String) :
    path ∉ (removeWatchedFolder self path).m_watcher ∧
    path ∉ (removeWatchedFolder self path).m_watchedByTimeoutFolders ∧
    QHash.get? (removeWatchedFolder self path).m_failedTorrents path = none := by
  obtain ⟨_, h2, h3, h4⟩ := removeWatchedFolder_members self path
  rw [h2, h3, h4]
  refine ⟨?_, ?_, QHash.get?_remove_self _ _⟩
  · simp [QSet.remove]
  · simp [QSet.remove]

end Worker

/-! ## Defaults of the persisted parameters -/

theorem QJsonObject.value_absent (jsonObj : QJsonObject) (key : String)
    (h : QHash.contains jsonObj key = false) : jsonObj.value key = QJsonValue.undefined := by
  simp [QJsonObject.value, QHash.value, QHash.get?_eq_none_of_not_contains jsonObj key h]

theorem getEnum_eq_forced_iff (jsonObj : QJsonObject) (key : String) :
    getEnum jsonObj key = TorrentOperatingMode.Forced ↔
      jsonObj.value key = QJsonValue.string "Forced" := by
  simp only [getEnum, TorrentOperatingMode.toEnum]
  cases hv : jsonObj.value key with
  | string s =>
    simp only [QJsonValue.toString, QJsonValue.string.injEq]
    by_cases h1 : s = "AutoManaged"
    · simp [h1]
    · by_cases h2 : s = "Forced"
      · simp [h2]
      · simp [h1, h2]
  | null => simp [QJsonValue.toString]
  | bool b => simp [QJsonValue.toString]
  | double d => simp [QJsonValue.toString]
  | array a => simp [QJsonValue.toString]
  | object o => simp [QJsonValue.toString]
  | undefined => simp [QJsonValue.toString]

/-- Claim C24: in the parameters `parseAddTorrentParams` reads from an object, a limit whose key
is absent is -1 (upload, download) or the use-global sentinel (seeding time, ratio), the
optional members `addPaused`, `contentLayout` and `useAutoTMM` have no value when their key is
absent, and `addForced` is true iff the value of `operating_mode` is the string "Forced", so
it is false for "AutoManaged" and when the key is absent. -/
theorem C24_parse_defaults (env : Env) (jsonObj : QJsonObject) :
    (QHash.contains jsonObj PARAM_UPLOADLIMIT = false →
      (parseAddTorrentParams env jsonObj).uploadLimit = CInt.minusOne) ∧
    (QHash.contains jsonObj PARAM_DOWNLOADLIMIT = false →
      (parseAddTorrentParams env jsonObj).downloadLimit = CInt.minusOne) ∧
    CInt.minusOne.val = -1 ∧
    (QHash.contains jsonObj PARAM_SEEDINGTIMELIMIT = false →
      (parseAddTorrentParams env jsonObj).seedingTimeLimit = env.USE_GLOBAL_SEEDING_TIME) ∧
    (QHash.contains jsonObj PARAM_RATIOLIMIT = false →
      (parseAddTorrentParams env jsonObj).ratioLimit = env.USE_GLOBAL_RATIO) ∧
    (QHash.contains jsonObj PARAM_STOPPED = false →
      (parseAddTorrentParams env jsonObj).addPaused = none) ∧
    (QHash.contains jsonObj PARAM_CONTENTLAYOUT = false →
      (parseAddTorrentParams env jsonObj).contentLayout = none) ∧
    (QHash.contains jsonObj PARAM_AUTOTMM = false →
      (parseAddTorrentParams env jsonObj).useAutoTMM = none) ∧
    ((parseAddTorrentParams env jsonObj).addForced = true ↔
      jsonObj.value PARAM_OPERATINGMODE = QJsonValue.string "Forced") ∧
    (jsonObj.value PARAM_OPERATINGMODE = QJsonValue.string "AutoManaged" →
      (parseAddTorrentParams env jsonObj).addForced = false) ∧
    (QHash.contains jsonObj PARAM_OPERATINGMODE = false →
      (parseAddTorrentParams env jsonObj).addForced = false) := by
  have hforced : (parseAddTorrentParams env jsonObj).addForced = true ↔
      jsonObj.value PARAM_OPERATINGMODE = QJsonValue.string "Forced" := by
    simp only [parseAddTorrentParams, decide_eq_true_eq]
    exact getEnum_eq_forced_iff jsonObj PARAM_OPERATINGMODE
  refine ⟨?_, ?_, rfl, ?_, ?_, ?_, ?_, ?_, hforced, ?_, ?_⟩
  · intro h
    simp [parseAddTorrentParams, QJsonObject.value_absent jsonObj _ h, QJsonValue.toInt]
  · intro h
    simp [parseAddTorrentParams, QJsonObject.value_absent jsonObj _ h, QJsonValue.toInt]
  · intro h
    simp [parseAddTorrentParams, QJsonObject.value_absent jsonObj _ h, QJsonValue.toInt]
  · intro h
    simp [parseAddTorrentParams, QJsonObject.value_absent jsonObj _ h, QJsonValue.toDouble]
  · intro h
    simp [parseAddTorrentParams, getOptionalBool, QJsonObject.value_absent jsonObj _ h,
      QJsonValue.isUndefined]
  · intro h
    simp [parseAddTorrentParams, getOptionalEnum, QJsonObject.value_absent jsonObj _ h,
      QJsonValue.isUndefined]
  · intro h
    simp [parseAddTorrentParams, getOptionalBool, QJsonObject.value_absent jsonObj _ h,
      QJsonValue.isUndefined]
  · intro h
    cases hf : (parseAddTorrentParams env jsonObj).addForced
    · rfl
    · rw [hforced, h] at hf
      simp at hf
  · intro h
    cases hf : (parseAddTorrentParams env jsonObj).addForced
    · rfl
    · rw [hforced, QJsonObject.value_absent jsonObj _ h] at hf
      simp at hf

/-- Witness for C24: the parameters read from the empty object have the defaults, and are not
forced; those read from an object with the operating mode "Forced" are forced, those with
"AutoManaged" are not. -/
theorem C24_parse_defaults_witness :
    ((parseAddTorrentParams unixEnv []).uploadLimit = CInt.minusOne ∧
      (parseAddTorrentParams unixEnv []).downloadLimit = CInt.minusOne ∧
      (parseAddTorrentParams unixEnv []).seedingTimeLimit = unixEnv.USE_GLOBAL_SEEDING_TIME ∧
      (parseAddTorrentParams unixEnv []).ratioLimit = unixEnv.USE_GLOBAL_RATIO ∧
      (parseAddTorrentParams unixEnv []).addPaused = none ∧
      (parseAddTorrentParams unixEnv []).contentLayout = none ∧
      (parseAddTorrentParams unixEnv []).useAutoTMM = none ∧
      (parseAddTorrentParams unixEnv []).addForced = false) ∧
    (parseAddTorrentParams unixEnv [(PARAM_OPERATINGMODE, QJsonValue.string "Forced")]).addForced
      = true ∧
    (parseAddTorrentParams unixEnv
      [(PARAM_OPERATINGMODE, QJsonValue.string "AutoManaged")]).addForced = false :=
  have h := C24_parse_defaults unixEnv []
  ⟨⟨h.1 rfl, h.2.1 rfl, h.2.2.2.1 rfl, h.2.2.2.2.1 rfl, h.2.2.2.2.2.1 rfl, h.2.2.2.2.2.2.1 rfl,
      h.2.2.2.2.2.2.2.1 rfl, h.2.2.2.2.2.2.2.2.2.2 rfl⟩,
    (C24_parse_defaults unixEnv [(PARAM_OPERATINGMODE, QJsonValue.string "Forced")]).2.2.2.2.2.2.2.2.1.2
      rfl,
    (C24_parse_defaults unixEnv
      [(PARAM_OPERATINGMODE, QJsonValue.string "AutoManaged")]).2.2.2.2.2.2.2.2.2.1 rfl⟩

/-! ## The poll timer -/

theorem QSet.insert_ne_nil (s : QSet) (x : String) : QSet.insert s x ≠ [] := by
  unfold QSet.insert
  split
  · rename_i h
    exact List.ne_nil_of_mem h
  · simp

namespace Worker

theorem PollInvariant.poll_add {env : Env} {self : Worker} (h : PollInvariant self)
    (path : String) (options : WatchedFolderOptions) :
    PollInvariant (Worker.addWatchedFolder env self path options) := by
  unfold PollInvariant at h ⊢
  unfold Worker.addWatchedFolder scheduleWatchedFolderProcessing
  cases hcond : (env.isNetworkFileSystem path || options.recursive)
  · cases hx : self.fs.pathExists path <;> simpa [hx] using h
  · cases ht : self.m_watchTimer <;> simp [ht, QSet.insert_ne_nil]

theorem removeWatchedFolder_timers (self : Worker) (path : String) :
    (Worker.removeWatchedFolder self path).m_watchTimer
      = (if (QSet.remove self.m_watchedByTimeoutFolders path).isEmpty then false
        else self.m_watchTimer) ∧
    (Worker.removeWatchedFolder self path).m_retryTorrentTimer
      = (if (QHash.remove self.m_failedTorrents path).isEmpty then false
        else self.m_retryTorrentTimer) := by
  simp only [Worker.removeWatchedFolder]
  split <;> split <;> simp [*]

theorem PollInvariant.poll_remove {self : Worker} (h : PollInvariant self)
    (path : String) : PollInvariant (Worker.removeWatchedFolder self path) := by
  unfold PollInvariant at h ⊢
  rw [(removeWatchedFolder_timers self path).1, (removeWatchedFolder_members self path).2.2.1]
  cases he : (QSet.remove self.m_watchedByTimeoutFolders path).isEmpty
  · have hne : QSet.remove self.m_watchedByTimeoutFolders path ≠ [] := by
      intro e
      rw [e] at he
      simp at he
    have hs : self.m_watchedByTimeoutFolders ≠ [] := by
      intro e
      apply hne
      simp [QSet.remove, e]
    simp [hne, h.2 hs]
  · have : QSet.remove self.m_watchedByTimeoutFolders path = [] := by
      simpa [List.isEmpty_iff] using he
    simp [this]

theorem PollInvariant.poll_update {env : Env} {self : Worker} (h : PollInvariant self)
    (path : String) (options : WatchedFolderOptions) :
    PollInvariant (Worker.updateWatchedFolder env self path options) := by
  unfold PollInvariant at h ⊢
  unfold Worker.updateWatchedFolder scheduleWatchedFolderProcessing
  have hins := QSet.insert_ne_nil self.m_watchedByTimeoutFolders path
  have hrem : self.m_watchedByTimeoutFolders = [] →
      QSet.remove self.m_watchedByTimeoutFolders path = [] := by
    intro e
    simp [QSet.remove, e]
  cases hchanged : ((QHash.value self.m_watchedFolders path (WatchedFolderOptions.default env)).recursive
      != options.recursive) <;>
    cases hnet : env.isNetworkFileSystem path <;>
    cases hrec : options.recursive <;>
    cases ht : self.m_watchTimer <;>
    cases he : (QSet.remove self.m_watchedByTimeoutFolders path).isEmpty <;>
    cases hx : self.fs.pathExists path <;>
    simp_all [List.isEmpty_iff]

theorem PollInvariant.applyFolderOps {env : Env} (ops : List FolderOp) :
    ∀ {self : Worker}, PollInvariant self → PollInvariant (Worker.applyFolderOps env ops self) := by
  induction ops with
  | nil => exact fun h => h
  | cons op rest ih =>
    intro self h
    simp only [Worker.applyFolderOps, List.foldl_cons]
    apply ih
    cases op with
    | addWatchedFolder path options => exact h.poll_add path options
    | updateWatchedFolder path options => exact h.poll_update path options
    | removeWatchedFolder path => exact h.poll_remove path

end Worker

/-- Claim C23: after any sequence of calls of `addWatchedFolder`, `updateWatchedFolder` and
`removeWatchedFolder` on a worker, from its construction, the poll timer is running iff the
polling set is not empty. -/
theorem C23_poll_timer_invariant (env : Env) (fs : FileSystem) (ops : List FolderOp) :
    (Worker.applyFolderOps env ops (Worker.init fs)).m_watchTimer = true ↔
      (Worker.applyFolderOps env ops (Worker.init fs)).m_watchedByTimeoutFolders ≠ [] :=
  Worker.PollInvariant.applyFolderOps ops (by simp [Worker.PollInvariant, Worker.init])

/-! ## The retry timer -/

theorem QHash.insert_nonempty {α : Type} (h : QHash α) (key : String) (v : α) :
    QHash.insert h key v ≠ [] := by
  cases h with
  | nil => simp [QHash.insert]
  | cons e rest =>
    obtain ⟨k, x⟩ := e
    simp only [QHash.insert]
    split <;> simp

namespace Worker

theorem processFile_retryTimer (env : Env) (path root : String) (options : WatchedFolderOptions)
    (self : Worker) (q : String) :
    (processFile env path root options self q).m_retryTorrentTimer = self.m_retryTorrentTimer := by
  cases hm : endsWithCI q ".magnet"
  · cases hload : loadFromFile env self.fs q with
    | none =>
      simp only [processFile, hm, hload, Bool.false_eq_true, ↓reduceIte]
      split <;> rfl
    | some info =>
      rw [processFile_torrent env path root options self q info hm hload]
  · cases hopen : self.fs.openRead q with
    | none => rw [processFile_magnet_closed env path root options self q hm hopen]
    | some text => rw [processFile_magnet env path root options self q text hm hopen]

theorem addWatchedFolder_retry (env : Env) (self : Worker) (path : String)
    (options : WatchedFolderOptions) :
    (Worker.addWatchedFolder env self path options).m_failedTorrents = self.m_failedTorrents ∧
    (Worker.addWatchedFolder env self path options).m_retryTorrentTimer
      = self.m_retryTorrentTimer := by
  simp only [Worker.addWatchedFolder, scheduleWatchedFolderProcessing]
  repeat' split
  all_goals exact ⟨rfl, rfl⟩

theorem updateWatchedFolder_retry (env : Env) (self : Worker) (path : String)
    (options : WatchedFolderOptions) :
    (Worker.updateWatchedFolder env self path options).m_failedTorrents = self.m_failedTorrents ∧
    (Worker.updateWatchedFolder env self path options).m_retryTorrentTimer
      = self.m_retryTorrentTimer := by
  simp only [Worker.updateWatchedFolder, scheduleWatchedFolderProcessing]
  repeat' split
  all_goals exact ⟨rfl, rfl⟩

theorem processWatchedFolder_retry (env : Env) (fuel : Nat) (self self' : Worker) (path : String)
    (h : processWatchedFolder env fuel self path = some self') :
    ∃ s, processFolder env fuel path path
        (QHash.value self.m_watchedFolders path (WatchedFolderOptions.default env)) self = some s ∧
      self'.m_failedTorrents = s.m_failedTorrents ∧
      self'.m_retryTorrentTimer = (s.m_retryTorrentTimer || !s.m_failedTorrents.isEmpty) := by
  cases hpf : processFolder env fuel path path
      (QHash.value self.m_watchedFolders path (WatchedFolderOptions.default env)) self with
  | none => simp [processWatchedFolder, hpf] at h
  | some s =>
    refine ⟨s, rfl, ?_⟩
    simp only [processWatchedFolder, hpf] at h
    cases he : s.m_failedTorrents.isEmpty <;> cases ht : s.m_retryTorrentTimer <;>
      simp [he, ht] at h <;> rw [← h] <;> simp [he, ht]

theorem RetryInvariant.retry_add {env : Env} {self : Worker} (h : RetryInvariant self)
    (path : String) (options : WatchedFolderOptions) :
    RetryInvariant (Worker.addWatchedFolder env self path options) := by
  unfold RetryInvariant at h ⊢
  rw [(addWatchedFolder_retry env self path options).1,
    (addWatchedFolder_retry env self path options).2]
  exact h

theorem RetryInvariant.retry_update {env : Env} {self : Worker} (h : RetryInvariant self)
    (path : String) (options : WatchedFolderOptions) :
    RetryInvariant (Worker.updateWatchedFolder env self path options) := by
  unfold RetryInvariant at h ⊢
  rw [(updateWatchedFolder_retry env self path options).1,
    (updateWatchedFolder_retry env self path options).2]
  exact h

theorem RetryInvariant.retry_set {env : Env} {self : Worker} (h : RetryInvariant self)
    (path : String) (options : WatchedFolderOptions) :
    RetryInvariant (Worker.setWatchedFolder env self path options) := by
  unfold Worker.setWatchedFolder
  split
  · exact h.retry_update path options
  · exact h.retry_add path options

theorem RetryInvariant.retry_remove {self : Worker} (h : RetryInvariant self)
    (path : String) : RetryInvariant (Worker.removeWatchedFolder self path) := by
  unfold RetryInvariant at h ⊢
  rw [(removeWatchedFolder_timers self path).2, (removeWatchedFolder_members self path).2.2.2]
  cases he : (QHash.remove self.m_failedTorrents path).isEmpty
  · have hne : QHash.remove self.m_failedTorrents path ≠ [] := by
      intro e
      rw [e] at he
      simp at he
    have hs : self.m_failedTorrents ≠ [] := by
      intro e
      apply hne
      simp [QHash.remove, e]
    simp [hne, h.2 hs]
  · have : QHash.remove self.m_failedTorrents path = [] := by
      simpa [List.isEmpty_iff] using he
    simp [this]

theorem RetryInvariant.processFailedTorrents (env : Env) (self : Worker) :
    RetryInvariant (Worker.processFailedTorrents env self) := by
  unfold RetryInvariant
  simp only [Worker.processFailedTorrents]
  split
  · rename_i he
    simp only [List.isEmpty_iff] at he
    simp [he]
  · rename_i he
    simp only [List.isEmpty_iff] at he
    simp [he]

theorem RetryInvariant.processWatchedFolder {env : Env} {self self' : Worker}
    (h : RetryInvariant self) (fuel : Nat) (path : String)
    (hscan : Worker.processWatchedFolder env fuel self path = some self') :
    RetryInvariant self' := by
  unfold RetryInvariant at h ⊢
  obtain ⟨s, hs, h1, h2⟩ := processWatchedFolder_retry env fuel self self' path hscan
  have hinv := processFolder_invariant env path
    (QHash.value self.m_watchedFolders path (WatchedFolderOptions.default env))
    (fun w => w.m_retryTorrentTimer = self.m_retryTorrentTimer ∧
      (self.m_failedTorrents ≠ [] → w.m_failedTorrents ≠ []))
    (fun D w q _ hw => by
      refine ⟨(processFile_retryTimer env D path _ w q).trans hw.1, fun hne => ?_⟩
      rcases processFile_ledger env D path _ w q with hl | ⟨_, hl⟩
      · rw [hl]
        exact hw.2 hne
      · rw [hl]
        exact QHash.insert_nonempty _ _ _)
    fuel path self s hs ⟨rfl, fun hne => hne⟩
  rw [h1, h2, hinv.1]
  cases he : s.m_failedTorrents.isEmpty
  · have hne : s.m_failedTorrents ≠ [] := by
      intro e
      rw [e] at he
      simp at he
    simp [hne]
  · have hnil : s.m_failedTorrents = [] := by simpa [List.isEmpty_iff] using he
    have h0 : self.m_failedTorrents = [] := by
      by_contra hne
      exact hinv.2 hne hnil
    have ht : self.m_retryTorrentTimer = false := by
      cases ht : self.m_retryTorrentTimer
      · rfl
      · exact absurd h0 (h.1 ht)
    simp [hnil, ht]

theorem RetryInvariant.step {env : Env} {self self' : Worker} (h : RetryInvariant self)
    (op : WorkerOp ⊕ FolderOp) (hstep : Worker.step env self op = some self') :
    RetryInvariant self' := by
  cases op with
  | inl op =>
    cases op with
    | setWatchedFolder path options =>
      simp only [Worker.step, Worker.apply, Option.some.injEq] at hstep
      rw [← hstep]
      exact h.retry_set path options
    | removeWatchedFolder path =>
      simp only [Worker.step, Worker.apply, Option.some.injEq] at hstep
      rw [← hstep]
      exact h.retry_remove path
    | processWatchedFolder fuel path =>
      simp only [Worker.step, Worker.apply] at hstep
      exact h.processWatchedFolder fuel path hstep
    | processFailedTorrents =>
      simp only [Worker.step, Worker.apply, Option.some.injEq] at hstep
      rw [← hstep]
      exact RetryInvariant.processFailedTorrents env self
  | inr op =>
    simp only [Worker.step, Option.some.injEq] at hstep
    rw [← hstep]
    cases op with
    | addWatchedFolder path options => exact h.retry_add path options
    | updateWatchedFolder path options => exact h.retry_update path options
    | removeWatchedFolder path => exact h.retry_remove path

theorem RetryInvariant.steps {env : Env} (ops : List (WorkerOp ⊕ FolderOp)) :
    ∀ {self self' : Worker}, RetryInvariant self → Worker.steps env ops self = some self' →
      RetryInvariant self' := by
  induction ops with
  | nil =>
    intro self self' h hrun
    simp only [Worker.steps, List.foldlM_nil, pure, Option.some.injEq] at hrun
    rw [← hrun]
    exact h
  | cons op rest ih =>
    intro self self' h hrun
    simp only [Worker.steps, List.foldlM_cons] at hrun
    obtain ⟨s1, h1, h2⟩ := Option.bind_eq_some.1 hrun
    exact ih (h.step op h1) h2

end Worker

/-- Claim C22: after any sequence of completed operations of the worker, from its construction
(scans, sweeps, the slots, and calls of `addWatchedFolder`, `updateWatchedFolder` and
`removeWatchedFolder`), the retry timer is running iff the ledger is not empty. Whatever the
state before, the timer runs after a scan that leaves the ledger not empty, and is stopped after
a sweep that leaves it empty. -/
theorem C22_retry_timer_invariant (env : Env) (fs : FileSystem) (ops : List (WorkerOp ⊕ FolderOp))
    (self : Worker) (hrun : Worker.steps env ops (Worker.init fs) = some self) :
    (self.m_retryTorrentTimer = true ↔ self.m_failedTorrents ≠ []) ∧
    (∀ (w w' : Worker) (fuel : Nat) (path : String),
      Worker.processWatchedFolder env fuel w path = some w' → w'.m_failedTorrents ≠ [] →
      w'.m_retryTorrentTimer = true) ∧
    (∀ w : Worker, (Worker.processFailedTorrents env w).m_failedTorrents = [] →
      (Worker.processFailedTorrents env w).m_retryTorrentTimer = false) := by
  refine ⟨Worker.RetryInvariant.steps ops (by simp [Worker.RetryInvariant, Worker.init]) hrun,
    ?_, ?_⟩
  · intro w w' fuel path hscan hne
    obtain ⟨s, _, h1, h2⟩ := Worker.processWatchedFolder_retry env fuel w w' path hscan
    rw [h1] at hne
    rw [h2]
    cases hl : s.m_failedTorrents with
    | nil => exact absurd hl hne
    | cons e rest => simp
  · intro w hnil
    cases ht : (Worker.processFailedTorrents env w).m_retryTorrentTimer
    · rfl
    · exact absurd hnil ((Worker.RetryInvariant.processFailedTorrents env w).1 ht)

/-- Witness for C22: after `/watch` is set and scanned, the file that does not load is in the
ledger and the retry timer runs. -/
theorem C22_retry_timer_invariant_witness :
    ((({ badWorkerScanned with singleShots := ["/watch"] } : Worker).m_retryTorrentTimer = true ↔
        ({ badWorkerScanned with singleShots := ["/watch"] } : Worker).m_failedTorrents ≠ []) ∧
      (∀ (w w' : Worker) (fuel : Nat) (path : String),
        Worker.processWatchedFolder unixEnv fuel w path = some w' → w'.m_failedTorrents ≠ [] →
        w'.m_retryTorrentTimer = true) ∧
      (∀ w : Worker, (Worker.processFailedTorrents unixEnv w).m_failedTorrents = [] →
        (Worker.processFailedTorrents unixEnv w).m_retryTorrentTimer = false)) ∧
    ({ badWorkerScanned with singleShots := ["/watch"] } : Worker).m_retryTorrentTimer = true ∧
    (Worker.steps unixEnv rejectOpsSteps (Worker.init badFs)).map
      (fun s => (s.m_retryTorrentTimer, s.m_failedTorrents)) = some (false, []) :=
  ⟨C22_retry_timer_invariant unixEnv badFs
    [Sum.inl (WorkerOp.setWatchedFolder "/watch" exampleOptions),
      Sum.inl (WorkerOp.processWatchedFolder 1 "/watch")]
    { badWorkerScanned with singleShots := ["/watch"] } (by decide), by decide, by decide⟩

/-! ## The folders of the facade and of the worker -/

/-- Claim C25, at the folder `/watch/` written with a trailing slash: `setWatchedFolder`
registers `/watch` in the facade and queues `setWatchedFolder("/watch/")` for the worker, which
then watches `/watch/`; `removeWatchedFolder("/watch/")` empties the registry of the facade and
queues `removeWatchedFolder("/watch")`, after which the worker still watches `/watch/` and has it
in the push set. -/
theorem C25_worker_keeps_folder_removed_by_facade :
    QHash.keys (TorrentFilesWatcher.setWatchedFolder unixEnv emptyWatcher "/watch/"
      exampleOptions).2.m_watchedFolders = ["/watch"] ∧
    QHash.keys (Worker.deliverAll unixEnv
      (TorrentFilesWatcher.setWatchedFolder unixEnv emptyWatcher "/watch/" exampleOptions).2.queued
      (Worker.init badFs)).m_watchedFolders = ["/watch/"] ∧
    (TorrentFilesWatcher.removeWatchedFolder unixEnv
      (TorrentFilesWatcher.setWatchedFolder unixEnv emptyWatcher "/watch/" exampleOptions).2
      "/watch/").2.queued
      = [WorkerCall.setWatchedFolder "/watch/" exampleOptions,
          WorkerCall.removeWatchedFolder "/watch"] ∧
    QHash.keys (TorrentFilesWatcher.removeWatchedFolder unixEnv
      (TorrentFilesWatcher.setWatchedFolder unixEnv emptyWatcher "/watch/" exampleOptions).2
      "/watch/").2.m_watchedFolders = [] ∧
    QHash.keys (Worker.deliverAll unixEnv
      (TorrentFilesWatcher.removeWatchedFolder unixEnv
        (TorrentFilesWatcher.setWatchedFolder unixEnv emptyWatcher "/watch/" exampleOptions).2
        "/watch/").2.queued
      (Worker.init badFs)).m_watchedFolders = ["/watch/"] ∧
    (Worker.deliverAll unixEnv
      (TorrentFilesWatcher.removeWatchedFolder unixEnv
        (TorrentFilesWatcher.setWatchedFolder unixEnv emptyWatcher "/watch/" exampleOptions).2
        "/watch/").2.queued
      (Worker.init badFs)).m_watcher = ["/watch/"] := by
  decide

/-! ## The folders of the ledger -/

/-- Claim C26, at a recursive watched folder `/watch` with the file `/watch/sub/b.torrent` that
does not load: after the folder is set and scanned, the only folder of the ledger is
`/watch/sub`, which is not a watched folder, and the options a sweep looks up for it are the
default-constructed ones. -/
theorem C26_ledger_folder_is_not_watched :
    (Worker.run unixEnv
        [WorkerOp.setWatchedFolder "/watch" { exampleOptions with recursive := true },
          WorkerOp.processWatchedFolder 2 "/watch"]
        (Worker.init (subdirFs "partial"))).map
      (fun s => (QHash.keys s.m_failedTorrents, QHash.keys s.m_watchedFolders,
        QHash.contains s.m_watchedFolders "/watch/sub",
        decide (QHash.value s.m_watchedFolders "/watch/sub" (WatchedFolderOptions.default unixEnv)
          = WatchedFolderOptions.default unixEnv)))
      = some (["/watch/sub"], ["/watch"], false, true) := by
  decide

/-! ## The range of the counters -/

theorem ledgerBounded_iff (ledger : QHash (QHash Int)) :
    ledgerBounded ledger = true ↔
      ∀ e ∈ ledger, ∀ t ∈ e.2, 0 ≤ t.2 ∧ t.2 ≤ MAX_FAILED_RETRIES := by
  simp [ledgerBounded, List.all_eq_true]

namespace Worker

/-- An entry that a sweep keeps had a counter below the ceiling, and has it one higher. -/
theorem retryTorrent_kept_inv (env : Env) (dirPath d : String) (options : WatchedFolderOptions)
    (q : String) (v : Int) (self : Worker)
    (h : (retryTorrent env dirPath d options q v self).1.1 = false) :
    v < MAX_FAILED_RETRIES ∧ (retryTorrent env dirPath d options q v self).1.2 = v + 1 := by
  cases hex : self.fs.fileExists q
  · rw [retryTorrent_missing env dirPath d options q v self hex] at h
    simp at h
  · cases hload : loadFromFile env self.fs q with
    | some info =>
      obtain ⟨params, hp⟩ := retryTorrent_loaded env dirPath d options q v self info hex hload
      rw [hp] at h
      simp at h
    | none =>
      by_cases hv : v ≥ MAX_FAILED_RETRIES
      · rw [retryTorrent_rejected env dirPath d options q v self hex hload hv] at h
        simp at h
      · rw [retryTorrent_kept env dirPath d options q v self hex hload (not_le.1 hv)]
        exact ⟨not_le.1 hv, rfl⟩

theorem retryTorrents_bounded (env : Env) (dirPath d : String) (options : WatchedFolderOptions)
    (l : QHash Int) (s : Worker) (h : ∀ t ∈ l, 0 ≤ t.2 ∧ t.2 ≤ MAX_FAILED_RETRIES) :
    ∀ t ∈ (Algorithm.removeIf (retryTorrent env dirPath d options) l s).1,
      0 ≤ t.2 ∧ t.2 ≤ MAX_FAILED_RETRIES := by
  induction l generalizing s with
  | nil => simp [Algorithm.removeIf]
  | cons e rest ih =>
    obtain ⟨q, v⟩ := e
    rw [Algorithm.removeIf_cons]
    intro t ht
    simp only at ht
    have hrest := ih (retryTorrent env dirPath d options q v s).2
      (fun t ht => h t (List.mem_cons_of_mem _ ht))
    cases hk : (retryTorrent env dirPath d options q v s).1.1
    · simp only [hk, Bool.false_eq_true, ↓reduceIte, List.mem_cons] at ht
      rcases ht with ht | ht
      · obtain ⟨h1, h2⟩ := retryTorrent_kept_inv env dirPath d options q v s hk
        have h0 := (h (q, v) (by simp)).1
        rw [ht]
        simp only [h2]
        simp only at h0
        constructor <;> omega
      · exact hrest t ht
    · simp only [hk, ↓reduceIte] at ht
      exact hrest t ht

theorem retryFolders_bounded (env : Env) (ledger : QHash (QHash Int)) (s : Worker)
    (h : ledgerBounded ledger = true) :
    ledgerBounded (Algorithm.removeIf (retryFolder env) ledger s).1 = true := by
  induction ledger generalizing s with
  | nil => rfl
  | cons e rest ih =>
    obtain ⟨d, l⟩ := e
    have h' := (ledgerBounded_iff _).1 h
    have hrest := ih (Algorithm.removeIf (retryTorrent env (env.dirPath d) d
      (QHash.value s.m_watchedFolders d (WatchedFolderOptions.default env))) l s).2
      ((ledgerBounded_iff rest).2 (fun e he => h' e (List.mem_cons_of_mem _ he)))
    have hhead := retryTorrents_bounded env (env.dirPath d) d
      (QHash.value s.m_watchedFolders d (WatchedFolderOptions.default env)) l s (h' (d, l) (by simp))
    rw [removeIf_retryFolder_cons]
    simp only
    split
    · exact hrest
    · rw [ledgerBounded_iff] at hrest ⊢
      intro e he
      rcases List.mem_cons.1 he with he | he
      · rw [he]
        exact hhead
      · exact hrest e he

theorem processFile_bounded (env : Env) (path root : String) (options : WatchedFolderOptions)
    (self : Worker) (q : String) (h : ledgerBounded self.m_failedTorrents = true) :
    ledgerBounded (processFile env path root options self q).m_failedTorrents = true := by
  rcases processFile_ledger env path root options self q with hl | ⟨_, hl⟩
  · rw [hl]
    exact h
  · rw [hl]
    rw [ledgerBounded_iff] at h ⊢
    intro e he t ht
    rcases QHash.mem_insert_cases _ _ _ e he with he | he
    · rw [he] at ht
      rcases QHash.mem_insert_cases _ _ _ t ht with ht | ht
      · rw [ht]
        exact ⟨le_refl _, by simp [MAX_FAILED_RETRIES]⟩
      · obtain ⟨l, hl1, hl2⟩ := QHash.mem_value _ _ t ht
        exact h (path, l) hl1 t hl2
    · exact h e he t ht

theorem step_bounded (env : Env) (op : WorkerOp ⊕ FolderOp) (self self' : Worker)
    (h : ledgerBounded self.m_failedTorrents = true) (hstep : Worker.step env self op = some self') :
    ledgerBounded self'.m_failedTorrents = true := by
  have hremove : ∀ path, ledgerBounded (Worker.removeWatchedFolder self path).m_failedTorrents
      = true := by
    intro path
    rw [(removeWatchedFolder_members self path).2.2.2]
    rw [ledgerBounded_iff] at h ⊢
    intro e he t ht
    exact h e (List.mem_filter.1 he).1 t ht
  cases op with
  | inl op =>
    cases op with
    | setWatchedFolder path options =>
      simp only [Worker.step, Worker.apply, Option.some.injEq] at hstep
      rw [← hstep, (setWatchedFolder_frame env self path options).2.2]
      exact h
    | removeWatchedFolder path =>
      simp only [Worker.step, Worker.apply, Option.some.injEq] at hstep
      rw [← hstep]
      exact hremove path
    | processWatchedFolder fuel path =>
      simp only [Worker.step, Worker.apply] at hstep
      obtain ⟨s, hs, _, _, h3⟩ := processWatchedFolder_inv env fuel self self' path hstep
      rw [h3]
      exact processFolder_invariant env path
        (QHash.value self.m_watchedFolders path (WatchedFolderOptions.default env))
        (fun w => ledgerBounded w.m_failedTorrents = true)
        (fun D w q _ hw => processFile_bounded env D path _ w q hw) fuel path self s hs h
    | processFailedTorrents =>
      simp only [Worker.step, Worker.apply, Option.some.injEq] at hstep
      rw [← hstep, (processFailedTorrents_fields env self).2.2]
      exact retryFolders_bounded env self.m_failedTorrents self h
  | inr op =>
    simp only [Worker.step, Option.some.injEq] at hstep
    rw [← hstep]
    cases op with
    | addWatchedFolder path options =>
      simp only [Worker.applyFolderOp, (addWatchedFolder_retry env self path options).1]
      exact h
    | updateWatchedFolder path options =>
      simp only [Worker.applyFolderOp, (updateWatchedFolder_retry env self path options).1]
      exact h
    | removeWatchedFolder path => exact hremove path

theorem steps_bounded (env : Env) (ops : List (WorkerOp ⊕ FolderOp)) :
    ∀ (self self' : Worker), ledgerBounded self.m_failedTorrents = true →
      Worker.steps env ops self = some self' → ledgerBounded self'.m_failedTorrents = true := by
  induction ops with
  | nil =>
    intro self self' h hrun
    simp only [Worker.steps, List.foldlM_nil, pure, Option.some.injEq] at hrun
    rw [← hrun]
    exact h
  | cons op rest ih =>
    intro self self' h hrun
    simp only [Worker.steps, List.foldlM_cons] at hrun
    obtain ⟨s1, h1, h2⟩ := Option.bind_eq_some.1 hrun
    exact ih s1 self' (step_bounded env op self s1 h h1) h2

end Worker

namespace Worker

/-- The counter of a file after a file of a listing is processed: as before, or 0 when the file
had none. -/
theorem processFile_counterOf (env : Env) (path root : String) (options : WatchedFolderOptions)
    (self : Worker) (q key p : String) :
    counterOf (processFile env path root options self q) key p = counterOf self key p ∨
    (counterOf self key p = none ∧
      counterOf (processFile env path root options self q) key p = some 0) := by
  by_cases hk : key = path ∧ p = q
  · obtain ⟨rfl, rfl⟩ := hk
    cases hm : endsWithCI p ".magnet"
    · cases hload : loadFromFile env self.fs p with
      | none =>
        have h := processFile_failed_ledger env key root options self p hm hload
        cases hc : counterOf self key p with
        | none =>
          rw [hc] at h
          exact Or.inr ⟨rfl, h⟩
        | some c =>
          rw [hc] at h
          exact Or.inl h
      | some info =>
        rw [processFile_torrent env key root options self p info hm hload]
        exact Or.inl rfl
    · cases hopen : self.fs.openRead p with
      | none =>
        rw [processFile_magnet_closed env key root options self p hm hopen]
        exact Or.inl rfl
      | some text =>
        rw [processFile_magnet env key root options self p text hm hopen]
        exact Or.inl rfl
  · refine Or.inl (processFile_counterOf_other env path root options self q key p ?_)
    by_cases h1 : key = path
    · exact Or.inr (fun h2 => hk ⟨h1, h2⟩)
    · exact Or.inl h1

end Worker

/-- Claim C27: in every state the worker reaches from its construction, every counter of the
ledger is in the range 0..5. A counter starts at 0: the processing of a file in a scan leaves a
counter as it is, or gives the counter 0 to a file that had none. A sweep keeps an entry only
when its counter is below 5, and then with the counter one higher; an entry whose counter is 5
or more is not kept. -/
theorem C27_retry_counter_bound (env : Env) (fs : FileSystem) (ops : List (WorkerOp ⊕ FolderOp))
    (self : Worker) (hrun : Worker.steps env ops (Worker.init fs) = some self) :
    (∀ e ∈ self.m_failedTorrents, ∀ t ∈ e.2, 0 ≤ t.2 ∧ t.2 ≤ 5) ∧
    MAX_FAILED_RETRIES = 5 ∧
    (∀ (path root : String) (options : WatchedFolderOptions) (w : Worker) (q key p : String),
      Worker.counterOf (Worker.processFile env path root options w q) key p
        = Worker.counterOf w key p ∨
      (Worker.counterOf w key p = none ∧
        Worker.counterOf (Worker.processFile env path root options w q) key p = some 0)) ∧
    (∀ (dirPath d : String) (options : WatchedFolderOptions) (q : String) (v : Int) (w : Worker),
      (Worker.retryTorrent env dirPath d options q v w).1.1 = false →
      v < 5 ∧ (Worker.retryTorrent env dirPath d options q v w).1.2 = v + 1) ∧
    (∀ (dirPath d : String) (options : WatchedFolderOptions) (q : String) (v : Int) (w : Worker),
      5 ≤ v → (Worker.retryTorrent env dirPath d options q v w).1.1 = true) := by
  have hb := Worker.steps_bounded env ops (Worker.init fs) self rfl hrun
  rw [ledgerBounded_iff] at hb
  refine ⟨hb, rfl, fun path root options w q key p =>
    Worker.processFile_counterOf env path root options w q key p,
    fun dirPath d options q v w h => Worker.retryTorrent_kept_inv env dirPath d options q v w h, ?_⟩
  intro dirPath d options q v w hv
  cases hk : (Worker.retryTorrent env dirPath d options q v w).1.1
  · have := (Worker.retryTorrent_kept_inv env dirPath d options q v w hk).1
    simp only [MAX_FAILED_RETRIES] at this
    omega
  · rfl

/-- Witness for C27: after `/watch` is set and scanned and five sweeps have run, the counter of
the file that does not load is 5; the sixth sweep drops the entry. -/
theorem C27_retry_counter_bound_witness :
    ((∀ e ∈ fiveSweepsWorker.m_failedTorrents, ∀ t ∈ e.2, 0 ≤ t.2 ∧ t.2 ≤ 5) ∧
      MAX_FAILED_RETRIES = 5 ∧
      (∀ (path root : String) (options : WatchedFolderOptions) (w : Worker) (q key p : String),
        Worker.counterOf (Worker.processFile unixEnv path root options w q) key p
          = Worker.counterOf w key p ∨
        (Worker.counterOf w key p = none ∧
          Worker.counterOf (Worker.processFile unixEnv path root options w q) key p = some 0)) ∧
      (∀ (dirPath d : String) (options : WatchedFolderOptions) (q : String) (v : Int)
        (w : Worker), (Worker.retryTorrent unixEnv dirPath d options q v w).1.1 = false →
        v < 5 ∧ (Worker.retryTorrent unixEnv dirPath d options q v w).1.2 = v + 1) ∧
      (∀ (dirPath d : String) (options : WatchedFolderOptions) (q : String) (v : Int)
        (w : Worker), 5 ≤ v → (Worker.retryTorrent unixEnv dirPath d options q v w).1.1 = true)) ∧
    Worker.counterOf fiveSweepsWorker "/watch" "/watch/bad.torrent" = some 5 ∧
    (Worker.processFailedTorrents unixEnv fiveSweepsWorker).m_failedTorrents = [] :=
  ⟨C27_retry_counter_bound unixEnv badFs (rejectOpsSteps.take 7) fiveSweepsWorker (by decide),
    by decide, by decide⟩

/-! ## A scan of a path that is not registered -/

/-- Claim C28 as stated fails: `/watch` is set and removed again, and the scan scheduled when it
was set then runs. The path is not registered, yet the scan emits `torrentFound` for
`/watch/a.torrent`, with the default-constructed parameters, and deletes the file; on the file
system with the file that does not load, it enters the file in the ledger and starts the retry
timer. -/
theorem C28_unregistered_scan_emits_and_deletes :
    (Worker.run unixEnv
        [WorkerOp.setWatchedFolder "/watch" exampleOptions, WorkerOp.removeWatchedFolder "/watch"]
        (Worker.init descriptorFs)).map
      (fun s => (QHash.keys s.m_watchedFolders, s.singleShots, s.emitted))
      = some ([], ["/watch"], []) ∧
    (Worker.run unixEnv
        [WorkerOp.setWatchedFolder "/watch" exampleOptions, WorkerOp.removeWatchedFolder "/watch",
          WorkerOp.processWatchedFolder 1 "/watch"]
        (Worker.init descriptorFs)).map (fun s => (s.emitted, s.fs.files))
      = some ([Signal.torrentFound "/watch" "/watch/a.torrent" ⟨"d4:infoe"⟩
          (AddTorrentParams.default unixEnv)], []) ∧
    (Worker.run unixEnv
        [WorkerOp.setWatchedFolder "/watch" exampleOptions, WorkerOp.removeWatchedFolder "/watch",
          WorkerOp.processWatchedFolder 1 "/watch"]
        (Worker.init badFs)).map (fun s => (s.m_failedTorrents, s.m_retryTorrentTimer))
      = some ([("/watch", [("/watch/bad.torrent", 0)])], true) := by
  decide

/-- C28, amended: `processWatchedFolder(path)` for a path that is not registered returns, and
processes the files directly in `path` as a scan of a folder that is not recursive with the
default-constructed options does: the files, the signals and the ledger afterwards are those of
the first loop of `processFolder` on `path`; every signal it emits is for a file of the listing
of `path`, which leaves out hidden files, and carries the default-constructed parameters; a
descriptor of `path` that is not hidden and loads is emitted so and deleted; one that is not
hidden and does not load is kept, and is in the ledger of `path` afterwards. -/
theorem C28_scan_of_unregistered_folder (env : Env) (fuel : Nat) (self : Worker) (path : String)
    (hun : QHash.contains self.m_watchedFolders path = false) :
    ∃ self', Worker.processWatchedFolder env (fuel + 1) self path = some self' ∧
      self'.fs = (Worker.scanDirs env path (WatchedFolderOptions.default env) [path] self).fs ∧
      self'.emitted
        = (Worker.scanDirs env path (WatchedFolderOptions.default env) [path] self).emitted ∧
      self'.m_failedTorrents
        = (Worker.scanDirs env path (WatchedFolderOptions.default env) [path] self).m_failedTorrents ∧
      (∃ evs, self'.emitted = self.emitted ++ evs ∧ ∀ e ∈ evs,
        e.filePath ∈ self.fs.torrentFiles path ∧ e.folder = path ∧
        e.addTorrentParams = AddTorrentParams.default env) ∧
      (∀ (f : File) (info : TorrentInfo), f ∈ self.fs.files → f.dir = FileSystem.dirName path →
        f.isDescriptor = true → f.isHidden = false →
        loadFromFile env self.fs f.path = some info →
        self'.signalsFor f.path = self.signalsFor f.path ++
          [Signal.torrentFound path f.path info (AddTorrentParams.default env)] ∧
        self'.fs.fileExists f.path = false) ∧
      (∀ f : File, f ∈ self.fs.files → f.dir = FileSystem.dirName path →
        f.isDescriptor = true → f.isHidden = false →
        loadFromFile env self.fs f.path = none →
        self'.signalsFor f.path = self.signalsFor f.path ∧
        self'.fs.filesAt f.path = self.fs.filesAt f.path ∧
        Worker.counterOf self' path f.path
          = some ((Worker.counterOf self path f.path).getD 0)) := by
  have hopt : QHash.value self.m_watchedFolders path (WatchedFolderOptions.default env)
      = WatchedFolderOptions.default env := by
    simp [QHash.value, QHash.get?_eq_none_of_not_contains _ _ hun]
  have hflat : (WatchedFolderOptions.default env).recursive = false := rfl
  have hpf := Worker.processFolder_flat env fuel path path (WatchedFolderOptions.default env) self
    hflat
  have hpf' : Worker.processFolder env (fuel + 1) path path
      (QHash.value self.m_watchedFolders path (WatchedFolderOptions.default env)) self
      = some ((self.fs.torrentFiles path).foldl
          (Worker.processFile env path path (WatchedFolderOptions.default env)) self) := by
    rw [hopt]
    exact hpf
  obtain ⟨self', h1, h2, h3, h4, _⟩ :=
    Worker.processWatchedFolder_of_processFolder env (fuel + 1) self _ path hpf'
  have hparams : Worker.folderParams env path path (WatchedFolderOptions.default env)
      = AddTorrentParams.default env := Worker.folderParams_root env path _
  refine ⟨self', h1, h3, h2, h4, ?_, ?_, ?_⟩
  · obtain ⟨⟨evs, hev, hall⟩, _, _⟩ := Worker.scanFiles_spec env path path
      (WatchedFolderOptions.default env) (self.fs.torrentFiles path) self
    refine ⟨evs, by rw [h2, hev], fun e he => ?_⟩
    obtain ⟨e1, e2, e3⟩ := hall e he
    exact ⟨e1, e2, e3.trans hparams⟩
  · intro f info hf hdir hdesc hvisible hload
    have hmem : f.path ∈ self.fs.torrentFiles path :=
      Worker.mem_torrentFiles self.fs path f hf hdir (f.isDescriptor_matches hdesc) hvisible
    have hstep : ∀ s : Worker, s.fs.filesAt f.path = self.fs.filesAt f.path →
        (Worker.processFile env path path (WatchedFolderOptions.default env) s f.path).fs.filesAt
          f.path = [] ∧
        Worker.signalsFor (Worker.processFile env path path (WatchedFolderOptions.default env) s
          f.path) f.path
          = Worker.signalsFor s f.path ++
            [Signal.torrentFound path f.path info (AddTorrentParams.default env)] := by
      intro s hs
      have hl : loadFromFile env s.fs f.path = some info := by
        rw [loadFromFile_congr env s.fs self.fs f.path hs]
        exact hload
      rw [Worker.processFile_torrent env path path _ s f.path info (f.isDescriptor_path hdesc) hl,
        hparams]
      constructor
      · exact FileSystem.filesAt_forceRemove_self _ _
      · simp [Worker.signalsFor, Signal.filePath]
    obtain ⟨g1, g2⟩ := Worker.scanFiles_first env path path (WatchedFolderOptions.default env)
      (self.fs.torrentFiles path) self f.path _ hmem hstep
    constructor
    · rw [Worker.signalsFor_congr self' _ f.path h2]
      exact g2
    · rw [h3]
      exact (FileSystem.fileExists_eq_false_iff _ f.path).2 g1
  · intro f hf hdir hdesc hvisible hload
    have hmem : f.path ∈ self.fs.torrentFiles path :=
      Worker.mem_torrentFiles self.fs path f hf hdir (f.isDescriptor_matches hdesc) hvisible
    obtain ⟨g1, g2, _, g4⟩ := Worker.scanFiles_failing env path path
      (WatchedFolderOptions.default env) (self.fs.torrentFiles path) f.path
      (f.isDescriptor_path hdesc) self hload
    rw [if_pos hmem] at g4
    refine ⟨?_, ?_, ?_⟩
    · rw [Worker.signalsFor_congr self' _ f.path h2]
      exact g2
    · rw [h3]
      exact g1
    · simp only [Worker.counterOf, h4]
      exact g4

/-- Witness for C28, amended: the scan of `/watch` after the folder is set and removed again. -/
theorem C28_scan_of_unregistered_folder_witness :
    QHash.contains removedWorker.m_watchedFolders "/watch" = false ∧
    (∃ self', Worker.processWatchedFolder unixEnv (0 + 1) removedWorker "/watch" = some self' ∧
      self'.fs = (Worker.scanDirs unixEnv "/watch" (WatchedFolderOptions.default unixEnv)
        ["/watch"] removedWorker).fs ∧
      self'.emitted = (Worker.scanDirs unixEnv "/watch" (WatchedFolderOptions.default unixEnv)
        ["/watch"] removedWorker).emitted ∧
      self'.m_failedTorrents = (Worker.scanDirs unixEnv "/watch"
        (WatchedFolderOptions.default unixEnv) ["/watch"] removedWorker).m_failedTorrents ∧
      (∃ evs, self'.emitted = removedWorker.emitted ++ evs ∧ ∀ e ∈ evs,
        e.filePath ∈ removedWorker.fs.torrentFiles "/watch" ∧ e.folder = "/watch" ∧
        e.addTorrentParams = AddTorrentParams.default unixEnv) ∧
      (∀ (f : File) (info : TorrentInfo), f ∈ removedWorker.fs.files →
        f.dir = FileSystem.dirName "/watch" → f.isDescriptor = true → f.isHidden = false →
        loadFromFile unixEnv removedWorker.fs f.path = some info →
        self'.signalsFor f.path = removedWorker.signalsFor f.path ++
          [Signal.torrentFound "/watch" f.path info (AddTorrentParams.default unixEnv)] ∧
        self'.fs.fileExists f.path = false) ∧
      (∀ f : File, f ∈ removedWorker.fs.files → f.dir = FileSystem.dirName "/watch" →
        f.isDescriptor = true → f.isHidden = false →
        loadFromFile unixEnv removedWorker.fs f.path = none →
        self'.signalsFor f.path = removedWorker.signalsFor f.path ∧
        self'.fs.filesAt f.path = removedWorker.fs.filesAt f.path ∧
        Worker.counterOf self' "/watch" f.path
          = some ((Worker.counterOf removedWorker "/watch" f.path).getD 0))) ∧
    Worker.run unixEnv
      [WorkerOp.setWatchedFolder "/watch" exampleOptions, WorkerOp.removeWatchedFolder "/watch"]
      (Worker.init descriptorFs) = some removedWorker ∧
    (Worker.processWatchedFolder unixEnv 1 removedWorker "/watch").map
      (fun s => (s.emitted, s.fs.files))
      = some ([Signal.torrentFound "/watch" "/watch/a.torrent" ⟨"d4:infoe"⟩
          (AddTorrentParams.default unixEnv)], []) :=
  ⟨by decide, C28_scan_of_unregistered_folder unixEnv 0 removedWorker "/watch" (by decide),
    by decide, by decide⟩

/-! ## One signal for a descriptor at most -/

namespace Worker

theorem EmittedOnce.of_frame {s s' : Worker} {p : String} (h : EmittedOnce s p)
    (hsig : signalsFor s' p = signalsFor s p)
    (hfs : s'.fs.fileExists p = true → s.fs.fileExists p = true) : EmittedOnce s' p := by
  unfold EmittedOnce at h ⊢
  rw [hsig]
  exact ⟨h.1, fun hex => h.2 (hfs hex)⟩

theorem EmittedOnce.of_emit {s s' : Worker} {p : String} (e : Signal) (h : EmittedOnce s p)
    (hex : s.fs.fileExists p = true) (hsig : signalsFor s' p = signalsFor s p ++ [e])
    (hgone : s'.fs.fileExists p = false) : EmittedOnce s' p := by
  unfold EmittedOnce at h ⊢
  rw [hsig, h.2 hex, hgone]
  simp

theorem fileExists_of_loadFromFile (env : Env) (fs : FileSystem) (p : String) (info : TorrentInfo)
    (h : loadFromFile env fs p = some info) : fs.fileExists p = true := by
  cases hex : fs.fileExists p
  · rw [loadFromFile_eq_none_of_filesAt env fs p ((FileSystem.fileExists_eq_false_iff fs p).1 hex)]
      at h
    simp at h
  · rfl

theorem fileExists_forceRemove_self (fs : FileSystem) (p : String) :
    (fs.forceRemove p).fileExists p = false :=
  (FileSystem.fileExists_eq_false_iff _ p).2 (FileSystem.filesAt_forceRemove_self fs p)

/-- The processing of a file of a listing keeps the invariant of a descriptor. -/
theorem EmittedOnce.once_processFile {env : Env} {s : Worker} {p : String}
    (hp : endsWithCI p ".torrent" = true) (h : EmittedOnce s p) (path root : String)
    (options : WatchedFolderOptions) (q : String) :
    EmittedOnce (Worker.processFile env path root options s q) p := by
  by_cases hq : p = q
  · subst hq
    have hm := endsWithCI_torrent_not_magnet p hp
    cases hload : loadFromFile env s.fs p with
    | none =>
      obtain ⟨h1, h2⟩ := processFile_torrent_failed env path root options s p hm hload
      exact h.of_frame (signalsFor_congr _ _ p h1) (fun hex => by rw [h2] at hex; exact hex)
    | some info =>
      rw [processFile_torrent env path root options s p info hm hload]
      refine h.of_emit (Signal.torrentFound path p info (folderParams env path root options))
        (fileExists_of_loadFromFile env s.fs p info hload) ?_ (fileExists_forceRemove_self _ p)
      simp [signalsFor, Signal.filePath]
  · refine h.of_frame (processFile_signalsFor_ne env path root options s p q hq) (fun hex => ?_)
    rw [FileSystem.fileExists_congr _ _ p (processFile_filesAt_ne env path root options s p q hq)]
      at hex
    exact hex

/-- The retry of an entry keeps the invariant of a descriptor. -/
theorem EmittedOnce.retryTorrent {env : Env} {s : Worker} {p : String}
    (hp : endsWithCI p ".torrent" = true) (h : EmittedOnce s p) (dirPath d : String)
    (options : WatchedFolderOptions) (q : String) (v : Int) :
    EmittedOnce (Worker.retryTorrent env dirPath d options q v s).2 p := by
  by_cases hq : p = q
  · subst hq
    cases hex : s.fs.fileExists p
    · rw [retryTorrent_missing env dirPath d options p v s hex]
      exact h
    · cases hload : loadFromFile env s.fs p with
      | some info =>
        obtain ⟨params, hr⟩ := retryTorrent_loaded env dirPath d options p v s info hex hload
        rw [hr]
        refine h.of_emit (Signal.torrentFound d p info params) hex ?_
          (fileExists_forceRemove_self _ p)
        simp [signalsFor, Signal.filePath]
      | none =>
        by_cases hv : v ≥ MAX_FAILED_RETRIES
        · rw [retryTorrent_rejected env dirPath d options p v s hex hload hv]
          exact h.of_frame rfl (fun _ => hex)
        · rw [retryTorrent_kept env dirPath d options p v s hex hload (not_le.1 hv)]
          exact h
  · obtain ⟨h1, h2⟩ := retryTorrent_other env dirPath d options q v s p hq hp
    refine h.of_frame h2 (fun hex => ?_)
    rw [FileSystem.fileExists_congr _ _ p h1] at hex
    exact hex

/-- What the retry of every entry keeps, the retries of a folder keep. -/
theorem retryTorrents_invariant (env : Env) (dirPath d : String) (options : WatchedFolderOptions)
    (P : Worker → Prop)
    (hP : ∀ (q : String) (v : Int) (s : Worker), P s →
      P (retryTorrent env dirPath d options q v s).2)
    (l : QHash Int) : ∀ s : Worker, P s →
      P (Algorithm.removeIf (retryTorrent env dirPath d options) l s).2 := by
  induction l with
  | nil => exact fun s h => h
  | cons e rest ih =>
    obtain ⟨q, v⟩ := e
    intro s h
    rw [Algorithm.removeIf_cons]
    exact ih _ (hP q v s h)

/-- What the retry of every entry keeps, the retries of a ledger keep. -/
theorem retryFolders_invariant (env : Env) (P : Worker → Prop)
    (hP : ∀ (dirPath d : String) (options : WatchedFolderOptions) (q : String) (v : Int)
      (s : Worker), P s → P (retryTorrent env dirPath d options q v s).2)
    (ledger : QHash (QHash Int)) : ∀ s : Worker, P s →
      P (Algorithm.removeIf (retryFolder env) ledger s).2 := by
  induction ledger with
  | nil => exact fun s h => h
  | cons e rest ih =>
    obtain ⟨d, l⟩ := e
    intro s h
    rw [removeIf_retryFolder_cons]
    exact ih _ (retryTorrents_invariant env (env.dirPath d) d _ P
      (fun q v s hs => hP (env.dirPath d) d _ q v s hs) l s h)

theorem EmittedOnce.once_apply {env : Env} {s s' : Worker} {p : String}
    (hp : endsWithCI p ".torrent" = true) (h : EmittedOnce s p) (op : WorkerOp)
    (hstep : Worker.apply env s op = some s') : EmittedOnce s' p := by
  cases op with
  | setWatchedFolder path options =>
    simp only [Worker.apply, Option.some.injEq] at hstep
    rw [← hstep]
    obtain ⟨h1, h2, _⟩ := setWatchedFolder_frame env s path options
    exact h.of_frame (signalsFor_congr _ _ p h2) (fun hex => by rw [h1] at hex; exact hex)
  | removeWatchedFolder path =>
    simp only [Worker.apply, Option.some.injEq] at hstep
    rw [← hstep]
    obtain ⟨h1, h2⟩ := removeWatchedFolder_frame s path
    exact h.of_frame (signalsFor_congr _ _ p h2) (fun hex => by rw [h1] at hex; exact hex)
  | processWatchedFolder fuel path =>
    simp only [Worker.apply] at hstep
    obtain ⟨w, hw, h1, h2, _⟩ := processWatchedFolder_inv env fuel s s' path hstep
    have := processFolder_invariant env path
      (QHash.value s.m_watchedFolders path (WatchedFolderOptions.default env))
      (fun w => EmittedOnce w p)
      (fun D w q _ hw => hw.once_processFile hp D path _ q) fuel path s w hw h
    exact this.of_frame (signalsFor_congr _ _ p h1) (fun hex => by rw [h2] at hex; exact hex)
  | processFailedTorrents =>
    simp only [Worker.apply, Option.some.injEq] at hstep
    rw [← hstep]
    obtain ⟨h1, h2, _⟩ := processFailedTorrents_fields env s
    have := retryFolders_invariant env (fun w => EmittedOnce w p)
      (fun dirPath d options q v w hw => hw.retryTorrent hp dirPath d options q v)
      s.m_failedTorrents s h
    exact this.of_frame (signalsFor_congr _ _ p h2) (fun hex => by rw [h1] at hex; exact hex)

theorem EmittedOnce.once_run {env : Env} {p : String} (hp : endsWithCI p ".torrent" = true)
    (ops : List WorkerOp) : ∀ {s s' : Worker}, EmittedOnce s p → Worker.run env ops s = some s' →
      EmittedOnce s' p := by
  induction ops with
  | nil =>
    intro s s' h hrun
    simp only [Worker.run, List.foldlM_nil, pure, Option.some.injEq] at hrun
    rw [← hrun]
    exact h
  | cons op rest ih =>
    intro s s' h hrun
    simp only [Worker.run, List.foldlM_cons] at hrun
    obtain ⟨s1, h1, h2⟩ := Option.bind_eq_some.1 hrun
    exact ih (h.once_apply hp op h1) h2

end Worker

/-- Claim C29: over any sequence of scans, sweeps and slot calls, from a state in which no signal
has been emitted for the descriptor path `p`, at most one signal is emitted for `p`, and none
while a file of the path still exists; this holds whatever the ledger tracks at the start, so
also for a tracked file that a scan loads before the next sweep. -/
theorem C29_descriptor_emitted_at_most_once (env : Env) (ops : List WorkerOp) (s0 s : Worker)
    (p : String) (hp : endsWithCI p ".torrent" = true) (h0 : Worker.signalsFor s0 p = [])
    (hrun : Worker.run env ops s0 = some s) :
    (Worker.signalsFor s p).length ≤ 1 ∧
    (s.fs.fileExists p = true → Worker.signalsFor s p = []) :=
  Worker.EmittedOnce.once_run hp ops (by simp [Worker.EmittedOnce, h0]) hrun

/-- Witness for C29: `/watch/a.torrent` is in the ledger and loads; a scan emits and deletes it,
the sweep that follows drops the entry without a signal, and a second scan finds nothing. -/
theorem C29_descriptor_emitted_at_most_once_witness :
    ((Worker.signalsFor emittedWorker "/watch/a.torrent").length ≤ 1 ∧
      (emittedWorker.fs.fileExists "/watch/a.torrent" = true →
        Worker.signalsFor emittedWorker "/watch/a.torrent" = [])) ∧
    retryWorker.trackings "/watch/a.torrent" = [("/watch", 3)] ∧
    Worker.run unixEnv [WorkerOp.processWatchedFolder 1 "/watch"] retryWorker
      = some { emittedWorker with
          m_retryTorrentTimer := true
          m_failedTorrents := [("/watch", [("/watch/a.torrent", 3)])] } ∧
    (Worker.signalsFor emittedWorker "/watch/a.torrent").length = 1 :=
  ⟨C29_descriptor_emitted_at_most_once unixEnv
    [WorkerOp.processWatchedFolder 1 "/watch", WorkerOp.processFailedTorrents,
      WorkerOp.processWatchedFolder 1 "/watch"]
    retryWorker emittedWorker "/watch/a.torrent" (by decide) (by decide) (by decide),
    by decide, by decide, by decide⟩

/-! ## A second scan -/

namespace QHash

variable {α : Type}

theorem contains_insert_self (h : QHash α) (key : String) (v : α) :
    contains (insert h key v) key = true := by
  simp [contains, get?_insert_self]

theorem contains_insert_of_contains (h : QHash α) (key key2 : String) (v : α)
    (hc : contains h key2 = true) : contains (insert h key v) key2 = true := by
  by_cases hk : key2 = key
  · rw [hk]
    exact contains_insert_self h key v
  · simpa [contains, get?_insert_ne _ _ _ _ hk] using hc

end QHash

namespace Worker

/-- The processing of a settled file changes nothing. -/
theorem processFile_of_settled (env : Env) (path root : String) (options : WatchedFolderOptions)
    (self : Worker) (q : String) (h : Settled env self path q) :
    processFile env path root options self q = self := by
  unfold Settled at h
  cases hm : endsWithCI q ".magnet"
  · simp only [hm, Bool.false_eq_true, ↓reduceIte] at h
    simp [processFile, hm, h.1, h.2]
  · simp only [hm, ↓reduceIte] at h
    exact processFile_magnet_closed env path root options self q hm h

/-- A file in the ledger of a directory stays there when a file of a listing is processed. -/
theorem processFile_contains (env : Env) (path root : String) (options : WatchedFolderOptions)
    (self : Worker) (q D p : String)
    (h : QHash.contains (QHash.value self.m_failedTorrents D []) p = true) :
    QHash.contains (QHash.value (processFile env path root options self q).m_failedTorrents D [])
      p = true := by
  rcases processFile_ledger env path root options self q with hl | ⟨_, hl⟩
  · rw [hl]
    exact h
  · rw [hl]
    by_cases hD : D = path
    · subst hD
      rw [QHash.value_insert_self]
      exact QHash.contains_insert_of_contains _ _ _ _ h
    · rw [QHash.value_insert_ne _ _ _ _ _ hD]
      exact h

/-- The files of a settled path stay when a file of a listing is processed. -/
theorem processFile_settled_filesAt (env : Env) (path root : String)
    (options : WatchedFolderOptions) (self : Worker) (q D p : String) (h : Settled env self D p) :
    (processFile env path root options self q).fs.filesAt p = self.fs.filesAt p := by
  by_cases hq : p = q
  · subst hq
    unfold Settled at h
    cases hm : endsWithCI p ".magnet"
    · simp only [hm, Bool.false_eq_true, ↓reduceIte] at h
      rw [(processFile_torrent_failed env path root options self p hm h.1).2]
    · simp only [hm, ↓reduceIte] at h
      rw [processFile_magnet_closed env path root options self p hm h]
  · exact processFile_filesAt_ne env path root options self p q hq

theorem Settled.kept_by_processFile {env : Env} {self : Worker} {D p : String} (h : Settled env self D p)
    (path root : String) (options : WatchedFolderOptions) (q : String) :
    Settled env (Worker.processFile env path root options self q) D p := by
  have hf := processFile_settled_filesAt env path root options self q D p h
  unfold Settled at h ⊢
  cases hm : endsWithCI p ".magnet"
  · simp only [hm, Bool.false_eq_true, ↓reduceIte] at h ⊢
    refine ⟨?_, processFile_contains env path root options self q D p h.2⟩
    rw [loadFromFile_congr env _ self.fs p hf]
    exact h.1
  · simp only [hm, ↓reduceIte] at h ⊢
    rw [FileSystem.openRead_congr _ self.fs p hf]
    exact h

theorem processFile_filesAt_nil (env : Env) (path root : String) (options : WatchedFolderOptions)
    (self : Worker) (q p : String) (h : self.fs.filesAt p = []) :
    (Worker.processFile env path root options self q).fs.filesAt p = [] := by
  by_cases hq : p = q
  · subst hq
    rw [(processFile_gone env path root options self p h).2]
    exact h
  · rw [processFile_filesAt_ne env path root options self p q hq]
    exact h

theorem Done.kept_by_file {env : Env} {self : Worker} {D p : String} (h : Done env self D p)
    (path root : String) (options : WatchedFolderOptions) (q : String) :
    Done env (Worker.processFile env path root options self q) D p := by
  rcases h with h | h
  · exact Or.inl (processFile_filesAt_nil env path root options self q p h)
  · exact Or.inr (h.kept_by_processFile path root options q)

/-- The processing of a file of a directory is done with the file afterwards. -/
theorem done_processFile (env : Env) (path root : String) (options : WatchedFolderOptions)
    (self : Worker) (q : String) :
    Done env (Worker.processFile env path root options self q) path q := by
  cases hm : endsWithCI q ".magnet"
  · cases hload : loadFromFile env self.fs q with
    | none =>
      right
      unfold Settled
      simp only [hm, Bool.false_eq_true, ↓reduceIte]
      constructor
      · rw [(processFile_torrent_failed env path root options self q hm hload).2]
        exact hload
      · have := processFile_failed_ledger env path root options self q hm hload
        simp only [counterOf] at this
        simp [QHash.contains, this]
    | some info =>
      left
      rw [processFile_torrent env path root options self q info hm hload]
      exact FileSystem.filesAt_forceRemove_self _ _
  · cases hopen : self.fs.openRead q with
    | none =>
      right
      rw [processFile_magnet_closed env path root options self q hm hopen]
      unfold Settled
      simp only [hm, ↓reduceIte]
      exact hopen
    | some text =>
      left
      rw [processFile_magnet env path root options self q text hm hopen]
      exact FileSystem.filesAt_forceRemove_self _ _

end Worker

namespace Worker

theorem Done.scanFiles {env : Env} {D p : String} (path root : String)
    (options : WatchedFolderOptions) (files : List String) :
    ∀ {self : Worker}, Done env self D p →
      Done env (files.foldl (Worker.processFile env path root options) self) D p := by
  induction files with
  | nil => exact fun h => h
  | cons q rest ih =>
    intro self h
    rw [List.foldl_cons]
    exact ih (h.kept_by_file path root options q)

theorem Done.scanDirs {env : Env} {D p : String} (root : String) (options : WatchedFolderOptions)
    (dirs : List String) :
    ∀ {self : Worker}, Done env self D p →
      Done env (Worker.scanDirs env root options dirs self) D p := by
  induction dirs with
  | nil => exact fun h => h
  | cons D0 rest ih =>
    intro self h
    rw [scanDirs_cons]
    exact ih (h.scanFiles D0 root options _)

/-- The first loop of `processFolder` is done with every file of its listing. -/
theorem done_scanFiles (env : Env) (path root : String) (options : WatchedFolderOptions)
    (q : String) (files : List String) :
    ∀ self : Worker, q ∈ files →
      Done env (files.foldl (Worker.processFile env path root options) self) path q := by
  induction files with
  | nil =>
    intro self hq
    simp at hq
  | cons q0 rest ih =>
    intro self hq
    rw [List.foldl_cons]
    by_cases h0 : q = q0
    · subst h0
      exact (done_processFile env path root options self q).scanFiles path root options rest
    · rcases List.mem_cons.1 hq with h | h
      · exact absurd h h0
      · exact ih _ h

theorem scanDirs_files (env : Env) (root : String) (options : WatchedFolderOptions)
    (dirs : List String) :
    ∀ self : Worker, ∀ g ∈ (Worker.scanDirs env root options dirs self).fs.files,
      g ∈ self.fs.files := by
  induction dirs with
  | nil => exact fun _ g hg => hg
  | cons D0 rest ih =>
    intro self g hg
    rw [scanDirs_cons] at hg
    exact scanFiles_files env D0 root options _ self g (ih _ g hg)

/-- After the files of the directories of a list are processed, every file still listed in one
of these directories is settled. -/
theorem settled_scanDirs (env : Env) (root : String) (options : WatchedFolderOptions)
    (dirs : List String) :
    ∀ (self : Worker) (D q : String), D ∈ dirs →
      q ∈ (Worker.scanDirs env root options dirs self).fs.torrentFiles D →
      Settled env (Worker.scanDirs env root options dirs self) D q := by
  induction dirs with
  | nil =>
    intro self D q hD
    simp at hD
  | cons D0 rest ih =>
    intro self D q hD hq
    by_cases hrest : D ∈ rest
    · rw [scanDirs_cons] at hq ⊢
      exact ih _ D q hrest hq
    · have hD0 : D = D0 := by
        rcases List.mem_cons.1 hD with h | h
        · exact h
        · exact absurd h hrest
      subst hD0
      obtain ⟨g, hg, hdir, hname, hpath⟩ := (mem_torrentFiles_iff _ D q).1 hq
      have hg0 : g ∈ self.fs.files := scanDirs_files env root options (D :: rest) self g hg
      have hq0 : q ∈ self.fs.torrentFiles D :=
        (mem_torrentFiles_iff _ D q).2 ⟨g, hg0, hdir, hname, hpath⟩
      have hdone := (done_scanFiles env D root options q _ self hq0).scanDirs root options rest
      rw [← scanDirs_cons] at hdone
      rcases hdone with hnil | hs
      · have hin : g ∈ (Worker.scanDirs env root options (D :: rest) self).fs.filesAt q := by
          simp [FileSystem.filesAt, hg, hpath]
        rw [hnil] at hin
        exact absurd hin (List.not_mem_nil _)
      · exact hs

theorem scanFiles_fixed (env : Env) (path root : String) (options : WatchedFolderOptions)
    (w : Worker) (files : List String) (h : ∀ q ∈ files, Settled env w path q) :
    files.foldl (Worker.processFile env path root options) w = w := by
  induction files with
  | nil => rfl
  | cons q rest ih =>
    rw [List.foldl_cons, processFile_of_settled env path root options w q (h q (by simp))]
    exact ih (fun q' hq' => h q' (List.mem_cons_of_mem _ hq'))

/-- The processing of directories whose listed files are all settled changes nothing. -/
theorem scanDirs_fixed (env : Env) (root : String) (options : WatchedFolderOptions) (w : Worker)
    (dirs : List String) (h : ∀ D ∈ dirs, ∀ q ∈ w.fs.torrentFiles D, Settled env w D q) :
    Worker.scanDirs env root options dirs w = w := by
  induction dirs with
  | nil => rfl
  | cons D0 rest ih =>
    rw [scanDirs_cons, scanFiles_fixed env D0 root options w _ (h D0 (by simp))]
    exact ih (fun D hD => h D (List.mem_cons_of_mem _ hD))

/-- On a finite directory tree `processFolder` processes the files of the directories of a list
that the sub-directories and the registry determine. -/
theorem processFolder_scanDirs (env : Env) (root : String) (options : WatchedFolderOptions)
    (rank : String → Nat) (fuel : Nat) (R : String) (self : Worker)
    (hrank : ∀ d ∈ self.fs.dirs, rank (FileSystem.dirName d.path) < rank d.dir)
    (hfuel : rank (FileSystem.dirName R) < fuel) :
    ∃ dirs : List String, ∀ w : Worker, w.fs.dirs = self.fs.dirs →
      w.m_watchedFolders = self.m_watchedFolders →
      processFolder env fuel R root options w
        = some (Worker.scanDirs env root options dirs w) := by
  cases hr : options.recursive
  · refine ⟨[R], fun w _ _ => ?_⟩
    cases fuel with
    | zero => exact absurd hfuel (Nat.not_lt_zero _)
    | succ fuel => exact processFolder_flat_walk env fuel R root options w hr
  · refine ⟨self.fs.walk self.m_watchedFolders fuel R, fun w hd hw => ?_⟩
    rw [processFolder_walk env root options rank hr fuel R w (by rw [hd]; exact hrank) hfuel,
      hw, FileSystem.walk_congr self.fs w.fs _ hd]

theorem processWatchedFolder_eq (env : Env) (fuel : Nat) (self s : Worker) (path : String)
    (h : processFolder env fuel path path
      (QHash.value self.m_watchedFolders path (WatchedFolderOptions.default env)) self = some s) :
    processWatchedFolder env fuel self path
      = some (if (!s.m_failedTorrents.isEmpty && !s.m_retryTorrentTimer) = true then
          { s with m_retryTorrentTimer := true } else s) := by
  simp only [processWatchedFolder, h]
  split <;> rfl

theorem Settled.congr {env : Env} {s w : Worker} {D q : String} (h : Settled env s D q)
    (hfs : w.fs = s.fs) (hl : w.m_failedTorrents = s.m_failedTorrents) : Settled env w D q := by
  unfold Settled at h ⊢
  rw [hfs, hl]
  exact h

end Worker

/-- Claim C21: on a finite directory tree, `processWatchedFolder(P)` returns, and run again in
the state it leaves, with the file system it leaves, it returns that same state: the ledger with
its counters, the file system and the timers are the same, and the signals emitted so far are
the same, so the second run emits none. -/
theorem C21_second_scan_changes_nothing (env : Env) (fuel : Nat) (self : Worker) (P : String)
    (rank : String → Nat)
    (hrank : ∀ d ∈ self.fs.dirs, rank (FileSystem.dirName d.path) < rank d.dir)
    (hfuel : rank (FileSystem.dirName P) < fuel) :
    ∃ s1, Worker.processWatchedFolder env fuel self P = some s1 ∧
      Worker.processWatchedFolder env fuel s1 P = some s1 := by
  obtain ⟨dirs, hdirs⟩ := Worker.processFolder_scanDirs env P
    (QHash.value self.m_watchedFolders P (WatchedFolderOptions.default env)) rank fuel P self
    hrank hfuel
  have hpf := hdirs self rfl rfl
  obtain ⟨hfd, hfw⟩ := Worker.scanDirs_frame env P
    (QHash.value self.m_watchedFolders P (WatchedFolderOptions.default env)) dirs self
  have hsettled := Worker.settled_scanDirs env P
    (QHash.value self.m_watchedFolders P (WatchedFolderOptions.default env)) dirs self
  have hsecond : ∀ w : Worker, w.fs = (Worker.scanDirs env P
        (QHash.value self.m_watchedFolders P (WatchedFolderOptions.default env)) dirs self).fs →
      w.m_failedTorrents = (Worker.scanDirs env P
        (QHash.value self.m_watchedFolders P (WatchedFolderOptions.default env)) dirs
        self).m_failedTorrents →
      w.m_watchedFolders = self.m_watchedFolders →
      Worker.processFolder env fuel P P
        (QHash.value w.m_watchedFolders P (WatchedFolderOptions.default env)) w = some w := by
    intro w h1 h2 h3
    rw [h3, hdirs w (by rw [h1, hfd]) h3]
    rw [Worker.scanDirs_fixed env P _ w dirs (fun D hD q hq =>
      (hsettled D q hD (by rw [← h1]; exact hq)).congr h1 h2)]
  rw [Worker.processWatchedFolder_eq env fuel self _ P hpf]
  generalize Worker.scanDirs env P
    (QHash.value self.m_watchedFolders P (WatchedFolderOptions.default env)) dirs self = s1p
    at hfw hsecond
  by_cases hc : (!s1p.m_failedTorrents.isEmpty && !s1p.m_retryTorrentTimer) = true
  · rw [if_pos hc]
    refine ⟨{ s1p with m_retryTorrentTimer := true }, rfl, ?_⟩
    have h2 := hsecond { s1p with m_retryTorrentTimer := true } rfl rfl hfw
    rw [Worker.processWatchedFolder_eq env fuel { s1p with m_retryTorrentTimer := true }
      { s1p with m_retryTorrentTimer := true } P h2]
    simp
  · rw [if_neg hc]
    refine ⟨s1p, rfl, ?_⟩
    have h2 := hsecond s1p rfl rfl hfw
    rw [Worker.processWatchedFolder_eq env fuel s1p s1p P h2, if_neg hc]

/-- Witness for C21: the scan of `/watch` on `mixedFs` emits five signals, keeps the two files
it cannot process and enters one in the ledger; the second scan returns the same state. -/
theorem C21_second_scan_changes_nothing_witness :
    (∃ s1, Worker.processWatchedFolder unixEnv 2 mixedWorker "/watch" = some s1 ∧
      Worker.processWatchedFolder unixEnv 2 s1 "/watch" = some s1) ∧
    (Worker.processWatchedFolder unixEnv 2 mixedWorker "/watch").map
      (fun s => s.emitted.map (fun e => e.filePath))
      = some ["/watch/a.torrent", "/watch/links.magnet", "/watch/links.magnet",
          "/watch/links.magnet", "/watch/sub/b.torrent"] ∧
    (Worker.processWatchedFolder unixEnv 2 mixedWorker "/watch").map
      (fun s => (s.fs.files.map File.path, s.m_failedTorrents))
      = some (["/watch/bad.torrent", "/watch/locked.magnet"],
        [("/watch", [("/watch/bad.torrent", 0)])]) ∧
    (Worker.processWatchedFolder unixEnv 2 mixedWorker "/watch").bind
        (fun s => Worker.processWatchedFolder unixEnv 2 s "/watch")
      = Worker.processWatchedFolder unixEnv 2 mixedWorker "/watch" :=
  ⟨C21_second_scan_changes_nothing unixEnv 2 mixedWorker "/watch" recursiveRank (by decide)
    (by decide), by decide, by decide, by decide⟩

/-! ## Termination of a scan -/

theorem List.le_foldr_max (l : List Nat) (a : Nat) (h : a ∈ l) : a ≤ l.foldr max 0 := by
  induction l with
  | nil => simp at h
  | cons b rest ih =>
    simp only [List.foldr_cons]
    rcases List.mem_cons.1 h with h | h
    · rw [h]
      exact Nat.le_max_left _ _
    · exact Nat.le_trans (ih h) (Nat.le_max_right _ _)

theorem List.foldr_max_eq_zero_or_mem (l : List Nat) : l.foldr max 0 = 0 ∨ l.foldr max 0 ∈ l := by
  induction l with
  | nil => exact Or.inl rfl
  | cons b rest ih =>
    simp only [List.foldr_cons]
    rcases Nat.le_total b (rest.foldr max 0) with h | h
    · rw [Nat.max_eq_right h]
      rcases ih with h0 | hm
      · exact Or.inl h0
      · exact Or.inr (List.mem_cons_of_mem _ hm)
    · rw [Nat.max_eq_left h]
      exact Or.inr (List.mem_cons_self _ _)

namespace FileSystem

theorem isChain_append (fs : FileSystem) (c2 : List SubDir) (R : String) :
    ∀ (c1 : List SubDir) (D : String),
      fs.IsChain D (c1 ++ c2) R ↔ ∃ M, fs.IsChain D c1 M ∧ fs.IsChain M c2 R := by
  intro c1
  induction c1 with
  | nil =>
    intro D
    simp only [List.nil_append, IsChain]
    constructor
    · exact fun h => ⟨D, rfl, h⟩
    · rintro ⟨M, rfl, h⟩
      exact h
  | cons e rest ih =>
    intro D
    show (e ∈ fs.dirs ∧ dirName e.path = D ∧ fs.IsChain e.dir (rest ++ c2) R) ↔
      ∃ M, (e ∈ fs.dirs ∧ dirName e.path = D ∧ fs.IsChain e.dir rest M) ∧ fs.IsChain M c2 R
    rw [ih e.dir]
    constructor
    · rintro ⟨h1, h2, M, h3, h4⟩
      exact ⟨M, ⟨h1, h2, h3⟩, h4⟩
    · rintro ⟨M, ⟨h1, h2, h3⟩, h4⟩
      exact ⟨h1, h2, M, h3, h4⟩

theorem isChain_subset (fs : FileSystem) (R : String) :
    ∀ (chain : List SubDir) (D : String), fs.IsChain D chain R → ∀ d ∈ chain, d ∈ fs.dirs := by
  intro chain
  induction chain with
  | nil => simp
  | cons e rest ih =>
    intro D h d hd
    simp only [IsChain] at h
    rcases List.mem_cons.1 hd with hd | hd
    · rw [hd]
      exact h.1
    · exact ih e.dir h.2.2 d hd

/-- A file system with a rank on its directories is acyclic. -/
theorem acyclic_of_rank (fs : FileSystem) (rank : String → Nat)
    (hrank : ∀ d ∈ fs.dirs, rank (dirName d.path) < rank d.dir) : fs.Acyclic := by
  intro D chain h
  by_contra hne
  exact absurd ((isChain_rank fs rank hrank D chain D h).2 hne) (Nat.lt_irrefl _)

/-- In an acyclic file system no directory occurs twice in a chain. -/
theorem isChain_nodup (fs : FileSystem) (hacyclic : fs.Acyclic) (R : String) :
    ∀ (chain : List SubDir) (D : String), fs.IsChain D chain R → chain.Nodup := by
  intro chain
  induction chain with
  | nil => exact fun _ _ => List.nodup_nil
  | cons d rest ih =>
    intro D h
    simp only [IsChain] at h
    refine List.nodup_cons.2 ⟨?_, ih d.dir h.2.2⟩
    intro hmem
    obtain ⟨l1, l2, hl⟩ := List.append_of_mem hmem
    have h3 := h.2.2
    rw [hl, isChain_append] at h3
    obtain ⟨M, hM1, hM2⟩ := h3
    simp only [IsChain] at hM2
    rw [← hM2.2.1] at hM1
    have hcycle : fs.IsChain (dirName d.path) (d :: l1) (dirName d.path) := ⟨h.1, rfl, hM1⟩
    exact absurd (hacyclic (dirName d.path) (d :: l1) hcycle) (by simp)

theorem isChain_length_le (fs : FileSystem) (hacyclic : fs.Acyclic) (R D : String)
    (chain : List SubDir) (h : fs.IsChain D chain R) : chain.length ≤ fs.dirs.length :=
  ((isChain_nodup fs hacyclic R chain D h).subperm (isChain_subset fs R chain D h)).length_le

/-- The height of a directory is the length of a chain below it. -/
theorem exists_chain_of_height (fs : FileSystem) :
    ∀ (fuel : Nat) (D : String), ∃ E chain, fs.IsChain E chain D ∧ chain.length = fs.height fuel D := by
  intro fuel
  induction fuel with
  | zero => exact fun D => ⟨D, [], rfl, rfl⟩
  | succ fuel ih =>
    intro D
    simp only [height]
    rcases List.foldr_max_eq_zero_or_mem ((fs.dirs.filter (fun d => decide (d.dir = D))).map
      (fun d => fs.height fuel (dirName d.path) + 1)) with h0 | hm
    · rw [h0]
      exact ⟨D, [], rfl, rfl⟩
    · obtain ⟨d, hd, hval⟩ := List.mem_map.1 hm
      simp only [List.mem_filter, decide_eq_true_eq] at hd
      obtain ⟨E, chain, hc, hlen⟩ := ih (dirName d.path)
      refine ⟨E, chain ++ [d], (isChain_append_singleton fs d D chain E).2 ⟨hc, hd.1, hd.2⟩, ?_⟩
      rw [← hval, List.length_append, hlen]
      rfl

/-- A chain below a directory that is not longer than the depth is not longer than the
height. -/
theorem length_le_height (fs : FileSystem) (E : String) :
    ∀ (fuel : Nat) (chain : List SubDir) (D : String), fs.IsChain E chain D →
      chain.length ≤ fuel → chain.length ≤ fs.height fuel D := by
  intro fuel
  induction fuel with
  | zero =>
    intro chain D _ hlen
    exact Nat.le_trans hlen (Nat.zero_le _)
  | succ fuel ih =>
    intro chain
    cases chain using List.reverseRecOn with
    | nil => exact fun _ _ _ => Nat.zero_le _
    | append_singleton chain d =>
      intro D hc hlen
      obtain ⟨h1, h2, h3⟩ := (isChain_append_singleton fs d D chain E).1 hc
      rw [List.length_append, List.length_singleton] at hlen ⊢
      have hih := ih chain (dirName d.path) h1 (by omega)
      simp only [height]
      refine Nat.le_trans ?_ (List.le_foldr_max _ (fs.height fuel (dirName d.path) + 1)
        (List.mem_map.2 ⟨d, by simp [h2, h3], rfl⟩))
      omega

/-- An acyclic file system has a rank on its directories, bounded by their number. -/
theorem rank_of_acyclic (fs : FileSystem) (hacyclic : fs.Acyclic) :
    ∃ rank : String → Nat, (∀ d ∈ fs.dirs, rank (dirName d.path) < rank d.dir) ∧
      ∀ D, rank D ≤ fs.dirs.length := by
  refine ⟨fs.height fs.dirs.length, ?_, ?_⟩
  · intro d hd
    obtain ⟨E, chain, hc, hlen⟩ := exists_chain_of_height fs fs.dirs.length (dirName d.path)
    have hc2 : fs.IsChain E (chain ++ [d]) d.dir :=
      (isChain_append_singleton fs d d.dir chain E).2 ⟨hc, hd, rfl⟩
    have hbound := isChain_length_le fs hacyclic d.dir E _ hc2
    have := length_le_height fs E fs.dirs.length _ d.dir hc2 hbound
    rw [List.length_append, List.length_singleton, hlen] at this
    omega
  · intro D
    obtain ⟨E, chain, hc, hlen⟩ := exists_chain_of_height fs fs.dirs.length D
    rw [← hlen]
    exact isChain_length_le fs hacyclic D E chain hc

end FileSystem

namespace FileSystem

/-- On a directory tree the walk lists no directory twice, in whatever spelling. -/
theorem walk_pairwise (fs : FileSystem) (watched : QHash WatchedFolderOptions)
    (rank : String → Nat) (hrank : ∀ d ∈ fs.dirs, rank (dirName d.path) < rank d.dir)
    (hnodup : fs.dirs.Nodup)
    (hpaths : ∀ d ∈ fs.dirs, ∀ e ∈ fs.dirs, dirName d.path = dirName e.path → d = e) :
    ∀ (fuel : Nat) (R : String),
      (fs.walk watched fuel R).Pairwise (fun a b => dirName a ≠ dirName b) := by
  intro fuel
  induction fuel with
  | zero =>
    intro R
    simp [walk]
  | succ fuel ih =>
    intro R
    have hchild : ∀ c ∈ (fs.subDirs R).filter (fun D => !QHash.contains watched D),
        ∃ d ∈ fs.dirs, d.dir = dirName R ∧ d.path = c := by
      intro c hc
      obtain ⟨d, hd, hdir, _, hp⟩ := (mem_subDirs_iff fs R c).1 (List.mem_filter.1 hc).1
      exact ⟨d, hd, hdir, hp⟩
    have hchildren : ((fs.subDirs R).filter (fun D => !QHash.contains watched D)).Nodup := by
      unfold subDirs
      exact (List.Nodup.map_on
        (fun x hx y hy h => hpaths x (List.mem_filter.1 hx).1 y (List.mem_filter.1 hy).1
          (by rw [h]))
        (hnodup.filter _)).filter _
    simp only [walk]
    rw [List.pairwise_cons]
    constructor
    · intro b hmem
      obtain ⟨l, hl, hR⟩ := List.mem_flatten.1 hmem
      obtain ⟨c, hc, rfl⟩ := List.mem_map.1 hl
      obtain ⟨d, hd, hdir, rfl⟩ := hchild c hc
      obtain ⟨chain, hchain, _⟩ := chain_of_mem_walk fs watched b fuel d.path hR
      have h1 := (isChain_rank fs rank hrank (dirName d.path) chain (dirName b) hchain).1
      have h2 := hrank d hd
      rw [hdir] at h2
      intro heq
      rw [heq] at h2
      omega
    · rw [List.pairwise_flatten]
      constructor
      · intro l hl
        obtain ⟨c, _, rfl⟩ := List.mem_map.1 hl
        exact ih c
      · rw [List.pairwise_map]
        refine List.Pairwise.imp_of_mem ?_ hchildren
        intro c1 c2 hc1 hc2 hne x hx y hy heq
        obtain ⟨d1, hd1, hdir1, rfl⟩ := hchild c1 hc1
        obtain ⟨d2, hd2, hdir2, rfl⟩ := hchild c2 hc2
        obtain ⟨chain1, hchain1, _⟩ := chain_of_mem_walk fs watched x fuel d1.path hx
        obtain ⟨chain2, hchain2, _⟩ := chain_of_mem_walk fs watched y fuel d2.path hy
        rw [← heq] at hchain2
        have e1 := (isChain_append_singleton fs d1 (dirName R) chain1 (dirName x)).2
          ⟨hchain1, hd1, hdir1⟩
        have e2 := (isChain_append_singleton fs d2 (dirName R) chain2 (dirName x)).2
          ⟨hchain2, hd2, hdir2⟩
        have hchains := isChain_unique fs rank hrank hpaths (dirName R) _ _ (dirName x) e1 e2
        have := (List.append_inj' hchains rfl).2
        simp only [List.cons.injEq, and_true] at this
        exact hne (by rw [this])

/-- On a directory tree the walk lists no directory twice. -/
theorem walk_nodup (fs : FileSystem) (watched : QHash WatchedFolderOptions) (rank : String → Nat)
    (hrank : ∀ d ∈ fs.dirs, rank (dirName d.path) < rank d.dir) (hnodup : fs.dirs.Nodup)
    (hpaths : ∀ d ∈ fs.dirs, ∀ e ∈ fs.dirs, dirName d.path = dirName e.path → d = e)
    (fuel : Nat) (R : String) : (fs.walk watched fuel R).Nodup :=
  (walk_pairwise fs watched rank hrank hnodup hpaths fuel R).imp
    (fun h heq => h (by rw [heq]))

end FileSystem

/-- Claim C30: on a file system in which no directory is reachable from itself, `processFolder`
returns, for every bound of the depth above the number of directories; and on a directory tree,
where no directory is listed twice and each has one parent, a recursive `processFolder`
processes the files of the directories of the walk from the root, a list in which no directory
occurs twice, in whatever spelling. -/
theorem C30_scan_terminates (env : Env) (fuel : Nat) (R root : String)
    (options : WatchedFolderOptions) (self : Worker) (hacyclic : self.fs.Acyclic)
    (hfuel : self.fs.dirs.length < fuel) :
    (∃ self', Worker.processFolder env fuel R root options self = some self') ∧
    (options.recursive = true → self.fs.dirs.Nodup →
      (∀ d ∈ self.fs.dirs, ∀ e ∈ self.fs.dirs,
        FileSystem.dirName d.path = FileSystem.dirName e.path → d = e) →
      Worker.processFolder env fuel R root options self
        = some (Worker.scanDirs env root options (self.fs.walk self.m_watchedFolders fuel R) self) ∧
      (self.fs.walk self.m_watchedFolders fuel R).Nodup ∧
      (self.fs.walk self.m_watchedFolders fuel R).Pairwise
        (fun a b => FileSystem.dirName a ≠ FileSystem.dirName b)) := by
  obtain ⟨rank, hrank, hbound⟩ := FileSystem.rank_of_acyclic self.fs hacyclic
  have hR : rank (FileSystem.dirName R) < fuel := Nat.lt_of_le_of_lt (hbound _) hfuel
  refine ⟨Worker.processFolder_returns env root options rank fuel R self hrank hR, ?_⟩
  intro hr hnodup hpaths
  exact ⟨Worker.processFolder_walk env root options rank hr fuel R self hrank hR,
    FileSystem.walk_nodup self.fs self.m_watchedFolders rank hrank hnodup hpaths fuel R,
    FileSystem.walk_pairwise self.fs self.m_watchedFolders rank hrank hnodup hpaths fuel R⟩

/-- Witness for C30: the recursive scan of `/watch` on `shadowFs`, which has four directories,
returns with the depth bounded by 5, and processes `/watch` and `/watch/other`, each once. -/
theorem C30_scan_terminates_witness :
    ((∃ self', Worker.processFolder unixEnv 5 "/watch" "/watch"
        { exampleOptions with recursive := true } shadowWorker = some self') ∧
      (({ exampleOptions with recursive := true } : WatchedFolderOptions).recursive = true →
        shadowWorker.fs.dirs.Nodup →
        (∀ d ∈ shadowWorker.fs.dirs, ∀ e ∈ shadowWorker.fs.dirs,
          FileSystem.dirName d.path = FileSystem.dirName e.path → d = e) →
        Worker.processFolder unixEnv 5 "/watch" "/watch" { exampleOptions with recursive := true }
            shadowWorker
          = some (Worker.scanDirs unixEnv "/watch" { exampleOptions with recursive := true }
              (shadowWorker.fs.walk shadowWorker.m_watchedFolders 5 "/watch") shadowWorker) ∧
        (shadowWorker.fs.walk shadowWorker.m_watchedFolders 5 "/watch").Nodup ∧
        (shadowWorker.fs.walk shadowWorker.m_watchedFolders 5 "/watch").Pairwise
          (fun a b => FileSystem.dirName a ≠ FileSystem.dirName b))) ∧
    shadowWorker.fs.dirs.Nodup ∧
    (∀ d ∈ shadowWorker.fs.dirs, ∀ e ∈ shadowWorker.fs.dirs,
      FileSystem.dirName d.path = FileSystem.dirName e.path → d = e) ∧
    shadowWorker.fs.walk shadowWorker.m_watchedFolders 5 "/watch" = ["/watch", "/watch/other"] ∧
    (Worker.processFolder unixEnv 5 "/watch" "/watch" { exampleOptions with recursive := true }
        shadowWorker).isSome = true :=
  ⟨C30_scan_terminates unixEnv 5 "/watch" "/watch" { exampleOptions with recursive := true }
    shadowWorker (FileSystem.acyclic_of_rank shadowWorker.fs shadowRank (by decide)) (by decide),
    by decide, by decide, by decide, by decide⟩

/-! ## The save path of a sub-directory -/

namespace Worker

theorem folderParams_eq (env : Env) (D R : String) (cfg : WatchedFolderOptions) :
    folderParams env D R cfg
      = if D = R then cfg.addTorrentParams
        else { cfg.addTorrentParams with
          savePath := env.cleanPath
            (env.filePath cfg.addTorrentParams.savePath (env.relativeFilePath R D)) } := by
  by_cases h : D = R <;> simp [folderParams, h]

/-- The first loop of `processFolder` leaves alone a path its listing does not hold. -/
theorem scanFiles_skip (env : Env) (path root : String) (options : WatchedFolderOptions)
    (self : Worker) (p : String) (hp : p ∉ self.fs.torrentFiles path) :
    ((self.fs.torrentFiles path).foldl (processFile env path root options) self).fs.filesAt p
      = self.fs.filesAt p ∧
    signalsFor ((self.fs.torrentFiles path).foldl (processFile env path root options) self) p
      = signalsFor self p := by
  refine ⟨scanFiles_untouched env path root options _ self p hp, ?_⟩
  obtain ⟨⟨evs, hev, hall⟩, _, _⟩ :=
    scanFiles_spec env path root options (self.fs.torrentFiles path) self
  simp only [signalsFor, hev, List.filter_append]
  have : evs.filter (fun e => decide (e.filePath = p)) = [] := by
    rw [List.filter_eq_nil_iff]
    intro e he
    have h1 := (hall e he).1
    have : e.filePath ≠ p := fun heq => hp (heq ▸ h1)
    simp [this]
  simp [this]

/-- The processing of directories none of which holds a file of the path `p` leaves the path
alone. -/
theorem scanDirs_skip (env : Env) (root : String) (options : WatchedFolderOptions) (p : String)
    (dirs : List String) : ∀ self : Worker,
    (∀ X ∈ dirs, ∀ g ∈ self.fs.files, g.path = p → g.dir ≠ FileSystem.dirName X) →
    (scanDirs env root options dirs self).fs.filesAt p = self.fs.filesAt p ∧
    signalsFor (scanDirs env root options dirs self) p = signalsFor self p := by
  induction dirs with
  | nil => exact fun self _ => ⟨rfl, rfl⟩
  | cons X rest ih =>
    intro self h
    rw [scanDirs_cons]
    have hp : p ∉ self.fs.torrentFiles X := by
      intro hmem
      obtain ⟨g, hg, hd, _, _, hpath⟩ := (mem_torrentFiles_iff self.fs X p).1 hmem
      exact h X (by simp) g hg hpath hd
    obtain ⟨a1, a2⟩ := scanFiles_skip env X root options self p hp
    obtain ⟨b1, b2⟩ := ih _ (fun Y hY g hg hpath =>
      h Y (List.mem_cons_of_mem _ hY) g (scanFiles_files env X root options _ self g hg) hpath)
    exact ⟨b1.trans a1, b2.trans a2⟩

/-- A descriptor that loads, in a directory the processing reaches once: one signal, with the
parameters of that directory, and the file is removed. -/
theorem scanDirs_descriptor (env : Env) (root : String) (options : WatchedFolderOptions)
    (l1 l2 : List String) (D : String) (self : Worker) (f : File) (info : TorrentInfo)
    (hl1 : ∀ X ∈ l1, FileSystem.dirName X ≠ FileSystem.dirName D)
    (hf : f ∈ self.fs.files) (hdir : f.dir = FileSystem.dirName D)
    (hdesc : f.isDescriptor = true) (hvisible : f.isHidden = false)
    (huniq : ∀ g ∈ self.fs.files, g.path = f.path → g.dir = f.dir)
    (hload : loadFromFile env self.fs f.path = some info) :
    (scanDirs env root options (l1 ++ D :: l2) self).fs.filesAt f.path = [] ∧
    signalsFor (scanDirs env root options (l1 ++ D :: l2) self) f.path
      = signalsFor self f.path ++
        [Signal.torrentFound D f.path info (folderParams env D root options)] := by
  rw [scanDirs_append, scanDirs_cons]
  obtain ⟨a1, a2⟩ := scanDirs_skip env root options f.path l1 self
    (fun X hX g hg hpath hgd => hl1 X hX (by rw [← hgd, huniq g hg hpath, hdir]))
  generalize scanDirs env root options l1 self = s1 at a1 a2 ⊢
  have hf1 : f ∈ s1.fs.files := by
    have : f ∈ self.fs.filesAt f.path := by simp [FileSystem.filesAt, hf]
    rw [← a1] at this
    exact (List.mem_filter.1 this).1
  have hmem : f.path ∈ s1.fs.torrentFiles D :=
    mem_torrentFiles s1.fs D f hf1 hdir (f.isDescriptor_matches hdesc) hvisible
  have hstep : ∀ s : Worker, s.fs.filesAt f.path = s1.fs.filesAt f.path →
      (processFile env D root options s f.path).fs.filesAt f.path = [] ∧
      signalsFor (processFile env D root options s f.path) f.path
        = signalsFor s f.path ++
          [Signal.torrentFound D f.path info (folderParams env D root options)] := by
    intro s hs
    have hl : loadFromFile env s.fs f.path = some info := by
      rw [loadFromFile_congr env s.fs self.fs f.path (hs.trans a1)]
      exact hload
    rw [processFile_torrent env D root options s f.path info (f.isDescriptor_path hdesc) hl]
    constructor
    · exact FileSystem.filesAt_forceRemove_self _ _
    · simp [signalsFor, Signal.filePath]
  obtain ⟨b1, b2⟩ := scanFiles_first env D root options (s1.fs.torrentFiles D) s1 f.path _ hmem
    hstep
  generalize (s1.fs.torrentFiles D).foldl (processFile env D root options) s1 = s2 at b1 b2 ⊢
  obtain ⟨c1, c2⟩ := scanDirs_skip env root options f.path l2 s2 (by
    intro X _ g hg hpath
    have : g ∈ s2.fs.filesAt f.path := by simp [FileSystem.filesAt, hg, hpath]
    rw [b1] at this
    exact absurd this (List.not_mem_nil _))
  exact ⟨c1.trans b1, by rw [c2, b2, a2]⟩

end Worker

/-- C10: a scan of the watched folder `R` with the configuration `cfg` (the directories forming
a tree, so that the scan returns) returns, and every signal is for a file listed in the
directory `D` the signal was raised in; for `D = R` its parameters are those of `cfg`, the save
path unchanged; for a sub-directory `D` (one that is not a registered watched folder) they are
those of `cfg` with the save path replaced by `cleanPath(QDir(S).filePath(rel))`, `S` the
configured save path and `rel` the path of `D` relative to `R`. And when `cfg` is recursive, on a
directory tree in which no directory is listed twice and each has one parent, a descriptor that
loads, is not hidden and lies in a directory `D` of the walk from `R` gets exactly one signal,
`torrentFound` raised in `D` with those parameters, and is removed. -/
theorem C10_scan_save_path_of_subdirectory (env : Env) (rank : String → Nat) (fuel : Nat)
    (self : Worker) (R : String) (cfg : WatchedFolderOptions)
    (hcfg : QHash.get? self.m_watchedFolders R = some cfg)
    (hrank : ∀ d ∈ self.fs.dirs, rank (FileSystem.dirName d.path) < rank d.dir)
    (hfuel : rank (FileSystem.dirName R) < fuel) :
    ∃ self' evs, Worker.processWatchedFolder env fuel self R = some self' ∧
      self'.emitted = self.emitted ++ evs ∧
      (∀ e ∈ evs,
        (∃ g ∈ self.fs.files, g.dir = FileSystem.dirName e.folder ∧ g.path = e.filePath ∧
          g.isHidden = false) ∧
        (e.folder = R → e.addTorrentParams = cfg.addTorrentParams) ∧
        (e.folder ≠ R →
          QHash.contains self.m_watchedFolders e.folder = false ∧
          e.addTorrentParams = { cfg.addTorrentParams with
            savePath := env.cleanPath
              (env.filePath cfg.addTorrentParams.savePath (env.relativeFilePath R e.folder)) })) ∧
      (cfg.recursive = true → self.fs.dirs.Nodup →
        (∀ d ∈ self.fs.dirs, ∀ e ∈ self.fs.dirs,
          FileSystem.dirName d.path = FileSystem.dirName e.path → d = e) →
        ∀ D ∈ self.fs.walk self.m_watchedFolders fuel R, ∀ (f : File) (info : TorrentInfo),
          f ∈ self.fs.files → f.dir = FileSystem.dirName D → f.isDescriptor = true →
          f.isHidden = false → (∀ g ∈ self.fs.files, g.path = f.path → g.dir = f.dir) →
          loadFromFile env self.fs f.path = some info →
          self'.signalsFor f.path = self.signalsFor f.path ++
            [Signal.torrentFound D f.path info
              (if D = R then cfg.addTorrentParams
               else { cfg.addTorrentParams with
                 savePath := env.cleanPath
                   (env.filePath cfg.addTorrentParams.savePath (env.relativeFilePath R D)) })] ∧
          self'.fs.fileExists f.path = false) := by
  have hopt : QHash.value self.m_watchedFolders R (WatchedFolderOptions.default env) = cfg := by
    simp [QHash.value, hcfg]
  obtain ⟨s, hs⟩ := Worker.processFolder_returns env R cfg rank fuel R self hrank hfuel
  obtain ⟨evs, hev, hall⟩ := (Worker.processFolder_scanOf env R cfg fuel R self s hs).signals
  have hs' := hs
  rw [← hopt] at hs'
  obtain ⟨self', hret, hem, hfs, _, _⟩ :=
    Worker.processWatchedFolder_of_processFolder env fuel self s R hs'
  refine ⟨self', evs, hret, by rw [hem, hev], ?_, ?_⟩
  · intro e he
    obtain ⟨hfile, hparams, hfolder⟩ := hall e he
    refine ⟨hfile, ?_, ?_⟩
    · intro hR
      rw [hparams, hR, Worker.folderParams_root]
    · intro hR
      constructor
      · rcases hfolder with h | h
        · exact absurd h hR
        · exact h
      · rw [hparams]
        simp [Worker.folderParams, hR]
  · intro hr hnodup hpaths D hD f info hf hdir hdesc hvisible huniq hload
    have hpw := FileSystem.walk_pairwise self.fs self.m_watchedFolders rank hrank hnodup hpaths
      fuel R
    have hwalk := Worker.processFolder_walk env R cfg rank hr fuel R self hrank hfuel
    have hseq : s = Worker.scanDirs env R cfg (self.fs.walk self.m_watchedFolders fuel R) self :=
      Option.some.inj (hs.symm.trans hwalk)
    obtain ⟨l1, l2, hsplit⟩ := List.append_of_mem hD
    rw [hsplit] at hpw hseq
    have hl1 : ∀ X ∈ l1, FileSystem.dirName X ≠ FileSystem.dirName D :=
      fun X hX => (List.pairwise_append.1 hpw).2.2 X hX D (by simp)
    obtain ⟨g1, g2⟩ := Worker.scanDirs_descriptor env R cfg l1 l2 D self f info hl1 hf hdir hdesc
      hvisible huniq hload
    rw [← hseq] at g1 g2
    constructor
    · rw [Worker.signalsFor_congr self' s f.path hem, g2, Worker.folderParams_eq]
    · rw [hfs]
      exact (FileSystem.fileExists_eq_false_iff _ _).2 g1

/-- C10 at a concrete input: the recursive scan of `/watch`, configured with the save path
`/dst`, emits the descriptor of `/watch` with the save path `/dst` and the descriptor of
`/watch/sub` with the save path `/dst/sub`, and removes both. -/
theorem C10_scan_save_path_of_subdirectory_witness :
    ∃ self', Worker.processWatchedFolder unixEnv 3 recursiveWorker "/watch" = some self' ∧
      self'.signalsFor "/watch/sub/b.torrent"
        = [Signal.torrentFound "/watch/sub" "/watch/sub/b.torrent" ⟨"d4:infoe"⟩
            { exampleOptions.addTorrentParams with savePath := "/dst/sub" }] ∧
      self'.fs.fileExists "/watch/sub/b.torrent" = false ∧
      self'.signalsFor "/watch/a.torrent"
        = [Signal.torrentFound "/watch" "/watch/a.torrent" ⟨"d4:infoe"⟩
            { exampleOptions.addTorrentParams with savePath := "/dst" }] ∧
      self'.fs.fileExists "/watch/a.torrent" = false := by
  obtain ⟨self', _, h1, _, _, h4⟩ := C10_scan_save_path_of_subdirectory unixEnv recursiveRank 3
    recursiveWorker "/watch" { exampleOptions with recursive := true } (by decide) (by decide)
    (by decide)
  have hsub := h4 rfl (by decide) (by decide) "/watch/sub" (by decide)
    ⟨"/watch/sub", "b.torrent", "d4:infoe", true⟩ ⟨"d4:infoe"⟩ (by decide) (by decide) (by decide)
    (by decide) (by decide) (by decide)
  have hroot := h4 rfl (by decide) (by decide) "/watch" (by decide)
    ⟨"/watch", "a.torrent", "d4:infoe", true⟩ ⟨"d4:infoe"⟩ (by decide) (by decide) (by decide)
    (by decide) (by decide) (by decide)
  exact ⟨self', h1, hsub.1.trans (by decide), hsub.2, hroot.1.trans (by decide), hroot.2⟩

/-! ## The folders of the facade and of the worker, for paths in normal form -/

namespace Worker

theorem setWatchedFolder_watched (env : Env) (self : Worker) (path : String)
    (options : WatchedFolderOptions) :
    (Worker.setWatchedFolder env self path options).m_watchedFolders
      = QHash.insert self.m_watchedFolders path options := by
  unfold Worker.setWatchedFolder
  split
  · exact (updateWatchedFolder_members env self path options).1
  · exact (addWatchedFolder_members env self path options).1

theorem deliverAll_append (env : Env) (calls : List WorkerCall) (call : WorkerCall)
    (self : Worker) :
    Worker.deliverAll env (calls ++ [call]) self
      = Worker.deliver env (Worker.deliverAll env calls self) call := by
  simp [Worker.deliverAll, List.foldl_append]

end Worker

namespace TorrentFilesWatcher

/-- After `setWatchedFolder` with a path in normal form, the worker that got the invocations
queued has the registry of the facade, when it had it before. -/
theorem setWatchedFolder_consistent (env : Env) (fs : FileSystem) (self : TorrentFilesWatcher)
    (path : String) (options : WatchedFolderOptions) (hclean : env.cleanPath path = path)
    (h : (Worker.deliverAll env self.queued (Worker.init fs)).m_watchedFolders
      = self.m_watchedFolders) :
    (Worker.deliverAll env (setWatchedFolder env self path options).2.queued
        (Worker.init fs)).m_watchedFolders
      = (setWatchedFolder env self path options).2.m_watchedFolders := by
  by_cases hvalid : path ≠ "" ∧ env.isRelativePath path = false
  · have hq : (setWatchedFolder env self path options).2.queued
        = self.queued ++ [WorkerCall.setWatchedFolder path options] := by
      simp [setWatchedFolder, doSetWatchedFolder, makeCleanPath_ok env path hvalid.1 hvalid.2,
        store]
    rw [hq, Worker.deliverAll_append, setWatchedFolder_eq,
      (doSetWatchedFolder_registry env self path options).2 hvalid.1 hvalid.2, hclean]
    simp only [Worker.deliver]
    rw [Worker.setWatchedFolder_watched, h]
  · have herr : path = "" ∨ env.isRelativePath path = true := by
      by_cases he : path = ""
      · exact Or.inl he
      · right
        cases hr : env.isRelativePath path
        · exact absurd ⟨he, hr⟩ hvalid
        · rfl
    have hsame : (setWatchedFolder env self path options).2 = self := by
      obtain ⟨err, herr'⟩ := makeCleanPath_error env path herr
      simp [setWatchedFolder, doSetWatchedFolder, herr']
    rw [hsame]
    exact h

/-- After `removeWatchedFolder`, the worker that got the invocations queued has the registry of
the facade, when it had it before. -/
theorem removeWatchedFolder_consistent (env : Env) (fs : FileSystem) (self : TorrentFilesWatcher)
    (path : String)
    (h : (Worker.deliverAll env self.queued (Worker.init fs)).m_watchedFolders
      = self.m_watchedFolders) :
    (Worker.deliverAll env (removeWatchedFolder env self path).2.queued
        (Worker.init fs)).m_watchedFolders
      = (removeWatchedFolder env self path).2.m_watchedFolders := by
  by_cases hvalid : path ≠ "" ∧ env.isRelativePath path = false
  · cases hc : QHash.contains self.m_watchedFolders (env.cleanPath path)
    · have hr : (removeWatchedFolder env self path).2
          = { self with
              m_watchedFolders := QHash.remove self.m_watchedFolders (env.cleanPath path) } := by
        simp [removeWatchedFolder, makeCleanPath_ok env path hvalid.1 hvalid.2, hc]
      rw [hr]
      simp only
      rw [QHash.remove_eq_self _ _ hc]
      exact h
    · have hq : (removeWatchedFolder env self path).2.queued
          = self.queued ++ [WorkerCall.removeWatchedFolder (env.cleanPath path)] ∧
          (removeWatchedFolder env self path).2.m_watchedFolders
            = QHash.remove self.m_watchedFolders (env.cleanPath path) := by
        simp [removeWatchedFolder, makeCleanPath_ok env path hvalid.1 hvalid.2, hc, store]
      rw [hq.1, hq.2, Worker.deliverAll_append]
      simp only [Worker.deliver]
      rw [(Worker.removeWatchedFolder_members _ _).1, h]
  · have herr : path = "" ∨ env.isRelativePath path = true := by
      by_cases he : path = ""
      · exact Or.inl he
      · right
        cases hr : env.isRelativePath path
        · exact absurd ⟨he, hr⟩ hvalid
        · rfl
    have hsame : (removeWatchedFolder env self path).2 = self := by
      obtain ⟨err, herr'⟩ := makeCleanPath_error env path herr
      simp [removeWatchedFolder, herr']
    rw [hsame]
    exact h

end TorrentFilesWatcher
